import Mathlib

/-! # Framebuffer drawing primitives

A shallow embedding of `driver_framebuffer_drawing.cpp` (line, rectangle, triangle,
quad, the circle/arc approximator with its radius probe and step count, and the legacy
angular circle) together with proofs of its pixel-coverage properties.

Conventions of the embedding

* A drawing routine returns the sequence of `driver_framebuffer_setPixel` calls it
  makes, as a list of `(x, y)` pairs in call order, with the coordinates as the caller
  passes them.  The window and the colour are passed through unchanged by the source
  and are left out.
* `int16_t` variables are integers that are wrapped with `wrap16` on every store;
  `int` expressions (the C integer promotions) are computed exactly.
* Loops whose termination depends on wrapped counters take a `fuel` bound and return
  `none` when it is exhausted.
* `double` values are rationals extended with the two infinities and NaN (`Dbl`); zero
  carries no sign.  The arguments of the triangle and quad routines are finite.
* The triangle and quad routines are embedded twice.  In the namespace `Binary64` they
  compute as the source does: the result of every `double` operation is rounded to the
  nearest binary64 value, ties to even, and overflows to an infinity (`Binary64.rnd`);
  the `float temp` of the vertex sort rounds to single precision and overflows to an
  infinity (`Binary64.narrow`); and a conversion to `int` is defined only when the
  truncated value is a 32-bit `int`, being undefined otherwise.  The statements about
  the rows and pixels that the triangle and the quad write are made on this embedding.
* The embedding of the triangle and quad outside `Binary64` computes over exact
  rationals, with unbounded `int` and with the `float temp` as a parameter `narrow` of the
  sort (`narrow = id` is an exact temporary, `toFloat` the rounding to single precision).
  It is the idealisation the binary64 results are compared with; the statements about
  the sort, the edge formulas and the call structure of the quad are made on it, and the
  circle routines call it.
* The step count of the circle routines divides by the `double` nearest to `1.7` and
  rounds the quotient to binary64.
* The circle routines call `<math.h>` and the transform stack, whose code is not in the
  source file: the math functions are the fields of a `MathFns`, the four matrix
  operations the fields of a `MatrixOps` over an arbitrary type of matrices.
-/

namespace Framebuffer

/-! ## Machine integers -/

/-- Conversion of an `int` to `int16_t`: two's-complement wrap-around. -/
def wrap16 (v : Int) : Int := (v + 32768) % 65536 - 32768

/-- The pixel list type: one entry per `driver_framebuffer_setPixel` call. -/
abbrev Pixels := List (Int × Int)

/-! ## Line rasterizer -/

/-- The `for (; x0 <= x1; x0++)` loop of `driver_framebuffer_line`.  The loop state is
`x0`, `y0`, `err` (all `int16_t`); `steep`, `x1`, `dx`, `dy`, `ystep` are fixed. -/
def lineLoop (steep : Bool) (x1 dx dy ystep : Int) :
    Nat → Int → Int → Int → Option Pixels
  | 0, _, _, _ => none
  | fuel + 1, x0, y0, err =>
    if x0 ≤ x1 then
      let p : Int × Int := if steep then (y0, x0) else (x0, y0)
      let err1 := wrap16 (err - dy)
      let y0n := if err1 < 0 then wrap16 (y0 + ystep) else y0
      let err2 := if err1 < 0 then wrap16 (err1 + dx) else err1
      (lineLoop steep x1 dx dy ystep fuel (wrap16 (x0 + 1)) y0n err2).map (fun l => p :: l)
    else some []

/-- The endpoints of `driver_framebuffer_line` after its two conditional swaps: the flag
`steep`, then the start `(x0, y0)` and the end `(x1, y1)` as the loop sees them. -/
def lineNorm (x0 y0 x1 y1 : Int) : Bool × (Int × Int) × (Int × Int) :=
  let steep : Bool := decide (|y1 - y0| > |x1 - x0|)
  -- if (steep) { swap(x0, y0); swap(x1, y1); }
  let a0 := if steep then y0 else x0
  let b0 := if steep then x0 else y0
  let a1 := if steep then y1 else x1
  let b1 := if steep then x1 else y1
  -- if (x0 > x1) { swap(x0, x1); swap(y0, y1); }
  if a0 > a1 then (steep, (a1, b1), (a0, b0)) else (steep, (a0, b0), (a1, b1))

/-- The loop of `driver_framebuffer_line` entered from normalised endpoints `(xs, ys)`,
`(xe, ye)`: the deltas, the initial error and the step are set up, then the loop runs. -/
def lineFrom (fuel : Nat) (steep : Bool) (xs ys xe ye : Int) : Option Pixels :=
  let dx := wrap16 (xe - xs)
  let dy := wrap16 |ye - ys|
  let err := wrap16 (Int.tdiv dx 2)
  let ystep : Int := if ys < ye then 1 else -1
  lineLoop steep xe dx dy ystep fuel xs ys err

/-- The routine `driver_framebuffer_line(window, x0, y0, x1, y1, color)`; the arguments
are `int16_t` values. -/
def driver_framebuffer_line (fuel : Nat) (x0 y0 x1 y1 : Int) : Option Pixels :=
  let n := lineNorm x0 y0 x1 y1
  lineFrom fuel n.1 n.2.1.1 n.2.1.2 n.2.2.1 n.2.2.2

/-- The number of minor-axis steps the error accumulator has triggered before the `k`-th
pixel of a line with dominant delta `dx` and minor delta `dy`. -/
def lineMinor (dx dy k : Int) : Int := -((dx / 2 - k * dy) / dx)

/-- The value of the error accumulator before the `k`-th pixel. -/
def lineErr (dx dy k : Int) : Int := (dx / 2 - k * dy) % dx

/-- The `k`-th pixel of a line in closed form, from the normalised start `(xs, ys)`. -/
def linePixel (steep : Bool) (xs ys ystep dx dy : Int) (k : Nat) : Int × Int :=
  if steep then (ys + ystep * lineMinor dx dy k, xs + k)
  else (xs + k, ys + ystep * lineMinor dx dy k)

/-- The pixel sequence of a line in closed form: pixel `k` for `k = 0, ..., D`, where `D`
is the dominant delta of the normalised endpoints. -/
def lineClosed (x0 y0 x1 y1 : Int) : Pixels :=
  let n := lineNorm x0 y0 x1 y1
  (List.range ((n.2.2.1 - n.2.1.1).toNat + 1)).map
    (linePixel n.1 n.2.1.1 n.2.1.2 (if n.2.1.2 < n.2.2.2 then 1 else -1)
      (n.2.2.1 - n.2.1.1) |n.2.2.2 - n.2.1.2|)

/-- The coordinate range in which no difference of two coordinates overflows 16 bits. -/
def InRange (v : Int) : Prop := -16383 ≤ v ∧ v ≤ 16383

instance (v : Int) : Decidable (InRange v) := by unfold InRange; infer_instance

/-- The lattice points of the segment from `(x0, y0)` to `(x1, y1)`: the integer points of
its bounding box that are collinear with the endpoints. -/
def onSegment (x0 y0 x1 y1 : Int) (p : Int × Int) : Prop :=
  min x0 x1 ≤ p.1 ∧ p.1 ≤ max x0 x1 ∧ min y0 y1 ≤ p.2 ∧ p.2 ≤ max y0 y1 ∧
    (p.1 - x0) * (y1 - y0) = (p.2 - y0) * (x1 - x0)

instance (x0 y0 x1 y1 : Int) (p : Int × Int) : Decidable (onSegment x0 y0 x1 y1 p) := by
  unfold onSegment; infer_instance

/-! ## Rectangle -/

/-- The `for (int16_t i = x; i < x + w; i++)` loop of the filled rectangle; `x + w` and
`y + h - 1` are `int` expressions, the latter narrowed to `int16_t` at the call. -/
def rectFillLoop (lineFuel : Nat) (x y w h : Int) : Nat → Int → Option Pixels
  | 0, _ => none
  | fuel + 1, i =>
    if i < x + w then
      match driver_framebuffer_line lineFuel i y i (wrap16 (y + h - 1)) with
      | none => none
      | some col => (rectFillLoop lineFuel x y w h fuel (wrap16 (i + 1))).map (fun l => col ++ l)
    else some []

/-- The routine `driver_framebuffer_rect(window, x, y, w, h, fill, color)`; `x`, `y` are
`int16_t` values and `w`, `h` are `uint16_t` values. -/
def driver_framebuffer_rect (fuel : Nat) (x y w h : Int) (fill : Bool) : Option Pixels :=
  if fill then
    rectFillLoop fuel x y w h fuel x
  else
    match driver_framebuffer_line fuel x y (wrap16 (x + w - 1)) y,
          driver_framebuffer_line fuel x (wrap16 (y + h - 1)) (wrap16 (x + w - 1))
            (wrap16 (y + h - 1)),
          driver_framebuffer_line fuel x y x (wrap16 (y + h - 1)),
          driver_framebuffer_line fuel (wrap16 (x + w - 1)) y (wrap16 (x + w - 1))
            (wrap16 (y + h - 1)) with
    | some top, some bottom, some left, some right => some (top ++ bottom ++ left ++ right)
    | _, _, _, _ => none

/-! ## Doubles -/

/-- A `double`: an exact rational, an infinity, or NaN.  Zero carries no sign, so a
non-zero value divided by zero gets the sign of the dividend. -/
inductive Dbl where
  | fin (q : ℚ)
  | pinf
  | ninf
  | nan
  deriving DecidableEq

namespace Dbl

/-- The infinity with the sign of `q`, NaN when `q = 0`. -/
def infOfSign (q : ℚ) : Dbl :=
  if 0 < q then pinf else if q < 0 then ninf else nan

/-- Unary minus. -/
def neg : Dbl → Dbl
  | fin q => fin (-q)
  | pinf => ninf
  | ninf => pinf
  | nan => nan

/-- Addition. -/
def add : Dbl → Dbl → Dbl
  | fin a, fin b => fin (a + b)
  | fin _, pinf => pinf
  | fin _, ninf => ninf
  | pinf, fin _ => pinf
  | ninf, fin _ => ninf
  | pinf, pinf => pinf
  | ninf, ninf => ninf
  | pinf, ninf => nan
  | ninf, pinf => nan
  | nan, _ => nan
  | _, nan => nan

/-- Subtraction. -/
def sub (a b : Dbl) : Dbl := add a (neg b)

/-- Multiplication. -/
def mul : Dbl → Dbl → Dbl
  | fin a, fin b => fin (a * b)
  | fin a, pinf => infOfSign a
  | fin a, ninf => infOfSign (-a)
  | pinf, fin b => infOfSign b
  | ninf, fin b => infOfSign (-b)
  | pinf, pinf => pinf
  | ninf, ninf => pinf
  | pinf, ninf => ninf
  | ninf, pinf => ninf
  | nan, _ => nan
  | _, nan => nan

/-- Division. -/
def div : Dbl → Dbl → Dbl
  | fin a, fin b => if b = 0 then infOfSign a else fin (a / b)
  | fin _, pinf => fin 0
  | fin _, ninf => fin 0
  | pinf, fin b => if 0 ≤ b then pinf else ninf
  | ninf, fin b => if 0 ≤ b then ninf else pinf
  | pinf, pinf => nan
  | pinf, ninf => nan
  | ninf, pinf => nan
  | ninf, ninf => nan
  | nan, _ => nan
  | _, nan => nan

/-- The comparison `v == 0`. -/
def isZero : Dbl → Bool
  | fin q => decide (q = 0)
  | _ => false

/-- The comparison `a < b`; it is false when an operand is NaN. -/
def lt : Dbl → Dbl → Bool
  | fin a, fin b => decide (a < b)
  | fin _, pinf => true
  | ninf, fin _ => true
  | ninf, pinf => true
  | _, _ => false

/-- The comparison `a <= b`; it is false when an operand is NaN. -/
def le : Dbl → Dbl → Bool
  | fin a, fin b => decide (a ≤ b)
  | fin _, pinf => true
  | ninf, fin _ => true
  | ninf, pinf => true
  | pinf, pinf => true
  | ninf, ninf => true
  | _, _ => false

end Dbl

/-- The conversion `(int) q` of a finite double: truncation toward zero. -/
def truncQ (q : ℚ) : Int := if 0 ≤ q then ⌊q⌋ else ⌈q⌉

/-- The conversion `(int) v`; it is undefined for an infinity or NaN. -/
def Dbl.toInt : Dbl → Option Int
  | Dbl.fin q => some (truncQ q)
  | _ => none

/-! ## Binary floating point -/

/-- Rounding of a rational to the nearest integer, ties to the even one. -/
def roundEven (t : ℚ) : Int :=
  let f := ⌊t⌋
  let r := t - f
  if r < 1 / 2 then f else if 1 / 2 < r then f + 1 else if f % 2 = 0 then f else f + 1

/-- The bit length minus one of a positive natural number: `⌊log₂ n⌋`, by halving at
most `fuel` times. -/
def log2Fuel : Nat → Nat → Nat
  | 0, _ => 0
  | fuel + 1, n => if n < 2 then 0 else log2Fuel fuel (n / 2) + 1

/-- The binary exponent of a non-zero rational `q`: the integer `e` with
`2^e ≤ |q| < 2^(e+1)`, found from the bit lengths of numerator and denominator. -/
def ilog2 (q : ℚ) : Int :=
  let l : Int := (log2Fuel q.num.natAbs q.num.natAbs : Int) - (log2Fuel q.den q.den : Int)
  if (2 : ℚ) ^ l ≤ |q| then l else l - 1

/-- Rounding to the nearest value of a binary floating-point format with `p + 1`
significant bits and least exponent `emin`, ties to even: the spacing of the values around
`q` is `2^(e - p)` for the binary exponent `e` of `q`, and `2^emin` in the subnormal
range.  The exponent is not bounded above. -/
def roundTo (p emin : Int) (q : ℚ) : ℚ :=
  if q = 0 then 0 else
    let ulp : ℚ := (2 : ℚ) ^ max (ilog2 q - p) emin
    (roundEven (q / ulp) : ℚ) * ulp

/-- The conversion of a `double` to `float` and back, as the `float temp` of the vertex
sort does: rounding to single precision (24 significant bits, least spacing `2^-149`).
The exponent is not bounded above here; `Binary64.narrow` adds the overflow to an
infinity beyond the largest `float`. -/
def toFloat (q : ℚ) : ℚ := roundTo 23 (-149) q

namespace Binary64

/-- Rounding of a real number to the nearest `double`: 53 significant bits, least spacing
`2^-1074`, ties to even. -/
def toDouble (q : ℚ) : ℚ := roundTo 52 (-1074) q

/-- The result of one `double` operation whose exact result is `d`: the nearest `double`,
or an infinity when that lies beyond the largest finite `double`. -/
def rnd : Dbl → Dbl
  | Dbl.fin q => if (2 : ℚ) ^ 1024 ≤ |toDouble q| then Dbl.infOfSign q else Dbl.fin (toDouble q)
  | d => d

/-- The `double` sum `a + b`. -/
def add (a b : Dbl) : Dbl := rnd (Dbl.add a b)

/-- The `double` difference `a - b`. -/
def sub (a b : Dbl) : Dbl := rnd (Dbl.sub a b)

/-- The `double` product `a * b`. -/
def mul (a b : Dbl) : Dbl := rnd (Dbl.mul a b)

/-- The `double` quotient `a / b`. -/
def div (a b : Dbl) : Dbl := rnd (Dbl.div a b)

/-- The conversion `(int) v` to a 32-bit `int`: truncation toward zero; it is undefined
for an infinity, NaN or a value whose truncation is not an `int`. -/
def toInt : Dbl → Option Int
  | Dbl.fin q =>
    if -2147483648 ≤ truncQ q ∧ truncQ q ≤ 2147483647 then some (truncQ q) else none
  | _ => none

end Binary64

/-! ## Triangle rasterizer -/

/-- One compare-and-swap of the vertex sort, on vertices `(x, y)`: when the vertex with
the higher index lies above the other one, the two are exchanged.  The source holds the
old lower-index coordinates in a `float temp`; `narrow` is that conversion. -/
def swapIfAbove (narrow : ℚ → ℚ) (lo hi : ℚ × ℚ) : (ℚ × ℚ) × (ℚ × ℚ) :=
  if hi.2 < lo.2 then (hi, (narrow lo.1, narrow lo.2)) else (lo, hi)

/-- The four compare-and-swap steps 0-1, 1-2, 0-2, 0-1 at the head of
`driver_framebuffer_triangle`. -/
def triangleSort (narrow : ℚ → ℚ) (p0 p1 p2 : ℚ × ℚ) : (ℚ × ℚ) × (ℚ × ℚ) × (ℚ × ℚ) :=
  let s1 := swapIfAbove narrow p0 p1
  let s2 := swapIfAbove narrow s1.2 p2
  let s3 := swapIfAbove narrow s1.1 s2.2
  let s4 := swapIfAbove narrow s3.1 s2.1
  (s4.1, s4.2, s3.2)

/-- The slope `(xb - xa) / (yb - ya)` of an edge. -/
def edgeInc (xa ya xb yb : ℚ) : Dbl :=
  Dbl.div (Dbl.fin (xb - xa)) (Dbl.fin (yb - ya))

/-- The offset `(xa / inc - ya) * inc` of an edge, replaced by `xa` when `inc == 0`. -/
def edgeAdd (xa ya : ℚ) (inc : Dbl) : Dbl :=
  let add := Dbl.mul (Dbl.sub (Dbl.div (Dbl.fin xa) inc) (Dbl.fin ya)) inc
  if inc.isZero then Dbl.fin xa else add

/-- The span end `(int) (((double) y + 0.5) * inc + add + 0.5)`. -/
def spanX (y : Int) (inc add : Dbl) : Option Int :=
  Dbl.toInt (Dbl.add (Dbl.add (Dbl.mul (Dbl.fin ((y : ℚ) + 1 / 2)) inc) add) (Dbl.fin (1 / 2)))

/-- The values `a, a + 1, ..., b - 1` of a loop `for (int v = a; v < b; v++)`. -/
def intRange (a b : Int) : List Int :=
  (List.range (b - a).toNat).map (fun i : Nat => a + (i : Int))

/-- One scanline of a pass: the two span ends, swapped into order. -/
def scanSpan (incA addA incB addB : Dbl) (y : Int) : Option (Int × Int × Int) :=
  match spanX y incA addA, spanX y incB addB with
  | some startX, some endX =>
    if startX > endX then some (y, endX, startX) else some (y, startX, endX)
  | _, _ => none

/-- The scanline loop of a pass over the rows `ys`: the span of every row, or `none` when
the span of some row is undefined. -/
def scanRows (span : Int → Option (Int × Int × Int)) : List Int → Option (List (Int × Int × Int))
  | [] => some []
  | y :: ys =>
    match span y, scanRows span ys with
    | some s, some rest => some (s :: rest)
    | _, _ => none

/-- One pass of the triangle fill: the rows `startY ≤ y < endY`, each with its span
`(y, startX, endX)`. -/
def trianglePass (startY endY : Int) (incA addA incB addB : Dbl) :
    Option (List (Int × Int × Int)) :=
  scanRows (scanSpan incA addA incB addB) (intRange startY endY)

/-- The span of row `y` between two edges with finite slopes and offsets, in closed form. -/
def finSpan (incA addA incB addB : ℚ) (y : Int) : Int × Int × Int :=
  let startX := truncQ (((y : ℚ) + 1 / 2) * incA + addA + 1 / 2)
  let endX := truncQ (((y : ℚ) + 1 / 2) * incB + addB + 1 / 2)
  if startX > endX then (y, endX, startX) else (y, startX, endX)

/-- The finite slope of an edge of non-zero height. -/
def edgeSlope (xa ya xb yb : ℚ) : ℚ := (xb - xa) / (yb - ya)

/-- The finite offset of an edge: `x(y) = edgeSlope * y + edgeOffset`. -/
def edgeOffset (xa ya xb yb : ℚ) : ℚ := xa - ya * edgeSlope xa ya xb yb

/-- The spans of the rows `startY ≤ y < endY` between the edges `a → b` and `c → d`, in
closed form. -/
def finPass (startY endY : Int) (a b c d : ℚ × ℚ) : List (Int × Int × Int) :=
  (intRange startY endY).map
    (finSpan (edgeSlope a.1 a.2 b.1 b.2) (edgeOffset a.1 a.2 b.1 b.2)
      (edgeSlope c.1 c.2 d.1 d.2) (edgeOffset c.1 c.2 d.1 d.2))

/-- The pixel writes of a list of spans: row by row, `startX ≤ x < endX`. -/
def spanPixels (spans : List (Int × Int × Int)) : Pixels :=
  spans.flatMap (fun s => (intRange s.2.1 s.2.2).map (fun x => (x, s.1)))

/-- The scanlines swept by the top pass of `driver_framebuffer_triangle`, for the sorted
vertices `p0`, `p1`, `p2`. -/
def triangleTop (p0 p1 p2 : ℚ × ℚ) : Option (List (Int × Int × Int)) :=
  let inc01 := edgeInc p0.1 p0.2 p1.1 p1.2
  let add01 := edgeAdd p0.1 p0.2 inc01
  let inc02 := edgeInc p0.1 p0.2 p2.1 p2.2
  let add02 := edgeAdd p0.1 p0.2 inc02
  let yCheck := truncQ (p0.2 + 1 / 2)
  if (yCheck : ℚ) + 1 / 2 ≤ p1.2 then
    trianglePass (truncQ (p0.2 + 1 / 2)) (truncQ (p1.2 + 1 / 2)) inc01 add01 inc02 add02
  else some []

/-- The scanlines swept by the bottom pass of `driver_framebuffer_triangle`, for the
sorted vertices `p0`, `p1`, `p2`. -/
def triangleBottom (p0 p1 p2 : ℚ × ℚ) : Option (List (Int × Int × Int)) :=
  let inc02 := edgeInc p0.1 p0.2 p2.1 p2.2
  let add02 := edgeAdd p0.1 p0.2 inc02
  let inc12 := edgeInc p1.1 p1.2 p2.1 p2.2
  let add12 := edgeAdd p1.1 p1.2 inc12
  let yCheck := truncQ (p1.2 + 1 / 2)
  if (yCheck : ℚ) + 1 / 2 ≤ p2.2 then
    trianglePass (truncQ (p1.2 + 1 / 2)) (truncQ (p2.2 + 1 / 2)) inc12 add12 inc02 add02
  else some []

/-- The routine `driver_framebuffer_triangle(window, x0, y0, x1, y1, x2, y2, color)`.  The
result is `none` when a non-finite value would be converted to `int`. -/
def driver_framebuffer_triangle (narrow : ℚ → ℚ) (x0 y0 x1 y1 x2 y2 : ℚ) : Option Pixels :=
  let s := triangleSort narrow (x0, y0) (x1, y1) (x2, y2)
  match triangleTop s.1 s.2.1 s.2.2, triangleBottom s.1 s.2.1 s.2.2 with
  | some top, some bottom => some (spanPixels top ++ spanPixels bottom)
  | _, _ => none

/-- Division with the divisor checked first: `none` when the divisor compares equal to
zero, the quotient otherwise. -/
def Dbl.divChecked (a b : Dbl) : Option Dbl :=
  if b.isZero then none else some (Dbl.div a b)

/-- The slope and offset of one edge as `driver_framebuffer_triangle` computes them, with
both divisions checked: `inc = (xb - xa) / (yb - ya)`, then
`add = (xa / inc - ya) * inc`, replaced by `xa` when `inc == 0`. -/
def edgeChecked (xa ya xb yb : ℚ) : Option (Dbl × Dbl) :=
  match Dbl.divChecked (Dbl.fin (xb - xa)) (Dbl.fin (yb - ya)) with
  | none => none
  | some inc =>
    match Dbl.divChecked (Dbl.fin xa) inc with
    | none => none
    | some q =>
      let add := Dbl.mul (Dbl.sub q (Dbl.fin ya)) inc
      some (inc, if inc.isZero then Dbl.fin xa else add)

/-- The three edge computations of `driver_framebuffer_triangle` (edges 0-1, 0-2, 1-2 of
the sorted vertices) with every division checked. -/
def triangleEdgesChecked (narrow : ℚ → ℚ) (x0 y0 x1 y1 x2 y2 : ℚ) :
    Option ((Dbl × Dbl) × (Dbl × Dbl) × (Dbl × Dbl)) :=
  let s := triangleSort narrow (x0, y0) (x1, y1) (x2, y2)
  match edgeChecked s.1.1 s.1.2 s.2.1.1 s.2.1.2, edgeChecked s.1.1 s.1.2 s.2.2.1 s.2.2.2,
        edgeChecked s.2.1.1 s.2.1.2 s.2.2.1 s.2.2.2 with
  | some e01, some e02, some e12 => some (e01, e02, e12)
  | _, _, _ => none

/-- The three slopes and offsets of `driver_framebuffer_triangle` as the source computes
them, unchecked: `((inc01, add01), (inc02, add02), (inc12, add12))`. -/
def triangleEdges (narrow : ℚ → ℚ) (x0 y0 x1 y1 x2 y2 : ℚ) :
    (Dbl × Dbl) × (Dbl × Dbl) × (Dbl × Dbl) :=
  let s := triangleSort narrow (x0, y0) (x1, y1) (x2, y2)
  let inc01 := edgeInc s.1.1 s.1.2 s.2.1.1 s.2.1.2
  let inc02 := edgeInc s.1.1 s.1.2 s.2.2.1 s.2.2.2
  let inc12 := edgeInc s.2.1.1 s.2.1.2 s.2.2.1 s.2.2.2
  ((inc01, edgeAdd s.1.1 s.1.2 inc01), (inc02, edgeAdd s.1.1 s.1.2 inc02),
    (inc12, edgeAdd s.2.1.1 s.2.1.2 inc12))

/-- The x of the straight edge from vertex `a` to vertex `b` at height `h`, for an edge of
non-zero height. -/
def edgeAt (a b : ℚ × ℚ) (h : ℚ) : ℚ := a.1 + (h - a.2) * (b.1 - a.1) / (b.2 - a.2)

/-! ## Quad -/

/-- The routine `driver_framebuffer_quad`: triangle `(v0, v1, v2)` then `(v0, v2, v3)`. -/
def driver_framebuffer_quad (narrow : ℚ → ℚ) (x0 y0 x1 y1 x2 y2 x3 y3 : ℚ) : Option Pixels :=
  match driver_framebuffer_triangle narrow x0 y0 x1 y1 x2 y2 with
  | none => none
  | some first =>
    match driver_framebuffer_triangle narrow x0 y0 x2 y2 x3 y3 with
    | none => none
    | some second => some (first ++ second)

/-! ## Triangle and quad rasterizers in binary64 -/

namespace Binary64

/-- The store of a `double` into the `float temp` of the vertex sort and its use as a
`double` again: the nearest `float`, or an infinity when that lies beyond the largest
finite `float`. -/
def narrow : Dbl → Dbl
  | Dbl.fin q => if (2 : ℚ) ^ 128 ≤ |toFloat q| then Dbl.infOfSign q else Dbl.fin (toFloat q)
  | d => d

/-- One compare-and-swap of the vertex sort, on vertices `(x, y)`: when the vertex with
the higher index lies above the other one, the two are exchanged, the old lower-index
coordinates passing through the `float temp`. -/
def swapIfAbove (lo hi : Dbl × Dbl) : (Dbl × Dbl) × (Dbl × Dbl) :=
  if Dbl.lt hi.2 lo.2 then (hi, (narrow lo.1, narrow lo.2)) else (lo, hi)

/-- The four compare-and-swap steps 0-1, 1-2, 0-2, 0-1 at the head of
`driver_framebuffer_triangle`. -/
def triangleSort (p0 p1 p2 : Dbl × Dbl) : (Dbl × Dbl) × (Dbl × Dbl) × (Dbl × Dbl) :=
  let s1 := swapIfAbove p0 p1
  let s2 := swapIfAbove s1.2 p2
  let s3 := swapIfAbove s1.1 s2.2
  let s4 := swapIfAbove s3.1 s2.1
  (s4.1, s4.2, s3.2)

/-- The slope `(xb - xa) / (yb - ya)` of an edge, each operation rounded to a `double`. -/
def edgeInc (xa ya xb yb : Dbl) : Dbl :=
  div (sub xb xa) (sub yb ya)

/-- The offset `(xa / inc - ya) * inc` of an edge, each operation rounded to a `double`,
replaced by `xa` when `inc == 0`. -/
def edgeAdd (xa ya : Dbl) (inc : Dbl) : Dbl :=
  let add := mul (sub (div xa inc) ya) inc
  if inc.isZero then xa else add

/-- The span end `int startX = ((double) y + 0.5) * inc + add + 0.5;` of row `y`. -/
def spanX (y : Int) (inc add : Dbl) : Option Int :=
  toInt (Binary64.add
    (Binary64.add (mul (Binary64.add (Dbl.fin (y : ℚ)) (Dbl.fin (1 / 2))) inc) add)
    (Dbl.fin (1 / 2)))

/-- One scanline of a pass: the two span ends, swapped into order. -/
def scanSpan (incA addA incB addB : Dbl) (y : Int) : Option (Int × Int × Int) :=
  match spanX y incA addA, spanX y incB addB with
  | some startX, some endX =>
    if startX > endX then some (y, endX, startX) else some (y, startX, endX)
  | _, _ => none

/-- The row `(int) (y + 0.5)` of a height. -/
def rowOf (y : Dbl) : Option Int := toInt (Binary64.add y (Dbl.fin (1 / 2)))

/-- The guard `(double) yCheck + 0.5 <= yb` of a pass. -/
def guard (yCheck : Int) (yb : Dbl) : Bool :=
  Dbl.le (Binary64.add (Dbl.fin (yCheck : ℚ)) (Dbl.fin (1 / 2))) yb

/-- The rows swept by a pass between the heights `ya` and `yb`: with
`yCheck = (int) (ya + 0.5)`, the rows `yCheck ≤ y < (int) (yb + 0.5)` of the loop
`for (int y = startY; y < endY; y++)` when the guard holds, none otherwise. -/
def passRows (ya yb : Dbl) : Option (List Int) :=
  match rowOf ya with
  | none => none
  | some yCheck =>
    if guard yCheck yb then
      match rowOf yb with
      | none => none
      | some endY => some (intRange yCheck endY)
    else some []

/-- The scanlines swept by the top pass of `driver_framebuffer_triangle`, for the vertices
`p0`, `p1`, `p2` as the routine holds them after its sort. -/
def triangleTop (p0 p1 p2 : Dbl × Dbl) : Option (List (Int × Int × Int)) :=
  let inc01 := edgeInc p0.1 p0.2 p1.1 p1.2
  let add01 := edgeAdd p0.1 p0.2 inc01
  let inc02 := edgeInc p0.1 p0.2 p2.1 p2.2
  let add02 := edgeAdd p0.1 p0.2 inc02
  match passRows p0.2 p1.2 with
  | none => none
  | some rows => scanRows (scanSpan inc01 add01 inc02 add02) rows

/-- The scanlines swept by the bottom pass of `driver_framebuffer_triangle`, for the
vertices `p0`, `p1`, `p2` as the routine holds them after its sort. -/
def triangleBottom (p0 p1 p2 : Dbl × Dbl) : Option (List (Int × Int × Int)) :=
  let inc02 := edgeInc p0.1 p0.2 p2.1 p2.2
  let add02 := edgeAdd p0.1 p0.2 inc02
  let inc12 := edgeInc p1.1 p1.2 p2.1 p2.2
  let add12 := edgeAdd p1.1 p1.2 inc12
  match passRows p1.2 p2.2 with
  | none => none
  | some rows => scanRows (scanSpan inc12 add12 inc02 add02) rows

/-- The vertices of a triangle with the finite `double` coordinates `x0, ..., y2`, as
`driver_framebuffer_triangle` holds them after its sort. -/
def sorted (x0 y0 x1 y1 x2 y2 : ℚ) : (Dbl × Dbl) × (Dbl × Dbl) × (Dbl × Dbl) :=
  triangleSort (Dbl.fin x0, Dbl.fin y0) (Dbl.fin x1, Dbl.fin y1) (Dbl.fin x2, Dbl.fin y2)

/-- The routine `driver_framebuffer_triangle(window, x0, y0, x1, y1, x2, y2, color)` on
finite `double` arguments, as the source computes it: the sort with its `float temp`,
every `double` operation rounded, every `(int)` conversion into a 32-bit `int`.  The
result is `none` when a conversion to `int` is undefined. -/
def driver_framebuffer_triangle (x0 y0 x1 y1 x2 y2 : ℚ) : Option Pixels :=
  let s := sorted x0 y0 x1 y1 x2 y2
  match triangleTop s.1 s.2.1 s.2.2, triangleBottom s.1 s.2.1 s.2.2 with
  | some top, some bottom => some (spanPixels top ++ spanPixels bottom)
  | _, _ => none

/-- The routine `driver_framebuffer_quad`: triangle `(v0, v1, v2)` then `(v0, v2, v3)`. -/
def driver_framebuffer_quad (x0 y0 x1 y1 x2 y2 x3 y3 : ℚ) : Option Pixels :=
  match driver_framebuffer_triangle x0 y0 x1 y1 x2 y2 with
  | none => none
  | some first =>
    match driver_framebuffer_triangle x0 y0 x2 y2 x3 y3 with
    | none => none
    | some second => some (first ++ second)

/-- Division with the divisor checked first: `none` when the divisor compares equal to
zero, the rounded quotient otherwise. -/
def divChecked (a b : Dbl) : Option Dbl :=
  if b.isZero then none else some (div a b)

/-- The slope and offset of one edge as `driver_framebuffer_triangle` computes them, with
both divisions checked. -/
def edgeChecked (xa ya xb yb : Dbl) : Option (Dbl × Dbl) :=
  match divChecked (sub xb xa) (sub yb ya) with
  | none => none
  | some inc =>
    match divChecked xa inc with
    | none => none
    | some q =>
      let add := mul (sub q ya) inc
      some (inc, if inc.isZero then xa else add)

/-- The span end of row `y` that the routine computes for the edge from the integer point
`a` to the integer point `b`, with the slope and offset of that edge. -/
def edgeSpan (a b : Int × Int) (y : Int) : Option Int :=
  spanX y (edgeInc (Dbl.fin a.1) (Dbl.fin a.2) (Dbl.fin b.1) (Dbl.fin b.2))
    (edgeAdd (Dbl.fin a.1) (Dbl.fin a.2)
      (edgeInc (Dbl.fin a.1) (Dbl.fin a.2) (Dbl.fin b.1) (Dbl.fin b.2)))

/-- The three edge computations of `driver_framebuffer_triangle` (edges 0-1, 0-2, 1-2 of
the vertices after the sort) with every division checked. -/
def triangleEdgesChecked (x0 y0 x1 y1 x2 y2 : ℚ) :
    Option ((Dbl × Dbl) × (Dbl × Dbl) × (Dbl × Dbl)) :=
  let s := sorted x0 y0 x1 y1 x2 y2
  match edgeChecked s.1.1 s.1.2 s.2.1.1 s.2.1.2, edgeChecked s.1.1 s.1.2 s.2.2.1 s.2.2.2,
        edgeChecked s.2.1.1 s.2.1.2 s.2.2.1 s.2.2.2 with
  | some e01, some e02, some e12 => some (e01, e02, e12)
  | _, _, _ => none

end Binary64

/-- The triple `(a, b, c)` is a rearrangement of the triple `(d, e, f)`. -/
def Perm3 {α : Type} (a b c d e f : α) : Prop :=
  (a = d ∧ b = e ∧ c = f) ∨ (a = d ∧ b = f ∧ c = e) ∨ (a = e ∧ b = d ∧ c = f) ∨
    (a = e ∧ b = f ∧ c = d) ∨ (a = f ∧ b = d ∧ c = e) ∨ (a = f ∧ b = e ∧ c = d)

/-! ## Circle step count -/

/-- The step count `effectiveCircumfrence < 60 ? (int) (effectiveCircumfrence / 1.7) : 40`
of `driver_framebuffer_circle`, for a finite circumference `c`: the divisor is the
`double` literal `1.7` and the quotient is rounded to a `double` before the truncation. -/
def nSteps (c : ℚ) : Int :=
  if c < 60 then truncQ (Binary64.toDouble (c / Binary64.toDouble (17 / 10))) else 40

/-! ## Collaborators of the circle routines -/

/-- The names of `<math.h>` the source uses: the constant `M_PI` and the functions `sqrt`,
`cos` and `sin`, taken as parameters. -/
structure MathFns where
  /-- The constant `M_PI`. -/
  pi : ℚ
  /-- The function `sqrt`. -/
  sqrt : ℚ → ℚ
  /-- The function `cos`. -/
  cos : ℚ → ℚ
  /-- The function `sin`. -/
  sin : ℚ → ℚ

/-- Modelled from the spec: the transform-stack collaborator, whose code is not part of
the source file.  The spec gives its interface only (`rotate(angleRadians) -> matrix`,
`translate(dx, dy) -> matrix`, `compose(a, b) -> matrix`,
`applyToPoint(matrix, point) -> point`), so the four operations are parameters over an
arbitrary type `M` of matrices. -/
structure MatrixOps (M : Type) where
  /-- The function `matrix_2d_multiply`. -/
  matrix_2d_multiply : M → M → M
  /-- The function `matrix_2d_rotate`; its argument is a `double`. -/
  matrix_2d_rotate : Dbl → M
  /-- The function `matrix_2d_translate`. -/
  matrix_2d_translate : ℚ → ℚ → M
  /-- The function `matrix_2d_transform_point`, returning the transformed point. -/
  matrix_2d_transform_point : M → ℚ × ℚ → ℚ × ℚ

/-- A 2 by 3 affine matrix with rows `(a0, a1, a2)` and `(b0, b1, b2)`. -/
structure matrix_2d where
  a0 : ℚ
  a1 : ℚ
  a2 : ℚ
  b0 : ℚ
  b1 : ℚ
  b2 : ℚ
  deriving DecidableEq

/-- Modelled from the spec: the transform-stack collaborator as affine matrices, with
composition as the matrix product and application to a point as the affine map.  The
cosine and sine of an angle are the parameter `trig`. -/
def affineOps (trig : Dbl → ℚ × ℚ) : MatrixOps matrix_2d where
  matrix_2d_multiply a b :=
    { a0 := a.a0 * b.a0 + a.a1 * b.b0, a1 := a.a0 * b.a1 + a.a1 * b.b1,
      a2 := a.a0 * b.a2 + a.a1 * b.b2 + a.a2,
      b0 := a.b0 * b.a0 + a.b1 * b.b0, b1 := a.b0 * b.a1 + a.b1 * b.b1,
      b2 := a.b0 * b.a2 + a.b1 * b.b2 + a.b2 }
  matrix_2d_rotate angle :=
    { a0 := (trig angle).1, a1 := -(trig angle).2, a2 := 0,
      b0 := (trig angle).2, b1 := (trig angle).1, b2 := 0 }
  matrix_2d_translate x y := { a0 := 1, a1 := 0, a2 := x, b0 := 0, b1 := 1, b2 := y }
  matrix_2d_transform_point a p :=
    (a.a0 * p.1 + a.a1 * p.2 + a.a2, a.b0 * p.1 + a.b1 * p.2 + a.b2)

/-- Modelled from the spec: the transform-stack collaborator reduced to rotations about
the centre.  A matrix is the angle of its rotation, composition adds the angles, and a
point is given in polar form `(angle, radius)`, so that applying a rotation adds its angle
to the angle of the point.  Here `rotate(a)` composed with `rotate(b)` is `rotate(a + b)`. -/
def angleOps : MatrixOps ℚ where
  matrix_2d_multiply a b := a + b
  matrix_2d_rotate angle :=
    match angle with
    | Dbl.fin a => a
    | _ => 0
  matrix_2d_translate _ _ := 0
  matrix_2d_transform_point a p := (p.1 + a, p.2)

/-! ## Circle/arc approximator -/

/-- The function `circle_test_radius(stack, radius)`; `current` is `stack->current`. -/
def circle_test_radius {M : Type} (ops : MatrixOps M) (m : MathFns) (current : M)
    (radius : ℚ) : ℚ :=
  let rotation := ops.matrix_2d_rotate (Dbl.fin (m.pi * (1 / 4)))
  let maxSqr : ℚ := 0
  let p := ops.matrix_2d_transform_point current (0, radius)
  let sqrDist := p.1 * p.1 + p.2 * p.2
  let maxSqr := if sqrDist > maxSqr then sqrDist else maxSqr
  let current := ops.matrix_2d_multiply current rotation
  let maxSqr : ℚ := 0
  let p := ops.matrix_2d_transform_point current (0, radius)
  let sqrDist := p.1 * p.1 + p.2 * p.2
  let maxSqr := if sqrDist > maxSqr then sqrDist else maxSqr
  let current := ops.matrix_2d_multiply current rotation
  let maxSqr : ℚ := 0
  let p := ops.matrix_2d_transform_point current (0, radius)
  let sqrDist := p.1 * p.1 + p.2 * p.2
  let maxSqr := if sqrDist > maxSqr then sqrDist else maxSqr
  m.sqrt maxSqr

/-- The running matrix of `driver_framebuffer_circle` before its loop: the current matrix
composed with the translation to the centre and, when `startAngle > 0.0000001`, with the
rotation to the starting angle. -/
def circleStart {M : Type} (ops : MatrixOps M) (current : M) (x y startAngle : ℚ) : M :=
  let current := ops.matrix_2d_multiply current (ops.matrix_2d_translate x y)
  if startAngle > 1 / 10000000 then
    ops.matrix_2d_multiply current (ops.matrix_2d_rotate (Dbl.fin startAngle))
  else current

/-- The loop `for (int i = 0; i < nSteps; i++)` of `driver_framebuffer_circle`, for the
remaining number of iterations: each iteration composes the step rotation into the running
matrix, samples the new boundary vertex and yields the pair `(last, new)` that is drawn. -/
def circleSegments {M : Type} (ops : MatrixOps M) (rotationStep : M) (radius : ℚ) :
    Nat → M → ℚ × ℚ → List ((ℚ × ℚ) × (ℚ × ℚ))
  | 0, _, _ => []
  | k + 1, current, last =>
    let current := ops.matrix_2d_multiply current rotationStep
    let new := ops.matrix_2d_transform_point current (0, -radius)
    (last, new) :: circleSegments ops rotationStep radius k current new

/-- The boundary vertices `driver_framebuffer_circle` samples when its step count is `n`:
the first one before the loop, then one per iteration. -/
def circleBoundary {M : Type} (ops : MatrixOps M) (current : M)
    (x y radius startAngle endAngle : ℚ) (n : Int) : List (ℚ × ℚ) :=
  let anglePerStep := Dbl.div (Dbl.fin (startAngle - endAngle)) (Dbl.fin (n : ℚ))
  let rotationStep := ops.matrix_2d_rotate anglePerStep
  let start := circleStart ops current x y startAngle
  let last := ops.matrix_2d_transform_point start (0, -radius)
  last :: (circleSegments ops rotationStep radius n.toNat start last).map Prod.snd

/-- The filled mode of `driver_framebuffer_circle`: one triangle per segment, from the
transformed centre to the previous and the new boundary vertex. -/
def drawFan (narrow : ℚ → ℚ) (c : ℚ × ℚ) : List ((ℚ × ℚ) × (ℚ × ℚ)) → Option Pixels
  | [] => some []
  | s :: rest =>
    match driver_framebuffer_triangle narrow c.1 c.2 s.1.1 s.1.2 s.2.1 s.2.2,
          drawFan narrow c rest with
    | some a, some b => some (a ++ b)
    | _, _ => none

/-- The stroked mode of `driver_framebuffer_circle`: one line per segment between the
boundary vertices rounded with `(int) (v + 0.5)`, narrowed to `int16_t` at the call. -/
def drawStroke (fuel : Nat) : List ((ℚ × ℚ) × (ℚ × ℚ)) → Option Pixels
  | [] => some []
  | s :: rest =>
    match driver_framebuffer_line fuel (wrap16 (truncQ (s.1.1 + 1 / 2)))
            (wrap16 (truncQ (s.1.2 + 1 / 2))) (wrap16 (truncQ (s.2.1 + 1 / 2)))
            (wrap16 (truncQ (s.2.2 + 1 / 2))),
          drawStroke fuel rest with
    | some a, some b => some (a ++ b)
    | _, _ => none

/-- The routine `driver_framebuffer_circle(window, stack, x, y, radius, startAngle,
endAngle, fill, color)`; `current` is `stack->current`. -/
def driver_framebuffer_circle {M : Type} (ops : MatrixOps M) (m : MathFns) (narrow : ℚ → ℚ)
    (fuel : Nat) (current : M) (x y radius startAngle endAngle : ℚ) (fill : Bool) :
    Option Pixels :=
  let effectiveCircumfrence := circle_test_radius ops m current radius * m.pi
  let n := nSteps effectiveCircumfrence
  let anglePerStep := Dbl.div (Dbl.fin (startAngle - endAngle)) (Dbl.fin (n : ℚ))
  let rotationStep := ops.matrix_2d_rotate anglePerStep
  let start := circleStart ops current x y startAngle
  let c := ops.matrix_2d_transform_point current (x, y)
  let last := ops.matrix_2d_transform_point start (0, -radius)
  let segments := circleSegments ops rotationStep radius n.toNat start last
  if fill then drawFan narrow c segments else drawStroke fuel segments

/-! ## Legacy angular circle -/

/-- The inner loop `for (int i = startAngle; i < endAngle; i++)` of
`driver_framebuffer_circle_old` over the remaining angles, with the loop state
`(havePrevPixel, prevX, prevY)`; it returns the pixels written and the final state. -/
def circleOldAngles (m : MathFns) (fuel : Nat) (x0 y0 f : Int) :
    List Int → Bool × Int × Int → Option (Pixels × (Bool × Int × Int))
  | [], st => some ([], st)
  | i :: rest, (havePrevPixel, prevX, prevY) =>
    let radians : ℚ := (i : ℚ) * m.pi / 180
    let px := truncQ ((x0 : ℚ) + (f : ℚ) * m.cos radians)
    let py := truncQ ((y0 : ℚ) + (f : ℚ) * m.sin radians)
    let drawn :=
      if havePrevPixel && (prevX != px || prevY != py) then
        driver_framebuffer_line fuel (wrap16 prevX) (wrap16 prevY) (wrap16 px) (wrap16 py)
      else some [(px, py)]
    match drawn, circleOldAngles m fuel x0 y0 f rest (true, px, py) with
    | some a, some (b, st) => some (a ++ b, st)
    | _, _ => none

/-- The outer loop `for (int f = (fill ? 0 : r); f <= r; f++)` of
`driver_framebuffer_circle_old` over the remaining radii; `havePrevPixel` is reset at the
head of every iteration, `prevX` and `prevY` are carried over. -/
def circleOldRadii (m : MathFns) (fuel : Nat) (x0 y0 startAngle endAngle : Int) :
    List Int → Int × Int → Option Pixels
  | [], _ => some []
  | f :: rest, (prevX, prevY) =>
    match circleOldAngles m fuel x0 y0 f (intRange startAngle endAngle) (false, prevX, prevY) with
    | none => none
    | some (a, st) =>
      match circleOldRadii m fuel x0 y0 startAngle endAngle rest (st.2.1, st.2.2) with
      | none => none
      | some b => some (a ++ b)

/-- The routine `driver_framebuffer_circle_old(window, x0, y0, r, startAngle, endAngle,
fill, color)`; `x0`, `y0` are `int16_t` values and `r`, `startAngle`, `endAngle` are
`uint16_t` values. -/
def driver_framebuffer_circle_old (m : MathFns) (fuel : Nat) (x0 y0 r startAngle endAngle : Int)
    (fill : Bool) : Option Pixels :=
  if startAngle ≥ endAngle then some []
  else
    circleOldRadii m fuel x0 y0 startAngle endAngle
      (intRange (if fill then 0 else r) (r + 1)) (0, 0)

/-- An instance of the math functions for the examples: `M_PI` as `355/113`, `sqrt` as
three steps of Heron's iteration from `1`, `cos` and `sin` as their Taylor polynomials of
degree two and three. -/
def sampleMath : MathFns where
  pi := 355 / 113
  sqrt q :=
    let a : ℚ := (1 + q) / 2
    let b : ℚ := (a + q / a) / 2
    (b + q / b) / 2
  cos t := 1 - t * t / 2
  sin t := t - t * t * t / 6

/-- The cosine and sine of 45 degrees to four decimals, for the examples: the rotation
`matrix_2d_rotate(M_PI * 0.25)` of `circle_test_radius` in the affine model. -/
def trig45 (_ : Dbl) : ℚ × ℚ := (7071 / 10000, 7071 / 10000)

/-! # Theorems -/

/-! ## Line rasterizer -/

theorem wrap16_of_range {v : Int} (h1 : -32768 ≤ v) (h2 : v ≤ 32767) : wrap16 v = v := by
  unfold wrap16; omega

/-- Division with remainder by a positive number, from an explicit decomposition. -/
theorem ediv_emod_of_decomp {a d q r : Int} (hd : 0 < d) (h : a = d * q + r) (h0 : 0 ≤ r)
    (h1 : r < d) : a / d = q ∧ a % d = r :=
  (Int.ediv_emod_unique hd).2 ⟨by rw [h]; ring, h0, h1⟩

theorem lineErr_nonneg {dx : Int} (hd : 0 < dx) (dy k : Int) : 0 ≤ lineErr dx dy k :=
  Int.emod_nonneg _ (ne_of_gt hd)

theorem lineErr_lt {dx : Int} (hd : 0 < dx) (dy k : Int) : lineErr dx dy k < dx :=
  Int.emod_lt_of_pos _ hd

/-- The accumulator and the step count satisfy the linear relation of the algorithm. -/
theorem lineErr_add (dx dy k : Int) :
    lineErr dx dy k = dx / 2 - k * dy + lineMinor dx dy k * dx := by
  unfold lineErr lineMinor
  have := Int.emod_add_ediv (dx / 2 - k * dy) dx
  linarith [mul_comm dx ((dx / 2 - k * dy) / dx)]

/-- A step in which the accumulator goes negative: one minor step, accumulator refilled. -/
theorem line_step_neg {dx dy : Int} (hd : 0 < dx) (hy : dy ≤ dx) (k : Int)
    (hneg : lineErr dx dy k - dy < 0) :
    lineErr dx dy (k + 1) = lineErr dx dy k - dy + dx ∧
      lineMinor dx dy (k + 1) = lineMinor dx dy k + 1 := by
  have h0 := lineErr_nonneg hd dy k
  have hrel := lineErr_add dx dy k
  have key := ediv_emod_of_decomp (a := dx / 2 - (k + 1) * dy) (d := dx)
    (q := -(lineMinor dx dy k + 1)) (r := lineErr dx dy k - dy + dx) hd
    (by rw [hrel]; ring) (by omega) (by omega)
  refine ⟨key.2, ?_⟩
  unfold lineMinor at key ⊢
  rw [key.1]; ring

/-- A step in which the accumulator stays non-negative: no minor step. -/
theorem line_step_pos {dx dy : Int} (hd : 0 < dx) (hy : 0 ≤ dy) (k : Int)
    (hpos : ¬ lineErr dx dy k - dy < 0) :
    lineErr dx dy (k + 1) = lineErr dx dy k - dy ∧
      lineMinor dx dy (k + 1) = lineMinor dx dy k := by
  have h1 := lineErr_lt hd dy k
  have hrel := lineErr_add dx dy k
  have key := ediv_emod_of_decomp (a := dx / 2 - (k + 1) * dy) (d := dx)
    (q := -(lineMinor dx dy k)) (r := lineErr dx dy k - dy) hd
    (by rw [hrel]; ring) (by omega) (by omega)
  refine ⟨key.2, ?_⟩
  unfold lineMinor at key ⊢
  rw [key.1]; ring

/-- The step count moves by zero or one between consecutive pixels. -/
theorem lineMinor_succ {dx dy : Int} (hd : 0 < dx) (hy0 : 0 ≤ dy) (hy : dy ≤ dx) (k : Int) :
    lineMinor dx dy (k + 1) = lineMinor dx dy k ∨
      lineMinor dx dy (k + 1) = lineMinor dx dy k + 1 := by
  by_cases h : lineErr dx dy k - dy < 0
  · exact Or.inr (line_step_neg hd hy k h).2
  · exact Or.inl (line_step_pos hd hy0 k h).2

theorem lineMinor_zero {dx : Int} (hd : 0 < dx) (dy : Int) : lineMinor dx dy 0 = 0 := by
  unfold lineMinor
  have : (dx / 2 - 0 * dy) / dx = 0 := by
    rw [zero_mul, sub_zero]
    exact Int.ediv_eq_zero_of_lt (by omega) (by omega)
  rw [this]; rfl

/-- The step count stays between `0` and `dy + 1` over the whole loop, final increment
included. -/
theorem lineMinor_bounds {dx dy : Int} (hd : 0 < dx) (hy0 : 0 ≤ dy) (hy : dy ≤ dx) (k : Int)
    (hk0 : 0 ≤ k) (hk : k ≤ dx + 1) :
    0 ≤ lineMinor dx dy k ∧ lineMinor dx dy k ≤ dy + 1 := by
  have hrel := lineErr_add dx dy k
  have h0 := lineErr_nonneg hd dy k
  have h1 := lineErr_lt hd dy k
  have hkd : 0 ≤ k * dy := mul_nonneg hk0 hy0
  have hkd2 : k * dy ≤ (dx + 1) * dy := mul_le_mul_of_nonneg_right hk hy0
  have hhalf : 0 ≤ dx / 2 ∧ dx / 2 < dx := by omega
  constructor
  · by_contra hc
    have : lineMinor dx dy k ≤ -1 := by omega
    have : lineMinor dx dy k * dx ≤ -1 * dx := mul_le_mul_of_nonneg_right this (le_of_lt hd)
    nlinarith
  · by_contra hc
    have : dy + 2 ≤ lineMinor dx dy k := by omega
    have : (dy + 2) * dx ≤ lineMinor dx dy k * dx := mul_le_mul_of_nonneg_right this (le_of_lt hd)
    nlinarith

theorem lineMinor_dx_zero (dy k : Int) : lineMinor 0 dy k = 0 := by
  simp [lineMinor]

theorem lineMinor_flat (dx k : Int) (hd : 0 ≤ dx) : lineMinor dx 0 k = 0 := by
  unfold lineMinor
  rcases eq_or_lt_of_le hd with h | h
  · rw [← h]; simp
  · rw [mul_zero, sub_zero, Int.ediv_eq_zero_of_lt (by omega) (by omega)]; rfl

theorem lineMinor_diag {dx : Int} (hd : 0 < dx) (k : Int) : lineMinor dx dx k = k := by
  unfold lineMinor
  have h : dx / 2 - k * dx = dx / 2 + (-k) * dx := by ring
  rw [h, Int.add_mul_ediv_right _ _ (ne_of_gt hd), Int.ediv_eq_zero_of_lt (by omega) (by omega)]
  ring

/-- The loop of the line rasterizer computes the closed form: started in the state that
precedes pixel `k`, it writes the pixels `k, k + 1, ..., dx` and stops. -/
theorem lineLoop_closed (steep : Bool) {xs ys dx dy ystep x1 : Int}
    (hd : 0 < dx) (hy0 : 0 ≤ dy) (hy : dy ≤ dx) (hdx : dx ≤ 32767)
    (hx1 : x1 = xs + dx) (hxlo : -32768 ≤ xs) (hxhi : x1 ≤ 32766)
    (hyr : ∀ m : Int, 0 ≤ m → m ≤ dy + 1 →
      -32768 ≤ ys + ystep * m ∧ ys + ystep * m ≤ 32767) :
    ∀ (n k : Nat), (k : Int) + n = dx + 1 → ∀ fuel : Nat, n + 1 ≤ fuel →
      lineLoop steep x1 dx dy ystep fuel (xs + k) (ys + ystep * lineMinor dx dy k)
          (lineErr dx dy k)
        = some ((List.range' k n).map (linePixel steep xs ys ystep dx dy)) := by
  intro n
  induction n with
  | zero =>
    intro k hk fuel hf
    obtain ⟨f, rfl⟩ : ∃ f, fuel = f + 1 := ⟨fuel - 1, by omega⟩
    have hgt : ¬ (xs + (k : Int) ≤ x1) := by push_cast at hk; omega
    simp [lineLoop, hgt]
  | succ n ih =>
    intro k hk fuel hf
    obtain ⟨f, rfl⟩ : ∃ f, fuel = f + 1 := ⟨fuel - 1, by omega⟩
    have hle : xs + (k : Int) ≤ x1 := by push_cast at hk; omega
    have hk0 : (0 : Int) ≤ k := Int.ofNat_nonneg k
    have he0 := lineErr_nonneg hd dy k
    have he1 := lineErr_lt hd dy k
    have hb := lineMinor_bounds hd hy0 hy (k + 1) (by omega) (by push_cast at hk; omega)
    have hw1 : wrap16 (lineErr dx dy k - dy) = lineErr dx dy k - dy :=
      wrap16_of_range (by omega) (by omega)
    have hwx : wrap16 (xs + (k : Int) + 1) = xs + ((k + 1 : Nat) : Int) := by
      rw [wrap16_of_range (by omega) (by omega)]; push_cast; ring
    have hrec := ih (k + 1) (by push_cast at hk ⊢; omega) f (by omega)
    rw [lineLoop, if_pos hle]
    simp only [hw1, hwx]
    by_cases hneg : lineErr dx dy k - dy < 0
    · obtain ⟨hE, hM⟩ := line_step_neg hd hy k hneg
      have hwe : wrap16 (lineErr dx dy k - dy + dx) = lineErr dx dy (k + 1) := by
        rw [wrap16_of_range (by omega) (by omega)]; exact hE.symm
      have hwy : wrap16 (ys + ystep * lineMinor dx dy k + ystep)
          = ys + ystep * lineMinor dx dy ((k + 1 : Nat) : Int) := by
        have : ys + ystep * lineMinor dx dy k + ystep = ys + ystep * lineMinor dx dy (k + 1) := by
          rw [hM]; ring
        rw [this]
        push_cast
        exact wrap16_of_range (hyr _ hb.1 hb.2).1 (hyr _ hb.1 hb.2).2
      simp only [if_pos hneg, hwe, hwy]
      have hE' : lineErr dx dy (k + 1) = lineErr dx dy ((k + 1 : Nat) : Int) := by push_cast; rfl
      rw [hE', hrec]
      simp [List.range'_succ, linePixel]
    · obtain ⟨hE, hM⟩ := line_step_pos hd hy0 k hneg
      have hy' : ys + ystep * lineMinor dx dy k
          = ys + ystep * lineMinor dx dy ((k + 1 : Nat) : Int) := by
        push_cast; rw [hM]
      have hE' : lineErr dx dy k - dy = lineErr dx dy ((k + 1 : Nat) : Int) := by
        push_cast; exact hE.symm
      simp only [if_neg hneg]
      rw [hE']
      conv_lhs => rw [hy']
      rw [hrec]
      simp [List.range'_succ, linePixel]
      cases steep <;> simp [hM]

/-- A line entered from normalised in-range endpoints writes its closed form. -/
theorem lineFrom_closed (steep : Bool) {xs ys xe ye : Int}
    (hx : xs ≤ xe) (hdy : |ye - ys| ≤ xe - xs) (hD : xe - xs ≤ 32767)
    (hxs : -32768 ≤ xs) (hxe : xe ≤ 32766)
    (hys : -32767 ≤ ys ∧ ys ≤ 32766) (hye : -32767 ≤ ye ∧ ye ≤ 32766)
    (fuel : Nat) (hf : (xe - xs).toNat + 2 ≤ fuel) :
    lineFrom fuel steep xs ys xe ye
      = some ((List.range ((xe - xs).toNat + 1)).map
          (linePixel steep xs ys (if ys < ye then 1 else -1) (xe - xs) |ye - ys|)) := by
  have habs0 : 0 ≤ |ye - ys| := abs_nonneg _
  have hw1 : wrap16 (xe - xs) = xe - xs := wrap16_of_range (by omega) (by omega)
  have hw2 : wrap16 |ye - ys| = |ye - ys| := wrap16_of_range (by omega) (by omega)
  have ht : Int.tdiv (xe - xs) 2 = (xe - xs) / 2 := Int.tdiv_eq_ediv (by omega) (by omega)
  have hw3 : wrap16 ((xe - xs) / 2) = (xe - xs) / 2 := wrap16_of_range (by omega) (by omega)
  unfold lineFrom
  simp only [hw1, hw2, ht, hw3]
  rcases eq_or_lt_of_le (sub_nonneg.2 hx) with h0 | hpos
  · -- a single point
    have hxe' : xe = xs := by omega
    have hye' : ye = ys := by
      have : |ye - ys| = 0 := by omega
      have := abs_eq_zero.1 this
      omega
    subst hxe' hye'
    obtain ⟨f, rfl⟩ : ∃ f, fuel = f + 2 := ⟨fuel - 2, by omega⟩
    have hwx : ¬ (wrap16 (xe + 1) ≤ xe) := by
      rw [wrap16_of_range (by omega) (by omega)]; omega
    have hz : wrap16 0 = 0 := by decide
    simp [lineLoop, hz, hwx]
    cases steep <;> simp [linePixel, lineMinor, List.range_succ]
  · have hrec := @lineLoop_closed steep xs ys (xe - xs) |ye - ys|
      (if ys < ye then 1 else -1) xe hpos habs0 hdy hD (by ring) hxs hxe
      (by
        intro m hm0 hm1
        rcases abs_cases (ye - ys) with ⟨ha, hb⟩ | ⟨ha, hb⟩
        · by_cases hlt : ys < ye
          · rw [if_pos hlt]; omega
          · rw [if_neg hlt]; omega
        · have hlt : ¬ ys < ye := by omega
          rw [if_neg hlt]; omega)
      ((xe - xs).toNat + 1) 0 (by simp; omega) fuel (by omega)
    have e1 : lineErr (xe - xs) |ye - ys| ((0 : Nat) : Int) = (xe - xs) / 2 := by
      simp only [lineErr, Nat.cast_zero, zero_mul, sub_zero]
      exact Int.emod_eq_of_lt (by omega) (by omega)
    have e2 : lineMinor (xe - xs) |ye - ys| ((0 : Nat) : Int) = 0 := by
      simpa using lineMinor_zero hpos |ye - ys|
    rw [e1, e2] at hrec
    simp only [Nat.cast_zero, add_zero, mul_zero] at hrec
    rw [hrec, List.range_eq_range']

/-- The four outcomes of the two conditional swaps. -/
theorem lineNorm_cases (x0 y0 x1 y1 : Int) :
    (lineNorm x0 y0 x1 y1 = (false, (x0, y0), (x1, y1)) ∧ |y1 - y0| ≤ |x1 - x0| ∧ x0 ≤ x1) ∨
    (lineNorm x0 y0 x1 y1 = (false, (x1, y1), (x0, y0)) ∧ |y1 - y0| ≤ |x1 - x0| ∧ x1 < x0) ∨
    (lineNorm x0 y0 x1 y1 = (true, (y0, x0), (y1, x1)) ∧ |x1 - x0| < |y1 - y0| ∧ y0 ≤ y1) ∨
    (lineNorm x0 y0 x1 y1 = (true, (y1, x1), (y0, x0)) ∧ |x1 - x0| < |y1 - y0| ∧ y1 < y0) := by
  by_cases hs : |y1 - y0| > |x1 - x0|
  · by_cases hr : y0 > y1
    · refine Or.inr (Or.inr (Or.inr ⟨?_, hs, hr⟩))
      simp [lineNorm, hs, hr]
    · refine Or.inr (Or.inr (Or.inl ⟨?_, hs, not_lt.1 hr⟩))
      simp [lineNorm, hs, hr]
  · by_cases hr : x0 > x1
    · refine Or.inr (Or.inl ⟨?_, not_lt.1 hs, hr⟩)
      simp [lineNorm, hs, hr]
    · refine Or.inl ⟨?_, not_lt.1 hs, not_lt.1 hr⟩
      simp [lineNorm, hs, hr]

/-- After normalisation the dominant delta is the larger and the minor delta the smaller
of the two coordinate differences, and `steep` records which axis is dominant. -/
theorem lineNorm_props (x0 y0 x1 y1 : Int) :
    (lineNorm x0 y0 x1 y1).1 = decide (|y1 - y0| > |x1 - x0|) ∧
    (lineNorm x0 y0 x1 y1).2.2.1 - (lineNorm x0 y0 x1 y1).2.1.1 = max |x1 - x0| |y1 - y0| ∧
    |(lineNorm x0 y0 x1 y1).2.2.2 - (lineNorm x0 y0 x1 y1).2.1.2| = min |x1 - x0| |y1 - y0| := by
  rcases abs_cases (x1 - x0) with ⟨hax, hbx⟩ | ⟨hax, hbx⟩ <;>
  rcases abs_cases (y1 - y0) with ⟨hay, hby⟩ | ⟨hay, hby⟩ <;>
  rcases lineNorm_cases x0 y0 x1 y1 with ⟨hn, h1, h2⟩ | ⟨hn, h1, h2⟩ | ⟨hn, h1, h2⟩ |
    ⟨hn, h1, h2⟩ <;>
  · rw [hn]
    refine ⟨?_, ?_, ?_⟩
    · simp only []
      first
        | exact (decide_eq_true (by omega)).symm
        | exact (decide_eq_false (by omega)).symm
    · simp only []
      rcases max_cases |x1 - x0| |y1 - y0| with ⟨hm, _⟩ | ⟨hm, _⟩ <;> rw [hm] <;> omega
    · simp only []
      rcases min_cases |x1 - x0| |y1 - y0| with ⟨hm, _⟩ | ⟨hm, _⟩ <;> rw [hm] <;>
      first
        | omega
        | (rw [abs_sub_comm]; omega)
        | rw [abs_sub_comm]

/-- The two conditional swaps bring both orders of the endpoints to the same state. -/
theorem lineNorm_symm (x0 y0 x1 y1 : Int) : lineNorm x1 y1 x0 y0 = lineNorm x0 y0 x1 y1 := by
  have hA := lineNorm_cases x0 y0 x1 y1
  have hB := lineNorm_cases x1 y1 x0 y0
  rw [abs_sub_comm y0 y1, abs_sub_comm x0 x1] at hB
  rcases abs_cases (x1 - x0) with ⟨hax, hbx⟩ | ⟨hax, hbx⟩ <;>
  rcases abs_cases (y1 - y0) with ⟨hay, hby⟩ | ⟨hay, hby⟩ <;>
  rcases hA with ⟨hn, h1, h2⟩ | ⟨hn, h1, h2⟩ | ⟨hn, h1, h2⟩ | ⟨hn, h1, h2⟩ <;>
  rcases hB with ⟨hm, h3, h4⟩ | ⟨hm, h3, h4⟩ | ⟨hm, h3, h4⟩ | ⟨hm, h3, h4⟩ <;>
  first
    | (exfalso; omega)
    | (rw [hn, hm]; done)
    | (rw [hn, hm]
       have e1 : x0 = x1 := by omega
       have e2 : y0 = y1 := by omega
       rw [e1, e2])

/-- The line routine does the same in both directions, for every fuel and every input. -/
theorem line_symm (fuel : Nat) (x0 y0 x1 y1 : Int) :
    driver_framebuffer_line fuel x1 y1 x0 y0 = driver_framebuffer_line fuel x0 y0 x1 y1 := by
  unfold driver_framebuffer_line
  rw [lineNorm_symm]

/-- For in-range endpoints the line routine returns, and writes the closed form. -/
theorem line_closed {x0 y0 x1 y1 : Int} (hx0 : InRange x0) (hy0 : InRange y0)
    (hx1 : InRange x1) (hy1 : InRange y1) (fuel : Nat)
    (hf : (max |x1 - x0| |y1 - y0|).toNat + 2 ≤ fuel) :
    driver_framebuffer_line fuel x0 y0 x1 y1 = some (lineClosed x0 y0 x1 y1) := by
  unfold InRange at hx0 hy0 hx1 hy1
  unfold driver_framebuffer_line lineClosed
  rcases abs_cases (x1 - x0) with ⟨hax, hbx⟩ | ⟨hax, hbx⟩ <;>
  rcases abs_cases (y1 - y0) with ⟨hay, hby⟩ | ⟨hay, hby⟩ <;>
  rcases lineNorm_cases x0 y0 x1 y1 with ⟨hn, h1, h2⟩ | ⟨hn, h1, h2⟩ | ⟨hn, h1, h2⟩ | ⟨hn, h1, h2⟩ <;>
  · rw [hn]
    simp only []
    apply lineFrom_closed
    · omega
    · first
        | (rw [abs_sub_comm]; omega)
        | omega
    · omega
    · omega
    · omega
    · omega
    · omega
    · rcases max_cases |x1 - x0| |y1 - y0| with ⟨hm, _⟩ | ⟨hm, _⟩ <;> rw [hm] at hf <;> omega

/-- Consecutive pixels of the closed form: one step along the dominant axis, at most one
along the minor axis. -/
theorem linePixel_succ (steep : Bool) (xs ys ystep : Int) {dx dy : Int} (hd : 0 < dx)
    (hy0 : 0 ≤ dy) (hy : dy ≤ dx) (hstep : ystep = 1 ∨ ystep = -1) (k : Nat) :
    if steep then
      (linePixel steep xs ys ystep dx dy (k + 1)).2 = (linePixel steep xs ys ystep dx dy k).2 + 1 ∧
      |(linePixel steep xs ys ystep dx dy (k + 1)).1 - (linePixel steep xs ys ystep dx dy k).1| ≤ 1
    else
      (linePixel steep xs ys ystep dx dy (k + 1)).1 = (linePixel steep xs ys ystep dx dy k).1 + 1 ∧
      |(linePixel steep xs ys ystep dx dy (k + 1)).2 - (linePixel steep xs ys ystep dx dy k).2| ≤ 1 := by
  have hM := lineMinor_succ hd hy0 hy (k : Int)
  have hc : (((k + 1 : Nat)) : Int) = (k : Int) + 1 := by push_cast; ring
  cases steep <;> simp only [linePixel, hc, if_true, if_false, Bool.false_eq_true] <;>
  · refine ⟨by ring, ?_⟩
    rw [abs_le]
    rcases hM with h | h <;> rcases hstep with hs | hs <;> rw [h, hs] <;> constructor <;> linarith

/-- The closed form has no repeated pixel: the dominant coordinate determines `k`. -/
theorem lineClosed_nodup (x0 y0 x1 y1 : Int) : (lineClosed x0 y0 x1 y1).Nodup := by
  unfold lineClosed
  refine List.Nodup.map_on ?_ (List.nodup_range _)
  intro a _ b _ h
  have : (lineNorm x0 y0 x1 y1).2.1.1 + (a : Int) = (lineNorm x0 y0 x1 y1).2.1.1 + (b : Int) := by
    cases hs : (lineNorm x0 y0 x1 y1).1 <;> simp only [linePixel, hs] at h
    · exact congrArg Prod.fst h
    · exact congrArg Prod.snd h
  omega

/-- C1: for endpoints with all coordinates in `[-16383, 16383]`, `driver_framebuffer_line`
returns (given enough fuel) a pixel sequence of exactly `max(|x1-x0|, |y1-y0|) + 1` pixels
in which each pixel after the first is exactly one step further along the dominant axis
and at most one step away along the minor axis; no pixel is written twice. -/
theorem line_pixel_count_and_connectivity (x0 y0 x1 y1 : Int)
    (hx0 : InRange x0) (hy0 : InRange y0) (hx1 : InRange x1) (hy1 : InRange y1) :
    ∃ px : Pixels,
      (∀ fuel : Nat, (max |x1 - x0| |y1 - y0|).toNat + 2 ≤ fuel →
        driver_framebuffer_line fuel x0 y0 x1 y1 = some px) ∧
      (px.length : Int) = max |x1 - x0| |y1 - y0| + 1 ∧
      List.Chain' (fun p q : Int × Int =>
        if |y1 - y0| > |x1 - x0| then q.2 = p.2 + 1 ∧ |q.1 - p.1| ≤ 1
        else q.1 = p.1 + 1 ∧ |q.2 - p.2| ≤ 1) px ∧
      px.Nodup := by
  obtain ⟨hsteep, hD, hd⟩ := lineNorm_props x0 y0 x1 y1
  have hmax0 : 0 ≤ max |x1 - x0| |y1 - y0| := le_max_of_le_left (abs_nonneg _)
  have hmin0 : 0 ≤ min |x1 - x0| |y1 - y0| := le_min (abs_nonneg _) (abs_nonneg _)
  refine ⟨lineClosed x0 y0 x1 y1, fun fuel hf => line_closed hx0 hy0 hx1 hy1 fuel hf, ?_, ?_, ?_⟩
  · simp only [lineClosed, List.length_map, List.length_range, hD]
    push_cast
    rw [Int.toNat_of_nonneg hmax0]
  · simp only [lineClosed]
    rw [List.chain'_map, List.chain'_range_succ]
    intro m hm
    rw [hD] at hm ⊢
    rw [hd]
    have hpos : 0 < max |x1 - x0| |y1 - y0| := by omega
    have hstep : (if (lineNorm x0 y0 x1 y1).2.1.2 < (lineNorm x0 y0 x1 y1).2.2.2 then (1 : Int)
        else -1) = 1 ∨ (if (lineNorm x0 y0 x1 y1).2.1.2 < (lineNorm x0 y0 x1 y1).2.2.2
        then (1 : Int) else -1) = -1 := by
      split <;> simp
    have key := linePixel_succ (lineNorm x0 y0 x1 y1).1 (lineNorm x0 y0 x1 y1).2.1.1
      (lineNorm x0 y0 x1 y1).2.1.2 _ hpos hmin0 min_le_max hstep m
    rw [hsteep] at key ⊢
    by_cases hs : |y1 - y0| > |x1 - x0|
    · simp only [hs, decide_True, if_true] at key ⊢
      exact key
    · simp only [hs, decide_False, if_false, Bool.false_eq_true] at key ⊢
      exact key
  · exact lineClosed_nodup x0 y0 x1 y1

/-- C1 at the endpoints `(0, 0)` and `(7, 3)`. -/
theorem line_pixel_count_and_connectivity_witness :
    ∃ px : Pixels,
      (∀ fuel : Nat, (max |(7 : Int) - 0| |(3 : Int) - 0|).toNat + 2 ≤ fuel →
        driver_framebuffer_line fuel 0 0 7 3 = some px) ∧
      (px.length : Int) = max |(7 : Int) - 0| |(3 : Int) - 0| + 1 ∧
      List.Chain' (fun p q : Int × Int =>
        if |(3 : Int) - 0| > |(7 : Int) - 0| then q.2 = p.2 + 1 ∧ |q.1 - p.1| ≤ 1
        else q.1 = p.1 + 1 ∧ |q.2 - p.2| ≤ 1) px ∧
      px.Nodup :=
  line_pixel_count_and_connectivity 0 0 7 3 (by decide) (by decide) (by decide) (by decide)

/-- C6: for endpoints with all coordinates in `[-16383, 16383]`, drawing the line from
`p0` to `p1` and from `p1` to `p0` both return, with the identical pixel sequence. -/
theorem line_reversal_same_pixels (x0 y0 x1 y1 : Int)
    (hx0 : InRange x0) (hy0 : InRange y0) (hx1 : InRange x1) (hy1 : InRange y1) :
    ∃ px : Pixels, ∀ fuel : Nat, (max |x1 - x0| |y1 - y0|).toNat + 2 ≤ fuel →
      driver_framebuffer_line fuel x0 y0 x1 y1 = some px ∧
      driver_framebuffer_line fuel x1 y1 x0 y0 = some px := by
  refine ⟨lineClosed x0 y0 x1 y1, fun fuel hf => ?_⟩
  have h := line_closed hx0 hy0 hx1 hy1 fuel hf
  exact ⟨h, (line_symm fuel x0 y0 x1 y1).trans h⟩

/-- C6 at the endpoints `(0, 0)` and `(7, 3)`. -/
theorem line_reversal_same_pixels_witness :
    ∃ px : Pixels, ∀ fuel : Nat, (max |(7 : Int) - 0| |(3 : Int) - 0|).toNat + 2 ≤ fuel →
      driver_framebuffer_line fuel 0 0 7 3 = some px ∧
      driver_framebuffer_line fuel 7 3 0 0 = some px :=
  line_reversal_same_pixels 0 0 7 3 (by decide) (by decide) (by decide) (by decide)

theorem onSegment_symm (x0 y0 x1 y1 : Int) (p : Int × Int) :
    onSegment x1 y1 x0 y0 p ↔ onSegment x0 y0 x1 y1 p := by
  unfold onSegment
  rw [min_comm x1 x0, max_comm x1 x0, min_comm y1 y0, max_comm y1 y0]
  constructor <;> rintro ⟨h1, h2, h3, h4, h5⟩ <;> refine ⟨h1, h2, h3, h4, ?_⟩ <;>
    linear_combination (-1 : Int) * h5

theorem onSegment_transpose (x0 y0 x1 y1 : Int) (p : Int × Int) :
    onSegment y0 x0 y1 x1 (p.2, p.1) ↔ onSegment x0 y0 x1 y1 p := by
  unfold onSegment
  constructor <;> rintro ⟨h1, h2, h3, h4, h5⟩ <;> exact ⟨h3, h4, h1, h2, h5.symm⟩

theorem onSegment_horizontal {x x' : Int} (hx : x ≤ x') (y : Int) (p : Int × Int) :
    onSegment x y x' y p ↔ x ≤ p.1 ∧ p.1 ≤ x' ∧ p.2 = y := by
  unfold onSegment
  rw [min_eq_left hx, max_eq_right hx, min_self, max_self, sub_self, mul_zero]
  constructor
  · rintro ⟨h1, h2, h3, h4, _⟩
    exact ⟨h1, h2, le_antisymm h4 h3⟩
  · rintro ⟨h1, h2, h3⟩
    refine ⟨h1, h2, by omega, by omega, ?_⟩
    rw [h3, sub_self, zero_mul]

theorem onSegment_vertical (x : Int) {y y' : Int} (hy : y ≤ y') (p : Int × Int) :
    onSegment x y x y' p ↔ y ≤ p.2 ∧ p.2 ≤ y' ∧ p.1 = x := by
  rw [← onSegment_transpose, onSegment_horizontal hy]

/-- For a normalised line that is flat or an exact diagonal, the closed-form pixels are
the lattice points of the segment. -/
theorem closed_mem_onSegment {xs ys xe ye : Int} (hx : xs ≤ xe)
    (hflat : ye = ys ∨ |ye - ys| = xe - xs) (q : Int × Int) :
    (∃ k : Nat, k < (xe - xs).toNat + 1 ∧
      (xs + (k : Int), ys + (if ys < ye then 1 else -1) * lineMinor (xe - xs) |ye - ys| k) = q)
      ↔ onSegment xs ys xe ye q := by
  obtain ⟨q1, q2⟩ := q
  by_cases hye : ye = ys
  · subst hye
    simp only [sub_self, abs_zero, lineMinor_flat _ _ (sub_nonneg.2 hx), mul_zero, add_zero,
      onSegment, min_self, max_self, min_eq_left hx, max_eq_right hx, Prod.mk.injEq]
    constructor
    · rintro ⟨k, hk, rfl, rfl⟩
      refine ⟨by omega, by omega, le_rfl, le_rfl, by ring⟩
    · rintro ⟨h1, h2, h3, h4, _⟩
      exact ⟨(q1 - xs).toNat, by omega, by omega, by omega⟩
  · have habs : |ye - ys| = xe - xs := by
      rcases hflat with h | h
      · exact absurd h hye
      · exact h
    have hpos : 0 < xe - xs := by
      rcases abs_cases (ye - ys) with ⟨ha, hb⟩ | ⟨ha, hb⟩ <;> omega
    rw [habs]
    simp only [lineMinor_diag hpos, onSegment, min_eq_left hx, max_eq_right hx, Prod.mk.injEq]
    rcases abs_cases (ye - ys) with ⟨ha, hb⟩ | ⟨ha, hb⟩
    · have hlt : ys < ye := by omega
      have hd : ye - ys = xe - xs := by omega
      rw [if_pos hlt, min_eq_left (le_of_lt hlt), max_eq_right (le_of_lt hlt), hd]
      constructor
      · rintro ⟨k, hk, rfl, rfl⟩
        refine ⟨by omega, by omega, by omega, by omega, by ring⟩
      · rintro ⟨h1, h2, h3, h4, h5⟩
        have h6 : q1 - xs = q2 - ys := mul_right_cancel₀ (ne_of_gt hpos) h5
        exact ⟨(q1 - xs).toNat, by omega, by omega, by omega⟩
    · have hlt : ¬ ys < ye := by omega
      have hgt : ye ≤ ys := by omega
      have hd : ye - ys = -(xe - xs) := by omega
      rw [if_neg hlt, min_eq_right hgt, max_eq_left hgt, hd]
      constructor
      · rintro ⟨k, hk, rfl, rfl⟩
        refine ⟨by omega, by omega, by omega, by omega, by ring⟩
      · rintro ⟨h1, h2, h3, h4, h5⟩
        have h6 : -(q1 - xs) = q2 - ys := by
          apply mul_right_cancel₀ (ne_of_gt hpos)
          linear_combination h5
        exact ⟨(q1 - xs).toNat, by omega, by omega, by omega⟩

/-- Membership in the closed form of a flat or exactly diagonal normalised line. -/
theorem linePixel_mem_onSegment (steep : Bool) {xs ys xe ye : Int} (hx : xs ≤ xe)
    (hflat : ye = ys ∨ |ye - ys| = xe - xs) (q : Int × Int) :
    q ∈ (List.range ((xe - xs).toNat + 1)).map
        (linePixel steep xs ys (if ys < ye then 1 else -1) (xe - xs) |ye - ys|)
      ↔ onSegment xs ys xe ye (if steep then (q.2, q.1) else q) := by
  rw [List.mem_map]
  simp only [List.mem_range]
  cases steep
  · simp only [linePixel, Bool.false_eq_true, if_false]
    exact closed_mem_onSegment hx hflat q
  · simp only [linePixel, if_true]
    rw [← closed_mem_onSegment hx hflat (q.2, q.1)]
    constructor <;> rintro ⟨k, hk, h⟩ <;> refine ⟨k, hk, ?_⟩ <;>
      simp only [Prod.ext_iff] at h ⊢ <;> exact ⟨h.2, h.1⟩

/-- The closed form of a horizontal, vertical or exactly diagonal line consists of the
lattice points of its segment. -/
theorem lineClosed_mem_onSegment (x0 y0 x1 y1 : Int)
    (hcase : y0 = y1 ∨ x0 = x1 ∨ |x1 - x0| = |y1 - y0|) (p : Int × Int) :
    p ∈ lineClosed x0 y0 x1 y1 ↔ onSegment x0 y0 x1 y1 p := by
  unfold lineClosed
  rcases abs_cases (x1 - x0) with ⟨hax, hbx⟩ | ⟨hax, hbx⟩ <;>
  rcases abs_cases (y1 - y0) with ⟨hay, hby⟩ | ⟨hay, hby⟩ <;>
  rcases lineNorm_cases x0 y0 x1 y1 with ⟨hn, h1, h2⟩ | ⟨hn, h1, h2⟩ | ⟨hn, h1, h2⟩ |
    ⟨hn, h1, h2⟩ <;>
  · rw [hn]
    simp only []
    rw [linePixel_mem_onSegment _ (by omega)
      (by
        rcases hcase with h | h | h
        · exact Or.inl (by omega)
        · exact Or.inl (by omega)
        · first
            | exact Or.inl (by omega)
            | exact Or.inr (by rw [abs_sub_comm]; omega)
            | exact Or.inr (by omega))]
    simp only [if_true, if_false, Bool.false_eq_true]
    first
      | done
      | exact Iff.rfl
      | exact onSegment_symm x0 y0 x1 y1 p
      | exact onSegment_transpose x0 y0 x1 y1 p
      | exact (onSegment_symm y0 x0 y1 x1 (p.2, p.1)).trans (onSegment_transpose x0 y0 x1 y1 p)

/-- C7: a horizontal, vertical or exactly diagonal line with coordinates in
`[-16383, 16383]` writes exactly the lattice points of its segment. -/
theorem line_exact_on_lattice_segments (x0 y0 x1 y1 : Int)
    (hx0 : InRange x0) (hy0 : InRange y0) (hx1 : InRange x1) (hy1 : InRange y1)
    (hcase : y0 = y1 ∨ x0 = x1 ∨ |x1 - x0| = |y1 - y0|) :
    ∃ px : Pixels,
      (∀ fuel : Nat, (max |x1 - x0| |y1 - y0|).toNat + 2 ≤ fuel →
        driver_framebuffer_line fuel x0 y0 x1 y1 = some px) ∧
      ∀ p : Int × Int, p ∈ px ↔ onSegment x0 y0 x1 y1 p :=
  ⟨lineClosed x0 y0 x1 y1, fun fuel hf => line_closed hx0 hy0 hx1 hy1 fuel hf,
    lineClosed_mem_onSegment x0 y0 x1 y1 hcase⟩

/-- C7 at the lines `(0,0)-(4,0)` and `(0,0)-(4,4)`: both are returned with the five
lattice points of their segment. -/
theorem line_exact_on_lattice_segments_witness :
    (∃ px : Pixels,
      (∀ fuel : Nat, (max |(4 : Int) - 0| |(4 : Int) - 0|).toNat + 2 ≤ fuel →
        driver_framebuffer_line fuel 0 0 4 4 = some px) ∧
      ∀ p : Int × Int, p ∈ px ↔ onSegment 0 0 4 4 p) ∧
    driver_framebuffer_line 6 0 0 4 0 = some [(0, 0), (1, 0), (2, 0), (3, 0), (4, 0)] ∧
    driver_framebuffer_line 6 0 0 4 4 = some [(0, 0), (1, 1), (2, 2), (3, 3), (4, 4)] :=
  ⟨line_exact_on_lattice_segments 0 0 4 4 (by decide) (by decide) (by decide) (by decide)
    (Or.inr (Or.inr (by decide))), by decide, by decide⟩

/-- The step count at the last pixel is the whole minor delta. -/
theorem lineMinor_last {dx : Int} (hd : 0 < dx) (dy : Int) : lineMinor dx dy dx = dy := by
  unfold lineMinor
  have h : dx / 2 - dx * dy = dx / 2 + (-dy) * dx := by ring
  rw [h, Int.add_mul_ediv_right _ _ (ne_of_gt hd), Int.ediv_eq_zero_of_lt (by omega) (by omega)]
  ring

/-- The pixel at dominant offset `k` is within half a pixel of the ideal segment. -/
theorem lineMinor_half_pixel {dx dy : Int} (hd : 0 < dx) (k : Int) :
    2 * |lineMinor dx dy k * dx - k * dy| ≤ dx := by
  have hrel := lineErr_add dx dy k
  have h0 := lineErr_nonneg hd dy k
  have h1 := lineErr_lt hd dy k
  have he : lineMinor dx dy k * dx - k * dy = lineErr dx dy k - dx / 2 := by linarith
  rw [he]
  rcases abs_cases (lineErr dx dy k - dx / 2) with ⟨ha, _⟩ | ⟨ha, _⟩ <;> rw [ha] <;> omega

/-- The closed form, element by element. -/
theorem lineClosed_getElem (x0 y0 x1 y1 : Int) (k : Nat)
    (hk : k ≤ ((lineNorm x0 y0 x1 y1).2.2.1 - (lineNorm x0 y0 x1 y1).2.1.1).toNat) :
    (lineClosed x0 y0 x1 y1)[k]? =
      some (linePixel (lineNorm x0 y0 x1 y1).1 (lineNorm x0 y0 x1 y1).2.1.1
        (lineNorm x0 y0 x1 y1).2.1.2
        (if (lineNorm x0 y0 x1 y1).2.1.2 < (lineNorm x0 y0 x1 y1).2.2.2 then 1 else -1)
        ((lineNorm x0 y0 x1 y1).2.2.1 - (lineNorm x0 y0 x1 y1).2.1.1)
        |(lineNorm x0 y0 x1 y1).2.2.2 - (lineNorm x0 y0 x1 y1).2.1.2| k) := by
  unfold lineClosed
  rw [List.getElem?_map, List.getElem?_range (by omega)]
  rfl

/-- The normalised start and end are the two endpoints of the call, in one of the two
orders (with the coordinates exchanged for a steep line). -/
theorem lineNorm_endpoints (x0 y0 x1 y1 : Int) :
    let n := lineNorm x0 y0 x1 y1
    let a : Int × Int := if n.1 then (n.2.1.2, n.2.1.1) else n.2.1
    let b : Int × Int := if n.1 then (n.2.2.2, n.2.2.1) else n.2.2
    (a = (x0, y0) ∧ b = (x1, y1)) ∨ (a = (x1, y1) ∧ b = (x0, y0)) := by
  rcases lineNorm_cases x0 y0 x1 y1 with ⟨hn, _, _⟩ | ⟨hn, _, _⟩ | ⟨hn, _, _⟩ | ⟨hn, _, _⟩ <;>
    simp [hn]


/-- C18: for in-range endpoints with dominant delta `D = max(|x1-x0|, |y1-y0|) > 0` and
minor delta `d = min(|x1-x0|, |y1-y0|)`, the pixel written at dominant offset `k ≤ D` from
the normalised start lies `m` minor steps towards the other endpoint, with `0 ≤ m ≤ d` and
`2 * |m * D - k * d| ≤ D`; the first and the last pixel written are the two endpoints. -/
theorem line_within_half_pixel (x0 y0 x1 y1 : Int)
    (hx0 : InRange x0) (hy0 : InRange y0) (hx1 : InRange x1) (hy1 : InRange y1)
    (hD : 0 < max |x1 - x0| |y1 - y0|) :
    ∃ px : Pixels,
      (∀ fuel : Nat, (max |x1 - x0| |y1 - y0|).toNat + 2 ≤ fuel →
        driver_framebuffer_line fuel x0 y0 x1 y1 = some px) ∧
      (∀ k : Nat, (k : Int) ≤ max |x1 - x0| |y1 - y0| →
        ∃ m : Int, 0 ≤ m ∧ m ≤ min |x1 - x0| |y1 - y0| ∧
          px[k]? = some
            (if (lineNorm x0 y0 x1 y1).1 then
              ((lineNorm x0 y0 x1 y1).2.1.2 +
                (if (lineNorm x0 y0 x1 y1).2.1.2 < (lineNorm x0 y0 x1 y1).2.2.2 then 1 else -1) * m,
               (lineNorm x0 y0 x1 y1).2.1.1 + k)
            else
              ((lineNorm x0 y0 x1 y1).2.1.1 + k,
               (lineNorm x0 y0 x1 y1).2.1.2 +
                (if (lineNorm x0 y0 x1 y1).2.1.2 < (lineNorm x0 y0 x1 y1).2.2.2 then 1 else -1) * m)) ∧
          2 * abs (m * max |x1 - x0| |y1 - y0| - k * min |x1 - x0| |y1 - y0|)
            ≤ max |x1 - x0| |y1 - y0|) ∧
      ∃ a b : Int × Int, px[0]? = some a ∧ px[(max |x1 - x0| |y1 - y0|).toNat]? = some b ∧
        ((a = (x0, y0) ∧ b = (x1, y1)) ∨ (a = (x1, y1) ∧ b = (x0, y0))) := by
  obtain ⟨hsteep, hDn, hdn⟩ := lineNorm_props x0 y0 x1 y1
  have hmin0 : 0 ≤ min |x1 - x0| |y1 - y0| := le_min (abs_nonneg _) (abs_nonneg _)
  have hmm : min |x1 - x0| |y1 - y0| ≤ max |x1 - x0| |y1 - y0| := min_le_max
  have hget := lineClosed_getElem x0 y0 x1 y1
  rw [hDn, hdn] at hget
  refine ⟨lineClosed x0 y0 x1 y1, fun fuel hf => line_closed hx0 hy0 hx1 hy1 fuel hf, ?_, ?_⟩
  · intro k hk
    have hhalf := @lineMinor_half_pixel _ (min |x1 - x0| |y1 - y0|) hD (k : Int)
    have hb := lineMinor_bounds hD hmin0 hmm (k : Int) (by omega) (by omega)
    refine ⟨lineMinor (max |x1 - x0| |y1 - y0|) (min |x1 - x0| |y1 - y0|) k, hb.1, ?_, ?_, hhalf⟩
    · -- `m ≤ d`: otherwise `m * D - k * d ≥ D`
      by_contra hc
      have h1 : min |x1 - x0| |y1 - y0| + 1 ≤
          lineMinor (max |x1 - x0| |y1 - y0|) (min |x1 - x0| |y1 - y0|) k := by omega
      have h2 := mul_le_mul_of_nonneg_right h1 (le_of_lt hD)
      have h3 : (k : Int) * min |x1 - x0| |y1 - y0|
          ≤ max |x1 - x0| |y1 - y0| * min |x1 - x0| |y1 - y0| :=
        mul_le_mul_of_nonneg_right hk hmin0
      have h4 := le_abs_self (lineMinor (max |x1 - x0| |y1 - y0|) (min |x1 - x0| |y1 - y0|) k *
          max |x1 - x0| |y1 - y0| - k * min |x1 - x0| |y1 - y0|)
      nlinarith
    · rw [hget k (by omega)]
      cases hs : (lineNorm x0 y0 x1 y1).1 <;> simp [linePixel, hs]
  · have h0 := hget 0 (by omega)
    have hl := hget (max |x1 - x0| |y1 - y0|).toNat le_rfl
    refine ⟨_, _, h0, hl, ?_⟩
    have hend := lineNorm_endpoints x0 y0 x1 y1
    simp only [linePixel, Nat.cast_zero, lineMinor_zero hD, mul_zero, add_zero,
      Int.toNat_of_nonneg (le_of_lt hD), lineMinor_last hD] at hend ⊢
    have hye : (lineNorm x0 y0 x1 y1).2.1.2 +
        (if (lineNorm x0 y0 x1 y1).2.1.2 < (lineNorm x0 y0 x1 y1).2.2.2 then 1 else -1) *
          min |x1 - x0| |y1 - y0| = (lineNorm x0 y0 x1 y1).2.2.2 := by
      rw [← hdn]
      rcases abs_cases ((lineNorm x0 y0 x1 y1).2.2.2 - (lineNorm x0 y0 x1 y1).2.1.2)
        with ⟨ha, hb⟩ | ⟨ha, hb⟩ <;> rw [ha] <;> split <;> omega
    have hxe : (lineNorm x0 y0 x1 y1).2.1.1 + max |x1 - x0| |y1 - y0|
        = (lineNorm x0 y0 x1 y1).2.2.1 := by
      rw [← hDn]; ring
    rw [hye, hxe]
    exact hend

/-- C18 at the endpoints `(0, 0)` and `(7, 3)`. -/
theorem line_within_half_pixel_witness :
    ∃ px : Pixels,
      (∀ fuel : Nat, (max |(7 : Int) - 0| |(3 : Int) - 0|).toNat + 2 ≤ fuel →
        driver_framebuffer_line fuel 0 0 7 3 = some px) ∧
      (∀ k : Nat, (k : Int) ≤ max |(7 : Int) - 0| |(3 : Int) - 0| →
        ∃ m : Int, 0 ≤ m ∧ m ≤ min |(7 : Int) - 0| |(3 : Int) - 0| ∧
          px[k]? = some
            (if (lineNorm 0 0 7 3).1 then
              ((lineNorm 0 0 7 3).2.1.2 +
                (if (lineNorm 0 0 7 3).2.1.2 < (lineNorm 0 0 7 3).2.2.2 then 1 else -1) * m,
               (lineNorm 0 0 7 3).2.1.1 + k)
            else
              ((lineNorm 0 0 7 3).2.1.1 + k,
               (lineNorm 0 0 7 3).2.1.2 +
                (if (lineNorm 0 0 7 3).2.1.2 < (lineNorm 0 0 7 3).2.2.2 then 1 else -1) * m)) ∧
          2 * abs (m * max |(7 : Int) - 0| |(3 : Int) - 0| - k * min |(7 : Int) - 0| |(3 : Int) - 0|)
            ≤ max |(7 : Int) - 0| |(3 : Int) - 0|) ∧
      ∃ a b : Int × Int, px[0]? = some a ∧ px[(max |(7 : Int) - 0| |(3 : Int) - 0|).toNat]? = some b ∧
        ((a = (0, 0) ∧ b = (7, 3)) ∨ (a = (7, 3) ∧ b = (0, 0))) :=
  line_within_half_pixel 0 0 7 3 (by decide) (by decide) (by decide) (by decide) (by decide)

theorem wrap16_le (v : Int) : wrap16 v ≤ 32767 := by
  unfold wrap16; omega

/-- With the end coordinate `x1 = 32767` the loop condition `x0 <= x1` holds for every
16-bit `x0`, so the loop never exits: it runs out of every fuel. -/
theorem lineLoop_diverges (steep : Bool) (dx dy ystep : Int) :
    ∀ (fuel : Nat) (x0 y0 err : Int), x0 ≤ 32767 →
      lineLoop steep 32767 dx dy ystep fuel x0 y0 err = none := by
  intro fuel
  induction fuel with
  | zero => intro x0 y0 err _; rfl
  | succ f ih =>
    intro x0 y0 err hx
    rw [lineLoop, if_pos hx]
    simp only []
    rw [ih _ _ _ (wrap16_le _)]
    rfl

/-- C15, failing input: the line from `(0, 0)` to `(32767, 0)` does not terminate; after
the pixel `(32767, 0)` the counter wraps to `-32768` and the loop goes on. -/
theorem line_diverges_at_int16_max (fuel : Nat) :
    driver_framebuffer_line fuel 0 0 32767 0 = none := by
  have hn : lineNorm 0 0 32767 0 = (false, (0, 0), (32767, 0)) := by decide
  unfold driver_framebuffer_line
  rw [hn]
  exact lineLoop_diverges _ _ _ _ _ _ _ _ (by decide)


/-- Below the 16-bit maximum the loop exits after `x1 - x0 + 1` iterations, whatever the
(possibly wrapped) values of the other variables are. -/
theorem lineLoop_terminates (steep : Bool) (x1 dx dy ystep : Int) (hx1 : x1 ≤ 32766) :
    ∀ (n : Nat) (x0 y0 err : Int), -32768 ≤ x0 → x0 + n = x1 + 1 →
      ∃ px : Pixels, px.length = n ∧
        ∀ fuel : Nat, n + 1 ≤ fuel → lineLoop steep x1 dx dy ystep fuel x0 y0 err = some px := by
  intro n
  induction n with
  | zero =>
    intro x0 y0 err _ hn
    refine ⟨[], rfl, fun fuel hf => ?_⟩
    obtain ⟨f, rfl⟩ : ∃ f, fuel = f + 1 := ⟨fuel - 1, by omega⟩
    have : ¬ x0 ≤ x1 := by push_cast at hn; omega
    rw [lineLoop, if_neg this]
  | succ n ih =>
    intro x0 y0 err hlo hn
    have hle : x0 ≤ x1 := by push_cast at hn; omega
    have hw : wrap16 (x0 + 1) = x0 + 1 := wrap16_of_range (by omega) (by omega)
    obtain ⟨px, hlen, hpx⟩ := ih (x0 + 1)
      (if wrap16 (err - dy) < 0 then wrap16 (y0 + ystep) else y0)
      (if wrap16 (err - dy) < 0 then wrap16 (wrap16 (err - dy) + dx) else wrap16 (err - dy))
      (by omega) (by push_cast at hn ⊢; omega)
    refine ⟨(if steep then (y0, x0) else (x0, y0)) :: px, by simp [hlen], fun fuel hf => ?_⟩
    obtain ⟨f, rfl⟩ : ∃ f, fuel = f + 1 := ⟨fuel - 1, by omega⟩
    rw [lineLoop, if_pos hle]
    simp only [hw]
    rw [hpx f (by omega)]
    rfl

/-! ## Rectangle -/

/-- The closed form of a vertical line drawn downwards: the column from `y` to `y'`. -/
theorem lineClosed_vertical (i y y' : Int) (hy : y ≤ y') :
    lineClosed i y i y' = (List.range ((y' - y).toNat + 1)).map (fun k : Nat => (i, y + (k : Int))) := by
  unfold lineClosed
  rcases abs_cases (y' - y) with ⟨hay, hby⟩ | ⟨hay, hby⟩ <;>
  rcases lineNorm_cases i y i y' with ⟨hn, h1, h2⟩ | ⟨hn, h1, h2⟩ | ⟨hn, h1, h2⟩ |
    ⟨hn, h1, h2⟩ <;>
  simp only [sub_self, abs_zero] at h1 <;>
  first
    | (exfalso; omega)
    | (rw [hn]
       have e : y' = y := by omega
       subst e
       simp [linePixel, lineMinor_dx_zero, List.range_succ])
    | (rw [hn]
       refine List.map_congr_left (fun k _ => ?_)
       simp only [sub_self, abs_zero, linePixel, if_true,
         lineMinor_flat _ _ (sub_nonneg.2 hy), mul_zero, add_zero])

/-- A vertical line drawn downwards within range writes its column, top to bottom. -/
theorem line_vertical {i y y' : Int} (hi : InRange i) (hy : InRange y) (hy' : InRange y')
    (hle : y ≤ y') (fuel : Nat) (hf : (y' - y).toNat + 2 ≤ fuel) :
    driver_framebuffer_line fuel i y i y'
      = some ((List.range ((y' - y).toNat + 1)).map (fun k : Nat => (i, y + (k : Int)))) := by
  rw [← lineClosed_vertical i y y' hle]
  apply line_closed hi hy hi hy'
  rw [sub_self, abs_zero, max_eq_right (abs_nonneg _), abs_of_nonneg (sub_nonneg.2 hle)]
  exact hf

/-- The column loop of the filled rectangle: from column `x + j` on, it writes the
remaining columns, each from top to bottom. -/
theorem rectFillLoop_closed {x y w h : Int} (hx : InRange x) (hy : InRange y)
    (hh : 1 ≤ h) (hxw : InRange (x + w - 1)) (hyh : InRange (y + h - 1))
    (lineFuel : Nat) (hlf : h.toNat + 1 ≤ lineFuel) :
    ∀ (n j : Nat), (j : Int) + n = w → ∀ fuel : Nat, n + 1 ≤ fuel →
      rectFillLoop lineFuel x y w h fuel (x + j)
        = some ((List.range' j n).flatMap (fun c : Nat =>
            (List.range h.toNat).map (fun k : Nat => (x + (c : Int), y + (k : Int))))) := by
  unfold InRange at hx hy hxw hyh
  intro n
  induction n with
  | zero =>
    intro j hj fuel hf
    obtain ⟨f, rfl⟩ : ∃ f, fuel = f + 1 := ⟨fuel - 1, by omega⟩
    have : ¬ (x + (j : Int) < x + w) := by push_cast at hj; omega
    simp [rectFillLoop, this]
  | succ n ih =>
    intro j hj fuel hf
    obtain ⟨f, rfl⟩ : ∃ f, fuel = f + 1 := ⟨fuel - 1, by omega⟩
    have hlt : x + (j : Int) < x + w := by push_cast at hj; omega
    have hwy : wrap16 (y + h - 1) = y + h - 1 := wrap16_of_range (by omega) (by omega)
    have hwi : wrap16 (x + (j : Int) + 1) = x + ((j + 1 : Nat) : Int) := by
      push_cast at hj ⊢
      rw [wrap16_of_range (by omega) (by omega)]; ring
    have hcol := @line_vertical (x + (j : Int)) y (y + h - 1)
      (by unfold InRange; push_cast at hj; omega) (by unfold InRange; omega)
      (by unfold InRange; omega) (by omega) lineFuel (by omega)
    have hcount : (y + h - 1 - y).toNat + 1 = h.toNat := by omega
    rw [hcount] at hcol
    rw [rectFillLoop, if_pos hlt, hwy, hcol]
    simp only [hwi]
    rw [ih (j + 1) (by push_cast at hj ⊢; omega) f (by omega)]
    simp [List.range'_succ]

/-- The pixels of a block written column by column, each column top to bottom. -/
theorem block_mem (x y : Int) (w h : Nat) (p : Int × Int) :
    p ∈ (List.range' 0 w).flatMap (fun c : Nat =>
        (List.range h).map (fun k : Nat => (x + (c : Int), y + (k : Int))))
      ↔ x ≤ p.1 ∧ p.1 < x + w ∧ y ≤ p.2 ∧ p.2 < y + h := by
  obtain ⟨p1, p2⟩ := p
  simp only [List.mem_flatMap, List.mem_map, List.mem_range, List.mem_range', Prod.mk.injEq]
  constructor
  · rintro ⟨c, ⟨i, hi, rfl⟩, k, hk, rfl, rfl⟩
    refine ⟨by omega, by omega, by omega, by omega⟩
  · rintro ⟨h1, h2, h3, h4⟩
    exact ⟨(p1 - x).toNat, ⟨(p1 - x).toNat, by omega, by omega⟩, (p2 - y).toNat, by omega,
      by omega, by omega⟩

theorem block_nodup (x y : Int) (w h : Nat) :
    ((List.range' 0 w).flatMap (fun c : Nat =>
        (List.range h).map (fun k : Nat => (x + (c : Int), y + (k : Int))))).Nodup := by
  rw [List.nodup_flatMap]
  constructor
  · intro c _
    refine List.Nodup.map_on ?_ (List.nodup_range _)
    intro a _ b _ hab
    have := congrArg Prod.snd hab
    simp only at this
    omega
  · refine List.Pairwise.imp_of_mem ?_ (List.nodup_range' 0 w)
    intro a b _ _ hab
    simp only [Function.onFun, List.disjoint_left, List.mem_map, List.mem_range, not_exists,
      not_and]
    rintro p ⟨k, _, rfl⟩ k' _ h'
    have := congrArg Prod.fst h'
    simp only at this
    omega

theorem block_length (x y : Int) (h : Nat) : ∀ (w s : Nat),
    ((List.range' s w).flatMap (fun c : Nat =>
        (List.range h).map (fun k : Nat => (x + (c : Int), y + (k : Int))))).length = w * h := by
  intro w
  induction w with
  | zero => intro s; simp
  | succ w ih =>
    intro s
    rw [List.range'_succ, List.flatMap_cons, List.length_append, ih (s + 1)]
    simp only [List.length_map, List.length_range]
    ring

/-- C2: with `w ≥ 1`, `h ≥ 1` and the corners `(x, y)`, `(x + w - 1, y + h - 1)` in
`[-16383, 16383]`, the filled rectangle returns (given enough fuel) and writes every pixel
of the block `x ≤ i < x + w`, `y ≤ j < y + h` exactly once and no other pixel. -/
theorem rect_filled_each_pixel_once (x y w h : Int) (hx : InRange x) (hy : InRange y)
    (hw : 1 ≤ w) (hh : 1 ≤ h) (hxw : InRange (x + w - 1)) (hyh : InRange (y + h - 1)) :
    ∃ px : Pixels,
      (∀ fuel : Nat, w.toNat + 1 ≤ fuel → h.toNat + 1 ≤ fuel →
        driver_framebuffer_rect fuel x y w h true = some px) ∧
      (px.length : Int) = w * h ∧ px.Nodup ∧
      ∀ p : Int × Int, p ∈ px ↔ x ≤ p.1 ∧ p.1 < x + w ∧ y ≤ p.2 ∧ p.2 < y + h := by
  have hcw : ((w.toNat : Nat) : Int) = w := Int.toNat_of_nonneg (by omega)
  have hch : ((h.toNat : Nat) : Int) = h := Int.toNat_of_nonneg (by omega)
  refine ⟨(List.range' 0 w.toNat).flatMap (fun c : Nat =>
        (List.range h.toNat).map (fun k : Nat => (x + (c : Int), y + (k : Int)))),
    ?_, ?_, block_nodup x y w.toNat h.toNat, ?_⟩
  · intro fuel hf1 hf2
    have := rectFillLoop_closed hx hy hh hxw hyh fuel hf2 w.toNat 0
      (by push_cast; omega) fuel hf1
    simpa [driver_framebuffer_rect] using this
  · rw [block_length]
    push_cast
    rw [hcw, hch]
  · intro p
    have hm := block_mem x y w.toNat h.toNat p
    rw [hcw, hch] at hm
    exact hm

/-- C2 at the 3 by 3 block at the origin: the nine pixels, each written once. -/
theorem rect_filled_each_pixel_once_witness :
    (∃ px : Pixels,
      (∀ fuel : Nat, (3 : Int).toNat + 1 ≤ fuel → (3 : Int).toNat + 1 ≤ fuel →
        driver_framebuffer_rect fuel 0 0 3 3 true = some px) ∧
      (px.length : Int) = 3 * 3 ∧ px.Nodup ∧
      ∀ p : Int × Int, p ∈ px ↔ (0 : Int) ≤ p.1 ∧ p.1 < 0 + 3 ∧ (0 : Int) ≤ p.2 ∧ p.2 < 0 + 3) ∧
    driver_framebuffer_rect 4 0 0 3 3 true
      = some [(0, 0), (0, 1), (0, 2), (1, 0), (1, 1), (1, 2), (2, 0), (2, 1), (2, 2)] :=
  ⟨rect_filled_each_pixel_once 0 0 3 3 (by decide) (by decide) (by decide) (by decide)
    (by decide) (by decide), by decide⟩

/-- C3: with `w ≥ 1`, `h ≥ 1` and the corners in `[-16383, 16383]`, the outlined rectangle
returns (given enough fuel) and the pixels it writes are exactly the boundary pixels of the
block: those of the block with `i = x`, `i = x + w - 1`, `j = y` or `j = y + h - 1`. -/
theorem rect_outline_is_boundary (x y w h : Int) (hx : InRange x) (hy : InRange y)
    (hw : 1 ≤ w) (hh : 1 ≤ h) (hxw : InRange (x + w - 1)) (hyh : InRange (y + h - 1)) :
    ∃ px : Pixels,
      (∀ fuel : Nat, w.toNat + 1 ≤ fuel → h.toNat + 1 ≤ fuel →
        driver_framebuffer_rect fuel x y w h false = some px) ∧
      ∀ p : Int × Int, p ∈ px ↔
        (x ≤ p.1 ∧ p.1 ≤ x + w - 1 ∧ y ≤ p.2 ∧ p.2 ≤ y + h - 1 ∧
          (p.1 = x ∨ p.1 = x + w - 1 ∨ p.2 = y ∨ p.2 = y + h - 1)) := by
  have hwx : wrap16 (x + w - 1) = x + w - 1 := by
    unfold InRange at hxw; exact wrap16_of_range (by omega) (by omega)
  have hwy : wrap16 (y + h - 1) = y + h - 1 := by
    unfold InRange at hyh; exact wrap16_of_range (by omega) (by omega)
  have hxle : x ≤ x + w - 1 := by omega
  have hyle : y ≤ y + h - 1 := by omega
  have eh : |x + w - 1 - x| = w - 1 := by rw [abs_of_nonneg (by omega)]; ring
  have ev : |y + h - 1 - y| = h - 1 := by rw [abs_of_nonneg (by omega)]; ring
  refine ⟨lineClosed x y (x + w - 1) y ++ lineClosed x (y + h - 1) (x + w - 1) (y + h - 1)
    ++ lineClosed x y x (y + h - 1) ++ lineClosed (x + w - 1) y (x + w - 1) (y + h - 1), ?_, ?_⟩
  · intro fuel hf1 hf2
    have hfh : (max |x + w - 1 - x| |y - y|).toNat + 2 ≤ fuel := by
      rw [eh, sub_self, abs_zero, max_eq_left (by omega)]; omega
    have hfh' : (max |x + w - 1 - x| |y + h - 1 - (y + h - 1)|).toNat + 2 ≤ fuel := by
      rw [eh, sub_self, abs_zero, max_eq_left (by omega)]; omega
    have hfv : (max |x - x| |y + h - 1 - y|).toNat + 2 ≤ fuel := by
      rw [ev, sub_self, abs_zero, max_eq_right (by omega)]; omega
    have hfv' : (max |x + w - 1 - (x + w - 1)| |y + h - 1 - y|).toNat + 2 ≤ fuel := by
      rw [ev, sub_self, abs_zero, max_eq_right (by omega)]; omega
    simp only [driver_framebuffer_rect, Bool.false_eq_true, if_false, hwx, hwy,
      line_closed hx hy hxw hy fuel hfh, line_closed hx hyh hxw hyh fuel hfh',
      line_closed hx hy hx hyh fuel hfv, line_closed hxw hy hxw hyh fuel hfv']
  · intro p
    simp only [List.mem_append,
      lineClosed_mem_onSegment x y (x + w - 1) y (Or.inl rfl),
      lineClosed_mem_onSegment x (y + h - 1) (x + w - 1) (y + h - 1) (Or.inl rfl),
      lineClosed_mem_onSegment x y x (y + h - 1) (Or.inr (Or.inl rfl)),
      lineClosed_mem_onSegment (x + w - 1) y (x + w - 1) (y + h - 1) (Or.inr (Or.inl rfl)),
      onSegment_horizontal hxle, onSegment_vertical _ hyle]
    omega

/-- C3 at the 3 by 3 block at the origin: the writes are the eight boundary pixels (the
corners twice), and the centre `(1, 1)` is not written. -/
theorem rect_outline_is_boundary_witness :
    (∃ px : Pixels,
      (∀ fuel : Nat, (3 : Int).toNat + 1 ≤ fuel → (3 : Int).toNat + 1 ≤ fuel →
        driver_framebuffer_rect fuel 0 0 3 3 false = some px) ∧
      ∀ p : Int × Int, p ∈ px ↔
        ((0 : Int) ≤ p.1 ∧ p.1 ≤ 0 + 3 - 1 ∧ (0 : Int) ≤ p.2 ∧ p.2 ≤ 0 + 3 - 1 ∧
          (p.1 = 0 ∨ p.1 = 0 + 3 - 1 ∨ p.2 = 0 ∨ p.2 = 0 + 3 - 1))) ∧
    driver_framebuffer_rect 4 0 0 3 3 false
      = some [(0, 0), (1, 0), (2, 0), (0, 2), (1, 2), (2, 2),
          (0, 0), (0, 1), (0, 2), (2, 0), (2, 1), (2, 2)] ∧
    ([(0, 0), (1, 0), (2, 0), (0, 2), (1, 2), (2, 2),
          (0, 0), (0, 1), (0, 2), (2, 0), (2, 1), (2, 2)] : Pixels).dedup.length = 8 ∧
    ((1, 1) : Int × Int) ∉ ([(0, 0), (1, 0), (2, 0), (0, 2), (1, 2), (2, 2),
          (0, 0), (0, 1), (0, 2), (2, 0), (2, 1), (2, 2)] : Pixels) :=
  ⟨rect_outline_is_boundary 0 0 3 3 (by decide) (by decide) (by decide) (by decide)
    (by decide) (by decide), by decide, by decide, by decide⟩

/-- C9, counterexample: a rectangle of height 0 in filled mode, and rectangles of width 0
or height 0 in outline mode, do write pixels: the line routine draws the reversed
segment from `y` to `y - 1` (or from `x` to `x - 1`). -/
theorem rect_zero_size_writes_pixels :
    driver_framebuffer_rect 4 0 0 1 0 true = some [(0, -1), (0, 0)] ∧
    driver_framebuffer_rect 4 0 0 0 1 false
      = some [(-1, 0), (0, 0), (-1, 0), (0, 0), (0, 0), (-1, 0)] ∧
    driver_framebuffer_rect 4 0 0 1 0 false
      = some [(0, 0), (0, -1), (0, -1), (0, 0), (0, -1), (0, 0)] := by
  refine ⟨by decide, by decide, by decide⟩

/-- C9, amended: in filled mode a rectangle of width 0 writes no pixel, for every origin
and every height: the column loop does not run. -/
theorem rect_filled_zero_width_empty (fuel : Nat) (x y h : Int) :
    driver_framebuffer_rect (fuel + 1) x y 0 h true = some [] := by
  simp [driver_framebuffer_rect, rectFillLoop]

/-! ## Binary floating point -/

theorem roundEven_cases (t : ℚ) : roundEven t = ⌊t⌋ ∨ roundEven t = ⌊t⌋ + 1 := by
  unfold roundEven
  simp only []
  split_ifs <;> simp

theorem roundEven_sub_le (t : ℚ) : |(roundEven t : ℚ) - t| ≤ 1 / 2 := by
  have h1 := Int.floor_le t
  have h2 := Int.lt_floor_add_one t
  unfold roundEven
  simp only []
  rw [abs_le]
  split_ifs with a b c <;> push_cast <;> constructor <;> linarith

theorem roundEven_intCast (z : Int) : roundEven (z : ℚ) = z := by
  unfold roundEven
  simp

theorem roundEven_mono {t u : ℚ} (h : t ≤ u) : roundEven t ≤ roundEven u := by
  have hf : ⌊t⌋ ≤ ⌊u⌋ := Int.floor_mono h
  rcases lt_or_eq_of_le hf with hlt | heq
  · have a := roundEven_cases t
    have b := roundEven_cases u
    omega
  · unfold roundEven
    simp only []
    rw [← heq]
    have hr : t - ⌊t⌋ ≤ u - ⌊t⌋ := by linarith
    split_ifs <;> first | omega | (exfalso; linarith)

theorem roundEven_nonneg {t : ℚ} (h : 0 ≤ t) : 0 ≤ roundEven t := by
  have := roundEven_mono h
  rwa [show ((0 : ℚ)) = ((0 : Int) : ℚ) by simp, roundEven_intCast] at this

theorem roundEven_le_of_le {t : ℚ} {z : Int} (h : t ≤ z) : roundEven t ≤ z := by
  have := roundEven_mono h
  rwa [roundEven_intCast] at this

theorem le_roundEven_of_le {t : ℚ} {z : Int} (h : (z : ℚ) ≤ t) : z ≤ roundEven t := by
  have := roundEven_mono h
  rwa [roundEven_intCast] at this

theorem two_zpow_pos (k : Int) : (0 : ℚ) < (2 : ℚ) ^ k := zpow_pos (by norm_num) k

theorem log2Fuel_bounds : ∀ (fuel n : Nat), n ≠ 0 → n ≤ fuel →
    2 ^ log2Fuel fuel n ≤ n ∧ n < 2 ^ (log2Fuel fuel n + 1)
  | 0, n, h0, hf => absurd (Nat.le_zero.1 hf) h0
  | fuel + 1, n, h0, hf => by
    unfold log2Fuel
    split_ifs with h2
    · constructor
      · simp; omega
      · simp; omega
    · have hd : n / 2 ≠ 0 := by omega
      have hdf : n / 2 ≤ fuel := by omega
      obtain ⟨a, b⟩ := log2Fuel_bounds fuel (n / 2) hd hdf
      constructor
      · rw [pow_succ]
        have := (Nat.le_div_iff_mul_le (by norm_num : 0 < 2)).1 a
        omega
      · rw [pow_succ]
        have := (Nat.div_lt_iff_lt_mul (by norm_num : 0 < 2)).1 b
        omega

theorem ilog2_bounds {q : ℚ} (hq : q ≠ 0) :
    (2 : ℚ) ^ ilog2 q ≤ |q| ∧ |q| < (2 : ℚ) ^ (ilog2 q + 1) := by
  have hn : q.num.natAbs ≠ 0 := by
    simpa using Rat.num_ne_zero.2 hq
  have hd : q.den ≠ 0 := q.den_nz
  obtain ⟨n1, n2⟩ := log2Fuel_bounds _ _ hn le_rfl
  obtain ⟨d1, d2⟩ := log2Fuel_bounds _ _ hd le_rfl
  have hdq : (0 : ℚ) < (q.den : ℚ) := by exact_mod_cast Nat.pos_of_ne_zero hd
  have habs : |q| = (q.num.natAbs : ℚ) / (q.den : ℚ) := by
    conv_lhs => rw [← Rat.num_div_den q]
    rw [abs_div, abs_of_pos hdq]
    congr 1
    rw [Nat.cast_natAbs, Int.cast_abs]
  have N1 : (2 : ℚ) ^ (log2Fuel q.num.natAbs q.num.natAbs : Int) ≤ (q.num.natAbs : ℚ) := by
    rw [zpow_natCast]; exact_mod_cast n1
  have N2 : (q.num.natAbs : ℚ) < (2 : ℚ) ^ ((log2Fuel q.num.natAbs q.num.natAbs : Int) + 1) := by
    rw [show ((log2Fuel q.num.natAbs q.num.natAbs : Int) + 1) = ((log2Fuel q.num.natAbs q.num.natAbs + 1 : Nat) : Int) by
      push_cast; ring, zpow_natCast]
    exact_mod_cast n2
  have D1 : (2 : ℚ) ^ (log2Fuel q.den q.den : Int) ≤ (q.den : ℚ) := by
    rw [zpow_natCast]; exact_mod_cast d1
  have D2 : (q.den : ℚ) < (2 : ℚ) ^ ((log2Fuel q.den q.den : Int) + 1) := by
    rw [show ((log2Fuel q.den q.den : Int) + 1) = ((log2Fuel q.den q.den + 1 : Nat) : Int) by
      push_cast; ring, zpow_natCast]
    exact_mod_cast d2
  have h2 : (2 : ℚ) ≠ 0 := by norm_num
  unfold ilog2
  simp only []
  generalize (log2Fuel q.num.natAbs q.num.natAbs : Int) = a at N1 N2
  generalize (log2Fuel q.den q.den : Int) = b at D1 D2
  split_ifs with hc
  · refine ⟨hc, ?_⟩
    rw [habs, div_lt_iff₀ hdq]
    calc (q.num.natAbs : ℚ) < (2 : ℚ) ^ (a + 1) := N2
      _ = (2 : ℚ) ^ (a - b + 1) * (2 : ℚ) ^ b := by rw [← zpow_add₀ h2]; congr 1; ring
      _ ≤ (2 : ℚ) ^ (a - b + 1) * (q.den : ℚ) :=
        mul_le_mul_of_nonneg_left D1 (le_of_lt (two_zpow_pos _))
  · refine ⟨?_, ?_⟩
    · rw [habs, le_div_iff₀ hdq]
      calc (2 : ℚ) ^ (a - b - 1) * (q.den : ℚ)
          ≤ (2 : ℚ) ^ (a - b - 1) * (2 : ℚ) ^ (b + 1) :=
            mul_le_mul_of_nonneg_left (le_of_lt D2) (le_of_lt (two_zpow_pos _))
        _ = (2 : ℚ) ^ a := by rw [← zpow_add₀ h2]; congr 1; ring
        _ ≤ (q.num.natAbs : ℚ) := N1
    · rw [show a - b - 1 + 1 = a - b by ring]
      exact lt_of_not_le hc

theorem ilog2_unique {q : ℚ} {k : Int} (h1 : (2 : ℚ) ^ k ≤ |q|) (h2 : |q| < (2 : ℚ) ^ (k + 1)) :
    ilog2 q = k := by
  have hq : q ≠ 0 := by
    intro h
    rw [h, abs_zero] at h1
    exact absurd h1 (not_le.2 (two_zpow_pos k))
  obtain ⟨b1, b2⟩ := ilog2_bounds hq
  have c1 : (2 : ℚ) ^ k < (2 : ℚ) ^ (ilog2 q + 1) := lt_of_le_of_lt h1 b2
  have c2 : (2 : ℚ) ^ ilog2 q < (2 : ℚ) ^ (k + 1) := lt_of_le_of_lt b1 h2
  rw [zpow_lt_zpow_iff_right₀ (by norm_num : (1 : ℚ) < 2)] at c1 c2
  omega

theorem ilog2_mono {a b : ℚ} (ha : 0 < a) (hab : a ≤ b) : ilog2 a ≤ ilog2 b := by
  have hb : 0 < b := lt_of_lt_of_le ha hab
  obtain ⟨a1, _⟩ := ilog2_bounds (ne_of_gt ha)
  obtain ⟨_, b2⟩ := ilog2_bounds (ne_of_gt hb)
  rw [abs_of_pos ha] at a1
  rw [abs_of_pos hb] at b2
  have c : (2 : ℚ) ^ ilog2 a < (2 : ℚ) ^ (ilog2 b + 1) := lt_of_le_of_lt a1 (lt_of_le_of_lt hab b2)
  rw [zpow_lt_zpow_iff_right₀ (by norm_num : (1 : ℚ) < 2)] at c
  omega


theorem roundTo_zero (p emin : Int) : roundTo p emin 0 = 0 := by
  simp [roundTo]

theorem roundTo_of_ne {p emin : Int} {q : ℚ} (hq : q ≠ 0) :
    roundTo p emin q =
      (roundEven (q / (2 : ℚ) ^ max (ilog2 q - p) emin) : ℚ) * (2 : ℚ) ^ max (ilog2 q - p) emin := by
  simp [roundTo, hq]

theorem roundTo_nonneg (p emin : Int) {q : ℚ} (h : 0 ≤ q) : 0 ≤ roundTo p emin q := by
  by_cases hq : q = 0
  · rw [hq, roundTo_zero]
  · rw [roundTo_of_ne hq]
    have : 0 ≤ roundEven (q / (2 : ℚ) ^ max (ilog2 q - p) emin) :=
      roundEven_nonneg (div_nonneg h (le_of_lt (two_zpow_pos _)))
    exact mul_nonneg (by exact_mod_cast this) (le_of_lt (two_zpow_pos _))

/-- A positive value in the normal range rounds to at least the power of two below it. -/
theorem le_roundTo_of_normal {p emin : Int} (hp : 0 ≤ p) {q : ℚ} (hq : 0 < q)
    (hn : emin ≤ ilog2 q - p) : (2 : ℚ) ^ ilog2 q ≤ roundTo p emin q := by
  have h2 : (2 : ℚ) ≠ 0 := by norm_num
  rw [roundTo_of_ne (ne_of_gt hq), max_eq_left hn]
  obtain ⟨b1, _⟩ := ilog2_bounds (ne_of_gt hq)
  rw [abs_of_pos hq] at b1
  have hz : (((2 : Int) ^ p.toNat : Int) : ℚ) = (2 : ℚ) ^ p := by
    push_cast
    rw [← zpow_natCast, Int.toNat_of_nonneg hp]
  have ht : (((2 : Int) ^ p.toNat : Int) : ℚ) ≤ q / (2 : ℚ) ^ (ilog2 q - p) := by
    rw [hz, le_div_iff₀ (two_zpow_pos _), ← zpow_add₀ h2]
    rw [show p + (ilog2 q - p) = ilog2 q by ring]
    exact b1
  have hr := le_roundEven_of_le ht
  have hr' : (2 : ℚ) ^ p ≤ (roundEven (q / (2 : ℚ) ^ (ilog2 q - p)) : ℚ) := by
    rw [← hz]; exact_mod_cast hr
  calc (2 : ℚ) ^ ilog2 q = (2 : ℚ) ^ p * (2 : ℚ) ^ (ilog2 q - p) := by
        rw [← zpow_add₀ h2]; congr 1; ring
    _ ≤ _ := mul_le_mul_of_nonneg_right hr' (le_of_lt (two_zpow_pos _))

/-- A positive value rounds to at most the next power of two, or to at most one unit in
the subnormal range. -/
theorem roundTo_le_pow {p emin : Int} {q : ℚ} (hq : 0 < q) :
    roundTo p emin q ≤ (2 : ℚ) ^ max (ilog2 q + 1) (max (ilog2 q - p) emin) := by
  have h2 : (2 : ℚ) ≠ 0 := by norm_num
  rw [roundTo_of_ne (ne_of_gt hq)]
  obtain ⟨_, b2⟩ := ilog2_bounds (ne_of_gt hq)
  rw [abs_of_pos hq] at b2
  generalize max (ilog2 q - p) emin = e
  set k : Int := max (ilog2 q + 1 - e) 0 with hk
  have hk0 : 0 ≤ k := le_max_right _ _
  have hz : (((2 : Int) ^ k.toNat : Int) : ℚ) = (2 : ℚ) ^ k := by
    push_cast
    rw [← zpow_natCast, Int.toNat_of_nonneg hk0]
  have ht : q / (2 : ℚ) ^ e ≤ (((2 : Int) ^ k.toNat : Int) : ℚ) := by
    rw [hz, div_le_iff₀ (two_zpow_pos _), ← zpow_add₀ h2]
    refine le_trans (le_of_lt b2) (zpow_le_zpow_right₀ (by norm_num) ?_)
    have := le_max_left (ilog2 q + 1 - e) 0
    omega
  have hr := roundEven_le_of_le ht
  have hr' : (roundEven (q / (2 : ℚ) ^ e) : ℚ) ≤ (2 : ℚ) ^ k := by
    rw [← hz]; exact_mod_cast hr
  calc (roundEven (q / (2 : ℚ) ^ e) : ℚ) * (2 : ℚ) ^ e
      ≤ (2 : ℚ) ^ k * (2 : ℚ) ^ e := mul_le_mul_of_nonneg_right hr' (le_of_lt (two_zpow_pos _))
    _ = (2 : ℚ) ^ (k + e) := by rw [← zpow_add₀ h2]
    _ = (2 : ℚ) ^ max (ilog2 q + 1) e := by
        congr 1
        rw [hk]
        rcases le_total (ilog2 q + 1 - e) 0 with c | c
        · rw [max_eq_right c, max_eq_right (by omega)]; ring
        · rw [max_eq_left c, max_eq_left (by omega)]; ring

/-- Rounding is monotone on the non-negative values. -/
theorem roundTo_mono_nonneg {p emin : Int} (hp : 0 ≤ p) {a b : ℚ} (ha : 0 ≤ a) (hab : a ≤ b) :
    roundTo p emin a ≤ roundTo p emin b := by
  rcases eq_or_lt_of_le ha with h0 | hpos
  · rw [← h0, roundTo_zero]
    exact roundTo_nonneg p emin (le_trans ha hab)
  have hb : 0 < b := lt_of_lt_of_le hpos hab
  have hL := ilog2_mono hpos hab
  rcases eq_or_lt_of_le (max_le_max (sub_le_sub_right hL p) (le_refl emin)) with he | he
  · rw [roundTo_of_ne (ne_of_gt hpos), roundTo_of_ne (ne_of_gt hb), he]
    have : roundEven (a / (2 : ℚ) ^ max (ilog2 b - p) emin)
        ≤ roundEven (b / (2 : ℚ) ^ max (ilog2 b - p) emin) :=
      roundEven_mono (div_le_div_of_nonneg_right hab (le_of_lt (two_zpow_pos _)))
    exact mul_le_mul_of_nonneg_right (by exact_mod_cast this) (le_of_lt (two_zpow_pos _))
  · have hn : emin ≤ ilog2 b - p := by
      by_contra hc
      have e1 : max (ilog2 b - p) emin = emin := max_eq_right (by omega)
      have e2 := le_max_right (ilog2 a - p) emin
      omega
    have e1 : max (ilog2 b - p) emin = ilog2 b - p := max_eq_left hn
    rw [e1] at he
    refine le_trans (roundTo_le_pow hpos) (le_trans ?_ (le_roundTo_of_normal hp hb hn))
    refine zpow_le_zpow_right₀ (by norm_num) (max_le ?_ ?_)
    · rcases le_total (ilog2 a - p) emin with c | c
      · rw [max_eq_right c] at he; omega
      · rw [max_eq_left c] at he; omega
    · omega

/-- The rounding error is at most the magnitude of the value plus the least spacing. -/
theorem abs_roundTo_le {p emin : Int} (hp : 0 ≤ p) (q : ℚ) :
    |roundTo p emin q| ≤ 2 * |q| + (2 : ℚ) ^ emin := by
  by_cases hq : q = 0
  · rw [hq, roundTo_zero]
    have := two_zpow_pos emin
    simp
    linarith
  have h2 : (2 : ℚ) ≠ 0 := by norm_num
  rw [roundTo_of_ne hq]
  obtain ⟨b1, _⟩ := ilog2_bounds hq
  have hu : (2 : ℚ) ^ max (ilog2 q - p) emin ≤ |q| + (2 : ℚ) ^ emin := by
    rcases le_total (ilog2 q - p) emin with d | d
    · rw [max_eq_right d]
      linarith [abs_nonneg q]
    · rw [max_eq_left d]
      have : (2 : ℚ) ^ (ilog2 q - p) ≤ (2 : ℚ) ^ ilog2 q :=
        zpow_le_zpow_right₀ (by norm_num) (by omega)
      linarith [two_zpow_pos emin]
  have hpos := two_zpow_pos (max (ilog2 q - p) emin)
  generalize (2 : ℚ) ^ max (ilog2 q - p) emin = u at hu hpos
  have hr := roundEven_sub_le (q / u)
  have ht : |(roundEven (q / u) : ℚ)| ≤ |q| / u + 1 / 2 := by
    have := abs_sub_abs_le_abs_sub ((roundEven (q / u) : ℚ)) (q / u)
    rw [abs_div, abs_of_pos hpos] at this
    linarith
  rw [abs_mul, abs_of_pos hpos]
  calc |(roundEven (q / u) : ℚ)| * u ≤ (|q| / u + 1 / 2) * u :=
        mul_le_mul_of_nonneg_right ht (le_of_lt hpos)
    _ = |q| + u / 2 := by field_simp; ring
    _ ≤ 2 * |q| + (2 : ℚ) ^ emin := by
        have := two_zpow_pos emin
        linarith [abs_nonneg q]

/-- Integers of fewer than `p + 2` bits are values of the format. -/
theorem roundTo_intCast {p emin : Int} (he : emin ≤ 0) (z : Int)
    (hz : |(z : ℚ)| < (2 : ℚ) ^ (p + 1)) : roundTo p emin (z : ℚ) = z := by
  by_cases hq : (z : ℚ) = 0
  · rw [hq, roundTo_zero]
  have h2 : (2 : ℚ) ≠ 0 := by norm_num
  rw [roundTo_of_ne hq]
  obtain ⟨b1, _⟩ := ilog2_bounds hq
  have c : (2 : ℚ) ^ ilog2 (z : ℚ) < (2 : ℚ) ^ (p + 1) := lt_of_le_of_lt b1 hz
  rw [zpow_lt_zpow_iff_right₀ (by norm_num : (1 : ℚ) < 2)] at c
  have hm : max (ilog2 (z : ℚ) - p) emin ≤ 0 := max_le (by omega) he
  generalize max (ilog2 (z : ℚ) - p) emin = e at hm
  obtain ⟨n, rfl⟩ : ∃ n : Nat, e = -(n : Int) := ⟨(-e).toNat, by omega⟩
  have hdiv : (z : ℚ) / (2 : ℚ) ^ (-(n : Int)) = ((z * 2 ^ n : Int) : ℚ) := by
    rw [zpow_neg, zpow_natCast]
    push_cast
    field_simp
  rw [hdiv, roundEven_intCast, zpow_neg, zpow_natCast]
  push_cast
  field_simp

/-- Rounding to `double` is monotone on the non-negative values. -/
theorem toDouble_mono_nonneg {a b : ℚ} (ha : 0 ≤ a) (hab : a ≤ b) :
    Binary64.toDouble a ≤ Binary64.toDouble b :=
  roundTo_mono_nonneg (by norm_num) ha hab

theorem toDouble_nonneg {q : ℚ} (h : 0 ≤ q) : 0 ≤ Binary64.toDouble q :=
  roundTo_nonneg _ _ h

theorem roundEven_neg (t : ℚ) : roundEven (-t) = -roundEven t := by
  have h1 := Int.floor_le t
  have h2 := Int.lt_floor_add_one t
  by_cases hr : t = (⌊t⌋ : ℚ)
  · have e : -t = ((-⌊t⌋ : Int) : ℚ) := by push_cast; linarith
    rw [e, roundEven_intCast]
    conv_rhs => rw [hr, roundEven_intCast]
  · have hlt : (⌊t⌋ : ℚ) < t := lt_of_le_of_ne h1 (fun h => hr h.symm)
    have hf : ⌊-t⌋ = -⌊t⌋ - 1 := by
      rw [Int.floor_eq_iff]
      push_cast
      constructor <;> linarith
    unfold roundEven
    simp only [hf]
    push_cast
    by_cases c1 : t - (⌊t⌋ : ℚ) < 1 / 2
    · rw [if_pos c1, if_neg (by linarith), if_pos (by linarith)]
      ring
    · by_cases c2 : 1 / 2 < t - (⌊t⌋ : ℚ)
      · rw [if_neg c1, if_pos c2, if_pos (by linarith)]
        ring
      · rw [if_neg c1, if_neg c2, if_neg (by linarith), if_neg (by linarith)]
        by_cases c3 : ⌊t⌋ % 2 = 0
        · rw [if_pos c3, if_neg (by omega)]
          ring
        · rw [if_neg c3, if_pos (by omega)]
          ring

theorem ilog2_neg (q : ℚ) : ilog2 (-q) = ilog2 q := by
  by_cases hq : q = 0
  · rw [hq, neg_zero]
  · obtain ⟨a, b⟩ := ilog2_bounds hq
    exact ilog2_unique (by rwa [abs_neg]) (by rwa [abs_neg])

/-- Rounding is symmetric about zero. -/
theorem roundTo_neg (p emin : Int) (q : ℚ) : roundTo p emin (-q) = -roundTo p emin q := by
  by_cases hq : q = 0
  · rw [hq, neg_zero, roundTo_zero, neg_zero]
  · rw [roundTo_of_ne hq, roundTo_of_ne (neg_ne_zero.2 hq), ilog2_neg, neg_div, roundEven_neg]
    push_cast
    ring

theorem roundTo_nonpos (p emin : Int) {q : ℚ} (h : q ≤ 0) : roundTo p emin q ≤ 0 := by
  have := roundTo_nonneg p emin (neg_nonneg.2 h)
  rw [roundTo_neg] at this
  linarith

/-- Rounding is monotone. -/
theorem roundTo_mono {p emin : Int} (hp : 0 ≤ p) {a b : ℚ} (hab : a ≤ b) :
    roundTo p emin a ≤ roundTo p emin b := by
  rcases le_total 0 a with ha | ha
  · exact roundTo_mono_nonneg hp ha hab
  · rcases le_total 0 b with hb | hb
    · exact le_trans (roundTo_nonpos p emin ha) (roundTo_nonneg p emin hb)
    · have := @roundTo_mono_nonneg p emin hp (-b) (-a) (neg_nonneg.2 hb) (neg_le_neg hab)
      rw [roundTo_neg, roundTo_neg] at this
      linarith

/-- The rounding error is at most half the spacing of the format at the rounded value. -/
theorem roundTo_sub_le {p emin : Int} {q : ℚ} (hq : q ≠ 0) :
    |roundTo p emin q - q| ≤ (2 : ℚ) ^ max (ilog2 q - p) emin / 2 := by
  rw [roundTo_of_ne hq]
  have hu := two_zpow_pos (max (ilog2 q - p) emin)
  generalize (2 : ℚ) ^ max (ilog2 q - p) emin = u at hu
  have h := roundEven_sub_le (q / u)
  have e : (roundEven (q / u) : ℚ) * u - q = ((roundEven (q / u) : ℚ) - q / u) * u := by
    field_simp
  rw [e, abs_mul, abs_of_pos hu]
  calc |(roundEven (q / u) : ℚ) - q / u| * u ≤ 1 / 2 * u :=
        mul_le_mul_of_nonneg_right h (le_of_lt hu)
    _ = u / 2 := by ring

/-- The rounding error of a `double` operation: at most the relative error `2^-53`, or
`2^-1075` in the subnormal range. -/
theorem toDouble_sub_le (q : ℚ) :
    |Binary64.toDouble q - q| ≤ |q| / 9007199254740992 + (2 : ℚ) ^ (-1075 : Int) := by
  have h2 : (2 : ℚ) ≠ 0 := by norm_num
  have he := two_zpow_pos (-1075)
  by_cases hq : q = 0
  · rw [hq]
    unfold Binary64.toDouble
    rw [roundTo_zero]
    simp only [sub_zero, abs_zero, zero_div, zero_add]
    exact le_of_lt he
  · have h := @roundTo_sub_le 52 (-1074) q hq
    obtain ⟨b1, _⟩ := ilog2_bounds hq
    unfold Binary64.toDouble
    refine le_trans h ?_
    rcases le_total (ilog2 q - 52) (-1074) with c | c
    · rw [max_eq_right c]
      have : (2 : ℚ) ^ (-1074 : Int) / 2 = (2 : ℚ) ^ (-1075 : Int) := by
        rw [show (-1075 : Int) = -1074 - 1 by norm_num, zpow_sub₀ h2, zpow_one]
      rw [this]
      have := div_nonneg (abs_nonneg q) (by norm_num : (0 : ℚ) ≤ 9007199254740992)
      linarith
    · rw [max_eq_left c]
      have : (2 : ℚ) ^ (ilog2 q - 52) / 2 = (2 : ℚ) ^ ilog2 q / 9007199254740992 := by
        rw [zpow_sub₀ h2]
        norm_num
        ring
      rw [this]
      have : (2 : ℚ) ^ ilog2 q / 9007199254740992 ≤ |q| / 9007199254740992 :=
        div_le_div_of_nonneg_right b1 (by norm_num)
      linarith

theorem toDouble_neg (q : ℚ) : Binary64.toDouble (-q) = -Binary64.toDouble q :=
  roundTo_neg _ _ q

theorem toDouble_mono {a b : ℚ} (hab : a ≤ b) : Binary64.toDouble a ≤ Binary64.toDouble b :=
  roundTo_mono (by norm_num) hab

theorem toDouble_intCast (z : Int) (hz : |(z : ℚ)| < 9007199254740992) :
    Binary64.toDouble (z : ℚ) = (z : ℚ) :=
  @roundTo_intCast 52 (-1074) (by norm_num) z (by
    refine lt_of_lt_of_le hz ?_
    norm_num)

/-! ## Triangle rasterizer -/

theorem truncQ_of_nonneg {q : ℚ} (h : 0 ≤ q) : truncQ q = ⌊q⌋ := by
  unfold truncQ; rw [if_pos h]

theorem truncQ_gt (q : ℚ) : q - 1 < (truncQ q : ℚ) := by
  unfold truncQ
  split
  · exact Int.sub_one_lt_floor q
  · have := Int.le_ceil q
    linarith

theorem truncQ_lt (q : ℚ) : (truncQ q : ℚ) < q + 1 := by
  unfold truncQ
  split
  · have := Int.floor_le q
    linarith
  · exact Int.ceil_lt_add_one q

theorem truncQ_mono_nonneg {a b : ℚ} (ha : 0 ≤ a) (hab : a ≤ b) : truncQ a ≤ truncQ b := by
  rw [truncQ_of_nonneg ha, truncQ_of_nonneg (le_trans ha hab)]
  exact Int.floor_mono hab

theorem truncQ_intCast (z : Int) : truncQ (z : ℚ) = z := by
  unfold truncQ
  split
  · exact Int.floor_intCast z
  · exact Int.ceil_intCast z

theorem truncQ_intCast_add_half {z : Int} (hz : 0 ≤ z) : truncQ ((z : ℚ) + 1 / 2) = z := by
  have h : (0 : ℚ) ≤ (z : ℚ) + 1 / 2 := by
    have : (0 : ℚ) ≤ (z : ℚ) := by exact_mod_cast hz
    linarith
  rw [truncQ_of_nonneg h, Int.floor_eq_iff]
  constructor <;> linarith

/-- A pass guard `(int) (ya + 0.5) + 0.5 <= yb` can only hold when `ya < yb`. -/
theorem guard_lt {ya yb : ℚ} (h : (truncQ (ya + 1 / 2) : ℚ) + 1 / 2 ≤ yb) : ya < yb := by
  have := truncQ_gt (ya + 1 / 2)
  linarith

/-- When a pass guard fails on non-negative heights, the row range of the pass is empty. -/
theorem guard_fails_empty {ya yb : ℚ} (hya : 0 ≤ ya) (hab : ya ≤ yb)
    (h : ¬ ((truncQ (ya + 1 / 2) : ℚ) + 1 / 2 ≤ yb)) :
    truncQ (yb + 1 / 2) ≤ truncQ (ya + 1 / 2) := by
  have h1 : truncQ (yb + 1 / 2) < truncQ (ya + 1 / 2) + 1 := by
    rw [truncQ_of_nonneg (by linarith : (0 : ℚ) ≤ yb + 1 / 2), Int.floor_lt]
    push_cast
    linarith
  omega

theorem mem_intRange (a b y : Int) : y ∈ intRange a b ↔ a ≤ y ∧ y < b := by
  unfold intRange
  simp only [List.mem_map, List.mem_range]
  constructor
  · rintro ⟨i, hi, rfl⟩
    omega
  · rintro ⟨h1, h2⟩
    exact ⟨(y - a).toNat, by omega, by omega⟩

theorem nodup_intRange (a b : Int) : (intRange a b).Nodup := by
  unfold intRange
  refine List.Nodup.map_on ?_ (List.nodup_range _)
  intro i _ j _ hij
  omega

/-- The slope of an edge of non-zero height is finite. -/
theorem edgeInc_of_ne (xa xb : ℚ) {ya yb : ℚ} (h : ya ≠ yb) :
    edgeInc xa ya xb yb = Dbl.fin (edgeSlope xa ya xb yb) := by
  have : yb - ya ≠ 0 := sub_ne_zero.2 (Ne.symm h)
  simp [edgeInc, edgeSlope, Dbl.div, this]

/-- The offset of an edge with a finite slope is finite: `xa - ya * inc`. -/
theorem edgeAdd_fin (xa ya s : ℚ) : edgeAdd xa ya (Dbl.fin s) = Dbl.fin (xa - ya * s) := by
  by_cases hs : s = 0
  · simp [edgeAdd, Dbl.isZero, hs]
  · simp only [edgeAdd, Dbl.isZero, hs, decide_False, Bool.false_eq_true, if_false, Dbl.div,
      Dbl.sub, Dbl.neg, Dbl.add, Dbl.mul]
    congr 1
    field_simp
    ring

theorem spanX_fin (y : Int) (s a : ℚ) :
    spanX y (Dbl.fin s) (Dbl.fin a) = some (truncQ (((y : ℚ) + 1 / 2) * s + a + 1 / 2)) := by
  simp [spanX, Dbl.mul, Dbl.add, Dbl.toInt]

theorem scanSpan_fin (sA aA sB aB : ℚ) (y : Int) :
    scanSpan (Dbl.fin sA) (Dbl.fin aA) (Dbl.fin sB) (Dbl.fin aB) y
      = some (finSpan sA aA sB aB y) := by
  simp only [scanSpan, spanX_fin, finSpan]
  split <;> rfl

theorem scanRows_of_some {span : Int → Option (Int × Int × Int)} {g : Int → Int × Int × Int}
    (h : ∀ y, span y = some (g y)) (l : List Int) : scanRows span l = some (l.map g) := by
  induction l with
  | nil => rfl
  | cons y ys ih => simp [scanRows, h y, ih]

/-- A pass between two edges with finite slopes and offsets sweeps every row of its range. -/
theorem trianglePass_fin (startY endY : Int) (sA aA sB aB : ℚ) :
    trianglePass startY endY (Dbl.fin sA) (Dbl.fin aA) (Dbl.fin sB) (Dbl.fin aB)
      = some ((intRange startY endY).map (finSpan sA aA sB aB)) :=
  scanRows_of_some (scanSpan_fin sA aA sB aB) _

theorem finSpan_row (sA aA sB aB : ℚ) (y : Int) : (finSpan sA aA sB aB y).1 = y := by
  unfold finSpan
  simp only []
  split <;> rfl

theorem map_finSpan_rows (sA aA sB aB : ℚ) (l : List Int) :
    (l.map (finSpan sA aA sB aB)).map Prod.fst = l := by
  rw [List.map_map]
  conv_rhs => rw [← List.map_id l]
  exact List.map_congr_left (fun y _ => finSpan_row sA aA sB aB y)

/-- The pixels of a list of spans. -/
theorem mem_spanPixels (spans : List (Int × Int × Int)) (p : Int × Int) :
    p ∈ spanPixels spans ↔ ∃ s ∈ spans, s.1 = p.2 ∧ s.2.1 ≤ p.1 ∧ p.1 < s.2.2 := by
  obtain ⟨p1, p2⟩ := p
  simp only [spanPixels, List.mem_flatMap, List.mem_map, mem_intRange, Prod.mk.injEq]
  constructor
  · rintro ⟨s, hs, x, ⟨h1, h2⟩, rfl, rfl⟩
    exact ⟨s, hs, rfl, h1, h2⟩
  · rintro ⟨s, hs, h0, h1, h2⟩
    exact ⟨s, hs, p1, ⟨h1, h2⟩, rfl, h0⟩

/-- With an exact temporary, the four compare-and-swap steps sort the heights. -/
theorem triangleSort_sorted (p0 p1 p2 : ℚ × ℚ) :
    (triangleSort id p0 p1 p2).1.2 ≤ (triangleSort id p0 p1 p2).2.1.2 ∧
    (triangleSort id p0 p1 p2).2.1.2 ≤ (triangleSort id p0 p1 p2).2.2.2 := by
  simp only [triangleSort, swapIfAbove, id]
  split_ifs <;> simp_all <;> linarith

/-- With an exact temporary, the sort keeps non-negative heights non-negative. -/
theorem triangleSort_nonneg (p0 p1 p2 : ℚ × ℚ) (h0 : 0 ≤ p0.2) (h1 : 0 ≤ p1.2) (h2 : 0 ≤ p2.2) :
    0 ≤ (triangleSort id p0 p1 p2).1.2 ∧ 0 ≤ (triangleSort id p0 p1 p2).2.1.2 ∧
    0 ≤ (triangleSort id p0 p1 p2).2.2.2 := by
  simp only [triangleSort, swapIfAbove, id]
  split_ifs <;> simp_all

/-- The top pass, when its guard holds on sorted vertices, in closed form. -/
theorem triangleTop_eq (p0 p1 p2 : ℚ × ℚ) (h12 : p1.2 ≤ p2.2)
    (hg : (truncQ (p0.2 + 1 / 2) : ℚ) + 1 / 2 ≤ p1.2) :
    triangleTop p0 p1 p2
      = some (finPass (truncQ (p0.2 + 1 / 2)) (truncQ (p1.2 + 1 / 2)) p0 p1 p0 p2) := by
  have h01 : p0.2 < p1.2 := guard_lt hg
  have h02 : p0.2 < p2.2 := lt_of_lt_of_le h01 h12
  simp only [triangleTop, if_pos hg, edgeInc_of_ne _ _ (ne_of_lt h01),
    edgeInc_of_ne _ _ (ne_of_lt h02), edgeAdd_fin]
  exact trianglePass_fin _ _ _ _ _ _

/-- The bottom pass, when its guard holds on sorted vertices, in closed form. -/
theorem triangleBottom_eq (p0 p1 p2 : ℚ × ℚ) (h01 : p0.2 ≤ p1.2)
    (hg : (truncQ (p1.2 + 1 / 2) : ℚ) + 1 / 2 ≤ p2.2) :
    triangleBottom p0 p1 p2
      = some (finPass (truncQ (p1.2 + 1 / 2)) (truncQ (p2.2 + 1 / 2)) p1 p2 p0 p2) := by
  have h12 : p1.2 < p2.2 := guard_lt hg
  have h02 : p0.2 < p2.2 := lt_of_le_of_lt h01 h12
  simp only [triangleBottom, if_pos hg, edgeInc_of_ne _ _ (ne_of_lt h12),
    edgeInc_of_ne _ _ (ne_of_lt h02), edgeAdd_fin]
  exact trianglePass_fin _ _ _ _ _ _

/-- The top pass on sorted vertices is defined, and sweeps its row range when its guard
holds and nothing otherwise. -/
theorem triangleTop_rows (p0 p1 p2 : ℚ × ℚ) (h12 : p1.2 ≤ p2.2) :
    ∃ top, triangleTop p0 p1 p2 = some top ∧
      top.map Prod.fst = (if (truncQ (p0.2 + 1 / 2) : ℚ) + 1 / 2 ≤ p1.2
        then intRange (truncQ (p0.2 + 1 / 2)) (truncQ (p1.2 + 1 / 2)) else []) := by
  by_cases hg : (truncQ (p0.2 + 1 / 2) : ℚ) + 1 / 2 ≤ p1.2
  · exact ⟨_, triangleTop_eq p0 p1 p2 h12 hg, by rw [if_pos hg, finPass, map_finSpan_rows]⟩
  · exact ⟨[], by simp only [triangleTop, if_neg hg], by rw [if_neg hg]; rfl⟩

/-- The bottom pass on sorted vertices is defined, and sweeps its row range when its guard
holds and nothing otherwise. -/
theorem triangleBottom_rows (p0 p1 p2 : ℚ × ℚ) (h01 : p0.2 ≤ p1.2) :
    ∃ bottom, triangleBottom p0 p1 p2 = some bottom ∧
      bottom.map Prod.fst = (if (truncQ (p1.2 + 1 / 2) : ℚ) + 1 / 2 ≤ p2.2
        then intRange (truncQ (p1.2 + 1 / 2)) (truncQ (p2.2 + 1 / 2)) else []) := by
  by_cases hg : (truncQ (p1.2 + 1 / 2) : ℚ) + 1 / 2 ≤ p2.2
  · exact ⟨_, triangleBottom_eq p0 p1 p2 h01 hg, by rw [if_pos hg, finPass, map_finSpan_rows]⟩
  · exact ⟨[], by simp only [triangleBottom, if_neg hg], by rw [if_neg hg]; rfl⟩

/-- With an exact temporary the triangle routine is defined on every input: no
non-finite value is ever converted to `int`. -/
theorem triangle_total (x0 y0 x1 y1 x2 y2 : ℚ) :
    ∃ top bottom,
      triangleTop (triangleSort id (x0, y0) (x1, y1) (x2, y2)).1
        (triangleSort id (x0, y0) (x1, y1) (x2, y2)).2.1
        (triangleSort id (x0, y0) (x1, y1) (x2, y2)).2.2 = some top ∧
      triangleBottom (triangleSort id (x0, y0) (x1, y1) (x2, y2)).1
        (triangleSort id (x0, y0) (x1, y1) (x2, y2)).2.1
        (triangleSort id (x0, y0) (x1, y1) (x2, y2)).2.2 = some bottom ∧
      driver_framebuffer_triangle id x0 y0 x1 y1 x2 y2
        = some (spanPixels top ++ spanPixels bottom) := by
  have hs := triangleSort_sorted (x0, y0) (x1, y1) (x2, y2)
  unfold driver_framebuffer_triangle
  simp only []
  generalize triangleSort id (x0, y0) (x1, y1) (x2, y2) = s at hs ⊢
  obtain ⟨top, htop, _⟩ := triangleTop_rows s.1 s.2.1 s.2.2 hs.2
  obtain ⟨bottom, hbot, _⟩ := triangleBottom_rows s.1 s.2.1 s.2.2 hs.1
  refine ⟨top, bottom, htop, hbot, ?_⟩
  rw [htop, hbot]

/-- The rows of a pass on non-negative heights, whether or not its guard holds. -/
theorem pass_rows_mem {ya yb : ℚ} (hya : 0 ≤ ya) (hab : ya ≤ yb) (y : Int) :
    y ∈ (if (truncQ (ya + 1 / 2) : ℚ) + 1 / 2 ≤ yb
        then intRange (truncQ (ya + 1 / 2)) (truncQ (yb + 1 / 2)) else [])
      ↔ truncQ (ya + 1 / 2) ≤ y ∧ y < truncQ (yb + 1 / 2) := by
  by_cases hg : (truncQ (ya + 1 / 2) : ℚ) + 1 / 2 ≤ yb
  · rw [if_pos hg, mem_intRange]
  · rw [if_neg hg]
    have := guard_fails_empty hya hab hg
    simp only [List.not_mem_nil, false_iff]
    omega

theorem pass_rows_nodup (ya yb : ℚ) :
    (if (truncQ (ya + 1 / 2) : ℚ) + 1 / 2 ≤ yb
        then intRange (truncQ (ya + 1 / 2)) (truncQ (yb + 1 / 2)) else []).Nodup := by
  split
  · exact nodup_intRange _ _
  · exact List.nodup_nil

/-- Idealisation over exact rationals with an exact temporary: for a triangle with
non-negative vertex heights, with `p0`, `p1`, `p2` the sorted vertices and
`r(v) = (int) (v + 0.5)`: both passes are defined, the top pass sweeps exactly the rows
`r(Y0) ≤ y < r(Y1)`, the bottom pass exactly the rows `r(Y1) ≤ y < r(Y2)`, no row is swept
twice, and together they sweep exactly the rows `r(Y0) ≤ y < r(Y2)`. -/
theorem exact_rows_swept_once (x0 y0 x1 y1 x2 y2 : ℚ) (p0 p1 p2 : ℚ × ℚ)
    (h0 : 0 ≤ y0) (h1 : 0 ≤ y1) (h2 : 0 ≤ y2)
    (hs : triangleSort id (x0, y0) (x1, y1) (x2, y2) = (p0, p1, p2)) :
    ∃ top bottom : List (Int × Int × Int),
      triangleTop p0 p1 p2 = some top ∧ triangleBottom p0 p1 p2 = some bottom ∧
      driver_framebuffer_triangle id x0 y0 x1 y1 x2 y2
        = some (spanPixels top ++ spanPixels bottom) ∧
      p0.2 ≤ p1.2 ∧ p1.2 ≤ p2.2 ∧
      (∀ y : Int, y ∈ top.map Prod.fst ↔
        truncQ (p0.2 + 1 / 2) ≤ y ∧ y < truncQ (p1.2 + 1 / 2)) ∧
      (∀ y : Int, y ∈ bottom.map Prod.fst ↔
        truncQ (p1.2 + 1 / 2) ≤ y ∧ y < truncQ (p2.2 + 1 / 2)) ∧
      (top.map Prod.fst ++ bottom.map Prod.fst).Nodup ∧
      (∀ y : Int, y ∈ top.map Prod.fst ++ bottom.map Prod.fst ↔
        truncQ (p0.2 + 1 / 2) ≤ y ∧ y < truncQ (p2.2 + 1 / 2)) := by
  have hsorted := triangleSort_sorted (x0, y0) (x1, y1) (x2, y2)
  have hnn := triangleSort_nonneg (x0, y0) (x1, y1) (x2, y2) h0 h1 h2
  have hdef : driver_framebuffer_triangle id x0 y0 x1 y1 x2 y2
      = match triangleTop p0 p1 p2, triangleBottom p0 p1 p2 with
        | some top, some bottom => some (spanPixels top ++ spanPixels bottom)
        | _, _ => none := by
    unfold driver_framebuffer_triangle
    simp only [hs]
  rw [hs] at hsorted hnn
  simp only at hsorted hnn
  obtain ⟨h01, h12⟩ := hsorted
  obtain ⟨n0, n1, n2⟩ := hnn
  obtain ⟨top, htop, rtop⟩ := triangleTop_rows p0 p1 p2 h12
  obtain ⟨bottom, hbot, rbot⟩ := triangleBottom_rows p0 p1 p2 h01
  have mtop : ∀ y : Int, y ∈ top.map Prod.fst ↔
      truncQ (p0.2 + 1 / 2) ≤ y ∧ y < truncQ (p1.2 + 1 / 2) := by
    intro y; rw [rtop]; exact pass_rows_mem n0 h01 y
  have mbot : ∀ y : Int, y ∈ bottom.map Prod.fst ↔
      truncQ (p1.2 + 1 / 2) ≤ y ∧ y < truncQ (p2.2 + 1 / 2) := by
    intro y; rw [rbot]; exact pass_rows_mem n1 h12 y
  have r01 : truncQ (p0.2 + 1 / 2) ≤ truncQ (p1.2 + 1 / 2) :=
    truncQ_mono_nonneg (by linarith) (by linarith)
  have r12 : truncQ (p1.2 + 1 / 2) ≤ truncQ (p2.2 + 1 / 2) :=
    truncQ_mono_nonneg (by linarith) (by linarith)
  refine ⟨top, bottom, htop, hbot, ?_, h01, h12, mtop, mbot, ?_, ?_⟩
  · rw [hdef, htop, hbot]
  · rw [List.nodup_append]
    refine ⟨by rw [rtop]; exact pass_rows_nodup _ _, by rw [rbot]; exact pass_rows_nodup _ _, ?_⟩
    intro y hy1 hy2
    have a := (mtop y).1 hy1
    have b := (mbot y).1 hy2
    omega
  · intro y
    rw [List.mem_append, mtop, mbot]
    omega

/-- The span of row `y` of the right triangle with legs `n`: the columns `0 ≤ x < n - y`. -/
theorem rightTriangle_span (n : Nat) (hn0 : 0 < n) (y : Int) (hy : y < n) :
    finSpan (edgeSlope n 0 0 n) (edgeOffset n 0 0 n) (edgeSlope 0 0 0 n) (edgeOffset 0 0 0 n) y
      = (y, 0, (n : Int) - y) := by
  have hn : (0 : ℚ) < n := by exact_mod_cast hn0
  have e1 : edgeSlope (n : ℚ) 0 0 n = -1 := by
    unfold edgeSlope; field_simp
  have e2 : edgeSlope (0 : ℚ) 0 0 n = 0 := by
    unfold edgeSlope; simp
  have s1 : ((y : ℚ) + 1 / 2) * -1 + (n : ℚ) + 1 / 2 = (((n : Int) - y : Int) : ℚ) := by
    push_cast; ring
  have s2 : truncQ ((0 : ℚ) + 0 + 1 / 2) = 0 := by
    have := truncQ_intCast_add_half (z := 0) le_rfl
    simpa using this
  simp only [finSpan, edgeOffset, e1, e2, zero_mul, mul_zero, sub_zero]
  rw [s1, s2, truncQ_intCast, if_pos (by omega)]

/-- Idealisation over exact rationals with an exact temporary: for every positive integer
`n`, the triangle routine is defined on the right triangle `(0,0), (0,n), (n,0)`, and every
pixel `(x, y)` it writes has `x ≥ 0`, `y ≥ 0` and `x + y ≤ n`; the written pixels are
exactly those with `x ≥ 0`, `y ≥ 0` and `x + y < n`. -/
theorem exact_right_triangle_within_bounds (n : Nat) (hn : 0 < n) :
    ∃ px : Pixels,
      driver_framebuffer_triangle id 0 0 0 n n 0 = some px ∧
      (∀ p ∈ px, 0 ≤ p.1 ∧ 0 ≤ p.2 ∧ p.1 + p.2 ≤ n) ∧
      (∀ p : Int × Int, p ∈ px ↔ 0 ≤ p.1 ∧ 0 ≤ p.2 ∧ p.1 + p.2 < n) := by
  have hnq : (0 : ℚ) < n := by exact_mod_cast hn
  have hsort : triangleSort id ((0 : ℚ), (0 : ℚ)) ((0 : ℚ), (n : ℚ)) ((n : ℚ), (0 : ℚ))
      = (((0 : ℚ), (0 : ℚ)), ((n : ℚ), (0 : ℚ)), ((0 : ℚ), (n : ℚ))) := by
    simp [triangleSort, swapIfAbove, hnq, not_lt.2 (le_of_lt hnq)]
  have h0 : truncQ ((0 : ℚ) + 1 / 2) = 0 := by
    have := truncQ_intCast_add_half (z := 0) le_rfl
    simpa using this
  have hnh : truncQ ((n : ℚ) + 1 / 2) = n := by
    have := truncQ_intCast_add_half (z := (n : Int)) (by omega)
    simpa using this
  have htop : triangleTop ((0 : ℚ), (0 : ℚ)) ((n : ℚ), (0 : ℚ)) ((0 : ℚ), (n : ℚ)) = some [] := by
    have hg : ¬ ((truncQ ((0 : ℚ) + 1 / 2) : ℚ) + 1 / 2 ≤ 0) := by
      rw [h0]; norm_num
    simp only [triangleTop, if_neg hg]
  have hbot := triangleBottom_eq ((0 : ℚ), (0 : ℚ)) ((n : ℚ), (0 : ℚ)) ((0 : ℚ), (n : ℚ)) le_rfl
    (by
      simp only []
      rw [h0]
      have : (1 : ℚ) ≤ n := by exact_mod_cast hn
      push_cast
      linarith)
  simp only [h0, hnh] at hbot
  have hpx : driver_framebuffer_triangle id 0 0 0 n n 0
      = some (spanPixels [] ++ spanPixels (finPass 0 n ((n : ℚ), 0) (0, (n : ℚ)) (0, 0) (0, (n : ℚ)))) := by
    unfold driver_framebuffer_triangle
    simp only [hsort, htop, hbot]
  have hmem : ∀ p : Int × Int,
      p ∈ spanPixels [] ++ spanPixels (finPass 0 n ((n : ℚ), 0) (0, (n : ℚ)) (0, 0) (0, (n : ℚ)))
        ↔ 0 ≤ p.1 ∧ 0 ≤ p.2 ∧ p.1 + p.2 < n := by
    intro p
    simp only [spanPixels, List.flatMap_nil, List.nil_append]
    rw [← spanPixels, mem_spanPixels]
    simp only [finPass, List.mem_map, mem_intRange]
    constructor
    · rintro ⟨s, ⟨y, ⟨hy0, hy1⟩, rfl⟩, h1, h2, h3⟩
      rw [rightTriangle_span n hn y hy1] at h1 h2 h3
      simp only at h1 h2 h3
      omega
    · rintro ⟨h1, h2, h3⟩
      refine ⟨_, ⟨p.2, ⟨h2, by omega⟩, rfl⟩, ?_⟩
      rw [rightTriangle_span n hn p.2 (by omega)]
      exact ⟨rfl, h1, by simp only; omega⟩
  refine ⟨_, hpx, ?_, hmem⟩
  intro p hp
  have := (hmem p).1 hp
  omega

/-- With an exact temporary the sorted vertices are a permutation of the input vertices. -/
theorem triangleSort_perm (p0 p1 p2 : ℚ × ℚ) :
    List.Perm [(triangleSort id p0 p1 p2).1, (triangleSort id p0 p1 p2).2.1,
      (triangleSort id p0 p1 p2).2.2] [p0, p1, p2] := by
  simp only [triangleSort, swapIfAbove, id]
  split_ifs <;> simp only [] <;>
    first
      | exact List.Perm.refl _
      | exact List.Perm.swap _ _ _
      | exact (List.Perm.swap _ _ _).cons _
      | exact ((List.Perm.swap _ _ _).cons _).trans (List.Perm.swap _ _ _)
      | exact (List.Perm.swap _ _ _).trans ((List.Perm.swap _ _ _).cons _)
      | exact ((List.Perm.swap _ _ _).trans ((List.Perm.swap _ _ _).cons _)).trans
          (List.Perm.swap _ _ _)

/-- The checked computation of one edge succeeds exactly when the edge is neither
horizontal (zero divisor of the slope) nor vertical (zero slope, the divisor of the
offset). -/
theorem edgeChecked_isSome (xa ya xb yb : ℚ) :
    (edgeChecked xa ya xb yb).isSome = true ↔ ya ≠ yb ∧ xa ≠ xb := by
  by_cases hy : yb - ya = 0
  · have : ya = yb := by linarith
    simp [edgeChecked, Dbl.divChecked, Dbl.isZero, hy, this]
  · have hne : ya ≠ yb := fun h => hy (by rw [h]; ring)
    by_cases hx : xb - xa = 0
    · have : xa = xb := by linarith
      simp [edgeChecked, Dbl.divChecked, Dbl.isZero, Dbl.div, hy, this]
    · have hxne : xa ≠ xb := fun h => hx (by rw [h]; ring)
      simp [edgeChecked, Dbl.divChecked, Dbl.isZero, Dbl.div, hy, hx, hne, hxne]

/-- When both checked divisions of an edge succeed, the result is the unchecked one. -/
theorem edgeChecked_eq (xa ya xb yb : ℚ) (e : Dbl × Dbl) (h : edgeChecked xa ya xb yb = some e) :
    e = (edgeInc xa ya xb yb, edgeAdd xa ya (edgeInc xa ya xb yb)) := by
  unfold edgeChecked Dbl.divChecked at h
  by_cases h1 : (Dbl.fin (yb - ya)).isZero = true
  · simp [h1] at h
  · by_cases h2 : ((Dbl.fin (xb - xa)).div (Dbl.fin (yb - ya))).isZero = true
    · simp [h1, h2] at h
    · simp only [h1, h2, Bool.false_eq_true, if_false, Option.some.injEq] at h
      rw [← h]
      simp only [edgeInc, edgeAdd, h2, Bool.false_eq_true, if_false]

/-- Idealisation over exact rationals with an exact temporary: every division executed by
`driver_framebuffer_triangle` has a non-zero divisor if and only if no two of the three
vertices have the same height and no two have the same x; then the checked computation
returns the slopes and offsets of the unchecked one. -/
theorem exact_divisions_nonzero_iff (x0 y0 x1 y1 x2 y2 : ℚ) :
    ((triangleEdgesChecked id x0 y0 x1 y1 x2 y2).isSome = true ↔
      [y0, y1, y2].Nodup ∧ [x0, x1, x2].Nodup) ∧
    ∀ e, triangleEdgesChecked id x0 y0 x1 y1 x2 y2 = some e →
      e = triangleEdges id x0 y0 x1 y1 x2 y2 := by
  have hperm := triangleSort_perm (x0, y0) (x1, y1) (x2, y2)
  unfold triangleEdgesChecked triangleEdges
  simp only []
  generalize triangleSort id (x0, y0) (x1, y1) (x2, y2) = s at hperm ⊢
  have hy := (hperm.map Prod.snd).nodup_iff
  have hx := (hperm.map Prod.fst).nodup_iff
  simp only [List.map_cons, List.map_nil] at hy hx
  have h01 := edgeChecked_isSome s.1.1 s.1.2 s.2.1.1 s.2.1.2
  have h02 := edgeChecked_isSome s.1.1 s.1.2 s.2.2.1 s.2.2.2
  have h12 := edgeChecked_isSome s.2.1.1 s.2.1.2 s.2.2.1 s.2.2.2
  have e01 := edgeChecked_eq s.1.1 s.1.2 s.2.1.1 s.2.1.2
  have e02 := edgeChecked_eq s.1.1 s.1.2 s.2.2.1 s.2.2.2
  have e12 := edgeChecked_eq s.2.1.1 s.2.1.2 s.2.2.1 s.2.2.2
  constructor
  · rw [← hy, ← hx]
    simp only [List.nodup_cons, List.mem_cons, List.mem_singleton, List.not_mem_nil,
      List.nodup_nil, not_or, and_true, not_false_eq_true]
    cases hA : edgeChecked s.1.1 s.1.2 s.2.1.1 s.2.1.2 <;>
    cases hB : edgeChecked s.1.1 s.1.2 s.2.2.1 s.2.2.2 <;>
    cases hC : edgeChecked s.2.1.1 s.2.1.2 s.2.2.1 s.2.2.2 <;>
    simp only [hA, hB, hC, Option.isSome_none, Option.isSome_some, Bool.false_eq_true,
      false_iff, true_iff] at h01 h02 h12 ⊢ <;>
    tauto
  · intro e he
    cases hA : edgeChecked s.1.1 s.1.2 s.2.1.1 s.2.1.2 <;>
    cases hB : edgeChecked s.1.1 s.1.2 s.2.2.1 s.2.2.2 <;>
    cases hC : edgeChecked s.2.1.1 s.2.1.2 s.2.2.1 s.2.2.2 <;>
    simp only [hA, hB, hC, Option.some.injEq] at he <;>
    first
      | exact absurd he (by simp)
      | (rw [← he, e01 _ hA, e02 _ hB, e12 _ hC])

/-- C17, failing input: with the `float temp` of the source, sorting the vertices
`(1 + 2^-30, 1), (0, 0), (0, 2)` yields `(0, 0), (1, 1), (0, 2)`, and `(1, 1)` is none of the
input vertices; sorting `(0, 1 + 3 * 2^-30), (0, 5), (0, 1 + 2^-30)` yields the heights
`1 + 2^-30, 1, 5`, which are not ascending.  All coordinates are exact `double` values. -/
theorem triangleSort_float_temp :
    triangleSort toFloat (1 + 1 / 2 ^ 30, 1) (0, 0) (0, 2) = ((0, 0), (1, 1), (0, 2)) ∧
    ((1 : ℚ), (1 : ℚ)) ∉ [((1 : ℚ) + 1 / 2 ^ 30, (1 : ℚ)), (0, 0), (0, 2)] ∧
    triangleSort toFloat (0, 1 + 3 / 2 ^ 30) (0, 5) (0, 1 + 1 / 2 ^ 30)
      = ((0, 1 + 1 / 2 ^ 30), (0, 1), (0, 5)) ∧
    ¬ ((1 : ℚ) + 1 / 2 ^ 30 ≤ 1) ∧
    toFloat (1 + 1 / 2 ^ 30) = 1 ∧ toFloat (1 + 3 / 2 ^ 30) = 1 := by
  refine ⟨by decide!, by decide!, by decide!, by decide!, by decide!, by decide!⟩

/-- The span end computed from slope and offset is the x of the edge at that height. -/
theorem edgeAt_eq (a b : ℚ × ℚ) (h : ℚ) :
    h * edgeSlope a.1 a.2 b.1 b.2 + edgeOffset a.1 a.2 b.1 b.2 = edgeAt a b h := by
  unfold edgeOffset edgeSlope edgeAt
  ring

/-- An affine function that is non-negative at both ends of an edge is non-negative at
every point of the edge. -/
theorem edgeAt_affine_nonneg {a b : ℚ × ℚ} {h α β γ : ℚ} (hab : a.2 < b.2) (h1 : a.2 ≤ h)
    (h2 : h ≤ b.2) (ga : 0 ≤ α * a.1 + β * a.2 + γ) (gb : 0 ≤ α * b.1 + β * b.2 + γ) :
    0 ≤ α * edgeAt a b h + β * h + γ := by
  have hd : 0 < b.2 - a.2 := by linarith
  have key : (α * edgeAt a b h + β * h + γ) * (b.2 - a.2)
      = (b.2 - h) * (α * a.1 + β * a.2 + γ) + (h - a.2) * (α * b.1 + β * b.2 + γ) := by
    unfold edgeAt
    field_simp
    ring
  have hk : 0 ≤ (α * edgeAt a b h + β * h + γ) * (b.2 - a.2) := by
    rw [key]
    exact add_nonneg (mul_nonneg (by linarith) ga) (mul_nonneg (by linarith) gb)
  exact nonneg_of_mul_nonneg_left hk hd

/-- The x of an edge between vertices with non-negative x is non-negative. -/
theorem edgeAt_nonneg {a b : ℚ × ℚ} {h : ℚ} (hab : a.2 < b.2) (h1 : a.2 ≤ h) (h2 : h ≤ b.2)
    (xa : 0 ≤ a.1) (xb : 0 ≤ b.1) : 0 ≤ edgeAt a b h := by
  have := @edgeAt_affine_nonneg a b h 1 0 0 hab h1 h2 (by linarith) (by linarith)
  linarith

theorem truncQ_half_le {a : ℚ} (ha : 0 ≤ a) (x : Int) :
    truncQ (a + 1 / 2) ≤ x ↔ a < (x : ℚ) + 1 / 2 := by
  rw [truncQ_of_nonneg (by linarith : (0 : ℚ) ≤ a + 1 / 2), ← Int.lt_add_one_iff, Int.floor_lt]
  push_cast
  constructor <;> intro h <;> linarith

theorem lt_truncQ_half {a : ℚ} (ha : 0 ≤ a) (x : Int) :
    x < truncQ (a + 1 / 2) ↔ (x : ℚ) + 1 / 2 ≤ a := by
  rw [truncQ_of_nonneg (by linarith : (0 : ℚ) ≤ a + 1 / 2), ← Int.add_one_le_iff, Int.le_floor]
  push_cast
  constructor <;> intro h <;> linarith

/-- The columns of a span between two non-negative edge positions `A` and `B`: the pixels
whose centre lies in the half-open interval from the smaller to the larger one. -/
theorem finSpan_cols (sA aA sB aB : ℚ) (y x : Int)
    (hA : 0 ≤ ((y : ℚ) + 1 / 2) * sA + aA) (hB : 0 ≤ ((y : ℚ) + 1 / 2) * sB + aB) :
    ((finSpan sA aA sB aB y).2.1 ≤ x ∧ x < (finSpan sA aA sB aB y).2.2) ↔
      (min (((y : ℚ) + 1 / 2) * sA + aA) (((y : ℚ) + 1 / 2) * sB + aB) < (x : ℚ) + 1 / 2 ∧
        (x : ℚ) + 1 / 2 ≤ max (((y : ℚ) + 1 / 2) * sA + aA) (((y : ℚ) + 1 / 2) * sB + aB)) := by
  rw [min_lt_iff, le_max_iff, ← truncQ_half_le hA, ← truncQ_half_le hB, ← lt_truncQ_half hA,
    ← lt_truncQ_half hB]
  unfold finSpan
  simp only []
  split <;> simp only [] <;> omega

/-- The pixels of a pass in closed form: the rows of its range, each with its span. -/
theorem mem_finPass_pixels (r0 r1 : Int) (a b c d : ℚ × ℚ) (x y : Int) :
    (x, y) ∈ spanPixels (finPass r0 r1 a b c d) ↔
      (r0 ≤ y ∧ y < r1) ∧
      ((finSpan (edgeSlope a.1 a.2 b.1 b.2) (edgeOffset a.1 a.2 b.1 b.2)
          (edgeSlope c.1 c.2 d.1 d.2) (edgeOffset c.1 c.2 d.1 d.2) y).2.1 ≤ x ∧
        x < (finSpan (edgeSlope a.1 a.2 b.1 b.2) (edgeOffset a.1 a.2 b.1 b.2)
          (edgeSlope c.1 c.2 d.1 d.2) (edgeOffset c.1 c.2 d.1 d.2) y).2.2) := by
  rw [mem_spanPixels]
  unfold finPass
  simp only [List.mem_map, mem_intRange]
  constructor
  · rintro ⟨s, ⟨y', hy', rfl⟩, h1, h2⟩
    rw [finSpan_row] at h1
    subst h1
    exact ⟨hy', h2⟩
  · rintro ⟨hy, h2⟩
    exact ⟨_, ⟨y, hy, rfl⟩, finSpan_row _ _ _ _ y, h2⟩

/-- The pixels of one pass of the triangle fill between the heights `ya ≤ yb`, whether or
not the guard of the pass holds: the pixels whose centre height `h` satisfies
`ya < h ≤ yb` and whose centre x lies in the half-open interval between the two edges. -/
theorem passPixels_iff (spans : List (Int × Int × Int)) (ya yb : ℚ) (a b c d : ℚ × ℚ)
    (hspans : spans = if (truncQ (ya + 1 / 2) : ℚ) + 1 / 2 ≤ yb then
      finPass (truncQ (ya + 1 / 2)) (truncQ (yb + 1 / 2)) a b c d else [])
    (hya : 0 ≤ ya) (ha : a.2 ≤ ya) (hb : yb ≤ b.2) (hc : c.2 ≤ ya) (hd : yb ≤ d.2)
    (xa : 0 ≤ a.1) (xb : 0 ≤ b.1) (xc : 0 ≤ c.1) (xd : 0 ≤ d.1) (x y : Int) :
    (x, y) ∈ spanPixels spans ↔
      ya < (y : ℚ) + 1 / 2 ∧ (y : ℚ) + 1 / 2 ≤ yb ∧
      min (edgeAt a b ((y : ℚ) + 1 / 2)) (edgeAt c d ((y : ℚ) + 1 / 2)) < (x : ℚ) + 1 / 2 ∧
      (x : ℚ) + 1 / 2 ≤ max (edgeAt a b ((y : ℚ) + 1 / 2)) (edgeAt c d ((y : ℚ) + 1 / 2)) := by
  by_cases hg : (truncQ (ya + 1 / 2) : ℚ) + 1 / 2 ≤ yb
  · rw [hspans, if_pos hg, mem_finPass_pixels, truncQ_half_le hya,
      lt_truncQ_half (le_trans hya (le_of_lt (guard_lt hg))), and_assoc]
    refine and_congr_right (fun h1 => and_congr_right (fun h2 => ?_))
    have hA := @edgeAt_nonneg a b ((y : ℚ) + 1 / 2) (by linarith) (by linarith) (by linarith)
      xa xb
    have hB := @edgeAt_nonneg c d ((y : ℚ) + 1 / 2) (by linarith) (by linarith) (by linarith)
      xc xd
    rw [← edgeAt_eq] at hA hB
    rw [finSpan_cols _ _ _ _ y x hA hB, edgeAt_eq, edgeAt_eq]
  · rw [hspans, if_neg hg]
    constructor
    · intro h
      simp [spanPixels] at h
    · rintro ⟨h1, h2, _⟩
      exfalso
      apply hg
      have h3 : ((truncQ (ya + 1 / 2) : Int) : ℚ) ≤ (y : ℚ) := by
        exact_mod_cast (truncQ_half_le hya y).2 h1
      linarith

/-- A list of spans with distinct rows writes no pixel twice. -/
theorem spanPixels_nodup (spans : List (Int × Int × Int)) (h : (spans.map Prod.fst).Nodup) :
    (spanPixels spans).Nodup := by
  induction spans with
  | nil => exact List.nodup_nil
  | cons s rest ih =>
    rw [List.map_cons, List.nodup_cons] at h
    have hcons : spanPixels (s :: rest)
        = (intRange s.2.1 s.2.2).map (fun x => (x, s.1)) ++ spanPixels rest := by
      simp [spanPixels]
    rw [hcons, List.nodup_append]
    refine ⟨?_, ih h.2, ?_⟩
    · refine List.Nodup.map ?_ (nodup_intRange _ _)
      intro u v huv
      exact (Prod.mk.inj huv).1
    · intro p hp hq
      obtain ⟨p1, p2⟩ := p
      rw [List.mem_map] at hp
      obtain ⟨u, _, hu⟩ := hp
      rw [mem_spanPixels] at hq
      obtain ⟨t, ht, ht1, _⟩ := hq
      apply h.1
      rw [List.mem_map]
      refine ⟨t, ht, ?_⟩
      rw [ht1]
      exact (Prod.mk.inj hu).2.symm

/-- With an exact temporary, a property of all three input vertices holds for all three
sorted vertices. -/
theorem triangleSort_all (P : ℚ × ℚ → Prop) (p0 p1 p2 : ℚ × ℚ) (h0 : P p0) (h1 : P p1)
    (h2 : P p2) :
    P (triangleSort id p0 p1 p2).1 ∧ P (triangleSort id p0 p1 p2).2.1 ∧
      P (triangleSort id p0 p1 p2).2.2 := by
  simp only [triangleSort, swapIfAbove, id]
  split_ifs <;> exact ⟨by assumption, by assumption, by assumption⟩


/-- The spans of the top pass on sorted vertices. -/
theorem triangleTop_spans (p0 p1 p2 : ℚ × ℚ) (h12 : p1.2 ≤ p2.2) :
    triangleTop p0 p1 p2 = some (if (truncQ (p0.2 + 1 / 2) : ℚ) + 1 / 2 ≤ p1.2 then
      finPass (truncQ (p0.2 + 1 / 2)) (truncQ (p1.2 + 1 / 2)) p0 p1 p0 p2 else []) := by
  by_cases hg : (truncQ (p0.2 + 1 / 2) : ℚ) + 1 / 2 ≤ p1.2
  · rw [if_pos hg]
    exact triangleTop_eq p0 p1 p2 h12 hg
  · rw [if_neg hg]
    simp only [triangleTop, if_neg hg]

/-- The spans of the bottom pass on sorted vertices. -/
theorem triangleBottom_spans (p0 p1 p2 : ℚ × ℚ) (h01 : p0.2 ≤ p1.2) :
    triangleBottom p0 p1 p2 = some (if (truncQ (p1.2 + 1 / 2) : ℚ) + 1 / 2 ≤ p2.2 then
      finPass (truncQ (p1.2 + 1 / 2)) (truncQ (p2.2 + 1 / 2)) p1 p2 p0 p2 else []) := by
  by_cases hg : (truncQ (p1.2 + 1 / 2) : ℚ) + 1 / 2 ≤ p2.2
  · rw [if_pos hg]
    exact triangleBottom_eq p0 p1 p2 h01 hg
  · rw [if_neg hg]
    simp only [triangleBottom, if_neg hg]

/-- The rows of the spans of a pass are distinct. -/
theorem passSpans_rows_nodup (g : Prop) [Decidable g] (r0 r1 : Int) (a b c d : ℚ × ℚ) :
    ((if g then finPass r0 r1 a b c d else []).map Prod.fst).Nodup := by
  split
  · rw [finPass, map_finSpan_rows]
    exact nodup_intRange _ _
  · exact List.nodup_nil

/-- The two passes of a triangle with non-negative coordinates over exact arithmetic, in
terms of its sorted vertices `p0`, `p1`, `p2`: the routine is defined, the top pass writes
the pixels whose centre height `h` satisfies `Y0 < h ≤ Y1` between the edges `p0 → p1`
and `p0 → p2`, the bottom pass those with `Y1 < h ≤ Y2` between the edges `p1 → p2` and
`p0 → p2`, and no pixel is written twice. -/
theorem triangle_sorted_spans (x0 y0 x1 y1 x2 y2 : ℚ) (p0 p1 p2 : ℚ × ℚ)
    (hx0 : 0 ≤ x0) (hy0 : 0 ≤ y0) (hx1 : 0 ≤ x1) (hy1 : 0 ≤ y1) (hx2 : 0 ≤ x2) (hy2 : 0 ≤ y2)
    (hs : triangleSort id (x0, y0) (x1, y1) (x2, y2) = (p0, p1, p2)) :
    ∃ top bottom : List (Int × Int × Int),
      driver_framebuffer_triangle id x0 y0 x1 y1 x2 y2
        = some (spanPixels top ++ spanPixels bottom) ∧
      p0.2 ≤ p1.2 ∧ p1.2 ≤ p2.2 ∧
      (∀ x y : Int, (x, y) ∈ spanPixels top ↔
        p0.2 < (y : ℚ) + 1 / 2 ∧ (y : ℚ) + 1 / 2 ≤ p1.2 ∧
        min (edgeAt p0 p1 ((y : ℚ) + 1 / 2)) (edgeAt p0 p2 ((y : ℚ) + 1 / 2))
          < (x : ℚ) + 1 / 2 ∧
        (x : ℚ) + 1 / 2
          ≤ max (edgeAt p0 p1 ((y : ℚ) + 1 / 2)) (edgeAt p0 p2 ((y : ℚ) + 1 / 2))) ∧
      (∀ x y : Int, (x, y) ∈ spanPixels bottom ↔
        p1.2 < (y : ℚ) + 1 / 2 ∧ (y : ℚ) + 1 / 2 ≤ p2.2 ∧
        min (edgeAt p1 p2 ((y : ℚ) + 1 / 2)) (edgeAt p0 p2 ((y : ℚ) + 1 / 2))
          < (x : ℚ) + 1 / 2 ∧
        (x : ℚ) + 1 / 2
          ≤ max (edgeAt p1 p2 ((y : ℚ) + 1 / 2)) (edgeAt p0 p2 ((y : ℚ) + 1 / 2))) ∧
      (spanPixels top ++ spanPixels bottom).Nodup := by
  have hsorted := triangleSort_sorted (x0, y0) (x1, y1) (x2, y2)
  have hall := triangleSort_all (fun p => 0 ≤ p.1 ∧ 0 ≤ p.2) (x0, y0) (x1, y1) (x2, y2)
    ⟨hx0, hy0⟩ ⟨hx1, hy1⟩ ⟨hx2, hy2⟩
  rw [hs] at hsorted hall
  simp only at hsorted hall
  obtain ⟨h01, h12⟩ := hsorted
  obtain ⟨⟨a0, b0⟩, ⟨a1, b1⟩, ⟨a2, b2⟩⟩ := hall
  have mtop := passPixels_iff _ p0.2 p1.2 p0 p1 p0 p2 rfl b0 le_rfl le_rfl le_rfl h12 a0 a1 a0 a2
  have mbot := passPixels_iff _ p1.2 p2.2 p1 p2 p0 p2 rfl b1 le_rfl le_rfl h01 le_rfl a1 a2 a0 a2
  refine ⟨_, _, ?_, h01, h12, mtop, mbot, ?_⟩
  · unfold driver_framebuffer_triangle
    simp only [hs]
    rw [triangleTop_spans p0 p1 p2 h12, triangleBottom_spans p0 p1 p2 h01]
  · rw [List.nodup_append]
    refine ⟨spanPixels_nodup _ (passSpans_rows_nodup _ _ _ _ _ _ _),
      spanPixels_nodup _ (passSpans_rows_nodup _ _ _ _ _ _ _), ?_⟩
    rintro ⟨x, y⟩ hp hq
    have t := (mtop x y).1 hp
    have u := (mbot x y).1 hq
    linarith [t.2.1, u.1]

/-- Idealisation over exact rationals with an exact temporary: for a triangle with
non-negative vertex coordinates and sorted vertices `p0 = (X0, Y0)`, `p1 = (X1, Y1)`,
`p2 = (X2, Y2)`, the routine `driver_framebuffer_triangle` is defined and writes the pixel
`(x, y)` if and only if its centre `(x + 1/2, y + 1/2)` satisfies `Y0 < y + 1/2 ≤ Y2` and
`min(L, S) < x + 1/2 ≤ max(L, S)`, where `L` is the x of the edge `p0 → p2` at height
`y + 1/2` and `S` the x of the edge `p0 → p1` at that height when `y + 1/2 ≤ Y1` and of
the edge `p1 → p2` otherwise; no pixel is written twice. -/
theorem exact_pixel_centres_once (x0 y0 x1 y1 x2 y2 : ℚ) (p0 p1 p2 : ℚ × ℚ)
    (hx0 : 0 ≤ x0) (hy0 : 0 ≤ y0) (hx1 : 0 ≤ x1) (hy1 : 0 ≤ y1) (hx2 : 0 ≤ x2) (hy2 : 0 ≤ y2)
    (hs : triangleSort id (x0, y0) (x1, y1) (x2, y2) = (p0, p1, p2)) :
    ∃ px : Pixels, driver_framebuffer_triangle id x0 y0 x1 y1 x2 y2 = some px ∧ px.Nodup ∧
      ∀ x y : Int, (x, y) ∈ px ↔
        p0.2 < (y : ℚ) + 1 / 2 ∧ (y : ℚ) + 1 / 2 ≤ p2.2 ∧
        min (edgeAt p0 p2 ((y : ℚ) + 1 / 2))
            (if (y : ℚ) + 1 / 2 ≤ p1.2 then edgeAt p0 p1 ((y : ℚ) + 1 / 2)
              else edgeAt p1 p2 ((y : ℚ) + 1 / 2)) < (x : ℚ) + 1 / 2 ∧
        (x : ℚ) + 1 / 2 ≤ max (edgeAt p0 p2 ((y : ℚ) + 1 / 2))
            (if (y : ℚ) + 1 / 2 ≤ p1.2 then edgeAt p0 p1 ((y : ℚ) + 1 / 2)
              else edgeAt p1 p2 ((y : ℚ) + 1 / 2)) := by
  obtain ⟨top, bottom, hdef, h01, h12, mtop, mbot, hnodup⟩ :=
    triangle_sorted_spans x0 y0 x1 y1 x2 y2 p0 p1 p2 hx0 hy0 hx1 hy1 hx2 hy2 hs
  refine ⟨_, hdef, hnodup, ?_⟩
  intro x y
  rw [List.mem_append, mtop, mbot]
  by_cases hh : (y : ℚ) + 1 / 2 ≤ p1.2
  · rw [if_pos hh, min_comm (edgeAt p0 p2 _), max_comm (edgeAt p0 p2 _)]
    constructor
    · rintro (⟨c1, c2, c3, c4⟩ | ⟨c1, c2, c3, c4⟩)
      · exact ⟨c1, le_trans c2 h12, c3, c4⟩
      · exact absurd hh (not_le.2 c1)
    · rintro ⟨c1, c2, c3, c4⟩
      exact Or.inl ⟨c1, hh, c3, c4⟩
  · rw [if_neg hh, min_comm (edgeAt p0 p2 _), max_comm (edgeAt p0 p2 _)]
    constructor
    · rintro (⟨c1, c2, c3, c4⟩ | ⟨c1, c2, c3, c4⟩)
      · exact absurd c2 hh
      · exact ⟨lt_of_le_of_lt h01 c1, c2, c3, c4⟩
    · rintro ⟨c1, c2, c3, c4⟩
      exact Or.inr ⟨lt_of_not_le hh, c2, c3, c4⟩

/-- An offset whose slope compares equal to zero is the starting x of the edge. -/
theorem edgeAdd_of_isZero (xa ya : ℚ) (inc : Dbl) (h : inc.isZero = true) :
    edgeAdd xa ya inc = Dbl.fin xa := by
  unfold edgeAdd
  simp only [h, if_true]

/-- Idealisation over exact rationals: for vertices of any sign with sorted heights
`Y0 ≤ Y1 ≤ Y2`, the top-pass guard `(int) (Y0 + 0.5) + 0.5 <= Y1` implies `Y0 < Y1` and
`Y0 < Y2`, and the bottom-pass guard `(int) (Y1 + 0.5) + 0.5 <= Y2` implies `Y1 < Y2` and `Y0 < Y2`.
Consequently a pass that runs sweeps its rows between two edges with finite slopes and
offsets, a pass one of whose two edges has zero height writes nothing, and an offset whose
slope is `0` is always the starting x of its edge. -/
theorem exact_guards_exclude_flat_edges (p0 p1 p2 : ℚ × ℚ)
    (h01 : p0.2 ≤ p1.2) (h12 : p1.2 ≤ p2.2) :
    ((truncQ (p0.2 + 1 / 2) : ℚ) + 1 / 2 ≤ p1.2 →
      p0.2 < p1.2 ∧ p0.2 < p2.2 ∧
      triangleTop p0 p1 p2
        = some (finPass (truncQ (p0.2 + 1 / 2)) (truncQ (p1.2 + 1 / 2)) p0 p1 p0 p2)) ∧
    ((truncQ (p1.2 + 1 / 2) : ℚ) + 1 / 2 ≤ p2.2 →
      p1.2 < p2.2 ∧ p0.2 < p2.2 ∧
      triangleBottom p0 p1 p2
        = some (finPass (truncQ (p1.2 + 1 / 2)) (truncQ (p2.2 + 1 / 2)) p1 p2 p0 p2)) ∧
    (p0.2 = p1.2 ∨ p0.2 = p2.2 → triangleTop p0 p1 p2 = some []) ∧
    (p1.2 = p2.2 ∨ p0.2 = p2.2 → triangleBottom p0 p1 p2 = some []) ∧
    (∀ (xa ya : ℚ) (inc : Dbl), inc.isZero = true → edgeAdd xa ya inc = Dbl.fin xa) := by
  refine ⟨?_, ?_, ?_, ?_, edgeAdd_of_isZero⟩
  · intro hg
    have h := guard_lt hg
    exact ⟨h, lt_of_lt_of_le h h12, triangleTop_eq p0 p1 p2 h12 hg⟩
  · intro hg
    have h := guard_lt hg
    exact ⟨h, lt_of_le_of_lt h01 h, triangleBottom_eq p0 p1 p2 h01 hg⟩
  · intro hflat
    have hng : ¬ ((truncQ (p0.2 + 1 / 2) : ℚ) + 1 / 2 ≤ p1.2) := by
      intro hg
      have h := guard_lt hg
      rcases hflat with e | e <;> linarith
    simp only [triangleTop, if_neg hng]
  · intro hflat
    have hng : ¬ ((truncQ (p1.2 + 1 / 2) : ℚ) + 1 / 2 ≤ p2.2) := by
      intro hg
      have h := guard_lt hg
      rcases hflat with e | e <;> linarith
    simp only [triangleBottom, if_neg hng]

/-! ## Quad -/

/-- C8: for every four vertices (exact arithmetic), both triangle calls of
`driver_framebuffer_quad` are defined and the quad writes the pixels of triangle
`(v0, v1, v2)` followed by the pixels of triangle `(v0, v2, v3)`; its pixel set is the union
of the two triangles' pixel sets. -/
theorem quad_is_two_triangles (x0 y0 x1 y1 x2 y2 x3 y3 : ℚ) :
    ∃ first second : Pixels,
      driver_framebuffer_triangle id x0 y0 x1 y1 x2 y2 = some first ∧
      driver_framebuffer_triangle id x0 y0 x2 y2 x3 y3 = some second ∧
      driver_framebuffer_quad id x0 y0 x1 y1 x2 y2 x3 y3 = some (first ++ second) ∧
      ∀ p : Int × Int, p ∈ first ++ second ↔ p ∈ first ∨ p ∈ second := by
  obtain ⟨t1, b1, _, _, h1⟩ := triangle_total x0 y0 x1 y1 x2 y2
  obtain ⟨t2, b2, _, _, h2⟩ := triangle_total x0 y0 x2 y2 x3 y3
  refine ⟨_, _, h1, h2, ?_, fun p => List.mem_append⟩
  unfold driver_framebuffer_quad
  rw [h1, h2]

/-- A written pixel of a triangle lies in the triangle, strictly right of another of its
points: some vertex is strictly above the pixel centre, and there is a point `(qx, h)`
strictly left of the centre `(x + 1/2, h)` at the same height such that every affine
function that is non-negative at the three vertices is non-negative at both points. -/
theorem triangle_pixel_hull (x0 y0 x1 y1 x2 y2 : ℚ)
    (hx0 : 0 ≤ x0) (hy0 : 0 ≤ y0) (hx1 : 0 ≤ x1) (hy1 : 0 ≤ y1) (hx2 : 0 ≤ x2) (hy2 : 0 ≤ y2)
    (px : Pixels) (hpx : driver_framebuffer_triangle id x0 y0 x1 y1 x2 y2 = some px)
    (x y : Int) (hmem : (x, y) ∈ px) :
    (y0 < (y : ℚ) + 1 / 2 ∨ y1 < (y : ℚ) + 1 / 2 ∨ y2 < (y : ℚ) + 1 / 2) ∧
    ∃ qx : ℚ, qx < (x : ℚ) + 1 / 2 ∧
      ∀ α β γ : ℚ, 0 ≤ α * x0 + β * y0 + γ → 0 ≤ α * x1 + β * y1 + γ →
        0 ≤ α * x2 + β * y2 + γ →
        0 ≤ α * qx + β * ((y : ℚ) + 1 / 2) + γ ∧
        0 ≤ α * ((x : ℚ) + 1 / 2) + β * ((y : ℚ) + 1 / 2) + γ := by
  obtain ⟨top, bottom, hdef, h01, h12, mtop, mbot, _⟩ :=
    triangle_sorted_spans x0 y0 x1 y1 x2 y2
      (triangleSort id (x0, y0) (x1, y1) (x2, y2)).1
      (triangleSort id (x0, y0) (x1, y1) (x2, y2)).2.1
      (triangleSort id (x0, y0) (x1, y1) (x2, y2)).2.2 hx0 hy0 hx1 hy1 hx2 hy2 rfl
  rw [hpx] at hdef
  obtain rfl := Option.some.inj hdef
  have hfrom := triangleSort_all (fun p => p.2 = y0 ∨ p.2 = y1 ∨ p.2 = y2)
    (x0, y0) (x1, y1) (x2, y2) (Or.inl rfl) (Or.inr (Or.inl rfl)) (Or.inr (Or.inr rfl))
  have haff := fun α β γ : ℚ => triangleSort_all (fun p => 0 ≤ α * p.1 + β * p.2 + γ)
    (x0, y0) (x1, y1) (x2, y2)
  generalize triangleSort id (x0, y0) (x1, y1) (x2, y2) = s at h01 h12 mtop mbot hfrom haff
  have hull : ∃ A B : ℚ, s.1.2 < (y : ℚ) + 1 / 2 ∧ min A B < (x : ℚ) + 1 / 2 ∧
      (x : ℚ) + 1 / 2 ≤ max A B ∧
      ∀ α β γ : ℚ, 0 ≤ α * s.1.1 + β * s.1.2 + γ → 0 ≤ α * s.2.1.1 + β * s.2.1.2 + γ →
        0 ≤ α * s.2.2.1 + β * s.2.2.2 + γ →
        0 ≤ α * A + β * ((y : ℚ) + 1 / 2) + γ ∧ 0 ≤ α * B + β * ((y : ℚ) + 1 / 2) + γ := by
    rcases List.mem_append.1 hmem with hm | hm
    · obtain ⟨c1, c2, c3, c4⟩ := (mtop x y).1 hm
      refine ⟨_, _, c1, c3, c4, fun α β γ k0 k1 k2 => ⟨?_, ?_⟩⟩
      · exact edgeAt_affine_nonneg (by linarith) (by linarith) c2 k0 k1
      · exact edgeAt_affine_nonneg (by linarith) (by linarith) (by linarith) k0 k2
    · obtain ⟨c1, c2, c3, c4⟩ := (mbot x y).1 hm
      refine ⟨_, _, by linarith, c3, c4, fun α β γ k0 k1 k2 => ⟨?_, ?_⟩⟩
      · exact edgeAt_affine_nonneg (by linarith) (by linarith) c2 k1 k2
      · exact edgeAt_affine_nonneg (by linarith) (by linarith) c2 k0 k2
  obtain ⟨A, B, c1, c3, c4, hAB⟩ := hull
  constructor
  · rcases hfrom.1 with e | e | e
    · exact Or.inl (by rw [← e]; exact c1)
    · exact Or.inr (Or.inl (by rw [← e]; exact c1))
    · exact Or.inr (Or.inr (by rw [← e]; exact c1))
  · refine ⟨_, c3, ?_⟩
    intro α β γ g0 g1 g2
    obtain ⟨k0, k1, k2⟩ := haff α β γ g0 g1 g2
    obtain ⟨gA, gB⟩ := hAB α β γ k0 k1 k2
    have gmin : 0 ≤ α * min A B + β * ((y : ℚ) + 1 / 2) + γ := by
      rcases min_choice A B with e | e <;> rw [e] <;> assumption
    have gmax : 0 ≤ α * max A B + β * ((y : ℚ) + 1 / 2) + γ := by
      rcases max_choice A B with e | e <;> rw [e] <;> assumption
    refine ⟨gmin, ?_⟩
    by_cases hα : 0 ≤ α
    · have := mul_le_mul_of_nonneg_left (le_of_lt c3) hα
      linarith
    · have := mul_le_mul_of_nonpos_left c4 (le_of_lt (lt_of_not_le hα))
      linarith

/-- No pixel centre is written by both triangles on opposite sides of a common edge
`v0 → v2`: `σ` orients the edge so that `v1` lies on its non-negative and `v3` on its
non-positive side. -/
theorem quad_no_common_pixel (x0 y0 x1 y1 x2 y2 x3 y3 : ℚ)
    (hx0 : 0 ≤ x0) (hy0 : 0 ≤ y0) (hx1 : 0 ≤ x1) (hy1 : 0 ≤ y1) (hx2 : 0 ≤ x2) (hy2 : 0 ≤ y2)
    (hx3 : 0 ≤ x3) (hy3 : 0 ≤ y3)
    (hopp : ((x2 - x0) * (y1 - y0) - (y2 - y0) * (x1 - x0)) *
      ((x2 - x0) * (y3 - y0) - (y2 - y0) * (x3 - x0)) < 0)
    (σ : ℚ) (hσ : σ ≠ 0)
    (h1 : 0 ≤ σ * ((x2 - x0) * (y1 - y0) - (y2 - y0) * (x1 - x0)))
    (h3 : 0 ≤ -(σ * ((x2 - x0) * (y3 - y0) - (y2 - y0) * (x3 - x0))))
    (first second : Pixels)
    (hfirst : driver_framebuffer_triangle id x0 y0 x1 y1 x2 y2 = some first)
    (hsecond : driver_framebuffer_triangle id x0 y0 x2 y2 x3 y3 = some second)
    (x y : Int) (m1 : (x, y) ∈ first) (m2 : (x, y) ∈ second) : False := by
  obtain ⟨low1, q1, hq1, aff1⟩ := triangle_pixel_hull x0 y0 x1 y1 x2 y2 hx0 hy0 hx1 hy1 hx2 hy2
    first hfirst x y m1
  obtain ⟨low3, q3, hq3, aff3⟩ := triangle_pixel_hull x0 y0 x2 y2 x3 y3 hx0 hy0 hx2 hy2 hx3 hy3
    second hsecond x y m2
  obtain ⟨A1, A2⟩ := aff1 (σ * -(y2 - y0)) (σ * (x2 - x0))
    (σ * ((y2 - y0) * x0 - (x2 - x0) * y0)) (by linarith) (by linarith) (by linarith)
  obtain ⟨B1, B2⟩ := aff3 (-(σ * -(y2 - y0))) (-(σ * (x2 - x0)))
    (-(σ * ((y2 - y0) * x0 - (x2 - x0) * y0))) (by linarith) (by linarith) (by linarith)
  generalize (y : ℚ) + 1 / 2 = h at low1 low3 A1 A2 B1 B2
  generalize (x : ℚ) + 1 / 2 = cx at hq1 hq3 A1 A2 B1 B2
  have E : σ * -(y2 - y0) * cx + σ * (x2 - x0) * h
      + σ * ((y2 - y0) * x0 - (x2 - x0) * y0) = 0 := by linarith
  have t1 : 0 ≤ σ * (y2 - y0) * (cx - q1) := by linarith
  have t2 : 0 ≤ -(σ * (y2 - y0)) * (cx - q3) := by linarith
  have t3 : 0 ≤ σ * (y2 - y0) := nonneg_of_mul_nonneg_left t1 (by linarith)
  have t4 : 0 ≤ -(σ * (y2 - y0)) := nonneg_of_mul_nonneg_left t2 (by linarith)
  have t5 : σ * (y2 - y0) = 0 := by linarith
  have hdy : y2 - y0 = 0 := by
    rcases mul_eq_zero.1 t5 with e | e
    · exact absurd e hσ
    · exact e
  rw [hdy] at E hopp
  have hdx : x2 - x0 ≠ 0 := by
    intro e
    rw [e] at hopp
    simp at hopp
  have E2 : σ * (x2 - x0) * (h - y0) = 0 := by linarith
  have hh : h - y0 = 0 := by
    rcases mul_eq_zero.1 E2 with e | e
    · rcases mul_eq_zero.1 e with e | e
      · exact absurd e hσ
      · exact absurd e hdx
    · exact e
  have l1 : y1 - y0 < 0 := by
    rcases low1 with e | e | e <;> linarith
  have l3 : y3 - y0 < 0 := by
    rcases low3 with e | e | e <;> linarith
  have p1 : 0 < (x2 - x0) * (x2 - x0) := mul_self_pos.2 hdx
  have p2 : 0 < (y1 - y0) * (y3 - y0) := mul_pos_of_neg_of_neg l1 l3
  have p3 := mul_pos p1 p2
  linarith


/-- Idealisation over exact rationals with an exact temporary: for a quadrilateral with
non-negative vertex coordinates in which `v1` and `v3` lie strictly on opposite sides of the
line through `v0` and `v2`, both triangle calls of `driver_framebuffer_quad` are defined, no
pixel is written by both of them, and the quad writes no pixel twice. -/
theorem exact_quad_triangles_disjoint (x0 y0 x1 y1 x2 y2 x3 y3 : ℚ)
    (hx0 : 0 ≤ x0) (hy0 : 0 ≤ y0) (hx1 : 0 ≤ x1) (hy1 : 0 ≤ y1) (hx2 : 0 ≤ x2) (hy2 : 0 ≤ y2)
    (hx3 : 0 ≤ x3) (hy3 : 0 ≤ y3)
    (hopp : ((x2 - x0) * (y1 - y0) - (y2 - y0) * (x1 - x0)) *
      ((x2 - x0) * (y3 - y0) - (y2 - y0) * (x3 - x0)) < 0) :
    ∃ first second : Pixels,
      driver_framebuffer_triangle id x0 y0 x1 y1 x2 y2 = some first ∧
      driver_framebuffer_triangle id x0 y0 x2 y2 x3 y3 = some second ∧
      driver_framebuffer_quad id x0 y0 x1 y1 x2 y2 x3 y3 = some (first ++ second) ∧
      (∀ p : Int × Int, p ∈ first → p ∉ second) ∧
      (first ++ second).Nodup := by
  obtain ⟨t1, b1, hfirst, -, -, -, -, nfirst⟩ := triangle_sorted_spans x0 y0 x1 y1 x2 y2
    (triangleSort id (x0, y0) (x1, y1) (x2, y2)).1
    (triangleSort id (x0, y0) (x1, y1) (x2, y2)).2.1
    (triangleSort id (x0, y0) (x1, y1) (x2, y2)).2.2 hx0 hy0 hx1 hy1 hx2 hy2 rfl
  obtain ⟨t2, b2, hsecond, -, -, -, -, nsecond⟩ := triangle_sorted_spans x0 y0 x2 y2 x3 y3
    (triangleSort id (x0, y0) (x2, y2) (x3, y3)).1
    (triangleSort id (x0, y0) (x2, y2) (x3, y3)).2.1
    (triangleSort id (x0, y0) (x2, y2) (x3, y3)).2.2 hx0 hy0 hx2 hy2 hx3 hy3 rfl
  generalize spanPixels t1 ++ spanPixels b1 = first at hfirst nfirst
  generalize spanPixels t2 ++ spanPixels b2 = second at hsecond nsecond
  have hdisj : ∀ p : Int × Int, p ∈ first → p ∉ second := by
    rintro ⟨x, y⟩ m1 m2
    rcases mul_neg_iff.1 hopp with ⟨a, b⟩ | ⟨a, b⟩
    · exact quad_no_common_pixel x0 y0 x1 y1 x2 y2 x3 y3 hx0 hy0 hx1 hy1 hx2 hy2 hx3 hy3 hopp
        1 one_ne_zero (by linarith) (by linarith) first second hfirst hsecond x y m1 m2
    · exact quad_no_common_pixel x0 y0 x1 y1 x2 y2 x3 y3 hx0 hy0 hx1 hy1 hx2 hy2 hx3 hy3 hopp
        (-1) (by norm_num) (by linarith) (by linarith) first second hfirst hsecond x y m1 m2
  refine ⟨first, second, hfirst, hsecond, ?_, hdisj, ?_⟩
  · unfold driver_framebuffer_quad
    rw [hfirst, hsecond]
  · rw [List.nodup_append]
    exact ⟨nfirst, nsecond, fun {p} hp hq => hdisj p hp hq⟩

/-! ## Triangle and quad rasterizers in binary64 -/

/-- The spans of a scanline loop belong to its rows, in order. -/
theorem scanRows_rows {span : Int → Option (Int × Int × Int)}
    (hrow : ∀ y s, span y = some s → s.1 = y) :
    ∀ (l : List Int) (spans : List (Int × Int × Int)),
      scanRows span l = some spans → spans.map Prod.fst = l
  | [], spans, h => by
    simp only [scanRows, Option.some.injEq] at h
    rw [← h]; rfl
  | y :: ys, spans, h => by
    unfold scanRows at h
    cases h1 : span y with
    | none => simp [h1] at h
    | some s =>
      cases h2 : scanRows span ys with
      | none => simp [h1, h2] at h
      | some rest =>
        simp only [h1, h2, Option.some.injEq] at h
        rw [← h, List.map_cons, hrow y s h1, scanRows_rows hrow ys rest h2]

/-- The spans of a scanline loop are the spans of its rows. -/
theorem scanRows_mem {span : Int → Option (Int × Int × Int)} :
    ∀ (l : List Int) (spans : List (Int × Int × Int)),
      scanRows span l = some spans →
      ∀ s, s ∈ spans ↔ ∃ y ∈ l, span y = some s
  | [], spans, h, s => by
    simp only [scanRows, Option.some.injEq] at h
    rw [← h]; simp
  | y :: ys, spans, h, s => by
    unfold scanRows at h
    cases h1 : span y with
    | none => simp [h1] at h
    | some s0 =>
      cases h2 : scanRows span ys with
      | none => simp [h1, h2] at h
      | some rest =>
        simp only [h1, h2, Option.some.injEq] at h
        rw [← h, List.mem_cons, scanRows_mem ys rest h2 s]
        constructor
        · rintro (rfl | ⟨y', hy', hs⟩)
          · exact ⟨y, List.mem_cons_self _ _, h1⟩
          · exact ⟨y', List.mem_cons_of_mem _ hy', hs⟩
        · rintro ⟨y', hy', hs⟩
          rcases List.mem_cons.1 hy' with rfl | hy''
          · left
            rw [h1] at hs
            exact (Option.some.inj hs).symm
          · exact Or.inr ⟨y', hy'', hs⟩

/-- One scanline in binary64: both span ends are defined and the span runs from the
smaller to the larger one. -/
theorem scanSpan_eq_some (incA addA incB addB : Dbl) (y : Int) (s : Int × Int × Int) :
    Binary64.scanSpan incA addA incB addB y = some s ↔
      ∃ a b : Int, Binary64.spanX y incA addA = some a ∧ Binary64.spanX y incB addB = some b ∧
        s = (y, min a b, max a b) := by
  unfold Binary64.scanSpan
  cases hA : Binary64.spanX y incA addA with
  | none => simp
  | some a =>
    cases hB : Binary64.spanX y incB addB with
    | none => simp
    | some b =>
      simp only [Option.some.injEq, exists_and_left, exists_eq_left']
      by_cases hab : a > b
      · rw [if_pos hab, min_eq_right (le_of_lt hab), max_eq_left (le_of_lt hab)]
        simp only [Option.some.injEq]
        exact eq_comm
      · rw [if_neg hab, min_eq_left (not_lt.1 hab), max_eq_right (not_lt.1 hab)]
        simp only [Option.some.injEq]
        exact eq_comm

theorem scanSpan_row (incA addA incB addB : Dbl) (y : Int) (s : Int × Int × Int)
    (h : Binary64.scanSpan incA addA incB addB y = some s) : s.1 = y := by
  obtain ⟨a, b, _, _, rfl⟩ := (scanSpan_eq_some incA addA incB addB y s).1 h
  rfl

/-- The pixels of one pass in binary64: the rows of the pass, each from the smaller to
the larger of its two computed span ends. -/
theorem mem_pass_pixels {incA addA incB addB : Dbl} {rows : List Int}
    {spans : List (Int × Int × Int)}
    (h : scanRows (Binary64.scanSpan incA addA incB addB) rows = some spans) (x y : Int) :
    (x, y) ∈ spanPixels spans ↔
      y ∈ rows ∧ ∃ a b : Int, Binary64.spanX y incA addA = some a ∧
        Binary64.spanX y incB addB = some b ∧ min a b ≤ x ∧ x < max a b := by
  rw [mem_spanPixels]
  constructor
  · rintro ⟨s, hs, h1, h2, h3⟩
    obtain ⟨y', hy', hsp⟩ := (scanRows_mem rows spans h s).1 hs
    obtain ⟨a, b, ha, hb, rfl⟩ := (scanSpan_eq_some _ _ _ _ y' s).1 hsp
    simp only at h1 h2 h3
    subst h1
    exact ⟨hy', a, b, ha, hb, h2, h3⟩
  · rintro ⟨hy, a, b, ha, hb, h2, h3⟩
    refine ⟨(y, min a b, max a b), ?_, rfl, h2, h3⟩
    exact (scanRows_mem rows spans h _).2
      ⟨y, hy, (scanSpan_eq_some _ _ _ _ y _).2 ⟨a, b, ha, hb, rfl⟩⟩

/-- The rows of a pass in binary64: the rows from `(int) (ya + 0.5)` up to, not including,
`(int) (yb + 0.5)` when the guard holds, none otherwise. -/
theorem mem_passRows {ya yb : Dbl} {rows : List Int} (h : Binary64.passRows ya yb = some rows)
    (y : Int) :
    y ∈ rows ↔ ∃ r0 r1 : Int, Binary64.rowOf ya = some r0 ∧ Binary64.rowOf yb = some r1 ∧
      Binary64.guard r0 yb ∧ r0 ≤ y ∧ y < r1 := by
  unfold Binary64.passRows at h
  cases h0 : Binary64.rowOf ya with
  | none => simp [h0] at h
  | some r0 =>
    simp only [h0] at h
    by_cases hg : Binary64.guard r0 yb
    · rw [if_pos hg] at h
      cases h1 : Binary64.rowOf yb with
      | none => simp [h1] at h
      | some r1 =>
        simp only [h1, Option.some.injEq] at h
        rw [← h, mem_intRange]
        constructor
        · rintro ⟨a, b⟩
          exact ⟨r0, r1, rfl, rfl, hg, a, b⟩
        · rintro ⟨r0', r1', e0, e1, _, a, b⟩
          rw [Option.some.inj e0, Option.some.inj e1]
          exact ⟨a, b⟩
    · rw [if_neg hg, Option.some.injEq] at h
      rw [← h]
      simp only [List.not_mem_nil, false_iff]
      rintro ⟨r0', r1', e0, _, hg', _⟩
      rw [← Option.some.inj e0] at hg'
      exact hg hg'

theorem passRows_nodup {ya yb : Dbl} {rows : List Int}
    (h : Binary64.passRows ya yb = some rows) : rows.Nodup := by
  unfold Binary64.passRows at h
  cases h0 : Binary64.rowOf ya with
  | none => simp [h0] at h
  | some r0 =>
    simp only [h0] at h
    by_cases hg : Binary64.guard r0 yb
    · rw [if_pos hg] at h
      cases h1 : Binary64.rowOf yb with
      | none => simp [h1] at h
      | some r1 =>
        simp only [h1, Option.some.injEq] at h
        rw [← h]
        exact nodup_intRange _ _
    · rw [if_neg hg, Option.some.injEq] at h
      rw [← h]
      exact List.nodup_nil

/-- The two passes of a defined triangle call in binary64: the rows of each pass and the
spans of those rows, for the vertices as held after the sort. -/
theorem triangle64_passes {x0 y0 x1 y1 x2 y2 : ℚ} {p0 p1 p2 : Dbl × Dbl} {px : Pixels}
    (hs : Binary64.sorted x0 y0 x1 y1 x2 y2 = (p0, p1, p2))
    (h : Binary64.driver_framebuffer_triangle x0 y0 x1 y1 x2 y2 = some px) :
    ∃ (topRows botRows : List Int) (top bottom : List (Int × Int × Int)),
      Binary64.passRows p0.2 p1.2 = some topRows ∧
      Binary64.passRows p1.2 p2.2 = some botRows ∧
      Binary64.triangleTop p0 p1 p2 = some top ∧
      Binary64.triangleBottom p0 p1 p2 = some bottom ∧
      scanRows (Binary64.scanSpan (Binary64.edgeInc p0.1 p0.2 p1.1 p1.2)
        (Binary64.edgeAdd p0.1 p0.2 (Binary64.edgeInc p0.1 p0.2 p1.1 p1.2))
        (Binary64.edgeInc p0.1 p0.2 p2.1 p2.2)
        (Binary64.edgeAdd p0.1 p0.2 (Binary64.edgeInc p0.1 p0.2 p2.1 p2.2))) topRows
          = some top ∧
      scanRows (Binary64.scanSpan (Binary64.edgeInc p1.1 p1.2 p2.1 p2.2)
        (Binary64.edgeAdd p1.1 p1.2 (Binary64.edgeInc p1.1 p1.2 p2.1 p2.2))
        (Binary64.edgeInc p0.1 p0.2 p2.1 p2.2)
        (Binary64.edgeAdd p0.1 p0.2 (Binary64.edgeInc p0.1 p0.2 p2.1 p2.2))) botRows
          = some bottom ∧
      px = spanPixels top ++ spanPixels bottom := by
  unfold Binary64.driver_framebuffer_triangle at h
  simp only [hs] at h
  cases ht : Binary64.triangleTop p0 p1 p2 with
  | none => simp [ht] at h
  | some top =>
    cases hb : Binary64.triangleBottom p0 p1 p2 with
    | none => simp [ht, hb] at h
    | some bottom =>
      simp only [ht, hb, Option.some.injEq] at h
      have ht' := ht
      have hb' := hb
      unfold Binary64.triangleTop at ht'
      unfold Binary64.triangleBottom at hb'
      simp only [] at ht' hb'
      cases htr : Binary64.passRows p0.2 p1.2 with
      | none => simp [htr] at ht'
      | some topRows =>
        cases hbr : Binary64.passRows p1.2 p2.2 with
        | none => simp [hbr] at hb'
        | some botRows =>
          simp only [htr] at ht'
          simp only [hbr] at hb'
          exact ⟨topRows, botRows, top, bottom, rfl, rfl, rfl, rfl, ht', hb', h.symm⟩

/-- A defined triangle call in binary64 writes no pixel twice. -/
theorem triangle64_nodup {x0 y0 x1 y1 x2 y2 : ℚ} {px : Pixels}
    (h : Binary64.driver_framebuffer_triangle x0 y0 x1 y1 x2 y2 = some px) : px.Nodup := by
  obtain ⟨topRows, botRows, top, bottom, htr, hbr, _, _, ht, hb, rfl⟩ :=
    @triangle64_passes x0 y0 x1 y1 x2 y2 (Binary64.sorted x0 y0 x1 y1 x2 y2).1
      (Binary64.sorted x0 y0 x1 y1 x2 y2).2.1 (Binary64.sorted x0 y0 x1 y1 x2 y2).2.2 px rfl h
  have rt := scanRows_rows (scanSpan_row _ _ _ _) _ _ ht
  have rb := scanRows_rows (scanSpan_row _ _ _ _) _ _ hb
  rw [List.nodup_append]
  refine ⟨spanPixels_nodup _ (by rw [rt]; exact passRows_nodup htr),
    spanPixels_nodup _ (by rw [rb]; exact passRows_nodup hbr), ?_⟩
  rintro ⟨x, y⟩ hp hq
  obtain ⟨hy1, _⟩ := (mem_pass_pixels ht x y).1 hp
  obtain ⟨hy2, _⟩ := (mem_pass_pixels hb x y).1 hq
  obtain ⟨_, r1, _, e1, _, _, c1⟩ := (mem_passRows htr y).1 hy1
  obtain ⟨r1', _, e1', _, _, c2, _⟩ := (mem_passRows hbr y).1 hy2
  rw [e1] at e1'
  have := Option.some.inj e1'
  omega

/-- An integer multiple `m * 2^k` of a power of two with fewer than `p + 2` bits in `m`
and `k` at least the least exponent is a value of the format. -/
theorem roundTo_dyadic {p emin k : Int} (he : emin ≤ k) (m : Int)
    (hm : |(m : ℚ)| < (2 : ℚ) ^ (p + 1)) :
    roundTo p emin ((m : ℚ) * (2 : ℚ) ^ k) = (m : ℚ) * (2 : ℚ) ^ k := by
  have h2 : (2 : ℚ) ≠ 0 := by norm_num
  by_cases hq : (m : ℚ) * (2 : ℚ) ^ k = 0
  · rw [hq, roundTo_zero]
  rw [roundTo_of_ne hq]
  obtain ⟨b1, _⟩ := ilog2_bounds hq
  have c : (2 : ℚ) ^ ilog2 ((m : ℚ) * (2 : ℚ) ^ k) < (2 : ℚ) ^ (p + 1 + k) := by
    refine lt_of_le_of_lt b1 ?_
    rw [abs_mul, abs_of_pos (two_zpow_pos k), zpow_add₀ h2]
    exact mul_lt_mul_of_pos_right hm (two_zpow_pos k)
  rw [zpow_lt_zpow_iff_right₀ (by norm_num : (1 : ℚ) < 2)] at c
  have hmax : max (ilog2 ((m : ℚ) * (2 : ℚ) ^ k) - p) emin ≤ k := max_le (by omega) he
  generalize max (ilog2 ((m : ℚ) * (2 : ℚ) ^ k) - p) emin = e at hmax
  obtain ⟨n, hn⟩ : ∃ n : Nat, k - e = (n : Int) := ⟨(k - e).toNat, by omega⟩
  have hdiv : (m : ℚ) * (2 : ℚ) ^ k / (2 : ℚ) ^ e = ((m * 2 ^ n : Int) : ℚ) := by
    rw [mul_div_assoc, ← zpow_sub₀ h2, hn, zpow_natCast]
    push_cast
    ring
  rw [hdiv, roundEven_intCast]
  push_cast
  rw [mul_assoc, ← zpow_natCast, ← zpow_add₀ h2, ← hn]
  congr 2
  ring

/-- A half-integer within the range of `int` is a `double`. -/
theorem toDouble_half_int (r : Int) (h1 : -2147483648 ≤ r) (h2 : r ≤ 2147483647) :
    Binary64.toDouble ((r : ℚ) + 1 / 2) = (r : ℚ) + 1 / 2 := by
  have h := @roundTo_dyadic 52 (-1074) (-1) (by norm_num) (2 * r + 1) (by
    rw [abs_lt]
    have a : ((-2147483648 : Int) : ℚ) ≤ (r : ℚ) := by exact_mod_cast h1
    have b : (r : ℚ) ≤ ((2147483647 : Int) : ℚ) := by exact_mod_cast h2
    push_cast at a b ⊢
    norm_num
    constructor <;> linarith)
  have e : ((2 * r + 1 : Int) : ℚ) * (2 : ℚ) ^ (-1 : Int) = (r : ℚ) + 1 / 2 := by
    push_cast
    norm_num
    ring
  rw [e] at h
  exact h

/-- The conversion `(int)` in binary64 yields the truncation, within the range of `int`. -/
theorem toInt_eq_some {d : Dbl} {r : Int} (h : Binary64.toInt d = some r) :
    ∃ q : ℚ, d = Dbl.fin q ∧ r = truncQ q ∧ -2147483648 ≤ r ∧ r ≤ 2147483647 := by
  cases d with
  | fin q =>
    unfold Binary64.toInt at h
    simp only [] at h
    split_ifs at h with hc
    · have := Option.some.inj h
      exact ⟨q, rfl, this.symm, by rw [← this]; exact hc.1, by rw [← this]; exact hc.2⟩
  | pinf => simp [Binary64.toInt] at h
  | ninf => simp [Binary64.toInt] at h
  | nan => simp [Binary64.toInt] at h

/-- The rounded result of an operation is finite exactly as the rounding of its exact
result. -/
theorem rnd_eq_fin {q r : ℚ} (h : Binary64.rnd (Dbl.fin q) = Dbl.fin r) :
    r = Binary64.toDouble q := by
  unfold Binary64.rnd at h
  simp only [] at h
  split_ifs at h with hc
  · unfold Dbl.infOfSign at h
    split_ifs at h
  · exact (Dbl.fin.inj h).symm

/-- The rounding of a value of moderate size is finite. -/
theorem rnd_fin_of_lt {q : ℚ} (h : |Binary64.toDouble q| < (2 : ℚ) ^ 1024) :
    Binary64.rnd (Dbl.fin q) = Dbl.fin (Binary64.toDouble q) := by
  unfold Binary64.rnd
  simp only []
  rw [if_neg (not_le.2 h)]

/-- A defined row belongs to a finite height: it is the truncation of the rounded sum
`y + 0.5`, within the range of `int`. -/
theorem rowOf_eq_some {d : Dbl} {r : Int} (h : Binary64.rowOf d = some r) :
    ∃ y : ℚ, d = Dbl.fin y ∧ r = truncQ (Binary64.toDouble (y + 1 / 2)) ∧
      -2147483648 ≤ r ∧ r ≤ 2147483647 := by
  unfold Binary64.rowOf at h
  obtain ⟨q, hq, hr, b1, b2⟩ := toInt_eq_some h
  cases d with
  | fin y =>
    unfold Binary64.add at hq
    simp only [Dbl.add] at hq
    rw [rnd_eq_fin hq] at hr
    exact ⟨y, rfl, hr, b1, b2⟩
  | pinf => simp [Binary64.add, Dbl.add, Binary64.rnd] at hq
  | ninf => simp [Binary64.add, Dbl.add, Binary64.rnd] at hq
  | nan => simp [Binary64.add, Dbl.add, Binary64.rnd] at hq

/-- The row of a non-negative height whose sum `y + 0.5` is exact. -/
theorem rowOf_of_exact {y : ℚ} (hex : Binary64.toDouble (y + 1 / 2) = y + 1 / 2) (h0 : 0 ≤ y)
    (hr : truncQ (y + 1 / 2) ≤ 2147483647) :
    Binary64.rowOf (Dbl.fin y) = some (truncQ (y + 1 / 2)) := by
  have hpos : (0 : ℚ) ≤ y + 1 / 2 := by linarith
  have hfl : (0 : Int) ≤ truncQ (y + 1 / 2) := by
    rw [truncQ_of_nonneg hpos]; exact Int.floor_nonneg.2 hpos
  have hlt : y + 1 / 2 < 2147483648 := by
    have := truncQ_gt (y + 1 / 2)
    have b : ((truncQ (y + 1 / 2) : Int) : ℚ) ≤ ((2147483647 : Int) : ℚ) := by exact_mod_cast hr
    push_cast at b
    linarith
  unfold Binary64.rowOf Binary64.add
  simp only [Dbl.add, Binary64.rnd, hex]
  have hno : ¬ ((2 : ℚ) ^ 1024 ≤ |y + 1 / 2|) := by
    rw [abs_of_nonneg hpos, not_le]
    refine lt_trans hlt ?_
    norm_num
  rw [if_neg hno]
  unfold Binary64.toInt
  simp only []
  rw [if_pos ⟨by omega, hr⟩]

/-- The guard of a pass on a row within the range of `int` and a finite height. -/
theorem guard_fin (r : Int) (h1 : -2147483648 ≤ r) (h2 : r ≤ 2147483647) (y : ℚ) :
    Binary64.guard r (Dbl.fin y) = true ↔ (r : ℚ) + 1 / 2 ≤ y := by
  have hex := toDouble_half_int r h1 h2
  have a : ((-2147483648 : Int) : ℚ) ≤ (r : ℚ) := by exact_mod_cast h1
  have b : (r : ℚ) ≤ ((2147483647 : Int) : ℚ) := by exact_mod_cast h2
  push_cast at a b
  have hlt : |Binary64.toDouble ((r : ℚ) + 1 / 2)| < (2 : ℚ) ^ 1024 := by
    rw [hex, abs_lt]
    constructor
    · have : -(2 : ℚ) ^ 1024 < -2147483648 := by norm_num
      linarith
    · have : (2147483648 : ℚ) < (2 : ℚ) ^ 1024 := by norm_num
      linarith
  unfold Binary64.guard Binary64.add
  simp only [Dbl.add]
  rw [rnd_fin_of_lt hlt, hex]
  simp [Dbl.le]

/-- The rounding of zero is zero. -/
theorem rnd_zero : Binary64.rnd (Dbl.fin 0) = Dbl.fin 0 := by
  unfold Binary64.rnd Binary64.toDouble
  simp [roundTo_zero]

theorem add_fin (a b : ℚ) :
    Binary64.add (Dbl.fin a) (Dbl.fin b) = Binary64.rnd (Dbl.fin (a + b)) := rfl

theorem sub_fin (a b : ℚ) :
    Binary64.sub (Dbl.fin a) (Dbl.fin b) = Binary64.rnd (Dbl.fin (a - b)) := by
  unfold Binary64.sub
  simp only [Dbl.sub, Dbl.neg, Dbl.add, sub_eq_add_neg]

theorem mul_fin (a b : ℚ) :
    Binary64.mul (Dbl.fin a) (Dbl.fin b) = Binary64.rnd (Dbl.fin (a * b)) := rfl

theorem div_fin (a : ℚ) {b : ℚ} (hb : b ≠ 0) :
    Binary64.div (Dbl.fin a) (Dbl.fin b) = Binary64.rnd (Dbl.fin (a / b)) := by
  unfold Binary64.div
  simp only [Dbl.div, if_neg hb]

/-- An integer of magnitude below `2^24` passes through the `float temp` unchanged. -/
theorem narrow_intCast (z : Int) (hz : |(z : ℚ)| < 16777216) :
    Binary64.narrow (Dbl.fin (z : ℚ)) = Dbl.fin (z : ℚ) := by
  have h := @roundTo_intCast 23 (-149) (by norm_num) z (by
    refine lt_of_lt_of_le hz ?_
    norm_num)
  unfold Binary64.narrow toFloat
  simp only []
  rw [h, if_neg]
  rw [not_le]
  refine lt_trans hz ?_
  norm_num

/-- An integer of magnitude below `2^53` is a `double`. -/
theorem rnd_intCast (z : Int) (hz : |(z : ℚ)| < 9007199254740992) :
    Binary64.rnd (Dbl.fin (z : ℚ)) = Dbl.fin (z : ℚ) := by
  have h := @roundTo_intCast 52 (-1074) (by norm_num) z (by
    refine lt_of_lt_of_le hz ?_
    norm_num)
  unfold Binary64.rnd Binary64.toDouble
  simp only []
  rw [h, if_neg]
  rw [not_le]
  refine lt_trans hz ?_
  norm_num

/-- The sort with the `float temp` agrees with the exact sort when the coordinates of the
first two vertices pass through the `float temp` unchanged (the third vertex is never
stored in it). -/
theorem sorted_of_fixed (x0 y0 x1 y1 x2 y2 : ℚ)
    (h0 : Binary64.narrow (Dbl.fin x0) = Dbl.fin x0)
    (h1 : Binary64.narrow (Dbl.fin y0) = Dbl.fin y0)
    (h2 : Binary64.narrow (Dbl.fin x1) = Dbl.fin x1)
    (h3 : Binary64.narrow (Dbl.fin y1) = Dbl.fin y1) :
    Binary64.sorted x0 y0 x1 y1 x2 y2 =
      ((Dbl.fin (triangleSort id (x0, y0) (x1, y1) (x2, y2)).1.1,
        Dbl.fin (triangleSort id (x0, y0) (x1, y1) (x2, y2)).1.2),
       (Dbl.fin (triangleSort id (x0, y0) (x1, y1) (x2, y2)).2.1.1,
        Dbl.fin (triangleSort id (x0, y0) (x1, y1) (x2, y2)).2.1.2),
       (Dbl.fin (triangleSort id (x0, y0) (x1, y1) (x2, y2)).2.2.1,
        Dbl.fin (triangleSort id (x0, y0) (x1, y1) (x2, y2)).2.2.2)) := by
  unfold Binary64.sorted Binary64.triangleSort Binary64.swapIfAbove triangleSort swapIfAbove
  simp only [id, Dbl.lt, decide_eq_true_eq]
  by_cases c1 : y1 < y0
  · simp only [c1, if_true, h0, h1, Dbl.lt, decide_eq_true_eq]
    by_cases c2 : y2 < y0
    · simp only [c2, if_true, h0, h1, Dbl.lt, decide_eq_true_eq]
      by_cases c3 : y0 < y1
      · exact absurd c3 (not_lt.2 (le_of_lt c1))
      · simp only [c3, if_false, Dbl.lt, decide_eq_true_eq]
        by_cases c4 : y2 < y1
        · simp only [c4, if_true, h2, h3]
        · simp only [c4, if_false]
    · simp only [c2, if_false, Dbl.lt, decide_eq_true_eq]
      by_cases c3 : y2 < y1
      · exact absurd (lt_trans c3 c1) c2
      · simp only [c3, if_false, Dbl.lt, decide_eq_true_eq]
        by_cases c4 : y0 < y1
        · exact absurd c4 (not_lt.2 (le_of_lt c1))
        · simp only [c4, if_false]
  · simp only [c1, if_false, Dbl.lt, decide_eq_true_eq]
    by_cases c2 : y2 < y1
    · simp only [c2, if_true, h2, h3, Dbl.lt, decide_eq_true_eq]
      by_cases c3 : y1 < y0
      · exact absurd c3 c1
      · simp only [c3, if_false, Dbl.lt, decide_eq_true_eq]
        by_cases c4 : y2 < y0
        · simp only [c4, if_true, h0, h1]
        · simp only [c4, if_false]
    · simp only [c2, if_false, Dbl.lt, decide_eq_true_eq]
      by_cases c3 : y2 < y0
      · exact absurd c3 (not_lt.2 (le_trans (not_lt.1 c1) (not_lt.1 c2)))
      · simp only [c3, if_false, Dbl.lt, decide_eq_true_eq]
        by_cases c4 : y1 < y0
        · exact absurd c4 c1
        · simp only [c4, if_false]

/-- C16, counterexample: two triangles with small non-negative integer vertices.  On
`(0,0), (0,2), (1,5)` the routine writes the pixel `(0,3)`, whose centre `(1/2, 7/2)` lies
on the edge from `(0,2)` to `(1,5)`, so `min(L, S) < x + 1/2` fails; on `(4,1), (0,1), (1,2)`
it does not write the pixel `(2,1)`, whose centre `(5/2, 3/2)` satisfies the claimed
conditions, lying on the edge from `(4,1)` to `(1,2)`.  In both cases the span end that
is exactly `1` resp. `3` in the rationals is computed as a `double` just below it. -/
theorem triangle_tie_pixels :
    Binary64.sorted 0 0 0 2 1 5
      = ((Dbl.fin 0, Dbl.fin 0), (Dbl.fin 0, Dbl.fin 2), (Dbl.fin 1, Dbl.fin 5)) ∧
    Binary64.driver_framebuffer_triangle 0 0 0 2 1 5 = some [(0, 2), (0, 3)] ∧
    ((0 : ℚ) < (3 : ℚ) + 1 / 2 ∧ (3 : ℚ) + 1 / 2 ≤ 5) ∧ ¬ ((3 : ℚ) + 1 / 2 ≤ 2) ∧
    ¬ (min (edgeAt (0, 0) (1, 5) (3 + 1 / 2)) (edgeAt (0, 2) (1, 5) (3 + 1 / 2))
        < (0 : ℚ) + 1 / 2) ∧
    Binary64.sorted 4 1 0 1 1 2
      = ((Dbl.fin 4, Dbl.fin 1), (Dbl.fin 0, Dbl.fin 1), (Dbl.fin 1, Dbl.fin 2)) ∧
    Binary64.driver_framebuffer_triangle 4 1 0 1 1 2 = some [(1, 1)] ∧
    ((1 : ℚ) < (1 : ℚ) + 1 / 2 ∧ (1 : ℚ) + 1 / 2 ≤ 2) ∧ ¬ ((1 : ℚ) + 1 / 2 ≤ 1) ∧
    (min (edgeAt (4, 1) (1, 2) (1 + 1 / 2)) (edgeAt (0, 1) (1, 2) (1 + 1 / 2))
        < (2 : ℚ) + 1 / 2 ∧
      (2 : ℚ) + 1 / 2
        ≤ max (edgeAt (4, 1) (1, 2) (1 + 1 / 2)) (edgeAt (0, 1) (1, 2) (1 + 1 / 2))) := by
  refine ⟨by decide!, by decide!, by decide!, by decide!, by decide!, by decide!, by decide!,
    by decide!, by decide!, by decide!⟩

/-- The pixels of a triangle in terms of the computed span ends: for every triangle on
which the routine is defined, with `p0`, `p1`, `p2`
the vertices as the routine holds them after its sort, `round(v) = (int) (v + 0.5)` and
every operation rounded to a `double`: no pixel is written twice, and the pixel `(x, y)`
is written if and only if either row `y` is swept by the top pass
(`round(Y0) ≤ y < round(Y1)` with the top guard) and `min(a, b) ≤ x < max(a, b)` for the
span ends `a`, `b` the routine computes for row `y` from the edges `p0 → p1` and
`p0 → p2`, or row `y` is swept by the bottom pass (`round(Y1) ≤ y < round(Y2)` with the
bottom guard) and `min(a, b) ≤ x < max(a, b)` for the span ends computed from the edges
`p1 → p2` and `p0 → p2`. -/
theorem triangle64_pixels_between_spans (x0 y0 x1 y1 x2 y2 : ℚ) (p0 p1 p2 : Dbl × Dbl)
    (px : Pixels) (hs : Binary64.sorted x0 y0 x1 y1 x2 y2 = (p0, p1, p2))
    (h : Binary64.driver_framebuffer_triangle x0 y0 x1 y1 x2 y2 = some px) :
    px.Nodup ∧
    ∀ x y : Int, (x, y) ∈ px ↔
      ((∃ r0 r1 : Int, Binary64.rowOf p0.2 = some r0 ∧ Binary64.rowOf p1.2 = some r1 ∧
          Binary64.guard r0 p1.2 = true ∧ r0 ≤ y ∧ y < r1) ∧
        ∃ a b : Int,
          Binary64.spanX y (Binary64.edgeInc p0.1 p0.2 p1.1 p1.2)
            (Binary64.edgeAdd p0.1 p0.2 (Binary64.edgeInc p0.1 p0.2 p1.1 p1.2)) = some a ∧
          Binary64.spanX y (Binary64.edgeInc p0.1 p0.2 p2.1 p2.2)
            (Binary64.edgeAdd p0.1 p0.2 (Binary64.edgeInc p0.1 p0.2 p2.1 p2.2)) = some b ∧
          min a b ≤ x ∧ x < max a b) ∨
      ((∃ r1 r2 : Int, Binary64.rowOf p1.2 = some r1 ∧ Binary64.rowOf p2.2 = some r2 ∧
          Binary64.guard r1 p2.2 = true ∧ r1 ≤ y ∧ y < r2) ∧
        ∃ a b : Int,
          Binary64.spanX y (Binary64.edgeInc p1.1 p1.2 p2.1 p2.2)
            (Binary64.edgeAdd p1.1 p1.2 (Binary64.edgeInc p1.1 p1.2 p2.1 p2.2)) = some a ∧
          Binary64.spanX y (Binary64.edgeInc p0.1 p0.2 p2.1 p2.2)
            (Binary64.edgeAdd p0.1 p0.2 (Binary64.edgeInc p0.1 p0.2 p2.1 p2.2)) = some b ∧
          min a b ≤ x ∧ x < max a b) := by
  refine ⟨triangle64_nodup h, ?_⟩
  obtain ⟨topRows, botRows, top, bottom, htr, hbr, _, _, ht, hb, rfl⟩ :=
    triangle64_passes hs h
  intro x y
  rw [List.mem_append, mem_pass_pixels ht, mem_pass_pixels hb, mem_passRows htr,
    mem_passRows hbr]

/-- A list without repeats holds every value at most once. -/
theorem countP_eq_le_one {l : Pixels} (h : l.Nodup) (p : Int × Int) :
    List.countP (fun q => decide (q = p)) l ≤ 1 := by
  induction l with
  | nil => simp
  | cons a l ih =>
    rw [List.nodup_cons] at h
    rw [List.countP_cons]
    by_cases hap : a = p
    · have hz : List.countP (fun q => decide (q = p)) l = 0 := by
        rw [List.countP_eq_zero]
        intro q hq
        simp only [decide_eq_true_eq]
        rintro rfl
        exact h.1 (hap ▸ hq)
      simp [hap, hz]
    · have := ih h.2
      simp [hap]
      exact this

/-- C19, counterexample: the quad `(0,0), (4,1), (2.5,3.5), (0.5,2)` is convex with
non-negative coordinates, `v1` and `v3` lie strictly on opposite sides of the diagonal,
and both triangle calls write the pixel `(2,3)`, whose centre `(2.5, 3.5)` is the vertex
`v2` on the shared diagonal: the quad writes that pixel twice. -/
theorem quad_diagonal_pixel_twice :
    (((5 / 2 : ℚ) - 0) * (1 - 0) - ((7 / 2 : ℚ) - 0) * (4 - 0)) *
      (((5 / 2 : ℚ) - 0) * (2 - 0) - ((7 / 2 : ℚ) - 0) * ((1 / 2 : ℚ) - 0)) < 0 ∧
    Binary64.driver_framebuffer_triangle 0 0 4 1 (5 / 2) (7 / 2)
      = some [(0, 0), (1, 0), (1, 1), (2, 1), (3, 1), (2, 2), (2, 3)] ∧
    Binary64.driver_framebuffer_triangle 0 0 (5 / 2) (7 / 2) (1 / 2) 2
      = some [(0, 1), (1, 2), (2, 3)] ∧
    Binary64.driver_framebuffer_quad 0 0 4 1 (5 / 2) (7 / 2) (1 / 2) 2
      = some [(0, 0), (1, 0), (1, 1), (2, 1), (3, 1), (2, 2), (2, 3), (0, 1), (1, 2), (2, 3)] ∧
    ((2 : Int), (3 : Int)) ∈ ([(0, 0), (1, 0), (1, 1), (2, 1), (3, 1), (2, 2), (2, 3)] : Pixels) ∧
    ((2 : Int), (3 : Int)) ∈ ([(0, 1), (1, 2), (2, 3)] : Pixels) := by
  refine ⟨by decide!, by decide!, by decide!, by decide!, by decide, by decide⟩

/-- The quad in binary64: for every quadrilateral on which the routine is defined, the quad writes
the pixels of triangle `(v0, v1, v2)` followed by those of triangle `(v0, v2, v3)`, neither
triangle call writes a pixel twice, and so every pixel is written at most twice by the
quad, and twice only when both calls write it. -/
theorem quad64_pixels_at_most_twice (x0 y0 x1 y1 x2 y2 x3 y3 : ℚ) (px : Pixels)
    (h : Binary64.driver_framebuffer_quad x0 y0 x1 y1 x2 y2 x3 y3 = some px) :
    ∃ first second : Pixels,
      Binary64.driver_framebuffer_triangle x0 y0 x1 y1 x2 y2 = some first ∧
      Binary64.driver_framebuffer_triangle x0 y0 x2 y2 x3 y3 = some second ∧
      px = first ++ second ∧ first.Nodup ∧ second.Nodup ∧
      ∀ p : Int × Int,
        List.countP (fun q => decide (q = p)) px ≤ 2 ∧
        (List.countP (fun q => decide (q = p)) px = 2 → p ∈ first ∧ p ∈ second) := by
  unfold Binary64.driver_framebuffer_quad at h
  cases h1 : Binary64.driver_framebuffer_triangle x0 y0 x1 y1 x2 y2 with
  | none => simp [h1] at h
  | some first =>
    cases h2 : Binary64.driver_framebuffer_triangle x0 y0 x2 y2 x3 y3 with
    | none => simp [h1, h2] at h
    | some second =>
      simp only [h1, h2, Option.some.injEq] at h
      have n1 := triangle64_nodup h1
      have n2 := triangle64_nodup h2
      refine ⟨first, second, rfl, rfl, h.symm, n1, n2, ?_⟩
      intro p
      rw [← h, List.countP_append]
      have c1 := countP_eq_le_one n1 p
      have c2 := countP_eq_le_one n2 p
      refine ⟨by omega, fun h2 => ?_⟩
      have d1 : 0 < List.countP (fun q => decide (q = p)) first := by omega
      have d2 : 0 < List.countP (fun q => decide (q = p)) second := by omega
      rw [List.countP_pos_iff] at d1 d2
      obtain ⟨a, ha, ea⟩ := d1
      obtain ⟨b, hb, eb⟩ := d2
      simp only [decide_eq_true_eq] at ea eb
      exact ⟨ea ▸ ha, eb ▸ hb⟩

/-- C22, failing input: for the vertices `(0, 16777216), (1, 16777216.75),
(2, 16777216.5)` the `float temp` of the sort stores the height `16777216.75` as
`16777216`, so the routine holds the heights `16777216, 16777216.5, 16777216`: they are
not in order and the edge 0-2 has zero height.  The top guard holds and the top pass
sweeps row `16777216`; the slope of the edge 0-2 is `+inf`, and the span end the pass
computes from it is not a number that converts to `int`. -/
theorem triangle_flat_edge_used :
    Binary64.sorted 0 16777216 1 (16777216 + 3 / 4) 2 (16777216 + 1 / 2)
      = ((Dbl.fin 0, Dbl.fin 16777216), (Dbl.fin 2, Dbl.fin (33554433 / 2)),
          (Dbl.fin 1, Dbl.fin 16777216)) ∧
    Binary64.rowOf (Dbl.fin 16777216) = some 16777216 ∧
    Binary64.guard 16777216 (Dbl.fin (33554433 / 2)) = true ∧
    Binary64.passRows (Dbl.fin 16777216) (Dbl.fin (33554433 / 2)) = some [16777216] ∧
    ¬ ((16777216 : ℚ) < 16777216) ∧
    Binary64.edgeInc (Dbl.fin 0) (Dbl.fin 16777216) (Dbl.fin 1) (Dbl.fin 16777216)
      = Dbl.pinf ∧
    Binary64.spanX 16777216
      (Binary64.edgeInc (Dbl.fin 0) (Dbl.fin 16777216) (Dbl.fin 1) (Dbl.fin 16777216))
      (Binary64.edgeAdd (Dbl.fin 0) (Dbl.fin 16777216)
        (Binary64.edgeInc (Dbl.fin 0) (Dbl.fin 16777216) (Dbl.fin 1) (Dbl.fin 16777216)))
      = none ∧
    Binary64.triangleTop (Dbl.fin 0, Dbl.fin 16777216) (Dbl.fin 2, Dbl.fin (33554433 / 2))
      (Dbl.fin 1, Dbl.fin 16777216) = none ∧
    Binary64.driver_framebuffer_triangle 0 16777216 1 (16777216 + 3 / 4) 2 (16777216 + 1 / 2)
      = none := by
  refine ⟨by decide!, by decide!, by decide!, by decide!, by decide!, by decide!, by decide!,
    by decide!, by decide!⟩

/-- A scanline loop all of whose rows have a defined span is defined. -/
theorem scanRows_defined {span : Int → Option (Int × Int × Int)} :
    ∀ l : List Int, (∀ y ∈ l, ∃ s, span y = some s) → ∃ spans, scanRows span l = some spans
  | [], _ => ⟨[], rfl⟩
  | y :: ys, h => by
    obtain ⟨s, hs⟩ := h y (List.mem_cons_self _ _)
    obtain ⟨rest, hr⟩ := scanRows_defined ys (fun z hz => h z (List.mem_cons_of_mem _ hz))
    exact ⟨s :: rest, by simp [scanRows, hs, hr]⟩

/-- The rounded result of an operation with a moderate exact result is finite, and at most
twice as large plus one. -/
theorem rnd_fin_bound {q : ℚ} (hq : |q| ≤ 4294967296) :
    ∃ r : ℚ, Binary64.rnd (Dbl.fin q) = Dbl.fin r ∧ |r| ≤ 2 * |q| + 1 := by
  have hb : |Binary64.toDouble q| ≤ 2 * |q| + 1 := by
    have h := @abs_roundTo_le 52 (-1074) (by norm_num) q
    have h1 : (2 : ℚ) ^ (-1074 : Int) ≤ 1 := by
      rw [show (1 : ℚ) = (2 : ℚ) ^ (0 : Int) by norm_num]
      exact zpow_le_zpow_right₀ (by norm_num) (by norm_num)
    unfold Binary64.toDouble
    linarith
  refine ⟨Binary64.toDouble q, ?_, hb⟩
  unfold Binary64.rnd
  simp only []
  rw [if_neg]
  rw [not_le]
  refine lt_of_le_of_lt hb ?_
  have : (2 : ℚ) * 4294967296 + 1 < (2 : ℚ) ^ 1024 := by norm_num
  linarith

/-- The conversion to `int` of a value of magnitude below `2^31 - 1` is defined. -/
theorem toInt_defined {q : ℚ} (hq : |q| ≤ 2147483646) :
    ∃ v : Int, Binary64.toInt (Dbl.fin q) = some v := by
  have h1 := truncQ_gt q
  have h2 := truncQ_lt q
  rw [abs_le] at hq
  have a : ((-2147483648 : Int) : ℚ) < ((truncQ q : Int) : ℚ) := by push_cast; linarith
  have b : ((truncQ q : Int) : ℚ) < ((2147483648 : Int) : ℚ) := by push_cast; linarith
  have a' : -2147483648 < truncQ q := by exact_mod_cast a
  have b' : truncQ q < 2147483648 := by exact_mod_cast b
  refine ⟨truncQ q, ?_⟩
  unfold Binary64.toInt
  simp only []
  rw [if_pos ⟨by omega, by omega⟩]

/-- A span end is defined for a row, a slope and an offset of moderate size. -/
theorem spanX_defined (y : Int) (i a : ℚ) (hy : |(y : ℚ)| ≤ 67108872) (hi : |i| ≤ 1)
    (ha : |a| ≤ 67108872) : ∃ v : Int, Binary64.spanX y (Dbl.fin i) (Dbl.fin a) = some v := by
  unfold Binary64.spanX Binary64.add Binary64.mul
  simp only [Dbl.add]
  have h0 : |(y : ℚ) + 1 / 2| ≤ 67108873 := by
    have := abs_add (y : ℚ) (1 / 2)
    rw [abs_of_pos (by norm_num : (0 : ℚ) < 1 / 2)] at this
    linarith
  obtain ⟨r1, e1, b1⟩ := rnd_fin_bound (le_trans h0 (by norm_num))
  rw [e1]
  simp only [Dbl.mul]
  have h1 : |r1 * i| ≤ 134217747 := by
    rw [abs_mul]
    calc |r1| * |i| ≤ |r1| * 1 := mul_le_mul_of_nonneg_left hi (abs_nonneg _)
      _ ≤ 134217747 := by linarith
  obtain ⟨r2, e2, b2⟩ := rnd_fin_bound (le_trans h1 (by norm_num))
  rw [e2]
  simp only [Dbl.add]
  have h2 : |r2 + a| ≤ 335544367 := by
    have := abs_add r2 a
    linarith
  obtain ⟨r3, e3, b3⟩ := rnd_fin_bound (le_trans h2 (by norm_num))
  rw [e3]
  simp only [Dbl.add]
  have h3 : |r3 + 1 / 2| ≤ 671088736 := by
    have := abs_add r3 (1 / 2)
    rw [abs_of_pos (by norm_num : (0 : ℚ) < 1 / 2)] at this
    linarith
  obtain ⟨r4, e4, b4⟩ := rnd_fin_bound (le_trans h3 (by norm_num))
  rw [e4]
  exact toInt_defined (by linarith)

/-- A pass whose two heights convert to rows has a defined list of rows. -/
theorem passRows_defined {ya yb : Dbl} {r0 r1 : Int} (h0 : Binary64.rowOf ya = some r0)
    (h1 : Binary64.rowOf yb = some r1) : ∃ rows, Binary64.passRows ya yb = some rows := by
  unfold Binary64.passRows
  rw [h0]
  dsimp only
  split_ifs
  · rw [h1]
    exact ⟨_, rfl⟩
  · exact ⟨_, rfl⟩

/-- The routine returns when both passes have rows and every row of each has both span
ends defined. -/
theorem triangle64_defined {x0 y0 x1 y1 x2 y2 : ℚ} {p0 p1 p2 : Dbl × Dbl}
    (hs : Binary64.sorted x0 y0 x1 y1 x2 y2 = (p0, p1, p2))
    {topRows botRows : List Int}
    (ht : Binary64.passRows p0.2 p1.2 = some topRows)
    (hb : Binary64.passRows p1.2 p2.2 = some botRows)
    (hT : ∀ y ∈ topRows, ∃ s, Binary64.scanSpan (Binary64.edgeInc p0.1 p0.2 p1.1 p1.2)
        (Binary64.edgeAdd p0.1 p0.2 (Binary64.edgeInc p0.1 p0.2 p1.1 p1.2))
        (Binary64.edgeInc p0.1 p0.2 p2.1 p2.2)
        (Binary64.edgeAdd p0.1 p0.2 (Binary64.edgeInc p0.1 p0.2 p2.1 p2.2)) y = some s)
    (hB : ∀ y ∈ botRows, ∃ s, Binary64.scanSpan (Binary64.edgeInc p1.1 p1.2 p2.1 p2.2)
        (Binary64.edgeAdd p1.1 p1.2 (Binary64.edgeInc p1.1 p1.2 p2.1 p2.2))
        (Binary64.edgeInc p0.1 p0.2 p2.1 p2.2)
        (Binary64.edgeAdd p0.1 p0.2 (Binary64.edgeInc p0.1 p0.2 p2.1 p2.2)) y = some s) :
    ∃ px, Binary64.driver_framebuffer_triangle x0 y0 x1 y1 x2 y2 = some px := by
  obtain ⟨top, htop⟩ := scanRows_defined _ hT
  obtain ⟨bottom, hbottom⟩ := scanRows_defined _ hB
  have e1 : Binary64.triangleTop p0 p1 p2 = some top := by
    unfold Binary64.triangleTop
    dsimp only
    rw [ht]
    exact htop
  have e2 : Binary64.triangleBottom p0 p1 p2 = some bottom := by
    unfold Binary64.triangleBottom
    dsimp only
    rw [hb]
    exact hbottom
  refine ⟨spanPixels top ++ spanPixels bottom, ?_⟩
  unfold Binary64.driver_framebuffer_triangle
  dsimp only
  rw [hs]
  dsimp only
  rw [e1, e2]

/-- A pass guard `(double) (int) (ya + 0.5) + 0.5 <= yb` can only hold when `ya < yb`, also
with the sum `ya + 0.5` rounded to a `double`. -/
theorem guard64_lt {ya yb : ℚ} {r : Int} (h0 : Binary64.rowOf (Dbl.fin ya) = some r)
    (hg : Binary64.guard r (Dbl.fin yb) = true) : ya < yb := by
  obtain ⟨z, hz, v, b1, b2⟩ := rowOf_eq_some h0
  rw [← Dbl.fin.inj hz] at v
  rw [guard_fin r b1 b2] at hg
  have hb1 : ((-2147483648 : Int) : ℚ) ≤ (r : ℚ) := by exact_mod_cast b1
  have hb2 : (r : ℚ) ≤ ((2147483647 : Int) : ℚ) := by exact_mod_cast b2
  push_cast at hb1 hb2
  have t1 := truncQ_gt (Binary64.toDouble (ya + 1 / 2))
  have t2 := truncQ_lt (Binary64.toDouble (ya + 1 / 2))
  rw [← v] at t1 t2
  have e32 : Binary64.toDouble 4294967296 = 4294967296 := by
    have := toDouble_intCast 4294967296 (by norm_num)
    simpa using this
  suffices h : ya - 1 / 2 < (r : ℚ) by linarith
  rcases le_or_lt 0 (ya + 1 / 2) with hq | hq
  · have hlt : ya + 1 / 2 < 4294967296 := by
      by_contra hc
      have := toDouble_mono (not_lt.1 hc)
      rw [e32] at this
      linarith
    have hm0 : 0 ≤ ⌊ya + 1 / 2⌋ := Int.floor_nonneg.2 hq
    have hmq : (⌊ya + 1 / 2⌋ : ℚ) ≤ ya + 1 / 2 := Int.floor_le _
    have hm : Binary64.toDouble (⌊ya + 1 / 2⌋ : ℚ) = (⌊ya + 1 / 2⌋ : ℚ) := by
      refine toDouble_intCast _ ?_
      rw [abs_of_nonneg (by exact_mod_cast hm0)]
      linarith
    have hle := toDouble_mono hmq
    rw [hm] at hle
    have ht0 : 0 ≤ Binary64.toDouble (ya + 1 / 2) := toDouble_nonneg hq
    have hr : ⌊ya + 1 / 2⌋ ≤ r := by
      rw [v, truncQ_of_nonneg ht0]
      exact Int.le_floor.2 hle
    have hrq : (⌊ya + 1 / 2⌋ : ℚ) ≤ (r : ℚ) := by exact_mod_cast hr
    have := Int.lt_floor_add_one (ya + 1 / 2)
    linarith
  · have hgt : -4294967296 < ya + 1 / 2 := by
      by_contra hc
      have := toDouble_mono (not_lt.1 hc)
      rw [toDouble_neg, e32] at this
      linarith
    have ht0 : Binary64.toDouble (ya + 1 / 2) ≤ 0 := roundTo_nonpos _ _ (le_of_lt hq)
    have herr := toDouble_sub_le (ya + 1 / 2)
    rw [abs_of_neg hq] at herr
    have he : (2 : ℚ) ^ (-1075 : Int) ≤ 1 / 4 := by
      rw [show (1 : ℚ) / 4 = (2 : ℚ) ^ (-2 : Int) by norm_num]
      exact zpow_le_zpow_right₀ (by norm_num) (by norm_num)
    have herr' := (abs_le.1 herr).1
    have hrt : Binary64.toDouble (ya + 1 / 2) ≤ (r : ℚ) := by
      rw [v]
      unfold truncQ
      split_ifs
      · exact le_trans ht0 (by exact_mod_cast Int.floor_nonneg.2 (by assumption))
      · exact Int.le_ceil _
    have : -(ya + 1 / 2) / 9007199254740992 ≤ 1 / 2 := by
      rw [div_le_iff₀ (by norm_num)]
      linarith
    linarith

/-- In binary64, with the heights as the routine holds them after its sort in order,
`Y0 ≤ Y1 ≤ Y2`: a top pass that sweeps a row has `Y0 < Y1` and `Y0 < Y2`, and a bottom pass
that sweeps a row has `Y1 < Y2` and `Y0 < Y2`, so both edges of a swept row have non-zero
height; an offset whose slope compares equal to zero is the starting x of its edge. -/
theorem guards64_exclude_flat_edges (Y0 Y1 Y2 : ℚ) (h01 : Y0 ≤ Y1) (h12 : Y1 ≤ Y2) :
    (∀ rows y, Binary64.passRows (Dbl.fin Y0) (Dbl.fin Y1) = some rows → y ∈ rows →
      Y0 < Y1 ∧ Y0 < Y2) ∧
    (∀ rows y, Binary64.passRows (Dbl.fin Y1) (Dbl.fin Y2) = some rows → y ∈ rows →
      Y1 < Y2 ∧ Y0 < Y2) ∧
    (∀ (xa ya inc : Dbl), inc.isZero = true → Binary64.edgeAdd xa ya inc = xa) := by
  refine ⟨?_, ?_, ?_⟩
  · intro rows y hr hy
    obtain ⟨r0, r1, e0, _, hg, _, _⟩ := (mem_passRows hr y).1 hy
    have := guard64_lt e0 hg
    exact ⟨this, lt_of_lt_of_le this h12⟩
  · intro rows y hr hy
    obtain ⟨r1, r2, e1, _, hg, _, _⟩ := (mem_passRows hr y).1 hy
    have := guard64_lt e1 hg
    exact ⟨this, lt_of_le_of_lt h01 this⟩
  · intro xa ya inc hz
    unfold Binary64.edgeAdd
    simp only [hz, if_true]

/-- A half-integer within the range of `int` is the exact result of a `double` operation. -/
theorem rnd_half_int (r : Int) (h1 : -2147483648 ≤ r) (h2 : r ≤ 2147483647) :
    Binary64.rnd (Dbl.fin ((r : ℚ) + 1 / 2)) = Dbl.fin ((r : ℚ) + 1 / 2) := by
  have hex := toDouble_half_int r h1 h2
  have a : ((-2147483648 : Int) : ℚ) ≤ (r : ℚ) := by exact_mod_cast h1
  have b : (r : ℚ) ≤ ((2147483647 : Int) : ℚ) := by exact_mod_cast h2
  push_cast at a b
  have hlt : |Binary64.toDouble ((r : ℚ) + 1 / 2)| < (2 : ℚ) ^ 1024 := by
    rw [hex, abs_lt]
    constructor
    · have : -(2 : ℚ) ^ 1024 < -2147483648 := by norm_num
      linarith
    · have : (2147483648 : ℚ) < (2 : ℚ) ^ 1024 := by norm_num
      linarith
  rw [rnd_fin_of_lt hlt, hex]

/-- The conversion `(int)` of an integer within the range of `int`. -/
theorem toInt_intCast (r : Int) (h1 : -2147483648 ≤ r) (h2 : r ≤ 2147483647) :
    Binary64.toInt (Dbl.fin (r : ℚ)) = some r := by
  unfold Binary64.toInt
  simp only [truncQ_intCast]
  rw [if_pos ⟨h1, h2⟩]

/-- The span end of row `y` on the hypotenuse of the right triangle with legs `n`. -/
theorem rightTriangle64_hyp (n y : Int) (hy0 : 0 ≤ y) (hyn : y < n) (hn : n ≤ 2147483647) :
    Binary64.spanX y (Dbl.fin (-1)) (Dbl.fin (n : ℚ)) = some (n - y) := by
  unfold Binary64.spanX Binary64.add Binary64.mul
  simp only [Dbl.add, Dbl.mul]
  rw [rnd_half_int y (by omega) (by omega)]
  simp only [Dbl.add, Dbl.mul]
  have e1 : ((y : ℚ) + 1 / 2) * (-1) = ((-y - 1 : Int) : ℚ) + 1 / 2 := by push_cast; ring
  rw [e1, rnd_half_int (-y - 1) (by omega) (by omega)]
  simp only [Dbl.add]
  have e2 : ((-y - 1 : Int) : ℚ) + 1 / 2 + (n : ℚ) = ((n - y - 1 : Int) : ℚ) + 1 / 2 := by
    push_cast; ring
  rw [e2, rnd_half_int (n - y - 1) (by omega) (by omega)]
  simp only [Dbl.add]
  have e3 : ((n - y - 1 : Int) : ℚ) + 1 / 2 + 1 / 2 = ((n - y : Int) : ℚ) := by
    push_cast; ring
  have a' : (-2147483648 : Int) ≤ n - y := by omega
  have b' : n - y ≤ (2147483647 : Int) := by omega
  have a : ((-2147483648 : Int) : ℚ) ≤ ((n - y : Int) : ℚ) := by exact_mod_cast a'
  have b : ((n - y : Int) : ℚ) ≤ ((2147483647 : Int) : ℚ) := by exact_mod_cast b'
  rw [e3, rnd_intCast (n - y) (by
    rw [abs_lt]
    push_cast at a b ⊢
    constructor <;> linarith)]
  exact toInt_intCast (n - y) (by omega) (by omega)

/-- The span end of row `y` on a vertical edge at `x = 0`. -/
theorem rightTriangle64_leg (y : Int) (hy0 : -2147483648 ≤ y) (hy1 : y ≤ 2147483647) :
    Binary64.spanX y (Dbl.fin 0) (Dbl.fin 0) = some 0 := by
  unfold Binary64.spanX Binary64.add Binary64.mul
  simp only [Dbl.add, Dbl.mul]
  rw [rnd_half_int y hy0 hy1]
  simp only [Dbl.add, Dbl.mul, mul_zero]
  rw [rnd_zero]
  simp only [Dbl.add, add_zero]
  rw [rnd_zero]
  simp only [Dbl.add, zero_add]
  have h := rnd_half_int 0 (by norm_num) (by norm_num)
  simp only [Int.cast_zero, zero_add] at h
  rw [h]
  have : Binary64.toInt (Dbl.fin (1 / 2)) = some 0 := by decide!
  exact this

/-- A `float` holds every natural number up to `2^24` exactly. -/
theorem toFloat_natCast (n : Nat) (h : n ≤ 16777216) : toFloat (n : ℚ) = (n : ℚ) := by
  rcases Nat.lt_or_ge n 16777216 with hlt | hge
  · have hq : |((n : Int) : ℚ)| < (2 : ℚ) ^ ((23 : Int) + 1) := by
      have h0 : (0 : ℚ) ≤ ((n : Int) : ℚ) := by exact_mod_cast Nat.zero_le n
      rw [abs_of_nonneg h0]
      have : ((n : Int) : ℚ) < 16777216 := by exact_mod_cast hlt
      refine lt_of_lt_of_le this ?_
      norm_num
    have := @roundTo_intCast 23 (-149) (by norm_num) (n : Int) hq
    unfold toFloat
    exact_mod_cast this
  · have : n = 16777216 := by omega
    subst this
    decide!

/-- C5, counterexample: the right triangle with legs `n = 67108869`, and the one with legs
`n = 2^31`.  In the first, the `float temp` of the sort stores the height `n` of the second
vertex as `67108872`, so the routine sweeps rows up to `67108871` along the edge from
`(n, 0)` to `(0, 67108872)`, whose span in row `n` is `[0, 2)`: the routine returns, and it
writes the pixel `(1, n)`, for which `x + y = n + 1`.  In the second, the end row
`(int) (n + 0.5)` of the bottom pass is not an `int`, so the conversion is undefined. -/
theorem right_triangle_overshoot :
    toFloat 67108869 = 67108872 ∧
    Binary64.sorted 0 0 0 67108869 67108869 0
      = ((Dbl.fin 0, Dbl.fin 0), (Dbl.fin 67108869, Dbl.fin 0),
          (Dbl.fin 0, Dbl.fin 67108872)) ∧
    (∃ px, Binary64.driver_framebuffer_triangle 0 0 0 67108869 67108869 0 = some px) ∧
    (∀ px, Binary64.driver_framebuffer_triangle 0 0 0 67108869 67108869 0 = some px →
      (1, 67108869) ∈ px) ∧
    ¬ ((1 : Int) + 67108869 ≤ 67108869) ∧
    Binary64.sorted 0 0 0 2147483648 2147483648 0
      = ((Dbl.fin 0, Dbl.fin 0), (Dbl.fin 2147483648, Dbl.fin 0),
          (Dbl.fin 0, Dbl.fin 2147483648)) ∧
    Binary64.guard 0 (Dbl.fin 2147483648) = true ∧
    Binary64.rowOf (Dbl.fin 2147483648) = none ∧
    Binary64.driver_framebuffer_triangle 0 0 0 2147483648 2147483648 0 = none := by
  have hsort : Binary64.sorted 0 0 0 67108869 67108869 0
      = ((Dbl.fin 0, Dbl.fin 0), (Dbl.fin 67108869, Dbl.fin 0),
          (Dbl.fin 0, Dbl.fin 67108872)) := by decide!
  have h0 : Binary64.rowOf (Dbl.fin 0) = some 0 := by decide!
  have h1 : Binary64.rowOf (Dbl.fin 67108872) = some 67108872 := by decide!
  have hg : Binary64.guard 0 (Dbl.fin 67108872) = true := by decide!
  have hi12 : Binary64.edgeInc (Dbl.fin 67108869) (Dbl.fin 0) (Dbl.fin 0) (Dbl.fin 67108872)
      = Dbl.fin (-562949928255491 / 562949953421312) := by decide!
  have ha12 : Binary64.edgeAdd (Dbl.fin 67108869) (Dbl.fin 0)
      (Dbl.fin (-562949928255491 / 562949953421312)) = Dbl.fin 67108869 := by decide!
  have hi02 : Binary64.edgeInc (Dbl.fin 0) (Dbl.fin 0) (Dbl.fin 0) (Dbl.fin 67108872)
      = Dbl.fin 0 := by decide!
  have ha02 : Binary64.edgeAdd (Dbl.fin 0) (Dbl.fin 0) (Dbl.fin 0) = Dbl.fin 0 := by decide!
  have hA : Binary64.spanX 67108869 (Dbl.fin (-562949928255491 / 562949953421312))
      (Dbl.fin 67108869) = some 2 := by decide!
  have hB : Binary64.spanX 67108869 (Dbl.fin 0) (Dbl.fin 0) = some 0 := by decide!
  refine ⟨by decide!, hsort, ?_, ?_, by decide, by decide!, by decide!, by decide!, by decide!⟩
  · have htop : Binary64.passRows (Dbl.fin 0) (Dbl.fin 0) = some [] := by decide!
    obtain ⟨rows, hrows⟩ :=
      @passRows_defined (Dbl.fin 0) (Dbl.fin 67108872) 0 67108872 h0 h1
    refine triangle64_defined hsort htop hrows (fun y hy => by simp at hy) ?_
    intro y hy
    obtain ⟨r0, r1, e0, e1, -, hy0, hy1⟩ := (mem_passRows hrows y).1 hy
    rw [h0] at e0
    rw [h1] at e1
    have hr0 : r0 = 0 := (Option.some.inj e0).symm
    have hr1 : r1 = 67108872 := (Option.some.inj e1).symm
    subst hr0 hr1
    have hyq : |(y : ℚ)| ≤ 67108872 := by
      rw [abs_le]
      constructor
      · have : ((0 : Int) : ℚ) ≤ (y : ℚ) := by exact_mod_cast hy0
        push_cast at this; linarith
      · have : (y : ℚ) ≤ ((67108872 : Int) : ℚ) := by exact_mod_cast (le_of_lt hy1)
        push_cast at this; linarith
    obtain ⟨a, ea⟩ := spanX_defined y (-562949928255491 / 562949953421312) 67108869 hyq
      (by rw [abs_le]; constructor <;> norm_num) (by rw [abs_le]; constructor <;> norm_num)
    obtain ⟨b, eb⟩ := spanX_defined y 0 0 hyq (by norm_num) (by norm_num)
    show ∃ s, Binary64.scanSpan
      (Binary64.edgeInc (Dbl.fin 67108869) (Dbl.fin 0) (Dbl.fin 0) (Dbl.fin 67108872))
      (Binary64.edgeAdd (Dbl.fin 67108869) (Dbl.fin 0)
        (Binary64.edgeInc (Dbl.fin 67108869) (Dbl.fin 0) (Dbl.fin 0) (Dbl.fin 67108872)))
      (Binary64.edgeInc (Dbl.fin 0) (Dbl.fin 0) (Dbl.fin 0) (Dbl.fin 67108872))
      (Binary64.edgeAdd (Dbl.fin 0) (Dbl.fin 0)
        (Binary64.edgeInc (Dbl.fin 0) (Dbl.fin 0) (Dbl.fin 0) (Dbl.fin 67108872))) y = some s
    rw [hi12, ha12, hi02, ha02]
    unfold Binary64.scanSpan
    rw [ea, eb]
    dsimp only
    split_ifs <;> exact ⟨_, rfl⟩
  · intro px hpx
    obtain ⟨topRows, botRows, top, bottom, -, hbr, -, -, -, hbs, rfl⟩ :=
      triangle64_passes hsort hpx
    rw [List.mem_append]
    right
    dsimp only at hbs hbr
    rw [hi12, ha12, hi02, ha02] at hbs
    refine (mem_pass_pixels hbs 1 67108869).2 ⟨?_, 2, 0, hA, hB, by norm_num, by norm_num⟩
    exact (mem_passRows hbr 67108869).2 ⟨0, 67108872, h0, h1, hg, by norm_num, by norm_num⟩

/-- C5, amended: for every positive integer `n` below `2^31` that a `float` holds exactly
(in particular every `n ≤ 2^24`, by `toFloat_natCast`), the routine returns on the right
triangle with vertices `(0,0), (0,n), (n,0)`, and every pixel `(x, y)` it writes has
`x ≥ 0`, `y ≥ 0` and `x + y ≤ n`; the written pixels are exactly those with `x ≥ 0`,
`y ≥ 0` and `x + y < n`. -/
theorem right_triangle_within_bounds (n : Nat) (hn : 0 < n) (hmax : n ≤ 2147483647)
    (hfl : toFloat (n : ℚ) = (n : ℚ)) :
    ∃ px : Pixels,
      Binary64.driver_framebuffer_triangle 0 0 0 n n 0 = some px ∧
      (∀ p ∈ px, 0 ≤ p.1 ∧ 0 ≤ p.2 ∧ p.1 + p.2 ≤ n) ∧
      (∀ p : Int × Int, p ∈ px ↔ 0 ≤ p.1 ∧ 0 ≤ p.2 ∧ p.1 + p.2 < n) := by
  have hnq : (0 : ℚ) < n := by exact_mod_cast hn
  have hnz : ((n : Int) : ℚ) = (n : ℚ) := by push_cast; rfl
  have hni : (0 : Int) < (n : Int) := by exact_mod_cast hn
  have hmi : (n : Int) ≤ 2147483647 := by exact_mod_cast hmax
  have hnb : (n : ℚ) ≤ 2147483647 := by exact_mod_cast hmax
  -- the sort
  have hn0 : Binary64.narrow (Dbl.fin 0) = Dbl.fin 0 := by decide!
  have hnn : Binary64.narrow (Dbl.fin (n : ℚ)) = Dbl.fin (n : ℚ) := by
    unfold Binary64.narrow
    simp only []
    rw [hfl, if_neg]
    rw [not_le, abs_of_pos hnq]
    refine lt_of_le_of_lt hnb ?_
    norm_num
  have hsort : Binary64.sorted 0 0 0 n n 0
      = ((Dbl.fin 0, Dbl.fin 0), (Dbl.fin (n : ℚ), Dbl.fin 0), (Dbl.fin 0, Dbl.fin (n : ℚ))) := by
    rw [sorted_of_fixed 0 0 0 n n 0 hn0 hn0 hn0 hnn]
    have : triangleSort id ((0 : ℚ), (0 : ℚ)) ((0 : ℚ), (n : ℚ)) ((n : ℚ), (0 : ℚ))
        = ((0, 0), ((n : ℚ), 0), (0, (n : ℚ))) := by
      simp [triangleSort, swapIfAbove, hnq, not_lt.2 (le_of_lt hnq)]
    rw [this]
  -- the rows
  have h0 : Binary64.rowOf (Dbl.fin 0) = some 0 := by decide!
  have htop : Binary64.passRows (Dbl.fin 0) (Dbl.fin 0) = some [] := by decide!
  have hrn : Binary64.rowOf (Dbl.fin (n : ℚ)) = some (n : Int) := by
    have hex : Binary64.toDouble ((n : ℚ) + 1 / 2) = (n : ℚ) + 1 / 2 := by
      have := toDouble_half_int (n : Int) (by omega) hmi
      rwa [hnz] at this
    have ht : truncQ ((n : ℚ) + 1 / 2) = (n : Int) := by
      have := @truncQ_intCast_add_half (n : Int) (by omega)
      rwa [hnz] at this
    have := rowOf_of_exact hex (le_of_lt hnq) (by rw [ht]; exact hmi)
    rwa [ht] at this
  have hg : Binary64.guard 0 (Dbl.fin (n : ℚ)) = true := by
    rw [guard_fin 0 (by norm_num) (by norm_num)]
    have : (1 : ℚ) ≤ n := by exact_mod_cast hn
    push_cast
    linarith
  have hrows : Binary64.passRows (Dbl.fin 0) (Dbl.fin (n : ℚ)) = some (intRange 0 (n : Int)) := by
    unfold Binary64.passRows
    rw [h0]
    dsimp only
    rw [if_pos hg, hrn]
  -- the edges
  have hnabs : |((n : Int) : ℚ)| < 9007199254740992 := by
    rw [hnz, abs_of_pos hnq]
    refine lt_of_le_of_lt hnb ?_
    norm_num
  have hrn' : Binary64.rnd (Dbl.fin (n : ℚ)) = Dbl.fin (n : ℚ) := by
    have := rnd_intCast (n : Int) hnabs
    rwa [hnz] at this
  have hrm : Binary64.rnd (Dbl.fin (-(n : ℚ))) = Dbl.fin (-(n : ℚ)) := by
    have := rnd_intCast (-(n : Int)) (by rw [Int.cast_neg, abs_neg]; exact hnabs)
    rwa [Int.cast_neg, hnz] at this
  have hr1 : Binary64.rnd (Dbl.fin (-1)) = Dbl.fin (-1) := by decide!
  have hi12 : Binary64.edgeInc (Dbl.fin (n : ℚ)) (Dbl.fin 0) (Dbl.fin 0) (Dbl.fin (n : ℚ))
      = Dbl.fin (-1) := by
    unfold Binary64.edgeInc
    rw [sub_fin, sub_fin, zero_sub, sub_zero, hrn', hrm, div_fin _ (ne_of_gt hnq),
      neg_div, div_self (ne_of_gt hnq)]
    exact hr1
  have ha12 : Binary64.edgeAdd (Dbl.fin (n : ℚ)) (Dbl.fin 0) (Dbl.fin (-1)) = Dbl.fin (n : ℚ) := by
    unfold Binary64.edgeAdd
    have hz : (Dbl.fin (-1)).isZero = false := by decide!
    simp only [hz, Bool.false_eq_true, if_false]
    rw [div_fin _ (by norm_num : (-1 : ℚ) ≠ 0), div_neg, div_one, hrm, sub_fin, sub_zero, hrm,
      mul_fin, neg_mul_neg, mul_one, hrn']
  have hi02 : Binary64.edgeInc (Dbl.fin 0) (Dbl.fin 0) (Dbl.fin 0) (Dbl.fin (n : ℚ))
      = Dbl.fin 0 := by
    unfold Binary64.edgeInc
    rw [sub_fin, sub_fin, sub_zero, sub_zero, hrn', rnd_zero, div_fin _ (ne_of_gt hnq), zero_div]
    exact rnd_zero
  have ha02 : Binary64.edgeAdd (Dbl.fin 0) (Dbl.fin 0) (Dbl.fin 0) = Dbl.fin 0 := by decide!
  have hspan : ∀ y ∈ intRange 0 (n : Int),
      Binary64.scanSpan (Dbl.fin (-1)) (Dbl.fin (n : ℚ)) (Dbl.fin 0) (Dbl.fin 0) y
        = some (y, 0, (n : Int) - y) := by
    intro y hy
    rw [mem_intRange] at hy
    unfold Binary64.scanSpan
    have hA := rightTriangle64_hyp (n : Int) y hy.1 hy.2 hmi
    rw [hnz] at hA
    rw [hA, rightTriangle64_leg y (by omega) (by omega)]
    dsimp only
    rw [if_pos (by omega)]
  obtain ⟨bottom, hbottom⟩ := scanRows_defined (intRange 0 (n : Int))
    (fun y hy => ⟨_, hspan y hy⟩)
  have hdef := @triangle64_defined 0 0 0 n n 0 _ _ _ hsort [] (intRange 0 (n : Int)) htop hrows
    (fun y hy => by simp at hy)
    (fun y hy => by
      show ∃ s, Binary64.scanSpan
        (Binary64.edgeInc (Dbl.fin (n : ℚ)) (Dbl.fin 0) (Dbl.fin 0) (Dbl.fin (n : ℚ)))
        (Binary64.edgeAdd (Dbl.fin (n : ℚ)) (Dbl.fin 0)
          (Binary64.edgeInc (Dbl.fin (n : ℚ)) (Dbl.fin 0) (Dbl.fin 0) (Dbl.fin (n : ℚ))))
        (Binary64.edgeInc (Dbl.fin 0) (Dbl.fin 0) (Dbl.fin 0) (Dbl.fin (n : ℚ)))
        (Binary64.edgeAdd (Dbl.fin 0) (Dbl.fin 0)
          (Binary64.edgeInc (Dbl.fin 0) (Dbl.fin 0) (Dbl.fin 0) (Dbl.fin (n : ℚ)))) y = some s
      rw [hi12, ha12, hi02, ha02]
      exact ⟨_, hspan y hy⟩)
  obtain ⟨px, hpx⟩ := hdef
  have hmem : ∀ p : Int × Int, p ∈ px ↔ 0 ≤ p.1 ∧ 0 ≤ p.2 ∧ p.1 + p.2 < n := by
    rintro ⟨x, y⟩
    obtain ⟨topRows, botRows, top, bot, htr, hbr, -, -, hts, hbs, rfl⟩ :=
      triangle64_passes hsort hpx
    dsimp only at htr hbr hts hbs
    rw [htop] at htr
    rw [hrows] at hbr
    have e1 := Option.some.inj htr
    have e2 := Option.some.inj hbr
    subst e1 e2
    rw [hi12, ha12, hi02, ha02] at hbs
    rw [List.mem_append, mem_pass_pixels hts, mem_pass_pixels hbs]
    simp only [List.not_mem_nil, false_and, false_or]
    constructor
    · rintro ⟨hy, a, b, ea, eb, c1, c2⟩
      have hy' := (mem_intRange _ _ _).1 hy
      have hA := rightTriangle64_hyp (n : Int) y hy'.1 hy'.2 hmi
      rw [hnz] at hA
      rw [hA] at ea
      rw [rightTriangle64_leg y (by omega) (by omega)] at eb
      have := Option.some.inj ea
      have := Option.some.inj eb
      subst a b
      rw [min_eq_right (by omega)] at c1
      rw [max_eq_left (by omega)] at c2
      exact ⟨c1, hy'.1, by omega⟩
    · rintro ⟨c1, c2, c3⟩
      have hy' : 0 ≤ y ∧ y < (n : Int) := ⟨c2, by omega⟩
      have hA := rightTriangle64_hyp (n : Int) y hy'.1 hy'.2 hmi
      rw [hnz] at hA
      refine ⟨(mem_intRange _ _ _).2 hy', (n : Int) - y, 0, hA,
        rightTriangle64_leg y (by omega) (by omega), ?_, ?_⟩
      · rw [min_eq_right (by omega)]; exact c1
      · rw [max_eq_left (by omega)]; omega
  refine ⟨px, hpx, ?_, hmem⟩
  intro p hp
  have := (hmem p).1 hp
  omega

/-- C5, amended, at `n = 4`: the ten written pixels. -/
theorem right_triangle_within_bounds_witness :
    (0 < 4 ∧ 4 ≤ 2147483647 ∧ toFloat ((4 : Nat) : ℚ) = ((4 : Nat) : ℚ)) ∧
    (∃ px : Pixels,
      Binary64.driver_framebuffer_triangle 0 0 0 ((4 : Nat) : ℚ) ((4 : Nat) : ℚ) 0 = some px ∧
      (∀ p ∈ px, 0 ≤ p.1 ∧ 0 ≤ p.2 ∧ p.1 + p.2 ≤ ((4 : Nat) : Int)) ∧
      (∀ p : Int × Int, p ∈ px ↔ 0 ≤ p.1 ∧ 0 ≤ p.2 ∧ p.1 + p.2 < ((4 : Nat) : Int))) ∧
    Binary64.driver_framebuffer_triangle 0 0 0 4 4 0
      = some [(0, 0), (1, 0), (2, 0), (3, 0), (0, 1), (1, 1), (2, 1), (0, 2), (1, 2), (0, 3)] :=
  ⟨⟨by decide, by decide, by decide!⟩,
    right_triangle_within_bounds 4 (by decide) (by decide) (by decide!), by decide!⟩

/-- The rounding error of a `double` operation on a value of magnitude at most `M`. -/
theorem toDouble_err_le {v M : ℚ} (h : |v| ≤ M) :
    |Binary64.toDouble v - v| ≤ M / 9007199254740992 + 1 / 2 ^ 100 := by
  have h1 := toDouble_sub_le v
  have h2 : (2 : ℚ) ^ (-1075 : Int) ≤ 1 / 2 ^ 100 := by
    rw [show (1 : ℚ) / 2 ^ 100 = (2 : ℚ) ^ (-100 : Int) by norm_num]
    exact zpow_le_zpow_right₀ (by norm_num) (by norm_num)
  have h3 : |v| / 9007199254740992 ≤ M / 9007199254740992 :=
    div_le_div_of_nonneg_right h (by norm_num)
  linarith

/-- The rounding error of a `double` operation, multiplied by a factor. -/
theorem toDouble_err_mul (v i : ℚ) :
    |Binary64.toDouble v * i - v * i| ≤ |v * i| / 9007199254740992 + |i| / 2 ^ 100 := by
  have h1 := toDouble_sub_le v
  have h2 : (2 : ℚ) ^ (-1075 : Int) ≤ 1 / 2 ^ 100 := by
    rw [show (1 : ℚ) / 2 ^ 100 = (2 : ℚ) ^ (-100 : Int) by norm_num]
    exact zpow_le_zpow_right₀ (by norm_num) (by norm_num)
  have h3 : |Binary64.toDouble v - v| ≤ |v| / 9007199254740992 + 1 / 2 ^ 100 := by linarith
  have h4 := mul_le_mul_of_nonneg_right h3 (abs_nonneg i)
  rw [← abs_mul] at h4
  have e1 : (Binary64.toDouble v - v) * i = Binary64.toDouble v * i - v * i := by ring
  have e2 : (|v| / 9007199254740992 + 1 / 2 ^ 100) * |i|
      = |v * i| / 9007199254740992 + |i| / 2 ^ 100 := by
    rw [abs_mul]; ring
  rw [e1, e2] at h4
  exact h4

/-- The result of a `double` operation on a value of moderate size is finite. -/
theorem rnd_of_abs_le {v : ℚ} (h : |v| ≤ 2 ^ 62) :
    Binary64.rnd (Dbl.fin v) = Dbl.fin (Binary64.toDouble v) := by
  refine rnd_fin_of_lt ?_
  have h1 := @abs_roundTo_le 52 (-1074) (by norm_num) v
  have h2 : (2 : ℚ) ^ (-1074 : Int) ≤ 1 := by
    rw [show (1 : ℚ) = (2 : ℚ) ^ (0 : Int) by norm_num]
    exact zpow_le_zpow_right₀ (by norm_num) (by norm_num)
  have h3 : (2 : ℚ) * 2 ^ 62 + 1 < (2 : ℚ) ^ 1024 := by norm_num
  unfold Binary64.toDouble
  linarith

/-- A value within less than `1 / D` of a multiple `T` of `1 / D` truncates to `⌊T⌋`, or to
`T - 1` when `T` is an integer. -/
theorem floor_near_multiple {T s : ℚ} {D n : Int} (hD : 0 < D) (hT : T * (D : ℚ) = (n : ℚ))
    (hs : |s - T| < 1 / (D : ℚ)) : ⌈T⌉ - 1 ≤ ⌊s⌋ ∧ ⌊s⌋ ≤ ⌊T⌋ := by
  have hDq : (0 : ℚ) < (D : ℚ) := by exact_mod_cast hD
  obtain ⟨s1, s2⟩ := abs_lt.1 hs
  have key : ∀ k : Int, (k : ℚ) < T → (k : ℚ) + 1 / (D : ℚ) ≤ T := by
    intro k hk
    have h1 : (k : ℚ) * (D : ℚ) < (n : ℚ) := by
      rw [← hT]; exact mul_lt_mul_of_pos_right hk hDq
    have h2 : k * D < n := by exact_mod_cast h1
    have h3 : k * D + 1 ≤ n := by omega
    have h4 : (k : ℚ) * (D : ℚ) + 1 ≤ (n : ℚ) := by exact_mod_cast h3
    rw [← hT] at h4
    have h5 : ((k : ℚ) + 1 / (D : ℚ)) * (D : ℚ) ≤ T * (D : ℚ) := by
      rw [add_mul, one_div, inv_mul_cancel₀ (ne_of_gt hDq)]
      exact h4
    exact le_of_mul_le_mul_right h5 hDq
  have key2 : ∀ k : Int, T < (k : ℚ) → T + 1 / (D : ℚ) ≤ (k : ℚ) := by
    intro k hk
    have h1 : (n : ℚ) < (k : ℚ) * (D : ℚ) := by
      rw [← hT]; exact mul_lt_mul_of_pos_right hk hDq
    have h2 : n < k * D := by exact_mod_cast h1
    have h3 : n + 1 ≤ k * D := by omega
    have h4 : (n : ℚ) + 1 ≤ (k : ℚ) * (D : ℚ) := by exact_mod_cast h3
    rw [← hT] at h4
    have h5 : (T + 1 / (D : ℚ)) * (D : ℚ) ≤ (k : ℚ) * (D : ℚ) := by
      rw [add_mul, one_div, inv_mul_cancel₀ (ne_of_gt hDq)]
      exact h4
    exact le_of_mul_le_mul_right h5 hDq
  constructor
  · by_contra hc
    have hc' : ⌊s⌋ + 1 ≤ ⌈T⌉ - 1 := by omega
    have h1 : ((⌈T⌉ - 1 : Int) : ℚ) < T := by
      have := Int.ceil_lt_add_one T
      push_cast
      linarith
    have h2 := key _ h1
    have h3 : s < ((⌊s⌋ + 1 : Int) : ℚ) := by
      push_cast; exact Int.lt_floor_add_one s
    have h4 : ((⌊s⌋ + 1 : Int) : ℚ) ≤ ((⌈T⌉ - 1 : Int) : ℚ) := by exact_mod_cast hc'
    linarith
  · by_contra hc
    have hc' : ⌊T⌋ + 1 ≤ ⌊s⌋ := by omega
    have h1 : T < ((⌊T⌋ + 1 : Int) : ℚ) := by
      push_cast; exact Int.lt_floor_add_one T
    have h2 := key2 _ h1
    have h3 : ((⌊s⌋ : Int) : ℚ) ≤ s := Int.floor_le s
    have h4 : ((⌊T⌋ + 1 : Int) : ℚ) ≤ ((⌊s⌋ : Int) : ℚ) := by exact_mod_cast hc'
    linarith

/-- The span end of a row on an edge with integer end points between 0 and 65536, as a
chain of `double` operations, lies within `2^-18` of its exact value, and no operation
overflows: `i` is the slope, `q`, `t`, `a` lead to the offset, `m`, `s1`, `s2` to the
span end. -/
theorem span_error (xa ya dx dy h i q t a m s1 s2 : ℚ)
    (hxa0 : 0 ≤ xa) (hxaK : xa ≤ 65536) (hxb0 : 0 ≤ xa + dx) (hxbK : xa + dx ≤ 65536)
    (hya0 : 0 ≤ ya) (hyaK : ya ≤ 65536)
    (hdx1 : 1 ≤ |dx|) (hdy1 : 1 ≤ dy) (hdyK : dy ≤ 65536)
    (hh0 : ya ≤ h) (hh1 : h ≤ ya + dy) (hhK : h ≤ 65536)
    (hi : i = Binary64.toDouble (dx / dy)) (hq : q = Binary64.toDouble (xa / i))
    (ht : t = Binary64.toDouble (q - ya)) (ha : a = Binary64.toDouble (t * i))
    (hm : m = Binary64.toDouble (h * i)) (hs1 : s1 = Binary64.toDouble (m + a))
    (hs2 : s2 = Binary64.toDouble (s1 + 1 / 2)) :
    i ≠ 0 ∧ |dx / dy| ≤ 65536 ∧ |xa / i| ≤ 2 ^ 34 ∧ |q - ya| ≤ 2 ^ 35 ∧ |t * i| ≤ 2 ^ 34 ∧
      |h * i| ≤ 2 ^ 34 ∧ |m + a| ≤ 2 ^ 34 ∧ |s1 + 1 / 2| ≤ 2 ^ 34 ∧
      |s2 - (xa + (h - ya) * (dx / dy) + 1 / 2)| ≤ 1 / 2 ^ 18 ∧ 0 ≤ s2 ∧ s2 ≤ 65537 := by
  have hdy0 : (0 : ℚ) < dy := by linarith
  have hdxK : |dx| ≤ 65536 := by
    rw [abs_le]; constructor <;> linarith
  -- the exact slope
  have hr1 : |dx / dy| ≤ 65536 := by
    rw [abs_div, abs_of_pos hdy0, div_le_iff₀ hdy0]
    nlinarith
  have hr0 : 1 / 65536 ≤ |dx / dy| := by
    rw [abs_div, abs_of_pos hdy0, le_div_iff₀ hdy0]
    linarith
  -- the computed slope
  have he1 : |i - dx / dy| ≤ 65536 / 9007199254740992 + 1 / 2 ^ 100 := by
    rw [hi]; exact toDouble_err_le hr1
  have hiK : |i| ≤ 65537 := by
    have := abs_sub_abs_le_abs_sub i (dx / dy)
    have c : (65536 : ℚ) / 9007199254740992 + 1 / 2 ^ 100 ≤ 1 := by norm_num
    linarith
  have hi0 : 1 / 131072 ≤ |i| := by
    have := abs_sub_abs_le_abs_sub (dx / dy) i
    rw [abs_sub_comm] at this
    have c : (65536 : ℚ) / 9007199254740992 + 1 / 2 ^ 100 ≤ 1 / 131072 := by norm_num
    linarith
  have hipos : 0 < |i| := by linarith
  have hine : i ≠ 0 := abs_pos.1 hipos
  -- the offset
  have hxai : |xa / i| ≤ 2 ^ 34 := by
    rw [abs_div, div_le_iff₀ hipos, abs_of_nonneg hxa0]
    have : (2 : ℚ) ^ 34 * (1 / 131072) ≤ 2 ^ 34 * |i| :=
      mul_le_mul_of_nonneg_left hi0 (by norm_num)
    have c : (65536 : ℚ) ≤ 2 ^ 34 * (1 / 131072) := by norm_num
    linarith
  have heq : |q * i - xa| ≤ 65536 / 9007199254740992 + 65537 / 2 ^ 100 := by
    have h1 := toDouble_err_mul (xa / i) i
    rw [← hq, div_mul_cancel₀ xa hine, abs_of_nonneg hxa0] at h1
    have h2 : xa / 9007199254740992 ≤ 65536 / 9007199254740992 :=
      div_le_div_of_nonneg_right hxaK (by norm_num)
    have h3 : |i| / 2 ^ 100 ≤ 65537 / 2 ^ 100 := div_le_div_of_nonneg_right hiK (by norm_num)
    linarith
  have hqK : |q| ≤ 2 ^ 34 + 1 := by
    have h1 : |q - xa / i| ≤ 2 ^ 34 / 9007199254740992 + 1 / 2 ^ 100 := by
      rw [hq]; exact toDouble_err_le hxai
    have h2 := abs_sub_abs_le_abs_sub q (xa / i)
    have c : (2 : ℚ) ^ 34 / 9007199254740992 + 1 / 2 ^ 100 ≤ 1 := by norm_num
    linarith
  have hqya : |q - ya| ≤ 2 ^ 35 := by
    have h1 := abs_sub q ya
    rw [abs_of_nonneg hya0] at h1
    have c : (2 : ℚ) ^ 34 + 1 + 65536 ≤ 2 ^ 35 := by norm_num
    linarith
  have hyai : |ya * i| ≤ 65536 * 65537 := by
    rw [abs_mul, abs_of_nonneg hya0]
    calc ya * |i| ≤ 65536 * |i| := mul_le_mul_of_nonneg_right hyaK (abs_nonneg i)
      _ ≤ 65536 * 65537 := mul_le_mul_of_nonneg_left hiK (by norm_num)
  have hB1 : |(q - ya) * i| ≤ 4295098369 := by
    have e : (q - ya) * i = (q * i - xa) + xa - ya * i := by ring
    rw [e]
    have h1 := abs_sub ((q * i - xa) + xa) (ya * i)
    have h2 := abs_add (q * i - xa) xa
    rw [abs_of_nonneg hxa0] at h2
    have c : (65536 : ℚ) / 9007199254740992 + 65537 / 2 ^ 100 ≤ 1 := by norm_num
    have c2 : (65536 : ℚ) * 65537 + 65536 + 1 = 4295098369 := by norm_num
    linarith
  have het : |t * i - (q - ya) * i| ≤ 4295098369 / 9007199254740992 + 65537 / 2 ^ 100 := by
    have h1 := toDouble_err_mul (q - ya) i
    rw [← ht] at h1
    have h2 : |(q - ya) * i| / 9007199254740992 ≤ 4295098369 / 9007199254740992 :=
      div_le_div_of_nonneg_right hB1 (by norm_num)
    have h3 : |i| / 2 ^ 100 ≤ 65537 / 2 ^ 100 := div_le_div_of_nonneg_right hiK (by norm_num)
    linarith
  have htiK : |t * i| ≤ 4295098370 := by
    have h1 := abs_sub_abs_le_abs_sub (t * i) ((q - ya) * i)
    have c : (4295098369 : ℚ) / 9007199254740992 + 65537 / 2 ^ 100 ≤ 1 := by norm_num
    linarith
  have hea : |a - t * i| ≤ 4295098370 / 9007199254740992 + 1 / 2 ^ 100 := by
    rw [ha]; exact toDouble_err_le htiK
  -- the product of the row centre and the slope
  have hh0' : 0 ≤ h := le_trans hya0 hh0
  have hhi : |h * i| ≤ 65536 * 65537 := by
    rw [abs_mul, abs_of_nonneg hh0']
    calc h * |i| ≤ 65536 * |i| := mul_le_mul_of_nonneg_right hhK (abs_nonneg i)
      _ ≤ 65536 * 65537 := mul_le_mul_of_nonneg_left hiK (by norm_num)
  have hem : |m - h * i| ≤ 65536 * 65537 / 9007199254740992 + 1 / 2 ^ 100 := by
    rw [hm]; exact toDouble_err_le hhi
  -- the slope error along the edge
  have hlin : |(h - ya) * (i - dx / dy)|
      ≤ 65536 * (65536 / 9007199254740992 + 1 / 2 ^ 100) := by
    rw [abs_mul, abs_of_nonneg (by linarith : (0 : ℚ) ≤ h - ya)]
    calc (h - ya) * |i - dx / dy| ≤ 65536 * |i - dx / dy| :=
          mul_le_mul_of_nonneg_right (by linarith) (abs_nonneg _)
      _ ≤ 65536 * (65536 / 9007199254740992 + 1 / 2 ^ 100) :=
          mul_le_mul_of_nonneg_left he1 (by norm_num)
  -- the exact position on the edge
  have hL0 : 0 ≤ xa + (h - ya) * (dx / dy) := by
    have e : xa + (h - ya) * (dx / dy)
        = (1 - (h - ya) / dy) * xa + (h - ya) / dy * (xa + dx) := by
      field_simp
      ring
    rw [e]
    have l0 : 0 ≤ (h - ya) / dy := div_nonneg (by linarith) (le_of_lt hdy0)
    have l1 : (h - ya) / dy ≤ 1 := by rw [div_le_one hdy0]; linarith
    exact add_nonneg (mul_nonneg (by linarith) hxa0) (mul_nonneg l0 hxb0)
  have hLK : xa + (h - ya) * (dx / dy) ≤ 65536 := by
    have e : xa + (h - ya) * (dx / dy)
        = (1 - (h - ya) / dy) * xa + (h - ya) / dy * (xa + dx) := by
      field_simp
      ring
    rw [e]
    have l0 : 0 ≤ (h - ya) / dy := div_nonneg (by linarith) (le_of_lt hdy0)
    have l1 : (h - ya) / dy ≤ 1 := by rw [div_le_one hdy0]; linarith
    have a1 : (1 - (h - ya) / dy) * xa ≤ (1 - (h - ya) / dy) * 65536 :=
      mul_le_mul_of_nonneg_left hxaK (by linarith)
    have a2 : (h - ya) / dy * (xa + dx) ≤ (h - ya) / dy * 65536 :=
      mul_le_mul_of_nonneg_left hxbK l0
    linarith
  -- the sum of slope term and offset
  have hE : |m + a - (xa + (h - ya) * (dx / dy))| ≤ 1 / 500000 := by
    have e : m + a - (xa + (h - ya) * (dx / dy))
        = (m - h * i) + (a - t * i) + (t * i - (q - ya) * i) + (q * i - xa)
          + (h - ya) * (i - dx / dy) := by ring
    rw [e]
    have t1 := abs_add ((m - h * i) + (a - t * i) + (t * i - (q - ya) * i) + (q * i - xa))
      ((h - ya) * (i - dx / dy))
    have t2 := abs_add ((m - h * i) + (a - t * i) + (t * i - (q - ya) * i)) (q * i - xa)
    have t3 := abs_add ((m - h * i) + (a - t * i)) (t * i - (q - ya) * i)
    have t4 := abs_add (m - h * i) (a - t * i)
    have c : (65536 : ℚ) * 65537 / 9007199254740992 + 1 / 2 ^ 100
        + (4295098370 / 9007199254740992 + 1 / 2 ^ 100)
        + (4295098369 / 9007199254740992 + 65537 / 2 ^ 100)
        + (65536 / 9007199254740992 + 65537 / 2 ^ 100)
        + 65536 * (65536 / 9007199254740992 + 1 / 2 ^ 100) ≤ 1 / 500000 := by norm_num
    linarith
  have hmaK : |m + a| ≤ 65537 := by
    have h1 := abs_sub_abs_le_abs_sub (m + a) (xa + (h - ya) * (dx / dy))
    rw [abs_of_nonneg hL0] at h1
    have c : (1 : ℚ) / 500000 ≤ 1 := by norm_num
    linarith
  have hes1 : |s1 - (m + a)| ≤ 65537 / 9007199254740992 + 1 / 2 ^ 100 := by
    rw [hs1]; exact toDouble_err_le hmaK
  have hs1K : |s1 + 1 / 2| ≤ 65539 := by
    have h1 := abs_add s1 (1 / 2)
    have h2 := abs_sub_abs_le_abs_sub s1 (m + a)
    rw [abs_of_pos (by norm_num : (0 : ℚ) < 1 / 2)] at h1
    have c : (65537 : ℚ) / 9007199254740992 + 1 / 2 ^ 100 ≤ 1 := by norm_num
    linarith
  have hes2 : |s2 - (s1 + 1 / 2)| ≤ 65539 / 9007199254740992 + 1 / 2 ^ 100 := by
    rw [hs2]; exact toDouble_err_le hs1K
  have hfin : |s2 - (xa + (h - ya) * (dx / dy) + 1 / 2)| ≤ 1 / 2 ^ 18 := by
    have e : s2 - (xa + (h - ya) * (dx / dy) + 1 / 2)
        = (s2 - (s1 + 1 / 2)) + (s1 - (m + a)) + (m + a - (xa + (h - ya) * (dx / dy))) := by
      ring
    rw [e]
    have t1 := abs_add ((s2 - (s1 + 1 / 2)) + (s1 - (m + a)))
      (m + a - (xa + (h - ya) * (dx / dy)))
    have t2 := abs_add (s2 - (s1 + 1 / 2)) (s1 - (m + a))
    have c : (65539 : ℚ) / 9007199254740992 + 1 / 2 ^ 100
        + (65537 / 9007199254740992 + 1 / 2 ^ 100) + 1 / 500000 ≤ 1 / 2 ^ 18 := by norm_num
    linarith
  obtain ⟨f1, f2⟩ := abs_le.1 hfin
  have c18 : (1 : ℚ) / 2 ^ 18 ≤ 1 / 2 := by norm_num
  refine ⟨hine, hr1, hxai, hqya, ?_, ?_, ?_, ?_, hfin, by linarith, by linarith⟩
  · exact le_trans htiK (by norm_num)
  · exact le_trans hhi (by norm_num)
  · exact le_trans hmaK (by norm_num)
  · exact le_trans hs1K (by norm_num)

/-- The span end that the routine computes in binary64 for row `y` on an edge with integer
end points between 0 and 65535: it is defined, and it is the exact span end
`⌊L + 1/2⌋`, for `L` the x of the edge at the height `y + 1/2` of the row centre, or one
less when `L + 1/2` is an integer, that is when a pixel centre lies on the edge. -/
theorem spanX64_int (xa ya xb yb y : Int)
    (hxa0 : 0 ≤ xa) (hxaK : xa ≤ 65535) (hxb0 : 0 ≤ xb) (hxbK : xb ≤ 65535)
    (hya0 : 0 ≤ ya) (hybK : yb ≤ 65535) (hy0 : ya ≤ y) (hy1 : y < yb) :
    ∃ v : Int,
      Binary64.spanX y (Binary64.edgeInc (Dbl.fin xa) (Dbl.fin ya) (Dbl.fin xb) (Dbl.fin yb))
        (Binary64.edgeAdd (Dbl.fin xa) (Dbl.fin ya)
          (Binary64.edgeInc (Dbl.fin xa) (Dbl.fin ya) (Dbl.fin xb) (Dbl.fin yb))) = some v ∧
      ⌈edgeAt ((xa : ℚ), (ya : ℚ)) ((xb : ℚ), (yb : ℚ)) ((y : ℚ) + 1 / 2) + 1 / 2⌉ - 1 ≤ v ∧
      v ≤ ⌊edgeAt ((xa : ℚ), (ya : ℚ)) ((xb : ℚ), (yb : ℚ)) ((y : ℚ) + 1 / 2) + 1 / 2⌋ := by
  have qxa0 : (0 : ℚ) ≤ (xa : ℚ) := by exact_mod_cast hxa0
  have qxaK : (xa : ℚ) ≤ 65535 := by exact_mod_cast hxaK
  have qxb0 : (0 : ℚ) ≤ (xb : ℚ) := by exact_mod_cast hxb0
  have qxbK : (xb : ℚ) ≤ 65535 := by exact_mod_cast hxbK
  have qya0 : (0 : ℚ) ≤ (ya : ℚ) := by exact_mod_cast hya0
  have qybK : (yb : ℚ) ≤ 65535 := by exact_mod_cast hybK
  have qy0 : (ya : ℚ) ≤ (y : ℚ) := by exact_mod_cast hy0
  have qy1 : (y : ℚ) + 1 ≤ (yb : ℚ) := by exact_mod_cast (by omega : y + 1 ≤ yb)
  have hdyne : (yb : ℚ) - (ya : ℚ) ≠ 0 := by
    have : (ya : ℚ) < (yb : ℚ) := by linarith
    linarith
  have hsubx : Binary64.sub (Dbl.fin (xb : ℚ)) (Dbl.fin (xa : ℚ))
      = Dbl.fin ((xb : ℚ) - (xa : ℚ)) := by
    rw [sub_fin]
    have := rnd_intCast (xb - xa) (by
      rw [abs_lt]; push_cast; constructor <;> linarith)
    push_cast at this
    exact this
  have hsuby : Binary64.sub (Dbl.fin (yb : ℚ)) (Dbl.fin (ya : ℚ))
      = Dbl.fin ((yb : ℚ) - (ya : ℚ)) := by
    rw [sub_fin]
    have := rnd_intCast (yb - ya) (by
      rw [abs_lt]; push_cast; constructor <;> linarith)
    push_cast at this
    exact this
  have hrow := rnd_half_int y (by omega) (by omega)
  have hinc : Binary64.edgeInc (Dbl.fin xa) (Dbl.fin ya) (Dbl.fin xb) (Dbl.fin yb)
      = Binary64.rnd (Dbl.fin (((xb : ℚ) - (xa : ℚ)) / ((yb : ℚ) - (ya : ℚ)))) := by
    unfold Binary64.edgeInc
    rw [hsubx, hsuby, div_fin _ hdyne]
  rw [hinc]
  by_cases hdx : xb = xa
  · -- a vertical edge
    have e0 : ((xb : ℚ) - (xa : ℚ)) / ((yb : ℚ) - (ya : ℚ)) = 0 := by
      rw [hdx, sub_self, zero_div]
    rw [e0, rnd_zero]
    have hL : edgeAt ((xa : ℚ), (ya : ℚ)) ((xb : ℚ), (yb : ℚ)) ((y : ℚ) + 1 / 2) + 1 / 2
        = (xa : ℚ) + 1 / 2 := by
      unfold edgeAt
      simp only []
      rw [hdx, sub_self, mul_zero, zero_div, add_zero]
    have hfl : ⌊(xa : ℚ) + 1 / 2⌋ = xa := by
      rw [Int.floor_eq_iff]; constructor <;> linarith
    have hcl : ⌈(xa : ℚ) + 1 / 2⌉ = xa + 1 := by
      rw [Int.ceil_eq_iff]; push_cast; constructor <;> linarith
    refine ⟨xa, ?_, by rw [hL, hcl]; omega, by rw [hL, hfl]⟩
    have hz : (Dbl.fin 0).isZero = true := by decide!
    unfold Binary64.edgeAdd Binary64.spanX
    simp only [hz, if_true]
    rw [add_fin, hrow, mul_fin, mul_zero, rnd_zero, add_fin, zero_add,
      rnd_intCast xa (by rw [abs_lt]; constructor <;> linarith), add_fin,
      rnd_half_int xa (by omega) (by omega)]
    unfold Binary64.toInt
    simp only [truncQ_intCast_add_half hxa0]
    rw [if_pos ⟨by omega, by omega⟩]
  · -- a slanted edge
    have hdx1 : (1 : ℚ) ≤ |(xb : ℚ) - (xa : ℚ)| := by
      have : (1 : Int) ≤ |xb - xa| := Int.one_le_abs (by omega)
      exact_mod_cast this
    obtain ⟨hine, hr1, b1, b2, b3, b4, b5, b6, herr, hs0, hsK⟩ :=
      span_error (xa : ℚ) (ya : ℚ) ((xb : ℚ) - (xa : ℚ)) ((yb : ℚ) - (ya : ℚ))
        ((y : ℚ) + 1 / 2) _ _ _ _ _ _ _
        qxa0 (by linarith) (by linarith) (by linarith) qya0 (by linarith) hdx1 (by linarith)
        (by linarith) (by linarith) (by linarith) (by linarith) rfl rfl rfl rfl rfl rfl rfl
    have c62 : (2 : ℚ) ^ 35 ≤ 2 ^ 62 := by norm_num
    have c62' : (2 : ℚ) ^ 34 ≤ 2 ^ 62 := by norm_num
    have c62'' : (65536 : ℚ) ≤ 2 ^ 62 := by norm_num
    rw [rnd_of_abs_le (le_trans hr1 c62'')]
    generalize hI : Binary64.toDouble (((xb : ℚ) - (xa : ℚ)) / ((yb : ℚ) - (ya : ℚ))) = i
      at hine b1 b2 b3 b4 b5 b6 herr hs0 hsK
    have hz : (Dbl.fin i).isZero = false := by
      simp only [Dbl.isZero, decide_eq_false_iff_not]
      exact hine
    unfold Binary64.edgeAdd Binary64.spanX
    simp only [hz, Bool.false_eq_true, if_false]
    rw [div_fin _ hine, rnd_of_abs_le (le_trans b1 c62'), sub_fin,
      rnd_of_abs_le (le_trans b2 c62), mul_fin, rnd_of_abs_le (le_trans b3 c62'),
      add_fin, hrow, mul_fin, rnd_of_abs_le (le_trans b4 c62'), add_fin,
      rnd_of_abs_le (le_trans b5 c62'), add_fin, rnd_of_abs_le (le_trans b6 c62')]
    generalize Binary64.toDouble
      (Binary64.toDouble (Binary64.toDouble (((y : ℚ) + 1 / 2) * i)
        + Binary64.toDouble (Binary64.toDouble (Binary64.toDouble ((xa : ℚ) / i) - (ya : ℚ)) * i))
        + 1 / 2) = s2 at herr hs0 hsK
    have hL : edgeAt ((xa : ℚ), (ya : ℚ)) ((xb : ℚ), (yb : ℚ)) ((y : ℚ) + 1 / 2) + 1 / 2
        = (xa : ℚ) + ((y : ℚ) + 1 / 2 - (ya : ℚ))
            * (((xb : ℚ) - (xa : ℚ)) / ((yb : ℚ) - (ya : ℚ))) + 1 / 2 := by
      unfold edgeAt
      simp only []
      rw [mul_div_assoc]
    rw [hL]
    have hD : (0 : Int) < 2 * (yb - ya) := by omega
    have hT : ((xa : ℚ) + ((y : ℚ) + 1 / 2 - (ya : ℚ))
            * (((xb : ℚ) - (xa : ℚ)) / ((yb : ℚ) - (ya : ℚ))) + 1 / 2)
          * ((2 * (yb - ya) : Int) : ℚ)
        = (((2 * xa + 1) * (yb - ya) + (2 * y + 1 - 2 * ya) * (xb - xa) : Int) : ℚ) := by
      push_cast
      field_simp
      ring
    have hclose : |s2 - ((xa : ℚ) + ((y : ℚ) + 1 / 2 - (ya : ℚ))
            * (((xb : ℚ) - (xa : ℚ)) / ((yb : ℚ) - (ya : ℚ))) + 1 / 2)|
        < 1 / ((2 * (yb - ya) : Int) : ℚ) := by
      refine lt_of_le_of_lt herr ?_
      have hpos : (0 : ℚ) < ((2 * (yb - ya) : Int) : ℚ) := by exact_mod_cast hD
      rw [lt_div_iff₀ hpos]
      push_cast
      have : (1 : ℚ) / 2 ^ 18 * (2 * ((yb : ℚ) - (ya : ℚ))) ≤ 1 / 2 ^ 18 * (2 * 65535) :=
        mul_le_mul_of_nonneg_left (by linarith) (by norm_num)
      have c : (1 : ℚ) / 2 ^ 18 * (2 * 65535) < 1 := by norm_num
      linarith
    obtain ⟨g1, g2⟩ := floor_near_multiple hD hT hclose
    refine ⟨⌊s2⌋, ?_, g1, g2⟩
    unfold Binary64.toInt
    simp only [truncQ_of_nonneg hs0]
    have f0 : (0 : Int) ≤ ⌊s2⌋ := Int.floor_nonneg.2 hs0
    have f1 : ⌊s2⌋ ≤ 65537 := by
      have h1 : ((⌊s2⌋ : Int) : ℚ) ≤ s2 := Int.floor_le s2
      have h2 : ((⌊s2⌋ : Int) : ℚ) ≤ ((65537 : Int) : ℚ) := by push_cast; linarith
      exact_mod_cast h2
    rw [if_pos ⟨by omega, by omega⟩]

/-- A column lies between two computed span ends as its pixel centre lies between the two
edges, when each span end is the exact one or one less at a pixel centre on the edge:
a written column has its centre between the edges or on one, and a column whose centre
lies strictly between the edges is written. -/
theorem span_cols_of_near {S L : ℚ} {a b : Int}
    (ha1 : ⌈S + 1 / 2⌉ - 1 ≤ a) (ha2 : a ≤ ⌊S + 1 / 2⌋)
    (hb1 : ⌈L + 1 / 2⌉ - 1 ≤ b) (hb2 : b ≤ ⌊L + 1 / 2⌋) (x : Int) :
    (min a b ≤ x ∧ x < max a b → min S L ≤ (x : ℚ) + 1 / 2 ∧ (x : ℚ) + 1 / 2 ≤ max S L) ∧
    (min S L < (x : ℚ) + 1 / 2 → (x : ℚ) + 1 / 2 < max S L → min a b ≤ x ∧ x < max a b) := by
  have le_of : ∀ {Z : ℚ} {c : Int}, ⌈Z + 1 / 2⌉ - 1 ≤ c → c ≤ x → Z ≤ (x : ℚ) + 1 / 2 := by
    intro Z c h1 h2
    have h3 : ⌈Z + 1 / 2⌉ ≤ x + 1 := by omega
    have h4 := Int.ceil_le.1 h3
    push_cast at h4
    linarith
  have ge_of : ∀ {Z : ℚ} {c : Int}, c ≤ ⌊Z + 1 / 2⌋ → x < c → (x : ℚ) + 1 / 2 ≤ Z := by
    intro Z c h1 h2
    have h3 : x + 1 ≤ ⌊Z + 1 / 2⌋ := by omega
    have h4 := Int.le_floor.1 h3
    push_cast at h4
    linarith
  have le_x : ∀ {Z : ℚ} {c : Int}, c ≤ ⌊Z + 1 / 2⌋ → Z < (x : ℚ) + 1 / 2 → c ≤ x := by
    intro Z c h1 h2
    have h3 : ⌊Z + 1 / 2⌋ < x + 1 := by
      rw [Int.floor_lt]; push_cast; linarith
    omega
  have x_lt : ∀ {Z : ℚ} {c : Int}, ⌈Z + 1 / 2⌉ - 1 ≤ c → (x : ℚ) + 1 / 2 < Z → x < c := by
    intro Z c h1 h2
    have h3 : x + 1 < ⌈Z + 1 / 2⌉ := by
      rw [Int.lt_ceil]; push_cast; linarith
    omega
  constructor
  · rintro ⟨h1, h2⟩
    rw [min_le_iff] at h1 ⊢
    rw [lt_max_iff] at h2
    rw [le_max_iff]
    exact ⟨h1.imp (le_of ha1) (le_of hb1), h2.imp (ge_of ha2) (ge_of hb2)⟩
  · intro h1 h2
    rw [min_lt_iff] at h1
    rw [lt_max_iff] at h2 ⊢
    rw [min_le_iff]
    exact ⟨h1.imp (le_x ha2) (le_x hb2), h2.imp (x_lt ha1) (x_lt hb1)⟩

/-- The row of an integer height within the range of `int`. -/
theorem rowOf_intCast (b : Int) (h0 : 0 ≤ b) (h1 : b ≤ 2147483647) :
    Binary64.rowOf (Dbl.fin (b : ℚ)) = some b := by
  have hex := toDouble_half_int b (by omega) h1
  have ht := @truncQ_intCast_add_half b h0
  have hq : (0 : ℚ) ≤ (b : ℚ) := by exact_mod_cast h0
  have := rowOf_of_exact hex hq (by rw [ht]; exact h1)
  rwa [ht] at this

/-- The rows of a pass between two integer heights in order. -/
theorem passRows_intCast (b0 b1 : Int) (h0 : 0 ≤ b0) (h01 : b0 ≤ b1) (h1 : b1 ≤ 2147483647) :
    Binary64.passRows (Dbl.fin (b0 : ℚ)) (Dbl.fin (b1 : ℚ)) = some (intRange b0 b1) := by
  unfold Binary64.passRows
  rw [rowOf_intCast b0 h0 (by omega)]
  dsimp only
  by_cases hg : Binary64.guard b0 (Dbl.fin (b1 : ℚ)) = true
  · rw [if_pos hg, rowOf_intCast b1 (by omega) h1]
  · rw [if_neg hg]
    rw [guard_fin b0 (by omega) (by omega), not_le] at hg
    have hlt : (b1 : ℚ) < (b0 : ℚ) + 1 := by linarith
    have hlt' : b1 < b0 + 1 := by exact_mod_cast hlt
    have : b1 = b0 := by omega
    rw [this]
    simp [intRange]

/-- The span of a swept row between two edges with integer end points between 0 and 65535,
in binary64: it is defined, a written column has its pixel centre between the two edges or
on one of them, and a column whose centre lies strictly between the edges is written. -/
theorem scanSpan64_int (xa ya xb yb xc yc xd yd y : Int)
    (hxa0 : 0 ≤ xa) (hxaK : xa ≤ 65535) (hxb0 : 0 ≤ xb) (hxbK : xb ≤ 65535)
    (hya0 : 0 ≤ ya) (hybK : yb ≤ 65535) (hy0 : ya ≤ y) (hy1 : y < yb)
    (hxc0 : 0 ≤ xc) (hxcK : xc ≤ 65535) (hxd0 : 0 ≤ xd) (hxdK : xd ≤ 65535)
    (hyc0 : 0 ≤ yc) (hydK : yd ≤ 65535) (hy2 : yc ≤ y) (hy3 : y < yd) :
    ∃ a b : Int,
      Binary64.spanX y (Binary64.edgeInc (Dbl.fin xa) (Dbl.fin ya) (Dbl.fin xb) (Dbl.fin yb))
        (Binary64.edgeAdd (Dbl.fin xa) (Dbl.fin ya)
          (Binary64.edgeInc (Dbl.fin xa) (Dbl.fin ya) (Dbl.fin xb) (Dbl.fin yb))) = some a ∧
      Binary64.spanX y (Binary64.edgeInc (Dbl.fin xc) (Dbl.fin yc) (Dbl.fin xd) (Dbl.fin yd))
        (Binary64.edgeAdd (Dbl.fin xc) (Dbl.fin yc)
          (Binary64.edgeInc (Dbl.fin xc) (Dbl.fin yc) (Dbl.fin xd) (Dbl.fin yd))) = some b ∧
      ∀ x : Int,
        (min a b ≤ x ∧ x < max a b →
          min (edgeAt ((xa : ℚ), (ya : ℚ)) ((xb : ℚ), (yb : ℚ)) ((y : ℚ) + 1 / 2))
              (edgeAt ((xc : ℚ), (yc : ℚ)) ((xd : ℚ), (yd : ℚ)) ((y : ℚ) + 1 / 2))
            ≤ (x : ℚ) + 1 / 2 ∧
          (x : ℚ) + 1 / 2
            ≤ max (edgeAt ((xa : ℚ), (ya : ℚ)) ((xb : ℚ), (yb : ℚ)) ((y : ℚ) + 1 / 2))
              (edgeAt ((xc : ℚ), (yc : ℚ)) ((xd : ℚ), (yd : ℚ)) ((y : ℚ) + 1 / 2))) ∧
        (min (edgeAt ((xa : ℚ), (ya : ℚ)) ((xb : ℚ), (yb : ℚ)) ((y : ℚ) + 1 / 2))
              (edgeAt ((xc : ℚ), (yc : ℚ)) ((xd : ℚ), (yd : ℚ)) ((y : ℚ) + 1 / 2))
            < (x : ℚ) + 1 / 2 →
          (x : ℚ) + 1 / 2
            < max (edgeAt ((xa : ℚ), (ya : ℚ)) ((xb : ℚ), (yb : ℚ)) ((y : ℚ) + 1 / 2))
              (edgeAt ((xc : ℚ), (yc : ℚ)) ((xd : ℚ), (yd : ℚ)) ((y : ℚ) + 1 / 2)) →
          min a b ≤ x ∧ x < max a b) := by
  obtain ⟨a, ea, a1, a2⟩ := spanX64_int xa ya xb yb y hxa0 hxaK hxb0 hxbK hya0 hybK hy0 hy1
  obtain ⟨b, eb, b1, b2⟩ := spanX64_int xc yc xd yd y hxc0 hxcK hxd0 hxdK hyc0 hydK hy2 hy3
  exact ⟨a, b, ea, eb, fun x => span_cols_of_near a1 a2 b1 b2 x⟩

/-- One pass over the rows `r0 ≤ y < r1` between two edges with integer end points between
0 and 65535 that both span these rows, in binary64: the pass is defined, every written
pixel lies in a swept row with its centre between the two edges or on one of them, and
every pixel of a swept row whose centre lies strictly between the edges is written. -/
theorem pass64_int (xa ya xb yb xc yc xd yd r0 r1 : Int)
    (hxa0 : 0 ≤ xa) (hxaK : xa ≤ 65535) (hxb0 : 0 ≤ xb) (hxbK : xb ≤ 65535)
    (hya0 : 0 ≤ ya) (hybK : yb ≤ 65535) (hA0 : ya ≤ r0) (hA1 : r1 ≤ yb)
    (hxc0 : 0 ≤ xc) (hxcK : xc ≤ 65535) (hxd0 : 0 ≤ xd) (hxdK : xd ≤ 65535)
    (hyc0 : 0 ≤ yc) (hydK : yd ≤ 65535) (hC0 : yc ≤ r0) (hC1 : r1 ≤ yd) :
    ∃ spans : List (Int × Int × Int),
      scanRows (Binary64.scanSpan
        (Binary64.edgeInc (Dbl.fin xa) (Dbl.fin ya) (Dbl.fin xb) (Dbl.fin yb))
        (Binary64.edgeAdd (Dbl.fin xa) (Dbl.fin ya)
          (Binary64.edgeInc (Dbl.fin xa) (Dbl.fin ya) (Dbl.fin xb) (Dbl.fin yb)))
        (Binary64.edgeInc (Dbl.fin xc) (Dbl.fin yc) (Dbl.fin xd) (Dbl.fin yd))
        (Binary64.edgeAdd (Dbl.fin xc) (Dbl.fin yc)
          (Binary64.edgeInc (Dbl.fin xc) (Dbl.fin yc) (Dbl.fin xd) (Dbl.fin yd))))
        (intRange r0 r1) = some spans ∧
      ∀ x y : Int,
        ((x, y) ∈ spanPixels spans → r0 ≤ y ∧ y < r1 ∧
          min (edgeAt ((xa : ℚ), (ya : ℚ)) ((xb : ℚ), (yb : ℚ)) ((y : ℚ) + 1 / 2))
              (edgeAt ((xc : ℚ), (yc : ℚ)) ((xd : ℚ), (yd : ℚ)) ((y : ℚ) + 1 / 2))
            ≤ (x : ℚ) + 1 / 2 ∧
          (x : ℚ) + 1 / 2
            ≤ max (edgeAt ((xa : ℚ), (ya : ℚ)) ((xb : ℚ), (yb : ℚ)) ((y : ℚ) + 1 / 2))
              (edgeAt ((xc : ℚ), (yc : ℚ)) ((xd : ℚ), (yd : ℚ)) ((y : ℚ) + 1 / 2))) ∧
        (r0 ≤ y → y < r1 →
          min (edgeAt ((xa : ℚ), (ya : ℚ)) ((xb : ℚ), (yb : ℚ)) ((y : ℚ) + 1 / 2))
              (edgeAt ((xc : ℚ), (yc : ℚ)) ((xd : ℚ), (yd : ℚ)) ((y : ℚ) + 1 / 2))
            < (x : ℚ) + 1 / 2 →
          (x : ℚ) + 1 / 2
            < max (edgeAt ((xa : ℚ), (ya : ℚ)) ((xb : ℚ), (yb : ℚ)) ((y : ℚ) + 1 / 2))
              (edgeAt ((xc : ℚ), (yc : ℚ)) ((xd : ℚ), (yd : ℚ)) ((y : ℚ) + 1 / 2)) →
          (x, y) ∈ spanPixels spans) := by
  have hrow : ∀ y, r0 ≤ y → y < r1 → _ := fun y h0 h1 =>
    scanSpan64_int xa ya xb yb xc yc xd yd y hxa0 hxaK hxb0 hxbK hya0 hybK (by omega) (by omega)
      hxc0 hxcK hxd0 hxdK hyc0 hydK (by omega) (by omega)
  have hdef : ∀ y ∈ intRange r0 r1, ∃ s, Binary64.scanSpan
      (Binary64.edgeInc (Dbl.fin xa) (Dbl.fin ya) (Dbl.fin xb) (Dbl.fin yb))
      (Binary64.edgeAdd (Dbl.fin xa) (Dbl.fin ya)
        (Binary64.edgeInc (Dbl.fin xa) (Dbl.fin ya) (Dbl.fin xb) (Dbl.fin yb)))
      (Binary64.edgeInc (Dbl.fin xc) (Dbl.fin yc) (Dbl.fin xd) (Dbl.fin yd))
      (Binary64.edgeAdd (Dbl.fin xc) (Dbl.fin yc)
        (Binary64.edgeInc (Dbl.fin xc) (Dbl.fin yc) (Dbl.fin xd) (Dbl.fin yd))) y = some s := by
    intro y hy
    rw [mem_intRange] at hy
    obtain ⟨a, b, ea, eb, -⟩ := hrow y hy.1 hy.2
    unfold Binary64.scanSpan
    rw [ea, eb]
    dsimp only
    split_ifs <;> exact ⟨_, rfl⟩
  obtain ⟨spans, hspans⟩ := scanRows_defined (intRange r0 r1) hdef
  refine ⟨spans, hspans, ?_⟩
  intro x y
  rw [mem_pass_pixels hspans, mem_intRange]
  constructor
  · rintro ⟨⟨h0, h1⟩, a, b, ea, eb, c1, c2⟩
    obtain ⟨a', b', ea', eb', hcols⟩ := hrow y h0 h1
    rw [ea] at ea'
    rw [eb] at eb'
    have e1 := Option.some.inj ea'
    have e2 := Option.some.inj eb'
    subst e1 e2
    exact ⟨h0, h1, ((hcols x).1 ⟨c1, c2⟩).1, ((hcols x).1 ⟨c1, c2⟩).2⟩
  · intro h0 h1 s1 s2
    obtain ⟨a, b, ea, eb, hcols⟩ := hrow y h0 h1
    exact ⟨⟨h0, h1⟩, a, b, ea, eb, (hcols x).2 s1 s2⟩

/-- Outside integer coordinates a pixel strictly inside the triangle can be missed: the
vertices `(1/2 - 2^-54, 0), (3, 1), (1/2 - 2^-54, 2)` are binary64 values in the order
of their heights, the centre `(1/2, 1/2)` of the pixel `(0,0)` lies at `0 < 1/2 ≤ 2`
strictly between the edge 0-2 (at `x = 1/2 - 2^-54`) and the edge 0-1, and the routine
writes only the pixels `(1,0)` and `(1,1)`: the sum of `1/2 - 2^-54` and `0.5` is rounded
to `1`. -/
theorem triangle64_interior_pixel_missed :
    Binary64.toDouble (1 / 2 - 1 / 2 ^ 54) = 1 / 2 - 1 / 2 ^ 54 ∧
    Binary64.sorted (1 / 2 - 1 / 2 ^ 54) 0 3 1 (1 / 2 - 1 / 2 ^ 54) 2
      = ((Dbl.fin (1 / 2 - 1 / 2 ^ 54), Dbl.fin 0), (Dbl.fin 3, Dbl.fin 1),
          (Dbl.fin (1 / 2 - 1 / 2 ^ 54), Dbl.fin 2)) ∧
    Binary64.driver_framebuffer_triangle (1 / 2 - 1 / 2 ^ 54) 0 3 1 (1 / 2 - 1 / 2 ^ 54) 2
      = some [(1, 0), (1, 1)] ∧
    ((0 : ℚ) < (0 : ℚ) + 1 / 2 ∧ (0 : ℚ) + 1 / 2 ≤ 2) ∧ (0 : ℚ) + 1 / 2 ≤ 1 ∧
    min (edgeAt (1 / 2 - 1 / 2 ^ 54, 0) (1 / 2 - 1 / 2 ^ 54, 2) (0 + 1 / 2))
        (edgeAt (1 / 2 - 1 / 2 ^ 54, 0) (3, 1) (0 + 1 / 2)) < (0 : ℚ) + 1 / 2 ∧
    (0 : ℚ) + 1 / 2
      < max (edgeAt (1 / 2 - 1 / 2 ^ 54, 0) (1 / 2 - 1 / 2 ^ 54, 2) (0 + 1 / 2))
        (edgeAt (1 / 2 - 1 / 2 ^ 54, 0) (3, 1) (0 + 1 / 2)) := by
  refine ⟨by decide!, by decide!, by decide!, by decide!, by decide!, by decide!, by decide!⟩

/-- For large integer coordinates a computed span end can lie beyond the edge: on the
edge from `(56386571, 67108792)` to `(7567007, 67108799)` the x at the centre height of
row `67108794` plus one half is `38951012 + 13/14`, and the span end computed for that
row is `38951013`. -/
theorem edgeSpan_large_overshoot :
    Binary64.edgeSpan (56386571, 67108792) (7567007, 67108799) 67108794 = some 38951013 ∧
    edgeAt (56386571, 67108792) (7567007, 67108799) (67108794 + 1 / 2) + 1 / 2
      = 38951012 + 13 / 14 := by
  refine ⟨by decide!, by decide!⟩

/-- C16, amended: for every triangle whose vertex coordinates are integers between 0 and
65535, the routine returns (computing in binary64), the vertices `(X0,Y0)`, `(X1,Y1)`,
`(X2,Y2)` it holds after its sort are integer points with `Y0 ≤ Y1 ≤ Y2`, and with `L` the x
of the edge 0-2 at height `y + 1/2` and `S` the x of the edge 0-1 at that height when
`y + 1/2 ≤ Y1` and of the edge 1-2 otherwise: every written pixel `(x, y)` has its centre
at `Y0 < y + 1/2 ≤ Y2` and `min(L, S) ≤ x + 1/2 ≤ max(L, S)`, every pixel whose centre
satisfies `Y0 < y + 1/2 ≤ Y2` and `min(L, S) < x + 1/2 < max(L, S)` is written, and no
pixel is written twice.  Only a pixel whose centre lies exactly on an edge may or may not
be written. -/
theorem triangle_pixel_centres (x0 y0 x1 y1 x2 y2 : Int)
    (hx0 : 0 ≤ x0 ∧ x0 ≤ 65535) (hy0 : 0 ≤ y0 ∧ y0 ≤ 65535)
    (hx1 : 0 ≤ x1 ∧ x1 ≤ 65535) (hy1 : 0 ≤ y1 ∧ y1 ≤ 65535)
    (hx2 : 0 ≤ x2 ∧ x2 ≤ 65535) (hy2 : 0 ≤ y2 ∧ y2 ≤ 65535) :
    ∃ (X0 Y0 X1 Y1 X2 Y2 : Int) (px : Pixels),
      Binary64.sorted x0 y0 x1 y1 x2 y2
        = ((Dbl.fin X0, Dbl.fin Y0), (Dbl.fin X1, Dbl.fin Y1), (Dbl.fin X2, Dbl.fin Y2)) ∧
      Y0 ≤ Y1 ∧ Y1 ≤ Y2 ∧
      Binary64.driver_framebuffer_triangle x0 y0 x1 y1 x2 y2 = some px ∧ px.Nodup ∧
      (∀ x y : Int, (x, y) ∈ px →
        (Y0 : ℚ) < (y : ℚ) + 1 / 2 ∧ (y : ℚ) + 1 / 2 ≤ (Y2 : ℚ) ∧
        min (edgeAt ((X0 : ℚ), (Y0 : ℚ)) ((X2 : ℚ), (Y2 : ℚ)) ((y : ℚ) + 1 / 2))
            (if (y : ℚ) + 1 / 2 ≤ (Y1 : ℚ)
              then edgeAt ((X0 : ℚ), (Y0 : ℚ)) ((X1 : ℚ), (Y1 : ℚ)) ((y : ℚ) + 1 / 2)
              else edgeAt ((X1 : ℚ), (Y1 : ℚ)) ((X2 : ℚ), (Y2 : ℚ)) ((y : ℚ) + 1 / 2))
          ≤ (x : ℚ) + 1 / 2 ∧
        (x : ℚ) + 1 / 2
          ≤ max (edgeAt ((X0 : ℚ), (Y0 : ℚ)) ((X2 : ℚ), (Y2 : ℚ)) ((y : ℚ) + 1 / 2))
            (if (y : ℚ) + 1 / 2 ≤ (Y1 : ℚ)
              then edgeAt ((X0 : ℚ), (Y0 : ℚ)) ((X1 : ℚ), (Y1 : ℚ)) ((y : ℚ) + 1 / 2)
              else edgeAt ((X1 : ℚ), (Y1 : ℚ)) ((X2 : ℚ), (Y2 : ℚ)) ((y : ℚ) + 1 / 2))) ∧
      (∀ x y : Int,
        (Y0 : ℚ) < (y : ℚ) + 1 / 2 → (y : ℚ) + 1 / 2 ≤ (Y2 : ℚ) →
        min (edgeAt ((X0 : ℚ), (Y0 : ℚ)) ((X2 : ℚ), (Y2 : ℚ)) ((y : ℚ) + 1 / 2))
            (if (y : ℚ) + 1 / 2 ≤ (Y1 : ℚ)
              then edgeAt ((X0 : ℚ), (Y0 : ℚ)) ((X1 : ℚ), (Y1 : ℚ)) ((y : ℚ) + 1 / 2)
              else edgeAt ((X1 : ℚ), (Y1 : ℚ)) ((X2 : ℚ), (Y2 : ℚ)) ((y : ℚ) + 1 / 2))
          < (x : ℚ) + 1 / 2 →
        (x : ℚ) + 1 / 2
          < max (edgeAt ((X0 : ℚ), (Y0 : ℚ)) ((X2 : ℚ), (Y2 : ℚ)) ((y : ℚ) + 1 / 2))
            (if (y : ℚ) + 1 / 2 ≤ (Y1 : ℚ)
              then edgeAt ((X0 : ℚ), (Y0 : ℚ)) ((X1 : ℚ), (Y1 : ℚ)) ((y : ℚ) + 1 / 2)
              else edgeAt ((X1 : ℚ), (Y1 : ℚ)) ((X2 : ℚ), (Y2 : ℚ)) ((y : ℚ) + 1 / 2)) →
        (x, y) ∈ px) := by
  have cast_lt : ∀ z : Int, 0 ≤ z ∧ z ≤ 65535 → |(z : ℚ)| < 16777216 := by
    rintro z ⟨h0, h1⟩
    have a : (0 : ℚ) ≤ (z : ℚ) := by exact_mod_cast h0
    have b : (z : ℚ) ≤ 65535 := by exact_mod_cast h1
    rw [abs_of_nonneg a]
    linarith
  have hfix := sorted_of_fixed x0 y0 x1 y1 x2 y2 (narrow_intCast x0 (cast_lt x0 hx0))
    (narrow_intCast y0 (cast_lt y0 hy0)) (narrow_intCast x1 (cast_lt x1 hx1))
    (narrow_intCast y1 (cast_lt y1 hy1))
  have hsorted := triangleSort_sorted ((x0 : ℚ), (y0 : ℚ)) ((x1 : ℚ), (y1 : ℚ))
    ((x2 : ℚ), (y2 : ℚ))
  have hall := triangleSort_all
    (fun p : ℚ × ℚ => ∃ a b : Int, p = ((a : ℚ), (b : ℚ)) ∧ (0 ≤ a ∧ a ≤ 65535) ∧
      (0 ≤ b ∧ b ≤ 65535))
    ((x0 : ℚ), (y0 : ℚ)) ((x1 : ℚ), (y1 : ℚ)) ((x2 : ℚ), (y2 : ℚ))
    ⟨x0, y0, rfl, hx0, hy0⟩ ⟨x1, y1, rfl, hx1, hy1⟩ ⟨x2, y2, rfl, hx2, hy2⟩
  generalize triangleSort id ((x0 : ℚ), (y0 : ℚ)) ((x1 : ℚ), (y1 : ℚ)) ((x2 : ℚ), (y2 : ℚ)) = s
    at hfix hsorted hall
  obtain ⟨⟨X0, Y0, e0, hX0, hY0⟩, ⟨X1, Y1, e1, hX1, hY1⟩, ⟨X2, Y2, e2, hX2, hY2⟩⟩ := hall
  rw [e0, e1, e2] at hsorted hfix
  dsimp only at hsorted hfix
  obtain ⟨q01, q12⟩ := hsorted
  have h01 : Y0 ≤ Y1 := by exact_mod_cast q01
  have h12 : Y1 ≤ Y2 := by exact_mod_cast q12
  clear e0 e1 e2 s
  -- the two passes
  have htr := passRows_intCast Y0 Y1 hY0.1 h01 (by omega)
  have hbr := passRows_intCast Y1 Y2 hY1.1 h12 (by omega)
  obtain ⟨top, htop, mtop⟩ := pass64_int X0 Y0 X1 Y1 X0 Y0 X2 Y2 Y0 Y1
    hX0.1 hX0.2 hX1.1 hX1.2 hY0.1 hY1.2 le_rfl le_rfl
    hX0.1 hX0.2 hX2.1 hX2.2 hY0.1 hY2.2 le_rfl h12
  obtain ⟨bottom, hbottom, mbot⟩ := pass64_int X1 Y1 X2 Y2 X0 Y0 X2 Y2 Y1 Y2
    hX1.1 hX1.2 hX2.1 hX2.2 hY1.1 hY2.2 le_rfl le_rfl
    hX0.1 hX0.2 hX2.1 hX2.2 hY0.1 hY2.2 h01 le_rfl
  have e1 : Binary64.triangleTop (Dbl.fin (X0 : ℚ), Dbl.fin (Y0 : ℚ))
      (Dbl.fin (X1 : ℚ), Dbl.fin (Y1 : ℚ)) (Dbl.fin (X2 : ℚ), Dbl.fin (Y2 : ℚ)) = some top := by
    unfold Binary64.triangleTop
    dsimp only
    rw [htr]
    exact htop
  have e2 : Binary64.triangleBottom (Dbl.fin (X0 : ℚ), Dbl.fin (Y0 : ℚ))
      (Dbl.fin (X1 : ℚ), Dbl.fin (Y1 : ℚ)) (Dbl.fin (X2 : ℚ), Dbl.fin (Y2 : ℚ))
      = some bottom := by
    unfold Binary64.triangleBottom
    dsimp only
    rw [hbr]
    exact hbottom
  have hpx : Binary64.driver_framebuffer_triangle x0 y0 x1 y1 x2 y2
      = some (spanPixels top ++ spanPixels bottom) := by
    unfold Binary64.driver_framebuffer_triangle
    dsimp only
    rw [hfix]
    dsimp only
    rw [e1, e2]
  refine ⟨X0, Y0, X1, Y1, X2, Y2, _, hfix, h01, h12, hpx, triangle64_nodup hpx, ?_, ?_⟩
  · intro x y hmem
    rw [List.mem_append] at hmem
    rcases hmem with hm | hm
    · obtain ⟨r0, r1, c1, c2⟩ := (mtop x y).1 hm
      have q0 : (Y0 : ℚ) ≤ (y : ℚ) := by exact_mod_cast r0
      have q1 : (y : ℚ) + 1 ≤ (Y1 : ℚ) := by exact_mod_cast (by omega : y + 1 ≤ Y1)
      rw [if_pos (by linarith), min_comm, max_comm]
      exact ⟨by linarith, by linarith, c1, c2⟩
    · obtain ⟨r0, r1, c1, c2⟩ := (mbot x y).1 hm
      have q0 : (Y1 : ℚ) ≤ (y : ℚ) := by exact_mod_cast r0
      have q1 : (y : ℚ) + 1 ≤ (Y2 : ℚ) := by exact_mod_cast (by omega : y + 1 ≤ Y2)
      rw [if_neg (by linarith), min_comm, max_comm]
      exact ⟨by linarith, by linarith, c1, c2⟩
  · intro x y g0 g2 s1 s2
    have r0 : Y0 ≤ y := by
      have : (Y0 : ℚ) < ((y + 1 : Int) : ℚ) := by push_cast; linarith
      have : Y0 < y + 1 := by exact_mod_cast this
      omega
    have r2 : y < Y2 := by
      have : (y : ℚ) < (Y2 : ℚ) := by linarith
      exact_mod_cast this
    rw [List.mem_append]
    by_cases hc : (y : ℚ) + 1 / 2 ≤ (Y1 : ℚ)
    · rw [if_pos hc, min_comm] at s1
      rw [if_pos hc, max_comm] at s2
      have r1 : y < Y1 := by
        have : (y : ℚ) < (Y1 : ℚ) := by linarith
        exact_mod_cast this
      exact Or.inl ((mtop x y).2 r0 r1 s1 s2)
    · rw [if_neg hc, min_comm] at s1
      rw [if_neg hc, max_comm] at s2
      have r1 : Y1 ≤ y := by
        have : (Y1 : ℚ) < ((y + 1 : Int) : ℚ) := by push_cast; linarith
        have : Y1 < y + 1 := by exact_mod_cast this
        omega
      exact Or.inr ((mbot x y).2 r1 r2 s1 s2)

theorem Perm3.all {α : Type} {a b c d e f : α} (h : Perm3 a b c d e f) (Q : α → Prop)
    (hd : Q d) (he : Q e) (hf : Q f) : Q a ∧ Q b ∧ Q c := by
  rcases h with h | h | h | h | h | h <;> obtain ⟨rfl, rfl, rfl⟩ := h <;>
    exact ⟨by assumption, by assumption, by assumption⟩

/-- The exact sort returns a rearrangement of the three vertices. -/
theorem triangleSort_perm3 (p0 p1 p2 : ℚ × ℚ) :
    Perm3 (triangleSort id p0 p1 p2).1 (triangleSort id p0 p1 p2).2.1
      (triangleSort id p0 p1 p2).2.2 p0 p1 p2 := by
  unfold triangleSort swapIfAbove Perm3
  simp only [id]
  split_ifs <;> simp

/-- The vertices that the routine holds after its sort, for integer vertex coordinates of
magnitude below `2^24`: a rearrangement of the three vertices, in the order of their
heights. -/
theorem sorted64_int (p0 p1 p2 : Int × Int)
    (h0 : |(p0.1 : ℚ)| < 16777216 ∧ |(p0.2 : ℚ)| < 16777216)
    (h1 : |(p1.1 : ℚ)| < 16777216 ∧ |(p1.2 : ℚ)| < 16777216) :
    ∃ P0 P1 P2 : Int × Int,
      Binary64.sorted p0.1 p0.2 p1.1 p1.2 p2.1 p2.2
        = ((Dbl.fin P0.1, Dbl.fin P0.2), (Dbl.fin P1.1, Dbl.fin P1.2),
            (Dbl.fin P2.1, Dbl.fin P2.2)) ∧
      P0.2 ≤ P1.2 ∧ P1.2 ≤ P2.2 ∧ Perm3 P0 P1 P2 p0 p1 p2 := by
  have hfix := sorted_of_fixed p0.1 p0.2 p1.1 p1.2 p2.1 p2.2 (narrow_intCast _ h0.1)
    (narrow_intCast _ h0.2) (narrow_intCast _ h1.1) (narrow_intCast _ h1.2)
  have hsorted := triangleSort_sorted ((p0.1 : ℚ), (p0.2 : ℚ)) ((p1.1 : ℚ), (p1.2 : ℚ))
    ((p2.1 : ℚ), (p2.2 : ℚ))
  have hperm := triangleSort_perm3 ((p0.1 : ℚ), (p0.2 : ℚ)) ((p1.1 : ℚ), (p1.2 : ℚ))
    ((p2.1 : ℚ), (p2.2 : ℚ))
  generalize triangleSort id ((p0.1 : ℚ), (p0.2 : ℚ)) ((p1.1 : ℚ), (p1.2 : ℚ))
    ((p2.1 : ℚ), (p2.2 : ℚ)) = s at hfix hsorted hperm
  obtain ⟨q01, q12⟩ := hsorted
  rcases hperm with ⟨a, b, c⟩ | ⟨a, b, c⟩ | ⟨a, b, c⟩ | ⟨a, b, c⟩ | ⟨a, b, c⟩ | ⟨a, b, c⟩ <;>
  simp only [a, b, c] at hfix q01 q12
  · exact ⟨p0, p1, p2, hfix, by exact_mod_cast q01, by exact_mod_cast q12, by simp [Perm3]⟩
  · exact ⟨p0, p2, p1, hfix, by exact_mod_cast q01, by exact_mod_cast q12, by simp [Perm3]⟩
  · exact ⟨p1, p0, p2, hfix, by exact_mod_cast q01, by exact_mod_cast q12, by simp [Perm3]⟩
  · exact ⟨p1, p2, p0, hfix, by exact_mod_cast q01, by exact_mod_cast q12, by simp [Perm3]⟩
  · exact ⟨p2, p0, p1, hfix, by exact_mod_cast q01, by exact_mod_cast q12, by simp [Perm3]⟩
  · exact ⟨p2, p1, p0, hfix, by exact_mod_cast q01, by exact_mod_cast q12, by simp [Perm3]⟩

/-- The triangle routine on vertices with integer coordinates between 0 and 65535, in
binary64: it returns, and every written pixel `(x, y)` lies in a row spanned by two of the
three edges between the sorted vertices, from the span end computed for one of them up to,
not including, the span end computed for the other. -/
theorem triangle64_int (p0 p1 p2 : Int × Int)
    (h0 : (0 ≤ p0.1 ∧ p0.1 ≤ 65535) ∧ (0 ≤ p0.2 ∧ p0.2 ≤ 65535))
    (h1 : (0 ≤ p1.1 ∧ p1.1 ≤ 65535) ∧ (0 ≤ p1.2 ∧ p1.2 ≤ 65535))
    (h2 : (0 ≤ p2.1 ∧ p2.1 ≤ 65535) ∧ (0 ≤ p2.2 ∧ p2.2 ≤ 65535)) :
    ∃ (P0 P1 P2 : Int × Int) (px : Pixels),
      Perm3 P0 P1 P2 p0 p1 p2 ∧
      Binary64.driver_framebuffer_triangle p0.1 p0.2 p1.1 p1.2 p2.1 p2.2 = some px ∧
      ∀ x y : Int, (x, y) ∈ px →
        ∃ (E1 E2 : (Int × Int) × (Int × Int)) (a b : Int),
          (E1 = (P0, P1) ∨ E1 = (P1, P2) ∨ E1 = (P0, P2)) ∧
          (E2 = (P0, P1) ∨ E2 = (P1, P2) ∨ E2 = (P0, P2)) ∧
          (E1.1.2 ≤ y ∧ y < E1.2.2) ∧ (E2.1.2 ≤ y ∧ y < E2.2.2) ∧
          Binary64.edgeSpan E1.1 E1.2 y = some a ∧ Binary64.edgeSpan E2.1 E2.2 y = some b ∧
          min a b ≤ x ∧ x < max a b := by
  have cast_lt : ∀ z : Int, 0 ≤ z ∧ z ≤ 65535 → |(z : ℚ)| < 16777216 := by
    rintro z ⟨h0, h1⟩
    have a : (0 : ℚ) ≤ (z : ℚ) := by exact_mod_cast h0
    have b : (z : ℚ) ≤ 65535 := by exact_mod_cast h1
    rw [abs_of_nonneg a]
    linarith
  obtain ⟨P0, P1, P2, hfix, h01, h12, hperm⟩ := sorted64_int p0 p1 p2
    ⟨cast_lt _ h0.1, cast_lt _ h0.2⟩ ⟨cast_lt _ h1.1, cast_lt _ h1.2⟩
  obtain ⟨⟨hX0, hY0⟩, ⟨hX1, hY1⟩, ⟨hX2, hY2⟩⟩ := hperm.all
    (fun p : Int × Int => (0 ≤ p.1 ∧ p.1 ≤ 65535) ∧ (0 ≤ p.2 ∧ p.2 ≤ 65535)) h0 h1 h2
  obtain ⟨X0, Y0⟩ := P0
  obtain ⟨X1, Y1⟩ := P1
  obtain ⟨X2, Y2⟩ := P2
  dsimp only at hfix h01 h12 hX0 hY0 hX1 hY1 hX2 hY2
  have htr := passRows_intCast Y0 Y1 hY0.1 h01 (by omega)
  have hbr := passRows_intCast Y1 Y2 hY1.1 h12 (by omega)
  obtain ⟨top, htop, -⟩ := pass64_int X0 Y0 X1 Y1 X0 Y0 X2 Y2 Y0 Y1
    hX0.1 hX0.2 hX1.1 hX1.2 hY0.1 hY1.2 le_rfl le_rfl
    hX0.1 hX0.2 hX2.1 hX2.2 hY0.1 hY2.2 le_rfl h12
  obtain ⟨bottom, hbottom, -⟩ := pass64_int X1 Y1 X2 Y2 X0 Y0 X2 Y2 Y1 Y2
    hX1.1 hX1.2 hX2.1 hX2.2 hY1.1 hY2.2 le_rfl le_rfl
    hX0.1 hX0.2 hX2.1 hX2.2 hY0.1 hY2.2 h01 le_rfl
  have e1 : Binary64.triangleTop (Dbl.fin (X0 : ℚ), Dbl.fin (Y0 : ℚ))
      (Dbl.fin (X1 : ℚ), Dbl.fin (Y1 : ℚ)) (Dbl.fin (X2 : ℚ), Dbl.fin (Y2 : ℚ)) = some top := by
    unfold Binary64.triangleTop
    dsimp only
    rw [htr]
    exact htop
  have e2 : Binary64.triangleBottom (Dbl.fin (X0 : ℚ), Dbl.fin (Y0 : ℚ))
      (Dbl.fin (X1 : ℚ), Dbl.fin (Y1 : ℚ)) (Dbl.fin (X2 : ℚ), Dbl.fin (Y2 : ℚ))
      = some bottom := by
    unfold Binary64.triangleBottom
    dsimp only
    rw [hbr]
    exact hbottom
  have hpx : Binary64.driver_framebuffer_triangle p0.1 p0.2 p1.1 p1.2 p2.1 p2.2
      = some (spanPixels top ++ spanPixels bottom) := by
    unfold Binary64.driver_framebuffer_triangle
    dsimp only
    rw [hfix]
    dsimp only
    rw [e1, e2]
  refine ⟨(X0, Y0), (X1, Y1), (X2, Y2), _, hperm, hpx, ?_⟩
  intro x y hmem
  rw [List.mem_append] at hmem
  rcases hmem with hm | hm
  · obtain ⟨hy, a, b, ha, hb, c1, c2⟩ := (mem_pass_pixels htop x y).1 hm
    rw [mem_intRange] at hy
    exact ⟨((X0, Y0), (X1, Y1)), ((X0, Y0), (X2, Y2)), a, b, Or.inl rfl, Or.inr (Or.inr rfl),
      ⟨hy.1, hy.2⟩, ⟨hy.1, by dsimp only; omega⟩, ha, hb, c1, c2⟩
  · obtain ⟨hy, a, b, ha, hb, c1, c2⟩ := (mem_pass_pixels hbottom x y).1 hm
    rw [mem_intRange] at hy
    exact ⟨((X1, Y1), (X2, Y2)), ((X0, Y0), (X2, Y2)), a, b, Or.inr (Or.inl rfl),
      Or.inr (Or.inr rfl), ⟨hy.1, hy.2⟩, ⟨by dsimp only; omega, hy.2⟩, ha, hb, c1, c2⟩

/-- The horizontal distance at height `h` between the line through `U` and `W` and the
edge from `A` to `B`, in terms of the sides of `A` and `B` with respect to that line. -/
theorem edgeAt_side_identity (A B U W : ℚ × ℚ) (h : ℚ) (hAB : A.2 ≠ B.2) (hUW : U.2 ≠ W.2) :
    (edgeAt U W h - edgeAt A B h) * ((W.2 - U.2) * (B.2 - A.2)) =
      (B.2 - h) * ((W.1 - U.1) * (A.2 - U.2) - (W.2 - U.2) * (A.1 - U.1)) +
      (h - A.2) * ((W.1 - U.1) * (B.2 - U.2) - (W.2 - U.2) * (B.1 - U.1)) := by
  have h1 : W.2 - U.2 ≠ 0 := sub_ne_zero.2 (Ne.symm hUW)
  have h2 : B.2 - A.2 ≠ 0 := sub_ne_zero.2 (Ne.symm hAB)
  unfold edgeAt
  field_simp
  ring

/-- An edge whose end points lie on the non-negative side of a rising line, one of them
strictly, is strictly left of the line at every height strictly between its end points. -/
theorem edgeAt_lt_of_side (A B U W : ℚ × ℚ) (h : ℚ) (hA : A.2 < h) (hB : h < B.2)
    (hUW : U.2 < W.2)
    (sA : 0 ≤ (W.1 - U.1) * (A.2 - U.2) - (W.2 - U.2) * (A.1 - U.1))
    (sB : 0 ≤ (W.1 - U.1) * (B.2 - U.2) - (W.2 - U.2) * (B.1 - U.1))
    (sAB : 0 < ((W.1 - U.1) * (A.2 - U.2) - (W.2 - U.2) * (A.1 - U.1)) +
      ((W.1 - U.1) * (B.2 - U.2) - (W.2 - U.2) * (B.1 - U.1))) :
    edgeAt A B h < edgeAt U W h := by
  have hid := edgeAt_side_identity A B U W h (ne_of_lt (lt_trans hA hB)) (ne_of_lt hUW)
  have p1 : 0 < (W.2 - U.2) * (B.2 - A.2) := mul_pos (by linarith) (by linarith)
  have p2 : 0 < (B.2 - h) * ((W.1 - U.1) * (A.2 - U.2) - (W.2 - U.2) * (A.1 - U.1)) +
      (h - A.2) * ((W.1 - U.1) * (B.2 - U.2) - (W.2 - U.2) * (B.1 - U.1)) := by
    rcases lt_or_eq_of_le sA with s | s
    · have a1 := mul_pos (by linarith : 0 < B.2 - h) s
      have a2 := mul_nonneg (by linarith : 0 ≤ h - A.2) sB
      linarith
    · have s' : 0 < (W.1 - U.1) * (B.2 - U.2) - (W.2 - U.2) * (B.1 - U.1) := by linarith
      have a1 := mul_nonneg (by linarith : 0 ≤ B.2 - h) sA
      have a2 := mul_pos (by linarith : 0 < h - A.2) s'
      linarith
  rw [← hid] at p2
  have := (pos_iff_pos_of_mul_pos p2).2 p1
  linarith

/-- An edge whose end points lie on the non-positive side of a rising line, one of them
strictly, is strictly right of the line at every height strictly between its end points. -/
theorem edgeAt_gt_of_side (A B U W : ℚ × ℚ) (h : ℚ) (hA : A.2 < h) (hB : h < B.2)
    (hUW : U.2 < W.2)
    (sA : (W.1 - U.1) * (A.2 - U.2) - (W.2 - U.2) * (A.1 - U.1) ≤ 0)
    (sB : (W.1 - U.1) * (B.2 - U.2) - (W.2 - U.2) * (B.1 - U.1) ≤ 0)
    (sAB : ((W.1 - U.1) * (A.2 - U.2) - (W.2 - U.2) * (A.1 - U.1)) +
      ((W.1 - U.1) * (B.2 - U.2) - (W.2 - U.2) * (B.1 - U.1)) < 0) :
    edgeAt U W h < edgeAt A B h := by
  have hid := edgeAt_side_identity A B U W h (ne_of_lt (lt_trans hA hB)) (ne_of_lt hUW)
  have p1 : 0 < (W.2 - U.2) * (B.2 - A.2) := mul_pos (by linarith) (by linarith)
  have p2 : (B.2 - h) * ((W.1 - U.1) * (A.2 - U.2) - (W.2 - U.2) * (A.1 - U.1)) +
      (h - A.2) * ((W.1 - U.1) * (B.2 - U.2) - (W.2 - U.2) * (B.1 - U.1)) < 0 := by
    rcases lt_or_eq_of_le sA with s | s
    · have a1 := mul_pos (by linarith : 0 < B.2 - h) (by linarith :
        0 < -((W.1 - U.1) * (A.2 - U.2) - (W.2 - U.2) * (A.1 - U.1)))
      have a2 := mul_nonneg (by linarith : 0 ≤ h - A.2) (by linarith :
        0 ≤ -((W.1 - U.1) * (B.2 - U.2) - (W.2 - U.2) * (B.1 - U.1)))
      linarith
    · have s' : 0 < -((W.1 - U.1) * (B.2 - U.2) - (W.2 - U.2) * (B.1 - U.1)) := by linarith
      have a1 := mul_nonneg (by linarith : 0 ≤ B.2 - h) (by linarith :
        0 ≤ -((W.1 - U.1) * (A.2 - U.2) - (W.2 - U.2) * (A.1 - U.1)))
      have a2 := mul_pos (by linarith : 0 < h - A.2) s'
      linarith
  rw [← hid] at p2
  have : edgeAt U W h - edgeAt A B h < 0 := by
    by_contra hc
    have := mul_nonneg (not_lt.1 hc) (le_of_lt p1)
    linarith
  linarith

/-- Span ends on the two sides of a line: a span end computed for an edge strictly left of
the line is at most the least value possible for the line, and one computed for an edge
strictly right of the line is at least the greatest value possible for the line. -/
theorem span_sides {S L : ℚ} {a : Int} :
    (S < L → a ≤ ⌊S + 1 / 2⌋ → a ≤ ⌈L + 1 / 2⌉ - 1) ∧
    (L < S → ⌈S + 1 / 2⌉ - 1 ≤ a → ⌊L + 1 / 2⌋ ≤ a) := by
  constructor
  · intro h1 h2
    have : ⌊S + 1 / 2⌋ < ⌈L + 1 / 2⌉ := by
      rw [Int.floor_lt]
      exact lt_of_lt_of_le (by linarith) (Int.le_ceil _)
    omega
  · intro h1 h2
    have : ⌊L + 1 / 2⌋ < ⌈S + 1 / 2⌉ := by
      rw [Int.lt_ceil]
      exact lt_of_le_of_lt (Int.floor_le _) (by linarith)
    omega

/-- No column lies in a span of each of two triangles on either side of a line: all span
ends of the first triangle are computed for edges left of the line or for the line
itself, all span ends of the second for edges right of the line or for the line itself. -/
theorem spans_separated (L : ℚ) (R : Prop) (d : Option Int)
    (hd : R → ∀ v, d = some v → ⌈L + 1 / 2⌉ - 1 ≤ v ∧ v ≤ ⌊L + 1 / 2⌋) (a1 a2 b1 b2 x : Int)
    (hA1 : a1 ≤ ⌈L + 1 / 2⌉ - 1 ∨ (R ∧ d = some a1))
    (hA2 : a2 ≤ ⌈L + 1 / 2⌉ - 1 ∨ (R ∧ d = some a2))
    (hB1 : ⌊L + 1 / 2⌋ ≤ b1 ∨ (R ∧ d = some b1))
    (hB2 : ⌊L + 1 / 2⌋ ≤ b2 ∨ (R ∧ d = some b2))
    (hx : min a1 a2 ≤ x ∧ x < max a1 a2) (hx' : min b1 b2 ≤ x ∧ x < max b1 b2) : False := by
  have hcf : ⌈L + 1 / 2⌉ ≤ ⌊L + 1 / 2⌋ + 1 := Int.ceil_le_floor_add_one _
  have key : ∀ a b : Int, (a ≤ ⌈L + 1 / 2⌉ - 1 ∨ (R ∧ d = some a)) →
      (⌊L + 1 / 2⌋ ≤ b ∨ (R ∧ d = some b)) → x < a → b ≤ x → False := by
    intro a b ha hb h1 h2
    rcases ha with ha | ⟨r, ha⟩ <;> rcases hb with hb | ⟨r', hb⟩
    · omega
    · have := (hd r' b hb).1
      omega
    · have := (hd r a ha).2
      omega
    · rw [ha] at hb
      have := Option.some.inj hb
      omega
  obtain ⟨x1, x2⟩ := hx
  obtain ⟨x3, x4⟩ := hx'
  rcases lt_max_iff.1 x2 with u | u <;> rcases min_le_iff.1 x3 with w | w
  · exact key a1 b1 hA1 hB1 u w
  · exact key a1 b2 hA1 hB2 u w
  · exact key a2 b1 hA2 hB1 u w
  · exact key a2 b2 hA2 hB2 u w

/-- The span end computed for an edge between integer points between 0 and 65535 whose end
points lie on the non-negative side of a rising line, one of them strictly, is at most
the least span end possible for the line. -/
theorem span_end_of_side_left (U W A B : Int × Int) (y a : Int)
    (rA : (0 ≤ A.1 ∧ A.1 ≤ 65535) ∧ (0 ≤ A.2 ∧ A.2 ≤ 65535))
    (rB : (0 ≤ B.1 ∧ B.1 ≤ 65535) ∧ (0 ≤ B.2 ∧ B.2 ≤ 65535))
    (hUW : U.2 < W.2)
    (sA : 0 ≤ (W.1 - U.1) * (A.2 - U.2) - (W.2 - U.2) * (A.1 - U.1))
    (sB : 0 ≤ (W.1 - U.1) * (B.2 - U.2) - (W.2 - U.2) * (B.1 - U.1))
    (sAB : 0 < ((W.1 - U.1) * (A.2 - U.2) - (W.2 - U.2) * (A.1 - U.1)) +
      ((W.1 - U.1) * (B.2 - U.2) - (W.2 - U.2) * (B.1 - U.1)))
    (hrow : A.2 ≤ y ∧ y < B.2) (ha : Binary64.edgeSpan A B y = some a) :
    a ≤ ⌈edgeAt ((U.1 : ℚ), (U.2 : ℚ)) ((W.1 : ℚ), (W.2 : ℚ)) ((y : ℚ) + 1 / 2) + 1 / 2⌉ - 1 := by
  obtain ⟨v, hv, -, hv2⟩ := spanX64_int A.1 A.2 B.1 B.2 y rA.1.1 rA.1.2 rB.1.1 rB.1.2
    rA.2.1 rB.2.2 hrow.1 hrow.2
  have hav : v = a := Option.some.inj (hv.symm.trans ha)
  subst hav
  have q0 : (A.2 : ℚ) ≤ (y : ℚ) := by exact_mod_cast hrow.1
  have q1 : (y : ℚ) + 1 ≤ (B.2 : ℚ) := by exact_mod_cast (by omega : y + 1 ≤ B.2)
  have qUW : (U.2 : ℚ) < (W.2 : ℚ) := by exact_mod_cast hUW
  have hlt := edgeAt_lt_of_side ((A.1 : ℚ), (A.2 : ℚ)) ((B.1 : ℚ), (B.2 : ℚ))
    ((U.1 : ℚ), (U.2 : ℚ)) ((W.1 : ℚ), (W.2 : ℚ)) ((y : ℚ) + 1 / 2)
    (by dsimp only; linarith) (by dsimp only; linarith) qUW
    (by dsimp only; exact_mod_cast sA) (by dsimp only; exact_mod_cast sB)
    (by dsimp only; exact_mod_cast sAB)
  exact span_sides.1 hlt hv2

/-- The span end computed for an edge between integer points between 0 and 65535 whose end
points lie on the non-positive side of a rising line, one of them strictly, is at least
the greatest span end possible for the line. -/
theorem span_end_of_side_right (U W A B : Int × Int) (y a : Int)
    (rA : (0 ≤ A.1 ∧ A.1 ≤ 65535) ∧ (0 ≤ A.2 ∧ A.2 ≤ 65535))
    (rB : (0 ≤ B.1 ∧ B.1 ≤ 65535) ∧ (0 ≤ B.2 ∧ B.2 ≤ 65535))
    (hUW : U.2 < W.2)
    (sA : (W.1 - U.1) * (A.2 - U.2) - (W.2 - U.2) * (A.1 - U.1) ≤ 0)
    (sB : (W.1 - U.1) * (B.2 - U.2) - (W.2 - U.2) * (B.1 - U.1) ≤ 0)
    (sAB : ((W.1 - U.1) * (A.2 - U.2) - (W.2 - U.2) * (A.1 - U.1)) +
      ((W.1 - U.1) * (B.2 - U.2) - (W.2 - U.2) * (B.1 - U.1)) < 0)
    (hrow : A.2 ≤ y ∧ y < B.2) (ha : Binary64.edgeSpan A B y = some a) :
    ⌊edgeAt ((U.1 : ℚ), (U.2 : ℚ)) ((W.1 : ℚ), (W.2 : ℚ)) ((y : ℚ) + 1 / 2) + 1 / 2⌋ ≤ a := by
  obtain ⟨v, hv, hv1, -⟩ := spanX64_int A.1 A.2 B.1 B.2 y rA.1.1 rA.1.2 rB.1.1 rB.1.2
    rA.2.1 rB.2.2 hrow.1 hrow.2
  have hav : v = a := Option.some.inj (hv.symm.trans ha)
  subst hav
  have q0 : (A.2 : ℚ) ≤ (y : ℚ) := by exact_mod_cast hrow.1
  have q1 : (y : ℚ) + 1 ≤ (B.2 : ℚ) := by exact_mod_cast (by omega : y + 1 ≤ B.2)
  have qUW : (U.2 : ℚ) < (W.2 : ℚ) := by exact_mod_cast hUW
  have hlt := edgeAt_gt_of_side ((A.1 : ℚ), (A.2 : ℚ)) ((B.1 : ℚ), (B.2 : ℚ))
    ((U.1 : ℚ), (U.2 : ℚ)) ((W.1 : ℚ), (W.2 : ℚ)) ((y : ℚ) + 1 / 2)
    (by dsimp only; linarith) (by dsimp only; linarith) qUW
    (by dsimp only; exact_mod_cast sA) (by dsimp only; exact_mod_cast sB)
    (by dsimp only; exact_mod_cast sAB)
  exact span_sides.2 hlt hv1

/-- Every span end of a triangle with the rising edge `U → W` and third vertex `Z`
strictly on the positive side of that edge is computed for that edge or is at most the
least span end possible for it. -/
theorem span_end_left (U W Z : Int × Int) (E : (Int × Int) × (Int × Int)) (y a : Int)
    (rU : (0 ≤ U.1 ∧ U.1 ≤ 65535) ∧ (0 ≤ U.2 ∧ U.2 ≤ 65535))
    (rW : (0 ≤ W.1 ∧ W.1 ≤ 65535) ∧ (0 ≤ W.2 ∧ W.2 ≤ 65535))
    (rZ : (0 ≤ Z.1 ∧ Z.1 ≤ 65535) ∧ (0 ≤ Z.2 ∧ Z.2 ≤ 65535))
    (hUW : U.2 < W.2)
    (hZ : 0 < (W.1 - U.1) * (Z.2 - U.2) - (W.2 - U.2) * (Z.1 - U.1))
    (hE : E = (U, W) ∨ E = (W, U) ∨ (E.1 = Z ∧ (E.2 = U ∨ E.2 = W)) ∨
      (E.2 = Z ∧ (E.1 = U ∨ E.1 = W)))
    (hrow : E.1.2 ≤ y ∧ y < E.2.2) (ha : Binary64.edgeSpan E.1 E.2 y = some a) :
    a ≤ ⌈edgeAt ((U.1 : ℚ), (U.2 : ℚ)) ((W.1 : ℚ), (W.2 : ℚ)) ((y : ℚ) + 1 / 2) + 1 / 2⌉ - 1 ∨
      ((U.2 ≤ y ∧ y < W.2) ∧ Binary64.edgeSpan U W y = some a) := by
  have zU : (W.1 - U.1) * (U.2 - U.2) - (W.2 - U.2) * (U.1 - U.1) = 0 := by ring
  have zW : (W.1 - U.1) * (W.2 - U.2) - (W.2 - U.2) * (W.1 - U.1) = 0 := by ring
  obtain ⟨A, B⟩ := E
  dsimp only at hE hrow ha
  rcases hE with e | e | ⟨e1, e2 | e2⟩ | ⟨e1, e2 | e2⟩
  · obtain ⟨rfl, rfl⟩ := Prod.mk.inj e
    exact Or.inr ⟨hrow, ha⟩
  · obtain ⟨rfl, rfl⟩ := Prod.mk.inj e
    omega
  · rw [e1, e2] at hrow ha
    exact Or.inl (span_end_of_side_left U W Z U y a rZ rU hUW (le_of_lt hZ) (le_of_eq zU.symm)
      (by linarith) hrow ha)
  · rw [e1, e2] at hrow ha
    exact Or.inl (span_end_of_side_left U W Z W y a rZ rW hUW (le_of_lt hZ) (le_of_eq zW.symm)
      (by linarith) hrow ha)
  · rw [e1, e2] at hrow ha
    exact Or.inl (span_end_of_side_left U W U Z y a rU rZ hUW (le_of_eq zU.symm) (le_of_lt hZ)
      (by linarith) hrow ha)
  · rw [e1, e2] at hrow ha
    exact Or.inl (span_end_of_side_left U W W Z y a rW rZ hUW (le_of_eq zW.symm) (le_of_lt hZ)
      (by linarith) hrow ha)

/-- Every span end of a triangle with the rising edge `U → W` and third vertex `Z`
strictly on the negative side of that edge is computed for that edge or is at least the
greatest span end possible for it. -/
theorem span_end_right (U W Z : Int × Int) (E : (Int × Int) × (Int × Int)) (y a : Int)
    (rU : (0 ≤ U.1 ∧ U.1 ≤ 65535) ∧ (0 ≤ U.2 ∧ U.2 ≤ 65535))
    (rW : (0 ≤ W.1 ∧ W.1 ≤ 65535) ∧ (0 ≤ W.2 ∧ W.2 ≤ 65535))
    (rZ : (0 ≤ Z.1 ∧ Z.1 ≤ 65535) ∧ (0 ≤ Z.2 ∧ Z.2 ≤ 65535))
    (hUW : U.2 < W.2)
    (hZ : (W.1 - U.1) * (Z.2 - U.2) - (W.2 - U.2) * (Z.1 - U.1) < 0)
    (hE : E = (U, W) ∨ E = (W, U) ∨ (E.1 = Z ∧ (E.2 = U ∨ E.2 = W)) ∨
      (E.2 = Z ∧ (E.1 = U ∨ E.1 = W)))
    (hrow : E.1.2 ≤ y ∧ y < E.2.2) (ha : Binary64.edgeSpan E.1 E.2 y = some a) :
    ⌊edgeAt ((U.1 : ℚ), (U.2 : ℚ)) ((W.1 : ℚ), (W.2 : ℚ)) ((y : ℚ) + 1 / 2) + 1 / 2⌋ ≤ a ∨
      ((U.2 ≤ y ∧ y < W.2) ∧ Binary64.edgeSpan U W y = some a) := by
  have zU : (W.1 - U.1) * (U.2 - U.2) - (W.2 - U.2) * (U.1 - U.1) = 0 := by ring
  have zW : (W.1 - U.1) * (W.2 - U.2) - (W.2 - U.2) * (W.1 - U.1) = 0 := by ring
  obtain ⟨A, B⟩ := E
  dsimp only at hE hrow ha
  rcases hE with e | e | ⟨e1, e2 | e2⟩ | ⟨e1, e2 | e2⟩
  · obtain ⟨rfl, rfl⟩ := Prod.mk.inj e
    exact Or.inr ⟨hrow, ha⟩
  · obtain ⟨rfl, rfl⟩ := Prod.mk.inj e
    omega
  · rw [e1, e2] at hrow ha
    exact Or.inl (span_end_of_side_right U W Z U y a rZ rU hUW (le_of_lt hZ) (le_of_eq zU)
      (by linarith) hrow ha)
  · rw [e1, e2] at hrow ha
    exact Or.inl (span_end_of_side_right U W Z W y a rZ rW hUW (le_of_lt hZ) (le_of_eq zW)
      (by linarith) hrow ha)
  · rw [e1, e2] at hrow ha
    exact Or.inl (span_end_of_side_right U W U Z y a rU rZ hUW (le_of_eq zU) (le_of_lt hZ)
      (by linarith) hrow ha)
  · rw [e1, e2] at hrow ha
    exact Or.inl (span_end_of_side_right U W W Z y a rW rZ hUW (le_of_eq zW) (le_of_lt hZ)
      (by linarith) hrow ha)

/-- The edges between the sorted vertices of a triangle are edges between its vertices. -/
theorem Perm3.edge {P0 P1 P2 a b c : Int × Int} (hp : Perm3 P0 P1 P2 a b c)
    {E : (Int × Int) × (Int × Int)} (hE : E = (P0, P1) ∨ E = (P1, P2) ∨ E = (P0, P2)) :
    E = (a, b) ∨ E = (b, a) ∨ E = (a, c) ∨ E = (c, a) ∨ E = (b, c) ∨ E = (c, b) := by
  rcases hp with h | h | h | h | h | h <;> obtain ⟨rfl, rfl, rfl⟩ := h <;>
    rcases hE with rfl | rfl | rfl <;> simp

/-- Two triangles on a common rising edge `U → W`, one with its third vertex strictly on the
positive side of the edge and one with its third vertex strictly on the negative side,
all vertices being integer points between 0 and 65535: no column lies in a computed span
of both in the same row. -/
theorem rising_edge_no_common (U W ZA ZB : Int × Int)
    (rU : (0 ≤ U.1 ∧ U.1 ≤ 65535) ∧ (0 ≤ U.2 ∧ U.2 ≤ 65535))
    (rW : (0 ≤ W.1 ∧ W.1 ≤ 65535) ∧ (0 ≤ W.2 ∧ W.2 ≤ 65535))
    (rZA : (0 ≤ ZA.1 ∧ ZA.1 ≤ 65535) ∧ (0 ≤ ZA.2 ∧ ZA.2 ≤ 65535))
    (rZB : (0 ≤ ZB.1 ∧ ZB.1 ≤ 65535) ∧ (0 ≤ ZB.2 ∧ ZB.2 ≤ 65535))
    (hUW : U.2 < W.2)
    (hA : 0 < (W.1 - U.1) * (ZA.2 - U.2) - (W.2 - U.2) * (ZA.1 - U.1))
    (hB : (W.1 - U.1) * (ZB.2 - U.2) - (W.2 - U.2) * (ZB.1 - U.1) < 0)
    (x y : Int) (EA1 EA2 EB1 EB2 : (Int × Int) × (Int × Int)) (a1 a2 b1 b2 : Int)
    (kA1 : EA1 = (U, W) ∨ EA1 = (W, U) ∨ (EA1.1 = ZA ∧ (EA1.2 = U ∨ EA1.2 = W)) ∨
      (EA1.2 = ZA ∧ (EA1.1 = U ∨ EA1.1 = W)))
    (kA2 : EA2 = (U, W) ∨ EA2 = (W, U) ∨ (EA2.1 = ZA ∧ (EA2.2 = U ∨ EA2.2 = W)) ∨
      (EA2.2 = ZA ∧ (EA2.1 = U ∨ EA2.1 = W)))
    (kB1 : EB1 = (U, W) ∨ EB1 = (W, U) ∨ (EB1.1 = ZB ∧ (EB1.2 = U ∨ EB1.2 = W)) ∨
      (EB1.2 = ZB ∧ (EB1.1 = U ∨ EB1.1 = W)))
    (kB2 : EB2 = (U, W) ∨ EB2 = (W, U) ∨ (EB2.1 = ZB ∧ (EB2.2 = U ∨ EB2.2 = W)) ∨
      (EB2.2 = ZB ∧ (EB2.1 = U ∨ EB2.1 = W)))
    (rowA1 : EA1.1.2 ≤ y ∧ y < EA1.2.2) (rowA2 : EA2.1.2 ≤ y ∧ y < EA2.2.2)
    (rowB1 : EB1.1.2 ≤ y ∧ y < EB1.2.2) (rowB2 : EB2.1.2 ≤ y ∧ y < EB2.2.2)
    (sA1 : Binary64.edgeSpan EA1.1 EA1.2 y = some a1)
    (sA2 : Binary64.edgeSpan EA2.1 EA2.2 y = some a2)
    (sB1 : Binary64.edgeSpan EB1.1 EB1.2 y = some b1)
    (sB2 : Binary64.edgeSpan EB2.1 EB2.2 y = some b2)
    (hxA : min a1 a2 ≤ x ∧ x < max a1 a2) (hxB : min b1 b2 ≤ x ∧ x < max b1 b2) : False := by
  refine spans_separated
    (edgeAt ((U.1 : ℚ), (U.2 : ℚ)) ((W.1 : ℚ), (W.2 : ℚ)) ((y : ℚ) + 1 / 2))
    (U.2 ≤ y ∧ y < W.2) (Binary64.edgeSpan U W y) ?_ a1 a2 b1 b2 x
    (span_end_left U W ZA EA1 y a1 rU rW rZA hUW hA kA1 rowA1 sA1)
    (span_end_left U W ZA EA2 y a2 rU rW rZA hUW hA kA2 rowA2 sA2)
    (span_end_right U W ZB EB1 y b1 rU rW rZB hUW hB kB1 rowB1 sB1)
    (span_end_right U W ZB EB2 y b2 rU rW rZB hUW hB kB2 rowB2 sB2) hxA hxB
  intro hr v hv
  obtain ⟨w, hw, b1, b2⟩ := spanX64_int U.1 U.2 W.1 W.2 y rU.1.1 rU.1.2 rW.1.1 rW.1.2
    rU.2.1 rW.2.2 hr.1 hr.2
  have : w = v := Option.some.inj (hw.symm.trans hv)
  subst this
  exact ⟨b1, b2⟩

/-- The kind of an edge of a triangle on the diagonal `a - c` with third vertex `b`: the
diagonal in one of its two directions, or an edge between `b` and an end of the
diagonal. -/
theorem edge_kind_mid {P0 P1 P2 a b c : Int × Int} (hp : Perm3 P0 P1 P2 a b c)
    {E : (Int × Int) × (Int × Int)} (hE : E = (P0, P1) ∨ E = (P1, P2) ∨ E = (P0, P2)) :
    E = (a, c) ∨ E = (c, a) ∨ (E.1 = b ∧ (E.2 = a ∨ E.2 = c)) ∨
      (E.2 = b ∧ (E.1 = a ∨ E.1 = c)) := by
  rcases hp.edge hE with rfl | rfl | rfl | rfl | rfl | rfl <;> simp

/-- The kind of an edge of a triangle on the diagonal `a - b` with third vertex `c`. -/
theorem edge_kind_last {P0 P1 P2 a b c : Int × Int} (hp : Perm3 P0 P1 P2 a b c)
    {E : (Int × Int) × (Int × Int)} (hE : E = (P0, P1) ∨ E = (P1, P2) ∨ E = (P0, P2)) :
    E = (a, b) ∨ E = (b, a) ∨ (E.1 = c ∧ (E.2 = a ∨ E.2 = b)) ∨
      (E.2 = c ∧ (E.1 = a ∨ E.1 = b)) := by
  rcases hp.edge hE with rfl | rfl | rfl | rfl | rfl | rfl <;> simp

/-- The kind of an edge with the diagonal named in the other direction. -/
theorem edge_kind_flip {a c Z : Int × Int} {E : (Int × Int) × (Int × Int)}
    (h : E = (a, c) ∨ E = (c, a) ∨ (E.1 = Z ∧ (E.2 = a ∨ E.2 = c)) ∨
      (E.2 = Z ∧ (E.1 = a ∨ E.1 = c))) :
    E = (c, a) ∨ E = (a, c) ∨ (E.1 = Z ∧ (E.2 = c ∨ E.2 = a)) ∨
      (E.2 = Z ∧ (E.1 = c ∨ E.1 = a)) := by
  rcases h with e | e | ⟨e1, e2 | e2⟩ | ⟨e1, e2 | e2⟩
  · exact Or.inr (Or.inl e)
  · exact Or.inl e
  · exact Or.inr (Or.inr (Or.inl ⟨e1, Or.inr e2⟩))
  · exact Or.inr (Or.inr (Or.inl ⟨e1, Or.inl e2⟩))
  · exact Or.inr (Or.inr (Or.inr ⟨e1, Or.inr e2⟩))
  · exact Or.inr (Or.inr (Or.inr ⟨e1, Or.inl e2⟩))

/-- Two triangles on a common diagonal `v0 - v2` with third vertices `v1` and `v3` strictly
on opposite sides of it, all vertices being integer points between 0 and 65535: no
column lies in a computed span of both in the same row. -/
theorem diagonal_no_common (v0 v1 v2 v3 : Int × Int)
    (r0 : (0 ≤ v0.1 ∧ v0.1 ≤ 65535) ∧ (0 ≤ v0.2 ∧ v0.2 ≤ 65535))
    (r1 : (0 ≤ v1.1 ∧ v1.1 ≤ 65535) ∧ (0 ≤ v1.2 ∧ v1.2 ≤ 65535))
    (r2 : (0 ≤ v2.1 ∧ v2.1 ≤ 65535) ∧ (0 ≤ v2.2 ∧ v2.2 ≤ 65535))
    (r3 : (0 ≤ v3.1 ∧ v3.1 ≤ 65535) ∧ (0 ≤ v3.2 ∧ v3.2 ≤ 65535))
    (hopp : ((v2.1 - v0.1) * (v1.2 - v0.2) - (v2.2 - v0.2) * (v1.1 - v0.1)) *
      ((v2.1 - v0.1) * (v3.2 - v0.2) - (v2.2 - v0.2) * (v3.1 - v0.1)) < 0)
    (x y : Int) (EA1 EA2 EB1 EB2 : (Int × Int) × (Int × Int)) (a1 a2 b1 b2 : Int)
    (kA1 : EA1 = (v0, v2) ∨ EA1 = (v2, v0) ∨ (EA1.1 = v1 ∧ (EA1.2 = v0 ∨ EA1.2 = v2)) ∨
      (EA1.2 = v1 ∧ (EA1.1 = v0 ∨ EA1.1 = v2)))
    (kA2 : EA2 = (v0, v2) ∨ EA2 = (v2, v0) ∨ (EA2.1 = v1 ∧ (EA2.2 = v0 ∨ EA2.2 = v2)) ∨
      (EA2.2 = v1 ∧ (EA2.1 = v0 ∨ EA2.1 = v2)))
    (kB1 : EB1 = (v0, v2) ∨ EB1 = (v2, v0) ∨ (EB1.1 = v3 ∧ (EB1.2 = v0 ∨ EB1.2 = v2)) ∨
      (EB1.2 = v3 ∧ (EB1.1 = v0 ∨ EB1.1 = v2)))
    (kB2 : EB2 = (v0, v2) ∨ EB2 = (v2, v0) ∨ (EB2.1 = v3 ∧ (EB2.2 = v0 ∨ EB2.2 = v2)) ∨
      (EB2.2 = v3 ∧ (EB2.1 = v0 ∨ EB2.1 = v2)))
    (rowA1 : EA1.1.2 ≤ y ∧ y < EA1.2.2) (rowA2 : EA2.1.2 ≤ y ∧ y < EA2.2.2)
    (rowB1 : EB1.1.2 ≤ y ∧ y < EB1.2.2) (rowB2 : EB2.1.2 ≤ y ∧ y < EB2.2.2)
    (sA1 : Binary64.edgeSpan EA1.1 EA1.2 y = some a1)
    (sA2 : Binary64.edgeSpan EA2.1 EA2.2 y = some a2)
    (sB1 : Binary64.edgeSpan EB1.1 EB1.2 y = some b1)
    (sB2 : Binary64.edgeSpan EB2.1 EB2.2 y = some b2)
    (hxA : min a1 a2 ≤ x ∧ x < max a1 a2) (hxB : min b1 b2 ≤ x ∧ x < max b1 b2) : False := by
  have rev : ∀ p : Int × Int,
      (v0.1 - v2.1) * (p.2 - v2.2) - (v0.2 - v2.2) * (p.1 - v2.1)
        = -((v2.1 - v0.1) * (p.2 - v0.2) - (v2.2 - v0.2) * (p.1 - v0.1)) := by
    intro p
    ring
  rcases lt_trichotomy v0.2 v2.2 with hlt | heq | hgt
  · rcases mul_neg_iff.1 hopp with ⟨s1, s3⟩ | ⟨s1, s3⟩
    · exact rising_edge_no_common v0 v2 v1 v3 r0 r2 r1 r3 hlt s1 s3 x y EA1 EA2 EB1 EB2
        a1 a2 b1 b2 kA1 kA2 kB1 kB2 rowA1 rowA2 rowB1 rowB2 sA1 sA2 sB1 sB2 hxA hxB
    · exact rising_edge_no_common v0 v2 v3 v1 r0 r2 r3 r1 hlt s3 s1 x y EB1 EB2 EA1 EA2
        b1 b2 a1 a2 kB1 kB2 kA1 kA2 rowB1 rowB2 rowA1 rowA2 sB1 sB2 sA1 sA2 hxB hxA
  · -- a horizontal diagonal: the two triangles lie in disjoint rows
    have hprod : (v1.2 - v0.2) * (v3.2 - v0.2) < 0 := by
      rw [← heq] at hopp
      simp only [sub_self, zero_mul, sub_zero] at hopp
      have e : (v2.1 - v0.1) * (v1.2 - v0.2) * ((v2.1 - v0.1) * (v3.2 - v0.2))
          = ((v2.1 - v0.1) * (v2.1 - v0.1)) * ((v1.2 - v0.2) * (v3.2 - v0.2)) := by ring
      rw [e] at hopp
      by_contra hc
      have := mul_nonneg (mul_self_nonneg (v2.1 - v0.1)) (not_lt.1 hc)
      omega
    have rows : ∀ {E : (Int × Int) × (Int × Int)} {Z : Int × Int},
        (E = (v0, v2) ∨ E = (v2, v0) ∨ (E.1 = Z ∧ (E.2 = v0 ∨ E.2 = v2)) ∨
          (E.2 = Z ∧ (E.1 = v0 ∨ E.1 = v2))) → E.1.2 ≤ y ∧ y < E.2.2 →
        (Z.2 ≤ y ∧ y < v0.2) ∨ (v0.2 ≤ y ∧ y < Z.2) := by
      intro E Z h hr
      obtain ⟨A, B⟩ := E
      dsimp only at h hr
      rcases h with e | e | ⟨e1, e2 | e2⟩ | ⟨e1, e2 | e2⟩
      · obtain ⟨rfl, rfl⟩ := Prod.mk.inj e
        omega
      · obtain ⟨rfl, rfl⟩ := Prod.mk.inj e
        omega
      · rw [e1, e2] at hr
        exact Or.inl hr
      · rw [e1, e2] at hr
        exact Or.inl ⟨hr.1, by omega⟩
      · rw [e1, e2] at hr
        exact Or.inr hr
      · rw [e1, e2] at hr
        exact Or.inr ⟨by omega, hr.2⟩
    have hA := rows kA1 rowA1
    have hB := rows kB1 rowB1
    rcases mul_neg_iff.1 hprod with ⟨s1, s3⟩ | ⟨s1, s3⟩ <;> omega
  · have hA1 := rev v1
    have hA3 := rev v3
    rcases mul_neg_iff.1 hopp with ⟨s1, s3⟩ | ⟨s1, s3⟩
    · exact rising_edge_no_common v2 v0 v3 v1 r2 r0 r3 r1 hgt (by omega) (by omega) x y
        EB1 EB2 EA1 EA2 b1 b2 a1 a2 (edge_kind_flip kB1) (edge_kind_flip kB2) (edge_kind_flip kA1) (edge_kind_flip kA2)
        rowB1 rowB2 rowA1 rowA2 sB1 sB2 sA1 sA2 hxB hxA
    · exact rising_edge_no_common v2 v0 v1 v3 r2 r0 r1 r3 hgt (by omega) (by omega) x y
        EA1 EA2 EB1 EB2 a1 a2 b1 b2 (edge_kind_flip kA1) (edge_kind_flip kA2) (edge_kind_flip kB1) (edge_kind_flip kB2)
        rowA1 rowA2 rowB1 rowB2 sA1 sA2 sB1 sB2 hxA hxB

/-- C19, amended: for every quadrilateral whose vertex coordinates are integers between 0
and 65535 and in which `v1` and `v3` lie strictly on opposite sides of the line through
`v0` and `v2` (in particular every convex such quad), computing in binary64: both triangle
calls of `driver_framebuffer_quad` return, the quad returns the pixels of the first
followed by those of the second, no pixel is written by both calls, and the quad writes
no pixel twice. -/
theorem quad_triangles_disjoint (x0 y0 x1 y1 x2 y2 x3 y3 : Int)
    (hx0 : 0 ≤ x0 ∧ x0 ≤ 65535) (hy0 : 0 ≤ y0 ∧ y0 ≤ 65535)
    (hx1 : 0 ≤ x1 ∧ x1 ≤ 65535) (hy1 : 0 ≤ y1 ∧ y1 ≤ 65535)
    (hx2 : 0 ≤ x2 ∧ x2 ≤ 65535) (hy2 : 0 ≤ y2 ∧ y2 ≤ 65535)
    (hx3 : 0 ≤ x3 ∧ x3 ≤ 65535) (hy3 : 0 ≤ y3 ∧ y3 ≤ 65535)
    (hopp : ((x2 - x0) * (y1 - y0) - (y2 - y0) * (x1 - x0)) *
      ((x2 - x0) * (y3 - y0) - (y2 - y0) * (x3 - x0)) < 0) :
    ∃ first second : Pixels,
      Binary64.driver_framebuffer_triangle x0 y0 x1 y1 x2 y2 = some first ∧
      Binary64.driver_framebuffer_triangle x0 y0 x2 y2 x3 y3 = some second ∧
      Binary64.driver_framebuffer_quad x0 y0 x1 y1 x2 y2 x3 y3 = some (first ++ second) ∧
      (∀ p : Int × Int, p ∈ first → p ∉ second) ∧
      (first ++ second).Nodup := by
  obtain ⟨PA0, PA1, PA2, first, permA, hfirst, memA⟩ :=
    triangle64_int (x0, y0) (x1, y1) (x2, y2) ⟨hx0, hy0⟩ ⟨hx1, hy1⟩ ⟨hx2, hy2⟩
  obtain ⟨PB0, PB1, PB2, second, permB, hsecond, memB⟩ :=
    triangle64_int (x0, y0) (x2, y2) (x3, y3) ⟨hx0, hy0⟩ ⟨hx2, hy2⟩ ⟨hx3, hy3⟩
  dsimp only at hfirst hsecond
  have hdisj : ∀ p : Int × Int, p ∈ first → p ∉ second := by
    rintro ⟨x, y⟩ m1 m2
    obtain ⟨EA1, EA2, a1, a2, tA1, tA2, rA1, rA2, sA1, sA2, hxA⟩ := memA x y m1
    obtain ⟨EB1, EB2, b1, b2, tB1, tB2, rB1, rB2, sB1, sB2, hxB⟩ := memB x y m2
    exact diagonal_no_common (x0, y0) (x1, y1) (x2, y2) (x3, y3) ⟨hx0, hy0⟩ ⟨hx1, hy1⟩
      ⟨hx2, hy2⟩ ⟨hx3, hy3⟩ hopp x y EA1 EA2 EB1 EB2 a1 a2 b1 b2
      (edge_kind_mid permA tA1) (edge_kind_mid permA tA2)
      (edge_kind_last permB tB1) (edge_kind_last permB tB2)
      rA1 rA2 rB1 rB2 sA1 sA2 sB1 sB2 hxA hxB
  refine ⟨first, second, hfirst, hsecond, ?_, hdisj, ?_⟩
  · unfold Binary64.driver_framebuffer_quad
    rw [hfirst, hsecond]
  · rw [List.nodup_append]
    exact ⟨triangle64_nodup hfirst, triangle64_nodup hsecond, fun {p} hp hq => hdisj p hp hq⟩

/-- C16, amended, at the triangle `(0,0), (0,2), (1,5)`. -/
theorem triangle_pixel_centres_witness :
    ((0 : Int) ≤ 0 ∧ (0 : Int) ≤ 65535) ∧
    ((0 : Int) ≤ 0 ∧ (0 : Int) ≤ 65535) ∧
    ((0 : Int) ≤ 0 ∧ (0 : Int) ≤ 65535) ∧
    ((0 : Int) ≤ 2 ∧ (2 : Int) ≤ 65535) ∧
    ((0 : Int) ≤ 1 ∧ (1 : Int) ≤ 65535) ∧
    ((0 : Int) ≤ 5 ∧ (5 : Int) ≤ 65535) ∧
    ∃ (X0 Y0 X1 Y1 X2 Y2 : Int) (px : Pixels),
      Binary64.sorted ((0 : Int) : ℚ) ((0 : Int) : ℚ) ((0 : Int) : ℚ) ((2 : Int) : ℚ) ((1 : Int) : ℚ) ((5 : Int) : ℚ)
        = ((Dbl.fin X0, Dbl.fin Y0), (Dbl.fin X1, Dbl.fin Y1), (Dbl.fin X2, Dbl.fin Y2)) ∧
      Y0 ≤ Y1 ∧ Y1 ≤ Y2 ∧
      Binary64.driver_framebuffer_triangle
        ((0 : Int) : ℚ) ((0 : Int) : ℚ) ((0 : Int) : ℚ) ((2 : Int) : ℚ) ((1 : Int) : ℚ) ((5 : Int) : ℚ) = some px ∧ px.Nodup ∧
      (∀ x y : Int, (x, y) ∈ px →
        (Y0 : ℚ) < (y : ℚ) + 1 / 2 ∧ (y : ℚ) + 1 / 2 ≤ (Y2 : ℚ) ∧
        min (edgeAt ((X0 : ℚ), (Y0 : ℚ)) ((X2 : ℚ), (Y2 : ℚ)) ((y : ℚ) + 1 / 2))
            (if (y : ℚ) + 1 / 2 ≤ (Y1 : ℚ)
              then edgeAt ((X0 : ℚ), (Y0 : ℚ)) ((X1 : ℚ), (Y1 : ℚ)) ((y : ℚ) + 1 / 2)
              else edgeAt ((X1 : ℚ), (Y1 : ℚ)) ((X2 : ℚ), (Y2 : ℚ)) ((y : ℚ) + 1 / 2))
          ≤ (x : ℚ) + 1 / 2 ∧
        (x : ℚ) + 1 / 2
          ≤ max (edgeAt ((X0 : ℚ), (Y0 : ℚ)) ((X2 : ℚ), (Y2 : ℚ)) ((y : ℚ) + 1 / 2))
            (if (y : ℚ) + 1 / 2 ≤ (Y1 : ℚ)
              then edgeAt ((X0 : ℚ), (Y0 : ℚ)) ((X1 : ℚ), (Y1 : ℚ)) ((y : ℚ) + 1 / 2)
              else edgeAt ((X1 : ℚ), (Y1 : ℚ)) ((X2 : ℚ), (Y2 : ℚ)) ((y : ℚ) + 1 / 2))) ∧
      (∀ x y : Int,
        (Y0 : ℚ) < (y : ℚ) + 1 / 2 → (y : ℚ) + 1 / 2 ≤ (Y2 : ℚ) →
        min (edgeAt ((X0 : ℚ), (Y0 : ℚ)) ((X2 : ℚ), (Y2 : ℚ)) ((y : ℚ) + 1 / 2))
            (if (y : ℚ) + 1 / 2 ≤ (Y1 : ℚ)
              then edgeAt ((X0 : ℚ), (Y0 : ℚ)) ((X1 : ℚ), (Y1 : ℚ)) ((y : ℚ) + 1 / 2)
              else edgeAt ((X1 : ℚ), (Y1 : ℚ)) ((X2 : ℚ), (Y2 : ℚ)) ((y : ℚ) + 1 / 2))
          < (x : ℚ) + 1 / 2 →
        (x : ℚ) + 1 / 2
          < max (edgeAt ((X0 : ℚ), (Y0 : ℚ)) ((X2 : ℚ), (Y2 : ℚ)) ((y : ℚ) + 1 / 2))
            (if (y : ℚ) + 1 / 2 ≤ (Y1 : ℚ)
              then edgeAt ((X0 : ℚ), (Y0 : ℚ)) ((X1 : ℚ), (Y1 : ℚ)) ((y : ℚ) + 1 / 2)
              else edgeAt ((X1 : ℚ), (Y1 : ℚ)) ((X2 : ℚ), (Y2 : ℚ)) ((y : ℚ) + 1 / 2)) →
        (x, y) ∈ px) :=
  ⟨by decide, by decide, by decide, by decide, by decide, by decide,
    triangle_pixel_centres 0 0 0 2 1 5 (by decide) (by decide) (by decide) (by decide)
      (by decide) (by decide)⟩

/-- C19, amended, at the square `(0,0), (4,0), (4,4), (0,4)`. -/
theorem quad_triangles_disjoint_witness :
    (((4 : Int) - 0) * (0 - 0) - (4 - 0) * (4 - 0)) * ((4 - 0) * (4 - 0) - (4 - 0) * (0 - 0)) < 0 ∧
    ∃ first second : Pixels,
      Binary64.driver_framebuffer_triangle ((0 : Int) : ℚ) ((0 : Int) : ℚ) ((4 : Int) : ℚ)
        ((0 : Int) : ℚ) ((4 : Int) : ℚ) ((4 : Int) : ℚ) = some first ∧
      Binary64.driver_framebuffer_triangle ((0 : Int) : ℚ) ((0 : Int) : ℚ) ((4 : Int) : ℚ)
        ((4 : Int) : ℚ) ((0 : Int) : ℚ) ((4 : Int) : ℚ) = some second ∧
      Binary64.driver_framebuffer_quad ((0 : Int) : ℚ) ((0 : Int) : ℚ) ((4 : Int) : ℚ)
        ((0 : Int) : ℚ) ((4 : Int) : ℚ) ((4 : Int) : ℚ) ((0 : Int) : ℚ) ((4 : Int) : ℚ)
          = some (first ++ second) ∧
      (∀ p : Int × Int, p ∈ first → p ∉ second) ∧
      (first ++ second).Nodup :=
  ⟨by decide,
    quad_triangles_disjoint 0 0 4 0 4 4 0 4 (by decide) (by decide) (by decide) (by decide)
      (by decide) (by decide) (by decide) (by decide) (by decide)⟩

/-! ## Circle step count -/

/-- The `double` literal `1.7`. -/
theorem toDouble_divisor :
    Binary64.toDouble (17 / 10) = 7656119366529843 / 4503599627370496 := by decide!

theorem nSteps_of_lt {c : ℚ} (h : c < 60) :
    nSteps c = truncQ (Binary64.toDouble (c / (7656119366529843 / 4503599627370496))) := by
  rw [nSteps, if_pos h, toDouble_divisor]

theorem truncQ_one : truncQ 1 = 1 := by
  rw [truncQ_of_nonneg (by norm_num)]
  exact Int.floor_one

/-- Below the threshold `60` the rounded quotient is at most `36`. -/
theorem nSteps_quotient_le {c : ℚ} (hc : 0 ≤ c) (h : c < 60) :
    Binary64.toDouble (c / (7656119366529843 / 4503599627370496)) ≤ 36 := by
  have h36 : Binary64.toDouble 36 = 36 := by decide!
  rw [← h36]
  refine toDouble_mono_nonneg (div_nonneg hc (by norm_num)) ?_
  rw [div_le_iff₀ (by norm_num)]
  linarith

/-- Below the threshold `60` the step count is at most `36`. -/
theorem nSteps_trunc_le {c : ℚ} (hc : 0 ≤ c) (h : c < 60) :
    truncQ (Binary64.toDouble (c / (7656119366529843 / 4503599627370496))) ≤ 36 := by
  have h0 := toDouble_nonneg (div_nonneg hc (by norm_num :
    (0 : ℚ) ≤ 7656119366529843 / 4503599627370496))
  have := truncQ_mono_nonneg h0 (nSteps_quotient_le hc h)
  have h36 : truncQ 36 = 36 := by
    rw [truncQ_of_nonneg (by norm_num)]
    exact_mod_cast Int.floor_intCast (36 : Int)
  omega

/-- From the `double` `1.7` on, the rounded quotient is at least `1`. -/
theorem nSteps_quotient_ge {c : ℚ} (h : 7656119366529843 / 4503599627370496 ≤ c) :
    1 ≤ Binary64.toDouble (c / (7656119366529843 / 4503599627370496)) := by
  have h1 : Binary64.toDouble 1 = 1 := by decide!
  rw [← h1]
  refine toDouble_mono_nonneg (by norm_num) ?_
  rw [le_div_iff₀ (by norm_num)]
  linarith

/-- From the `double` `1.7` on, the step count is at least `1`. -/
theorem nSteps_pos_of_ge {c : ℚ} (h : 7656119366529843 / 4503599627370496 ≤ c) :
    1 ≤ nSteps c := by
  by_cases h60 : c < 60
  · rw [nSteps_of_lt h60]
    have := truncQ_mono_nonneg (by norm_num) (nSteps_quotient_ge h)
    rw [truncQ_one] at this
    exact this
  · rw [nSteps, if_neg h60]
    decide

/-- A step count of zero or less is only computed below `1.7`. -/
theorem nSteps_nonpos_lt {c : ℚ} (h : nSteps c ≤ 0) : c < 17 / 10 := by
  by_contra hc
  have hc' : 17 / 10 ≤ c := not_lt.1 hc
  have := nSteps_pos_of_ge (c := c) (by linarith)
  omega

/-- A `double` in `[1, 2)` is a multiple of `2^-52`. -/
theorem toDouble_fixed_binade {c : ℚ} (h1 : 1 ≤ c) (h2 : c < 2)
    (hrep : Binary64.toDouble c = c) : ∃ m : Int, c = (m : ℚ) / 4503599627370496 := by
  have hL : ilog2 c = 0 := by
    apply ilog2_unique
    · rw [abs_of_pos (by linarith)]; simpa using h1
    · rw [abs_of_pos (by linarith)]; simpa using h2
  have hc : c ≠ 0 := by linarith
  unfold Binary64.toDouble at hrep
  rw [roundTo_of_ne hc, hL] at hrep
  have he : max ((0 : Int) - 52) (-1074) = -52 := by decide
  rw [he] at hrep
  refine ⟨roundEven (c / (2 : ℚ) ^ (-52 : Int)), ?_⟩
  have hp : (2 : ℚ) ^ (-52 : Int) = 1 / 4503599627370496 := by norm_num
  rw [hp] at hrep ⊢
  linarith

/-- C10, counterexample: for the effective circumference `0` (radius 0 under the identity
transform) the step count is `0`, which is below the claimed lower bound `1`. -/
theorem circleSteps_zero_below_one : (0 : ℚ) ≤ 0 ∧ nSteps 0 = 0 ∧ ¬ (1 ≤ nSteps 0) := by
  refine ⟨le_rfl, by decide!, by decide!⟩

/-- C10, amended: for every effective circumference `c ≥ 0` that is a `double`, the step
count lies between `0` and `40`, and it is at least `1` exactly when `c` is at least the
`double` literal `1.7` (the `double` nearest to `17/10`, which is slightly below it). -/
theorem circleSteps_bounds (c : ℚ) (hc : 0 ≤ c) (hrep : Binary64.toDouble c = c) :
    0 ≤ nSteps c ∧ nSteps c ≤ 40 ∧ (1 ≤ nSteps c ↔ Binary64.toDouble (17 / 10) ≤ c) := by
  have hq0 : 0 ≤ c / (7656119366529843 / 4503599627370496) := div_nonneg hc (by norm_num)
  refine ⟨?_, ?_, ?_⟩
  · by_cases h60 : c < 60
    · rw [nSteps_of_lt h60, truncQ_of_nonneg (toDouble_nonneg hq0)]
      exact Int.floor_nonneg.2 (toDouble_nonneg hq0)
    · rw [nSteps, if_neg h60]
      decide
  · by_cases h60 : c < 60
    · rw [nSteps_of_lt h60]
      have := nSteps_trunc_le hc h60
      omega
    · rw [nSteps, if_neg h60]
  · rw [toDouble_divisor]
    refine ⟨fun h => ?_, nSteps_pos_of_ge⟩
    by_contra hlt
    have hlt' : c < 7656119366529843 / 4503599627370496 := lt_of_not_le hlt
    have h60 : c < 60 := by linarith
    rw [nSteps_of_lt h60] at h
    have key : Binary64.toDouble (c / (7656119366529843 / 4503599627370496))
        ≤ 9007199254740991 / 9007199254740992 := by
      have hfix : Binary64.toDouble (9007199254740991 / 9007199254740992)
          = 9007199254740991 / 9007199254740992 := by decide!
      rw [← hfix]
      refine toDouble_mono_nonneg hq0 ?_
      rw [div_le_iff₀ (by norm_num)]
      by_cases h1 : c < 1
      · linarith
      · obtain ⟨m, hm⟩ := toDouble_fixed_binade (not_lt.1 h1) (by linarith) hrep
        rw [hm, div_lt_iff₀ (by norm_num)] at hlt'
        have hm' : (m : ℚ) < ((7656119366529843 : Int) : ℚ) := by
          push_cast; linarith
        have hmi : m < 7656119366529843 := by exact_mod_cast hm'
        have hmi' : (m : ℚ) ≤ ((7656119366529842 : Int) : ℚ) := by
          exact_mod_cast (by omega : m ≤ 7656119366529842)
        rw [hm]
        push_cast at hmi'
        linarith
    have hfl : ⌊Binary64.toDouble (c / (7656119366529843 / 4503599627370496))⌋ < 1 := by
      rw [Int.floor_lt]
      push_cast
      linarith
    rw [truncQ_of_nonneg (toDouble_nonneg hq0)] at h
    omega

/-- C10, amended, at the `double` literal `1.7` itself: one step, although it is below
`17/10`. -/
theorem circleSteps_bounds_witness :
    ((0 : ℚ) ≤ 7656119366529843 / 4503599627370496 ∧
      Binary64.toDouble (7656119366529843 / 4503599627370496)
        = 7656119366529843 / 4503599627370496) ∧
    (0 ≤ nSteps (7656119366529843 / 4503599627370496) ∧
      nSteps (7656119366529843 / 4503599627370496) ≤ 40 ∧
      (1 ≤ nSteps (7656119366529843 / 4503599627370496) ↔
        Binary64.toDouble (17 / 10) ≤ 7656119366529843 / 4503599627370496)) :=
  ⟨⟨by norm_num, by decide!⟩,
    circleSteps_bounds (7656119366529843 / 4503599627370496) (by norm_num) (by decide!)⟩

/-- C23: for effective circumferences `0 ≤ c ≤ c'` the step count of
`driver_framebuffer_circle` satisfies `nSteps c ≤ nSteps c' ≤ 40`: it is monotonically
non-decreasing and never exceeds the cap of 40. -/
theorem circleSteps_monotone_capped (c c' : ℚ) (hc : 0 ≤ c) (hcc : c ≤ c') :
    nSteps c ≤ nSteps c' ∧ nSteps c' ≤ 40 := by
  by_cases h' : c' < 60
  · have h : c < 60 := lt_of_le_of_lt hcc h'
    rw [nSteps_of_lt h, nSteps_of_lt h']
    constructor
    · refine truncQ_mono_nonneg (toDouble_nonneg (div_nonneg hc (by norm_num))) ?_
      exact toDouble_mono_nonneg (div_nonneg hc (by norm_num))
        (div_le_div_of_nonneg_right hcc (by norm_num))
    · have := nSteps_trunc_le (le_trans hc hcc) h'
      omega
  · rw [nSteps, nSteps, if_neg h']
    refine ⟨?_, le_rfl⟩
    by_cases h : c < 60
    · rw [if_pos h, toDouble_divisor]
      have := nSteps_trunc_le hc h
      omega
    · rw [if_neg h]

/-- C23 across the threshold: `c = 59` gives 34 steps and `c' = 60` gives 40. -/
theorem circleSteps_monotone_capped_witness :
    ((0 : ℚ) ≤ 59 ∧ (59 : ℚ) ≤ 60) ∧ nSteps 59 ≤ nSteps 60 ∧ nSteps 60 ≤ 40 :=
  ⟨⟨by norm_num, by norm_num⟩, circleSteps_monotone_capped 59 60 (by norm_num) (by norm_num)⟩

/-! ## Circle/arc approximator -/

/-- Without iterations the loop of `driver_framebuffer_circle` yields no segment. -/
theorem circleSegments_zero {M : Type} (ops : MatrixOps M) (rotationStep : M) (radius : ℚ)
    (current : M) (last : ℚ × ℚ) : circleSegments ops rotationStep radius 0 current last = [] :=
  rfl

/-- The routine `driver_framebuffer_circle` draws the fan or the stroke of its segments. -/
theorem driver_framebuffer_circle_eq {M : Type} (ops : MatrixOps M) (m : MathFns)
    (narrow : ℚ → ℚ) (fuel : Nat) (current : M) (x y radius startAngle endAngle : ℚ)
    (fill : Bool) :
    driver_framebuffer_circle ops m narrow fuel current x y radius startAngle endAngle fill =
      if fill then
        drawFan narrow (ops.matrix_2d_transform_point current (x, y))
          (circleSegments ops
            (ops.matrix_2d_rotate (Dbl.div (Dbl.fin (startAngle - endAngle))
              (Dbl.fin ((nSteps (circle_test_radius ops m current radius * m.pi) : Int) : ℚ))))
            radius (nSteps (circle_test_radius ops m current radius * m.pi)).toNat
            (circleStart ops current x y startAngle)
            (ops.matrix_2d_transform_point (circleStart ops current x y startAngle)
              (0, -radius)))
      else
        drawStroke fuel
          (circleSegments ops
            (ops.matrix_2d_rotate (Dbl.div (Dbl.fin (startAngle - endAngle))
              (Dbl.fin ((nSteps (circle_test_radius ops m current radius * m.pi) : Int) : ℚ))))
            radius (nSteps (circle_test_radius ops m current radius * m.pi)).toNat
            (circleStart ops current x y startAngle)
            (ops.matrix_2d_transform_point (circleStart ops current x y startAngle)
              (0, -radius))) :=
  rfl

/-- C13: when the computed step count of `driver_framebuffer_circle` is zero or negative,
that is when the effective circumference is below `1.7`, neither loop body runs: in filled
and in stroked mode the routine returns without any triangle, line or pixel, and the only
boundary vertex sampled is the one computed before the loop. -/
theorem circle_no_steps_draws_nothing {M : Type} (ops : MatrixOps M) (m : MathFns)
    (narrow : ℚ → ℚ) (fuel : Nat) (current : M) (x y radius startAngle endAngle : ℚ)
    (h : nSteps (circle_test_radius ops m current radius * m.pi) ≤ 0) :
    (∀ fill : Bool, driver_framebuffer_circle ops m narrow fuel current x y radius startAngle
      endAngle fill = some []) ∧
    circleBoundary ops current x y radius startAngle endAngle
        (nSteps (circle_test_radius ops m current radius * m.pi)) =
      [ops.matrix_2d_transform_point (circleStart ops current x y startAngle) (0, -radius)] ∧
    circle_test_radius ops m current radius * m.pi < 17 / 10 := by
  have hn : (nSteps (circle_test_radius ops m current radius * m.pi)).toNat = 0 :=
    Int.toNat_eq_zero.2 h
  refine ⟨fun fill => ?_, ?_, nSteps_nonpos_lt h⟩
  · rw [driver_framebuffer_circle_eq, hn, circleSegments_zero]
    cases fill <;> rfl
  · unfold circleBoundary
    simp only [hn, circleSegments_zero, List.map_nil]

/-- C13 at the radius `1/10` under the identity matrix of the affine model. -/
theorem circle_no_steps_draws_nothing_witness :
    (∀ fill : Bool, driver_framebuffer_circle (affineOps trig45) sampleMath id 4
      { a0 := 1, a1 := 0, a2 := 0, b0 := 0, b1 := 1, b2 := 0 } 10 10 (1 / 10) 0 6 fill
        = some []) ∧
    circleBoundary (affineOps trig45)
        { a0 := 1, a1 := 0, a2 := 0, b0 := 0, b1 := 1, b2 := 0 } 10 10 (1 / 10) 0 6
        (nSteps (circle_test_radius (affineOps trig45) sampleMath
          { a0 := 1, a1 := 0, a2 := 0, b0 := 0, b1 := 1, b2 := 0 } (1 / 10)
            * sampleMath.pi)) =
      [(affineOps trig45).matrix_2d_transform_point (circleStart (affineOps trig45)
        { a0 := 1, a1 := 0, a2 := 0, b0 := 0, b1 := 1, b2 := 0 } 10 10 0) (0, -(1 / 10))] ∧
    circle_test_radius (affineOps trig45) sampleMath
      { a0 := 1, a1 := 0, a2 := 0, b0 := 0, b1 := 1, b2 := 0 } (1 / 10) * sampleMath.pi
        < 17 / 10 :=
  circle_no_steps_draws_nothing (affineOps trig45) sampleMath id 4
    { a0 := 1, a1 := 0, a2 := 0, b0 := 0, b1 := 1, b2 := 0 } 10 10 (1 / 10) 0 6 (by decide!)

/-- The segments of the circle loop in closed form: the `j`-th new vertex is the canonical
point under the running matrix with `j + 1` more copies of the step composed in. -/
theorem circleSegments_map_snd {M : Type} (ops : MatrixOps M) (step : M) (radius : ℚ) :
    ∀ (n : Nat) (current : M) (last : ℚ × ℚ),
      (circleSegments ops step radius n current last).map Prod.snd =
        (List.range n).map (fun j : Nat =>
          ops.matrix_2d_transform_point
            ((fun c : M => ops.matrix_2d_multiply c step)^[j + 1] current) (0, -radius)) := by
  intro n
  induction n with
  | zero => intro current last; rfl
  | succ n ih =>
    intro current last
    rw [circleSegments, List.map_cons, ih, List.range_succ_eq_map, List.map_cons, List.map_map]
    rfl

/-- C12, counterexample, in the model where a matrix is the angle of its rotation and a
point is `(angle, radius)`: this model satisfies `rotate(a)` composed with `rotate(b)`
equal to `rotate(a + b)`.  From `startAngle = 1` to `endAngle = 2` in one step the last
vertex is at angle `0`, not at `endAngle = 2`; and with `startAngle = -1` the first vertex
is at angle `0`, not at `startAngle`. -/
theorem circle_arc_misses_end_angle :
    (∀ a b : ℚ, angleOps.matrix_2d_multiply (angleOps.matrix_2d_rotate (Dbl.fin a))
        (angleOps.matrix_2d_rotate (Dbl.fin b)) = angleOps.matrix_2d_rotate (Dbl.fin (a + b))) ∧
    circleBoundary angleOps 0 0 0 1 1 2 1 = [(1, -1), (0, -1)] ∧
    angleOps.matrix_2d_transform_point (angleOps.matrix_2d_rotate (Dbl.fin 2)) (0, -1)
      = (2, -1) ∧
    ((0 : ℚ), (-1 : ℚ)) ≠ (2, -1) ∧
    circleBoundary angleOps 0 0 0 1 (-1) 0 1 = [(0, -1), (-1, -1)] ∧
    angleOps.matrix_2d_transform_point (angleOps.matrix_2d_rotate (Dbl.fin (-1))) (0, -1)
      = (-1, -1) ∧
    ((0 : ℚ), (-1 : ℚ)) ≠ (-1, -1) := by
  refine ⟨fun a b => rfl, by decide!, by decide!, by decide!, by decide!, by decide!, by decide!⟩

/-- The boundary vertices when composition is associative and rotations compose by adding
their angles: for `startAngle > 0.0000001` and `n ≥ 1` steps the vertex after `k` steps is
the canonical point rotated by `startAngle + k * (startAngle - endAngle) / n`, so the
last one is rotated by `2 * startAngle - endAngle`: the net rotation after the start is
`startAngle - endAngle`. -/
theorem circleBoundary_angles {M : Type} (ops : MatrixOps M) (current : M)
    (x y radius startAngle endAngle : ℚ) (n : Nat) (hn : 0 < n)
    (hstart : startAngle > 1 / 10000000)
    (hassoc : ∀ a b c : M, ops.matrix_2d_multiply (ops.matrix_2d_multiply a b) c =
      ops.matrix_2d_multiply a (ops.matrix_2d_multiply b c))
    (hrot : ∀ a b : ℚ, ops.matrix_2d_multiply (ops.matrix_2d_rotate (Dbl.fin a))
      (ops.matrix_2d_rotate (Dbl.fin b)) = ops.matrix_2d_rotate (Dbl.fin (a + b))) :
    circleBoundary ops current x y radius startAngle endAngle n =
      (List.range (n + 1)).map (fun k : Nat =>
        ops.matrix_2d_transform_point
          (ops.matrix_2d_multiply (ops.matrix_2d_multiply current (ops.matrix_2d_translate x y))
            (ops.matrix_2d_rotate
              (Dbl.fin (startAngle + (k : ℚ) * ((startAngle - endAngle) / (n : ℚ))))))
          (0, -radius)) ∧
    (circleBoundary ops current x y radius startAngle endAngle n).getLast? =
      some (ops.matrix_2d_transform_point
        (ops.matrix_2d_multiply (ops.matrix_2d_multiply current (ops.matrix_2d_translate x y))
          (ops.matrix_2d_rotate (Dbl.fin (2 * startAngle - endAngle)))) (0, -radius)) := by
  have hnq : (n : ℚ) ≠ 0 := by exact_mod_cast (Nat.pos_iff_ne_zero.1 hn)
  have hdiv : Dbl.div (Dbl.fin (startAngle - endAngle)) (Dbl.fin (((n : Int) : ℚ)))
      = Dbl.fin ((startAngle - endAngle) / (n : ℚ)) := by
    simp [Dbl.div, hnq]
  have hiter : ∀ k : Nat,
      (fun c : M => ops.matrix_2d_multiply c
          (ops.matrix_2d_rotate (Dbl.fin ((startAngle - endAngle) / (n : ℚ)))))^[k]
        (ops.matrix_2d_multiply (ops.matrix_2d_multiply current (ops.matrix_2d_translate x y))
          (ops.matrix_2d_rotate (Dbl.fin startAngle)))
      = ops.matrix_2d_multiply (ops.matrix_2d_multiply current (ops.matrix_2d_translate x y))
          (ops.matrix_2d_rotate
            (Dbl.fin (startAngle + (k : ℚ) * ((startAngle - endAngle) / (n : ℚ))))) := by
    intro k
    induction k with
    | zero => simp
    | succ k ih =>
      rw [Function.iterate_succ_apply', ih, hassoc, hrot]
      congr 3
      push_cast
      ring
  have hlist : circleBoundary ops current x y radius startAngle endAngle n =
      (List.range (n + 1)).map (fun k : Nat =>
        ops.matrix_2d_transform_point
          (ops.matrix_2d_multiply (ops.matrix_2d_multiply current (ops.matrix_2d_translate x y))
            (ops.matrix_2d_rotate
              (Dbl.fin (startAngle + (k : ℚ) * ((startAngle - endAngle) / (n : ℚ))))))
          (0, -radius)) := by
    unfold circleBoundary
    simp only [hdiv, Int.toNat_ofNat]
    rw [circleSegments_map_snd, List.range_succ_eq_map, List.map_cons, List.map_map]
    simp only [circleStart, if_pos hstart]
    congr 1
    · simp
    · refine List.map_congr_left (fun k _ => ?_)
      simp only [Function.comp]
      rw [hiter (k + 1)]
  refine ⟨hlist, ?_⟩
  rw [hlist, List.range_succ, List.map_append, List.map_singleton, List.getLast?_append,
    List.getLast?_singleton]
  change some _ = some _
  have hk : startAngle + (n : ℚ) * ((startAngle - endAngle) / (n : ℚ))
      = 2 * startAngle - endAngle := by
    field_simp
    ring
  rw [hk]

/-- C12, amended: for every transform, centre, radius, `startAngle`, `endAngle` and step
count `n ≥ 1`, the first boundary vertex sampled by `driver_framebuffer_circle` is the
canonical point `(0, -radius)` under the current matrix composed with the translation to
the centre and, when `startAngle > 0.0000001`, with the rotation by `startAngle` (no
rotation otherwise); the `n` steps compose one and the same rotation by an angle `a` of
magnitude `|endAngle - startAngle| / n`, the vertex sampled after `k` steps being the
canonical point under the start matrix with `k` copies of that rotation composed in; and
when composition is associative, rotations compose by adding their angles and
`startAngle > 0.0000001`, that vertex is the canonical point rotated by
`startAngle + k * a` about the centre. -/
theorem circle_boundary_vertices {M : Type} (ops : MatrixOps M) (current : M)
    (x y radius startAngle endAngle : ℚ) (n : Nat) (hn : 0 < n) :
    circleStart ops current x y startAngle =
      (if startAngle > 1 / 10000000 then
        ops.matrix_2d_multiply (ops.matrix_2d_multiply current (ops.matrix_2d_translate x y))
          (ops.matrix_2d_rotate (Dbl.fin startAngle))
      else ops.matrix_2d_multiply current (ops.matrix_2d_translate x y)) ∧
    ∃ a : ℚ, |a| * (n : ℚ) = |endAngle - startAngle| ∧
      circleBoundary ops current x y radius startAngle endAngle n =
        (List.range (n + 1)).map (fun k : Nat =>
          ops.matrix_2d_transform_point
            ((fun c : M => ops.matrix_2d_multiply c (ops.matrix_2d_rotate (Dbl.fin a)))^[k]
              (circleStart ops current x y startAngle)) (0, -radius)) ∧
      ((∀ a b c : M, ops.matrix_2d_multiply (ops.matrix_2d_multiply a b) c =
          ops.matrix_2d_multiply a (ops.matrix_2d_multiply b c)) →
        (∀ a b : ℚ, ops.matrix_2d_multiply (ops.matrix_2d_rotate (Dbl.fin a))
          (ops.matrix_2d_rotate (Dbl.fin b)) = ops.matrix_2d_rotate (Dbl.fin (a + b))) →
        startAngle > 1 / 10000000 →
        circleBoundary ops current x y radius startAngle endAngle n =
          (List.range (n + 1)).map (fun k : Nat =>
            ops.matrix_2d_transform_point
              (ops.matrix_2d_multiply
                (ops.matrix_2d_multiply current (ops.matrix_2d_translate x y))
                (ops.matrix_2d_rotate (Dbl.fin (startAngle + (k : ℚ) * a))))
              (0, -radius))) := by
  have hnq : (0 : ℚ) < (n : ℚ) := by exact_mod_cast hn
  have hdiv : Dbl.div (Dbl.fin (startAngle - endAngle)) (Dbl.fin (((n : Int) : ℚ)))
      = Dbl.fin ((startAngle - endAngle) / (n : ℚ)) := by
    simp [Dbl.div, ne_of_gt hnq]
  refine ⟨rfl, (startAngle - endAngle) / (n : ℚ), ?_, ?_, ?_⟩
  · rw [abs_div, abs_of_pos hnq, div_mul_cancel₀ _ (ne_of_gt hnq), abs_sub_comm]
  · unfold circleBoundary
    simp only [hdiv, Int.toNat_ofNat]
    rw [circleSegments_map_snd, List.range_succ_eq_map, List.map_cons, List.map_map]
    rfl
  · intro hassoc hrot hstart
    exact (circleBoundary_angles ops current x y radius startAngle endAngle n hn hstart
      hassoc hrot).1

/-- C12, amended, in the model where a matrix is the angle of its rotation: from
`startAngle = 1` to `endAngle = 2` in one step. -/
theorem circle_boundary_vertices_witness :
    circleStart angleOps 0 0 0 1 =
      (if (1 : ℚ) > 1 / 10000000 then
        angleOps.matrix_2d_multiply (angleOps.matrix_2d_multiply 0
          (angleOps.matrix_2d_translate 0 0)) (angleOps.matrix_2d_rotate (Dbl.fin 1))
      else angleOps.matrix_2d_multiply 0 (angleOps.matrix_2d_translate 0 0)) ∧
    ∃ a : ℚ, |a| * ((1 : Nat) : ℚ) = |(2 : ℚ) - 1| ∧
      circleBoundary angleOps 0 0 0 1 1 2 (1 : Nat) =
        (List.range (1 + 1)).map (fun k : Nat =>
          angleOps.matrix_2d_transform_point
            ((fun c : ℚ => angleOps.matrix_2d_multiply c
              (angleOps.matrix_2d_rotate (Dbl.fin a)))^[k]
              (circleStart angleOps 0 0 0 1)) (0, -1)) ∧
      ((∀ a b c : ℚ, angleOps.matrix_2d_multiply (angleOps.matrix_2d_multiply a b) c =
          angleOps.matrix_2d_multiply a (angleOps.matrix_2d_multiply b c)) →
        (∀ a b : ℚ, angleOps.matrix_2d_multiply (angleOps.matrix_2d_rotate (Dbl.fin a))
          (angleOps.matrix_2d_rotate (Dbl.fin b)) = angleOps.matrix_2d_rotate (Dbl.fin (a + b))) →
        (1 : ℚ) > 1 / 10000000 →
        circleBoundary angleOps 0 0 0 1 1 2 (1 : Nat) =
          (List.range (1 + 1)).map (fun k : Nat =>
            angleOps.matrix_2d_transform_point
              (angleOps.matrix_2d_multiply
                (angleOps.matrix_2d_multiply 0 (angleOps.matrix_2d_translate 0 0))
                (angleOps.matrix_2d_rotate (Dbl.fin (1 + (k : ℚ) * a))))
              (0, -1))) :=
  circle_boundary_vertices angleOps 0 0 0 1 1 2 1 (by decide)

/-- The value `circle_test_radius` returns is the square root of the squared distance of
its third probe alone: `maxSqr` is set back to `0` before the second and before the third
probe, so the earlier probes never reach the result. -/
theorem circle_test_radius_eq {M : Type} (ops : MatrixOps M) (m : MathFns) (current : M)
    (radius : ℚ) :
    circle_test_radius ops m current radius =
      m.sqrt
        ((ops.matrix_2d_transform_point
            (ops.matrix_2d_multiply
              (ops.matrix_2d_multiply current (ops.matrix_2d_rotate (Dbl.fin (m.pi * (1 / 4)))))
              (ops.matrix_2d_rotate (Dbl.fin (m.pi * (1 / 4))))) (0, radius)).1 *
          (ops.matrix_2d_transform_point
            (ops.matrix_2d_multiply
              (ops.matrix_2d_multiply current (ops.matrix_2d_rotate (Dbl.fin (m.pi * (1 / 4)))))
              (ops.matrix_2d_rotate (Dbl.fin (m.pi * (1 / 4))))) (0, radius)).1 +
         (ops.matrix_2d_transform_point
            (ops.matrix_2d_multiply
              (ops.matrix_2d_multiply current (ops.matrix_2d_rotate (Dbl.fin (m.pi * (1 / 4)))))
              (ops.matrix_2d_rotate (Dbl.fin (m.pi * (1 / 4))))) (0, radius)).2 *
          (ops.matrix_2d_transform_point
            (ops.matrix_2d_multiply
              (ops.matrix_2d_multiply current (ops.matrix_2d_rotate (Dbl.fin (m.pi * (1 / 4)))))
              (ops.matrix_2d_rotate (Dbl.fin (m.pi * (1 / 4))))) (0, radius)).2) := by
  unfold circle_test_radius
  simp only []
  congr 1
  split
  · rfl
  · rename_i h
    have h0 := add_nonneg
      (mul_self_nonneg (ops.matrix_2d_transform_point
        (ops.matrix_2d_multiply
          (ops.matrix_2d_multiply current (ops.matrix_2d_rotate (Dbl.fin (m.pi * (1 / 4)))))
          (ops.matrix_2d_rotate (Dbl.fin (m.pi * (1 / 4))))) (0, radius)).1)
      (mul_self_nonneg (ops.matrix_2d_transform_point
        (ops.matrix_2d_multiply
          (ops.matrix_2d_multiply current (ops.matrix_2d_rotate (Dbl.fin (m.pi * (1 / 4)))))
          (ops.matrix_2d_rotate (Dbl.fin (m.pi * (1 / 4))))) (0, radius)).2)
    exact le_antisymm h0 (not_lt.1 h)

/-- C20, failing input: under the matrix that scales y by 3 and with radius 1, the first
probe is at squared distance 9 from the origin and the third at squared distance below 1;
`circle_test_radius` returns the square root of the third one, for every `sqrt`. -/
theorem circle_test_radius_not_max (m : MathFns) :
    circle_test_radius (affineOps trig45) m
        { a0 := 1, a1 := 0, a2 := 0, b0 := 0, b1 := 3, b2 := 0 } 1
      = m.sqrt (2499904100919681 / 2500000000000000) ∧
    (((affineOps trig45).matrix_2d_transform_point
        { a0 := 1, a1 := 0, a2 := 0, b0 := 0, b1 := 3, b2 := 0 } (0, 1)).1 *
      ((affineOps trig45).matrix_2d_transform_point
        { a0 := 1, a1 := 0, a2 := 0, b0 := 0, b1 := 3, b2 := 0 } (0, 1)).1 +
     ((affineOps trig45).matrix_2d_transform_point
        { a0 := 1, a1 := 0, a2 := 0, b0 := 0, b1 := 3, b2 := 0 } (0, 1)).2 *
      ((affineOps trig45).matrix_2d_transform_point
        { a0 := 1, a1 := 0, a2 := 0, b0 := 0, b1 := 3, b2 := 0 } (0, 1)).2 = 9) ∧
    (2499904100919681 / 2500000000000000 : ℚ) < 9 := by
  refine ⟨?_, by decide!, by decide!⟩
  rw [circle_test_radius_eq]
  congr 1
  simp only [affineOps, trig45]
  norm_num

/-! ## Legacy angular circle -/

/-- C14: for every centre, radius and fill flag, `driver_framebuffer_circle_old` called
with `startAngle >= endAngle` returns at once and writes no pixel. -/
theorem circle_old_empty_range (m : MathFns) (fuel : Nat) (x0 y0 r startAngle endAngle : Int)
    (fill : Bool) (h : startAngle ≥ endAngle) :
    driver_framebuffer_circle_old m fuel x0 y0 r startAngle endAngle fill = some [] := by
  unfold driver_framebuffer_circle_old
  rw [if_pos h]

/-- C14 at the centre `(5, 5)`, radius 2, from 90 degrees to 30 degrees, filled. -/
theorem circle_old_empty_range_witness :
    driver_framebuffer_circle_old sampleMath 0 5 5 2 90 30 true = some [] :=
  circle_old_empty_range sampleMath 0 5 5 2 90 30 true (by decide)

end Framebuffer
